import Mathlib

/-!
# Verification of algorithmic routines of DiscreteStrucutreAndAlgoApp

Shallow embedding of the algorithmic cores of the repository's Python
files (Dijkstra, Bellman-Ford, Kahn's topological sort, graph-traversal
visualizer state machine, combinatorics helpers, stop-flag loops, and the
uniform error-handling pattern), together with proofs of their
specifications.

Numeric edge weights are modelled as natural numbers; `math.inf` is
modelled as `⊤` in `ℕ∞ = WithTop ℕ`.
-/

namespace DSA

/-! ## Combinatorics helpers (`nPr`, `nCr`)

From the counting-practice file:
```
def nPr(n, r):
    if r > n or n < 0 or r < 0:
        return 0
    try:
        return math.perm(n, r)
    except AttributeError:
        return math.factorial(n) // math.factorial(n - r)
```
`math.perm n r` is the falling factorial n·(n-1)···(n-r+1); `math.comb`
is the binomial coefficient.  Arguments are arbitrary Python ints,
modelled as `ℤ`; both functions return a nonnegative int. -/

/-- Embedding of `nPr`: guard clause, then `math.perm n r`
(the falling factorial, `Nat.descFactorial`). -/
def nPr (n r : ℤ) : ℤ :=
  if r > n ∨ n < 0 ∨ r < 0 then 0
  else (Nat.descFactorial n.toNat r.toNat : ℤ)

/-- Embedding of `nCr`: guard clause, then `math.comb n r`
(the binomial coefficient, `Nat.choose`). -/
def nCr (n r : ℤ) : ℤ :=
  if r > n ∨ n < 0 ∨ r < 0 then 0
  else (Nat.choose n.toNat r.toNat : ℤ)

/-! ## Association-list dictionaries

Python dicts `u -> list of (v, w)` are modelled as association lists.
`adjGet` is `d.get(u, [])`; `updAdj d u p` is
`if u not in d: d[u] = []` followed by `d[u].append(p)`. -/

def adjGet (a : List (ℕ × List (ℕ × ℕ))) (u : ℕ) : List (ℕ × ℕ) :=
  match a with
  | [] => []
  | (k, l) :: rest => if k = u then l else adjGet rest u

def updAdj (a : List (ℕ × List (ℕ × ℕ))) (u : ℕ) (p : ℕ × ℕ) :
    List (ℕ × List (ℕ × ℕ)) :=
  match a with
  | [] => [(u, [p])]
  | (k, l) :: rest =>
      if k = u then (k, l ++ [p]) :: rest else (k, l) :: updAdj rest u p

/-- All targets mentioned in an adjacency dict; used only as the domain of
the termination measure of the Dijkstra loops. -/
def adjTargets (a : List (ℕ × List (ℕ × ℕ))) : Finset ℕ :=
  (a.flatMap fun e => e.2.map Prod.fst).toFinset

theorem adjGet_updAdj (a : List (ℕ × List (ℕ × ℕ))) (u : ℕ) (p : ℕ × ℕ)
    (x : ℕ) :
    adjGet (updAdj a u p) x = if x = u then adjGet a u ++ [p] else adjGet a x := by
  induction a with
  | nil =>
      show adjGet [(u, [p])] x = _
      by_cases hxu : x = u
      · subst hxu
        simp [adjGet]
      · have hux : ¬u = x := fun h => hxu h.symm
        simp [adjGet, hxu, hux]
  | cons e rest ih =>
      obtain ⟨k, l⟩ := e
      show adjGet (if k = u then (k, l ++ [p]) :: rest else (k, l) :: updAdj rest u p) x = _
      by_cases hku : k = u
      · rw [if_pos hku]
        subst hku
        show (if k = x then l ++ [p] else adjGet rest x) = _
        by_cases hkx : k = x
        · have hxk : x = k := hkx.symm
          rw [if_pos hkx, if_pos hxk]
          show _ = (if k = k then l else adjGet rest k) ++ [p]
          rw [if_pos rfl]
        · have hxk : ¬x = k := fun h => hkx h.symm
          rw [if_neg hkx, if_neg hxk]
          show _ = if k = x then l else adjGet rest x
          rw [if_neg hkx]
      · rw [if_neg hku]
        show (if k = x then l else adjGet (updAdj rest u p) x) = _
        by_cases hkx : k = x
        · have hxu : ¬x = u := fun h => hku (hkx.trans h)
          rw [if_pos hkx, if_neg hxu]
          show _ = if k = x then l else adjGet rest x
          rw [if_pos hkx]
        · rw [if_neg hkx, ih]
          by_cases hxu : x = u
          · rw [if_pos hxu, if_pos hxu]
            show _ = (if k = u then l else adjGet rest u) ++ [p]
            rw [if_neg hku]
          · rw [if_neg hxu, if_neg hxu]
            show _ = if k = x then l else adjGet rest x
            rw [if_neg hkx]

theorem mem_adjGet_updAdj {a : List (ℕ × List (ℕ × ℕ))} {u : ℕ} {p : ℕ × ℕ}
    {x : ℕ} {q : ℕ × ℕ} :
    q ∈ adjGet (updAdj a u p) x ↔ q ∈ adjGet a x ∨ (x = u ∧ q = p) := by
  rw [adjGet_updAdj]
  by_cases h : x = u
  · subst h; simp
  · simp [h]

theorem mem_adjTargets (a : List (ℕ × List (ℕ × ℕ))) (u : ℕ) {v w : ℕ} :
    (v, w) ∈ adjGet a u → v ∈ adjTargets a := by
  induction a with
  | nil => intro h; simp [adjGet] at h
  | cons e rest ih =>
      intro h
      obtain ⟨k, l⟩ := e
      simp only [adjGet] at h
      simp only [adjTargets, List.flatMap_cons, List.mem_toFinset, List.mem_append]
      by_cases hk : k = u
      · rw [if_pos hk] at h
        exact .inl (List.mem_map.2 ⟨(v, w), h, rfl⟩)
      · rw [if_neg hk] at h
        exact .inr (by simpa [adjTargets] using ih h)

/-! ## The `Graph` class (weighted shortest-path file, lines 997–1054)

```
class Graph:
    def __init__(self):
        self.adj = {}          # u -> list of (v, weight)
        self.nodes_set = set()
        self.edges = []        # list of (u,v,w)
    def add_edge(self, u, v, w, directed=False): ...
    def nodes(self):
        return sorted(list(self.nodes_set))
```
-/

structure Graph where
  adj : List (ℕ × List (ℕ × ℕ))
  nodes_set : Finset ℕ
  edges : List (ℕ × ℕ × ℕ)

def Graph.empty : Graph := ⟨[], ∅, []⟩

def Graph.adjG (g : Graph) (u : ℕ) : List (ℕ × ℕ) := adjGet g.adj u

/-- `Graph.add_edge`: record both endpoints, append `(v, w)` to `adj[u]`
and `(u,v,w)` to `edges`; when undirected also the reverses. -/
def Graph.add_edge (g : Graph) (u v w : ℕ) (directed : Bool) : Graph :=
  if directed then
    { adj := updAdj g.adj u (v, w)
      nodes_set := insert v (insert u g.nodes_set)
      edges := g.edges ++ [(u, v, w)] }
  else
    { adj := updAdj (updAdj g.adj u (v, w)) v (u, w)
      nodes_set := insert v (insert u g.nodes_set)
      edges := g.edges ++ [(u, v, w)] ++ [(v, u, w)] }

/-- `Graph.nodes`: `sorted(list(self.nodes_set))`. -/
def Graph.nodes (g : Graph) : List ℕ := g.nodes_set.sort (· ≤ ·)

/-- A graph built from an edge list by repeated `add_edge`, the only way
the application constructs a `Graph`. -/
def Graph.ofEdges (l : List (ℕ × ℕ × ℕ)) (directed : Bool) : Graph :=
  l.foldl (fun g e => g.add_edge e.1 e.2.1 e.2.2 directed) Graph.empty

/-- Invariant of the `Graph` class established by `add_edge`: the `edges`
list and the `adj` dict describe the same arcs, and all endpoints are in
`nodes_set`. -/
def Graph.WF (g : Graph) : Prop :=
  (∀ u v w, (v, w) ∈ g.adjG u ↔ (u, v, w) ∈ g.edges) ∧
  (∀ u v w, (u, v, w) ∈ g.edges → u ∈ g.nodes_set ∧ v ∈ g.nodes_set)

theorem wf_add_edge {g : Graph} (hg : g.WF) (u v w : ℕ) (d : Bool) :
    (g.add_edge u v w d).WF := by
  obtain ⟨h1, h2⟩ := hg
  constructor
  · intro x y z
    cases d
    · show (y, z) ∈ adjGet (updAdj (updAdj g.adj u (v, w)) v (u, w)) x ↔ _
      rw [mem_adjGet_updAdj, mem_adjGet_updAdj]
      simp only [Graph.add_edge, Bool.false_eq_true, if_false, reduceIte,
        List.mem_append, List.mem_singleton, ← h1, Prod.ext_iff, Prod.mk.injEq]
      tauto
    · show (y, z) ∈ adjGet (updAdj g.adj u (v, w)) x ↔ _
      rw [mem_adjGet_updAdj]
      simp only [Graph.add_edge, if_true, reduceIte, List.mem_append,
        List.mem_singleton, ← h1, Prod.ext_iff, Prod.mk.injEq]
      tauto
  · intro x y z hxz
    have base : (x, y, z) ∈ g.edges → x ∈ (g.add_edge u v w d).nodes_set ∧
        y ∈ (g.add_edge u v w d).nodes_set := by
      intro h
      have := h2 x y z h
      cases d <;>
        exact ⟨Finset.mem_insert.2 (.inr (Finset.mem_insert.2 (.inr this.1))),
          Finset.mem_insert.2 (.inr (Finset.mem_insert.2 (.inr this.2)))⟩
    cases d
    · simp only [Graph.add_edge, Bool.false_eq_true, if_false, reduceIte,
        List.mem_append, List.mem_singleton, Prod.mk.injEq] at hxz
      rcases hxz with (hxz | ⟨rfl, rfl, rfl⟩) | ⟨rfl, rfl, rfl⟩
      · exact base hxz
      · refine ⟨?_, ?_⟩ <;> simp [Graph.add_edge]
      · refine ⟨?_, ?_⟩ <;> simp [Graph.add_edge]
    · simp only [Graph.add_edge, if_true, reduceIte, List.mem_append,
        List.mem_singleton, Prod.mk.injEq] at hxz
      rcases hxz with hxz | ⟨rfl, rfl, rfl⟩
      · exact base hxz
      · refine ⟨?_, ?_⟩ <;> simp [Graph.add_edge]

theorem wf_ofEdges (l : List (ℕ × ℕ × ℕ)) (d : Bool) : (Graph.ofEdges l d).WF := by
  suffices h : ∀ g : Graph, g.WF →
      (l.foldl (fun g e => g.add_edge e.1 e.2.1 e.2.2 d) g).WF by
    refine h Graph.empty ?_
    constructor
    · intro u v w
      simp [Graph.adjG, Graph.empty, adjGet]
    · intro u v w h
      simp [Graph.empty] at h
  induction l with
  | nil => exact fun g hg => hg
  | cons e rest ih => exact fun g hg => ih _ (wf_add_edge hg e.1 e.2.1 e.2.2 d)

/-! ## Walks

A walk in an adjacency dict `a` from `u` to `v` is a list of steps
`(x, w)`, each an entry of the adjacency list of the vertex reached so
far.  Its weight is the sum of the step weights. -/

def IsWalk (a : List (ℕ × List (ℕ × ℕ))) : ℕ → List (ℕ × ℕ) → ℕ → Prop
  | u, [], v => u = v
  | u, (x, w) :: rest, v => (x, w) ∈ adjGet a u ∧ IsWalk a x rest v

def walkWeight (steps : List (ℕ × ℕ)) : ℕ := (steps.map Prod.snd).sum

/-- `v` is reachable from `u` when some walk joins them. -/
def ReachableW (a : List (ℕ × List (ℕ × ℕ))) (u v : ℕ) : Prop :=
  ∃ steps, IsWalk a u steps v

theorem isWalk_append {a : List (ℕ × List (ℕ × ℕ))} {u v : ℕ}
    {s₁ s₂ : List (ℕ × ℕ)} :
    IsWalk a u (s₁ ++ s₂) v ↔ ∃ x, IsWalk a u s₁ x ∧ IsWalk a x s₂ v := by
  induction s₁ generalizing u with
  | nil =>
      constructor
      · intro h; exact ⟨u, rfl, h⟩
      · rintro ⟨x, hx, h⟩
        have : u = x := hx
        subst this; exact h
  | cons p rest ih =>
      obtain ⟨y, w⟩ := p
      constructor
      · rintro ⟨hmem, h⟩
        obtain ⟨x, h1, h2⟩ := ih.1 h
        exact ⟨x, ⟨hmem, h1⟩, h2⟩
      · rintro ⟨x, ⟨hmem, h1⟩, h2⟩
        exact ⟨hmem, ih.2 ⟨x, h1, h2⟩⟩

theorem walkWeight_append (s₁ s₂ : List (ℕ × ℕ)) :
    walkWeight (s₁ ++ s₂) = walkWeight s₁ + walkWeight s₂ := by
  simp [walkWeight]

theorem walkWeight_single (x w : ℕ) : walkWeight [(x, w)] = w := by
  simp [walkWeight]

/-! ## Dijkstra (lines 1059–1083)

```
def dijkstra(graph, source):
    dist = {node: math.inf for node in graph.nodes()}
    prev = {node: None for node in graph.nodes()}
    if source not in dist:
        return dist, prev, 0.0
    dist[source] = 0.0
    heap = [(0.0, source)]
    while heap:
        d, u = heapq.heappop(heap)
        if d > dist[u]:
            continue
        for v, w in graph.adj.get(u, []):
            nd = d + w
            if nd < dist[v]:
                dist[v] = nd
                prev[v] = u
                heapq.heappush(heap, (nd, v))
    ...
    return dist, prev, elapsed
```

The heap is modelled as the list of its entries; `heappop` removes the
lexicographically least entry (the semantics of `heapq` on pairs), and
`heappush` appends.  `math.inf` is `⊤ : ℕ∞`.  The `elapsed` wall-clock
component is not modelled. -/

def minPair (a b : ℕ × ℕ) : ℕ × ℕ :=
  if a.1 < b.1 ∨ (a.1 = b.1 ∧ a.2 ≤ b.2) then a else b

def heapMin : List (ℕ × ℕ) → Option (ℕ × ℕ)
  | [] => none
  | x :: xs => some (xs.foldl minPair x)

/-- `heapq.heappop`: remove and return the least entry. -/
def popMin (h : List (ℕ × ℕ)) : Option ((ℕ × ℕ) × List (ℕ × ℕ)) :=
  match heapMin h with
  | none => none
  | some m => some (m, h.erase m)

theorem minPair_cases (a b : ℕ × ℕ) : minPair a b = a ∨ minPair a b = b := by
  unfold minPair; split <;> simp

theorem minPair_fst_le_left (a b : ℕ × ℕ) : (minPair a b).1 ≤ a.1 := by
  unfold minPair; split
  · exact le_refl _
  · next h =>
      push_neg at h
      exact h.1

theorem minPair_fst_le_right (a b : ℕ × ℕ) : (minPair a b).1 ≤ b.1 := by
  unfold minPair; split
  · next h =>
      rcases h with h | h
      · exact le_of_lt h
      · exact le_of_eq h.1
  · exact le_refl _

theorem foldl_minPair_mem (x : ℕ × ℕ) (xs : List (ℕ × ℕ)) :
    xs.foldl minPair x ∈ x :: xs := by
  induction xs generalizing x with
  | nil => simp
  | cons y ys ih =>
      have := ih (minPair x y)
      rcases minPair_cases x y with h | h <;>
        simp only [List.foldl_cons] <;>
        rcases List.mem_cons.1 this with hm | hm <;>
        simp [hm, h] at * <;> tauto

theorem foldl_minPair_le (x : ℕ × ℕ) (xs : List (ℕ × ℕ)) :
    (xs.foldl minPair x).1 ≤ x.1 ∧ ∀ e ∈ xs, (xs.foldl minPair x).1 ≤ e.1 := by
  induction xs generalizing x with
  | nil => simp
  | cons y ys ih =>
      obtain ⟨ih1, ih2⟩ := ih (minPair x y)
      refine ⟨le_trans ih1 (minPair_fst_le_left x y), ?_⟩
      intro e he
      rcases List.mem_cons.1 he with rfl | he
      · exact le_trans ih1 (minPair_fst_le_right x e)
      · exact ih2 e he

theorem popMin_spec {h : List (ℕ × ℕ)} {m : ℕ × ℕ} {rest : List (ℕ × ℕ)}
    (hp : popMin h = some (m, rest)) :
    m ∈ h ∧ rest = h.erase m ∧ ∀ e ∈ h, m.1 ≤ e.1 := by
  match h with
  | [] => simp [popMin, heapMin] at hp
  | x :: xs =>
      simp only [popMin, heapMin] at hp
      obtain ⟨hm, hr⟩ := Prod.mk.injEq .. ▸ Option.some.injEq .. ▸ hp
      subst hm
      refine ⟨foldl_minPair_mem x xs, hr.symm, ?_⟩
      intro e he
      obtain ⟨h1, h2⟩ := foldl_minPair_le x xs
      rcases List.mem_cons.1 he with rfl | he
      · exact h1
      · exact h2 e he

theorem popMin_none {h : List (ℕ × ℕ)} (hp : popMin h = none) : h = [] := by
  match h with
  | [] => rfl
  | x :: xs => simp [popMin, heapMin] at hp

/-- The inner `for v, w in graph.adj.get(u, [])` loop of `dijkstra`:
relax each adjacent edge off the popped vertex `u` (whose popped key is
`d`), returning the updated `dist`, `prev` and the list of pushed heap
entries. -/
def relax (u : ℕ) (d : ℕ) (l : List (ℕ × ℕ)) (dist : ℕ → ℕ∞)
    (prev : ℕ → Option ℕ) : (ℕ → ℕ∞) × (ℕ → Option ℕ) × List (ℕ × ℕ) :=
  match l with
  | [] => (dist, prev, [])
  | (v, w) :: rest =>
      if ((d + w : ℕ) : ℕ∞) < dist v then
        let r := relax u d rest (Function.update dist v ((d + w : ℕ) : ℕ∞))
          (Function.update prev v (some u))
        (r.1, r.2.1, (d + w, v) :: r.2.2)
      else relax u d rest dist prev

theorem relax_nil (u d : ℕ) (dist : ℕ → ℕ∞) (prev : ℕ → Option ℕ) :
    relax u d [] dist prev = (dist, prev, []) := rfl

theorem relax_cons (u d v w : ℕ) (rest : List (ℕ × ℕ)) (dist : ℕ → ℕ∞)
    (prev : ℕ → Option ℕ) :
    relax u d ((v, w) :: rest) dist prev =
      if ((d + w : ℕ) : ℕ∞) < dist v then
        ((relax u d rest (Function.update dist v ((d + w : ℕ) : ℕ∞))
            (Function.update prev v (some u))).1,
         (relax u d rest (Function.update dist v ((d + w : ℕ) : ℕ∞))
            (Function.update prev v (some u))).2.1,
         (d + w, v) :: (relax u d rest (Function.update dist v ((d + w : ℕ) : ℕ∞))
            (Function.update prev v (some u))).2.2)
      else relax u d rest dist prev := rfl

/-- Number of `⊤` entries of `dist` on `dom`; first termination measure. -/
def psiTop (dom : Finset ℕ) (dist : ℕ → ℕ∞) : ℕ :=
  ∑ v ∈ dom, if dist v = ⊤ then 1 else 0

/-- Sum of the finite entries of `dist` on `dom`; second termination
measure. -/
def psiSum (dom : Finset ℕ) (dist : ℕ → ℕ∞) : ℕ :=
  ∑ v ∈ dom, (dist v).untop' 0

/-- Strict lexicographic decrease of the distance measure. -/
def PsiLt (dom : Finset ℕ) (d₁ d₂ : ℕ → ℕ∞) : Prop :=
  psiTop dom d₁ < psiTop dom d₂ ∨
    (psiTop dom d₁ = psiTop dom d₂ ∧ psiSum dom d₁ < psiSum dom d₂)

theorem psiLt_trans {dom : Finset ℕ} {a b c : ℕ → ℕ∞} (h₁ : PsiLt dom a b)
    (h₂ : PsiLt dom b c) : PsiLt dom a c := by
  rcases h₁ with h₁ | ⟨e₁, s₁⟩ <;> rcases h₂ with h₂ | ⟨e₂, s₂⟩
  · exact .inl (lt_trans h₁ h₂)
  · exact .inl (e₂ ▸ h₁)
  · exact .inl (e₁ ▸ h₂)
  · exact .inr ⟨e₁.trans e₂, lt_trans s₁ s₂⟩

theorem psiLt_update {dom : Finset ℕ} {dist : ℕ → ℕ∞} {v : ℕ} {nd : ℕ}
    (hv : v ∈ dom) (hlt : (nd : ℕ∞) < dist v) :
    PsiLt dom (Function.update dist v (nd : ℕ∞)) dist := by
  have hne : ∀ x ∈ dom.erase v, Function.update dist v (nd : ℕ∞) x = dist x := by
    intro x hx
    exact Function.update_noteq (Finset.ne_of_mem_erase hx) _ _
  rcases eq_or_ne (dist v) ⊤ with htop | htop
  · left
    unfold psiTop
    rw [← Finset.sum_erase_add _ _ hv, ← Finset.sum_erase_add _ (fun x => _) hv]
    have heq : ∑ x ∈ dom.erase v, (if Function.update dist v (nd : ℕ∞) x = ⊤ then 1 else 0) =
        ∑ x ∈ dom.erase v, (if dist x = ⊤ then 1 else 0) :=
      Finset.sum_congr rfl fun x hx => by rw [hne x hx]
    rw [heq]
    have h1 : (if Function.update dist v (nd : ℕ∞) v = ⊤ then 1 else 0) = 0 := by
      simp [Function.update_same]
    have h2 : (if dist v = ⊤ then 1 else 0) = 1 := by simp [htop]
    omega
  · right
    constructor
    · unfold psiTop
      refine Finset.sum_congr rfl fun x hx => ?_
      rcases eq_or_ne x v with rfl | hxv
      · simp [Function.update_same, htop]
      · rw [Function.update_noteq hxv]
    · unfold psiSum
      rw [← Finset.sum_erase_add _ _ hv, ← Finset.sum_erase_add _ (fun x => _) hv]
      have heq : ∑ x ∈ dom.erase v, (Function.update dist v (nd : ℕ∞) x).untop' 0 =
          ∑ x ∈ dom.erase v, (dist x).untop' 0 :=
        Finset.sum_congr rfl fun x hx => by rw [hne x hx]
      rw [heq]
      have h1 : (Function.update dist v (nd : ℕ∞) v).untop' 0 = nd := by
        rw [Function.update_same]
        exact WithTop.untop'_coe _ _
      obtain ⟨c, hc⟩ := WithTop.ne_top_iff_exists.1 htop
      have h2 : (dist v).untop' 0 = c := by rw [← hc]; rfl
      have hndc : nd < c := by
        rw [← hc] at hlt
        exact WithTop.coe_lt_coe.1 hlt
      omega

/-- The measure consequence of one `relax` pass: either nothing changed
and nothing was pushed, or the measure strictly decreased. -/
theorem relax_psi {dom : Finset ℕ} {u d : ℕ} :
    ∀ (l : List (ℕ × ℕ)) (dist : ℕ → ℕ∞) (prev : ℕ → Option ℕ),
      (∀ p ∈ l, p.1 ∈ dom) →
      ((relax u d l dist prev).1 = dist ∧ (relax u d l dist prev).2.2 = []) ∨
        PsiLt dom (relax u d l dist prev).1 dist := by
  intro l
  induction l with
  | nil => intro dist prev _; exact .inl ⟨rfl, rfl⟩
  | cons p rest ih =>
      intro dist prev hl
      obtain ⟨v, w⟩ := p
      have hv : v ∈ dom := hl (v, w) (List.mem_cons_self _ _)
      have hrest : ∀ q ∈ rest, q.1 ∈ dom := fun q hq => hl q (List.mem_cons_of_mem _ hq)
      rw [relax_cons]
      by_cases hlt : ((d + w : ℕ) : ℕ∞) < dist v
      · rw [if_pos hlt]
        right
        have hstep : PsiLt dom (Function.update dist v ((d + w : ℕ) : ℕ∞)) dist :=
          psiLt_update hv hlt
        rcases ih (Function.update dist v ((d + w : ℕ) : ℕ∞))
            (Function.update prev v (some u)) hrest with ⟨heq, _⟩ | hps
        · show PsiLt dom (relax u d rest (Function.update dist v ((d + w : ℕ) : ℕ∞))
            (Function.update prev v (some u))).1 dist
          rw [heq]
          exact hstep
        · exact psiLt_trans hps hstep
      · rw [if_neg hlt]
        exact ih dist prev hrest

/-- The `while heap:` loop of `dijkstra`. -/
def dijkstraLoop (g : Graph) (dist : ℕ → ℕ∞) (prev : ℕ → Option ℕ)
    (heap : List (ℕ × ℕ)) : (ℕ → ℕ∞) × (ℕ → Option ℕ) :=
  match hp : popMin heap with
  | none => (dist, prev)
  | some ((d, u), rest) =>
      if dist u < (d : ℕ∞) then
        dijkstraLoop g dist prev rest
      else
        let r := relax u d (g.adjG u) dist prev
        dijkstraLoop g r.1 r.2.1 (rest ++ r.2.2)
termination_by (psiTop (adjTargets g.adj) dist, psiSum (adjTargets g.adj) dist,
  heap.length)
decreasing_by
  · obtain ⟨hm, hr, _⟩ := popMin_spec hp
    have hlen : rest.length < heap.length := by
      rw [hr, List.length_erase_of_mem hm]
      have : 0 < heap.length := List.length_pos.2 (List.ne_nil_of_mem hm)
      omega
    exact Prod.Lex.right _ (Prod.Lex.right _ hlen)
  · obtain ⟨hm, hr, _⟩ := popMin_spec hp
    have hlen : rest.length < heap.length := by
      rw [hr, List.length_erase_of_mem hm]
      have : 0 < heap.length := List.length_pos.2 (List.ne_nil_of_mem hm)
      omega
    have hl : ∀ p ∈ g.adjG u, p.1 ∈ adjTargets g.adj := by
      intro p hp'
      exact mem_adjTargets g.adj u (show (p.1, p.2) ∈ adjGet g.adj u from hp')
    rcases relax_psi (g.adjG u) dist prev hl with ⟨heq, hpush⟩ | hps
    · rw [heq, hpush]
      exact Prod.Lex.right _ (Prod.Lex.right _ (by simpa using hlen))
    · rcases hps with h1 | ⟨h1, h2⟩
      · exact Prod.Lex.left _ _ h1
      · rw [h1]
        exact Prod.Lex.right _ (Prod.Lex.left _ _ h2)

/-- `dijkstra(graph, source)`, without the wall-clock `elapsed` component
of the Python return value.  The `dist` dict, whose keys are
`graph.nodes()`, is modelled as a total function that is `⊤` outside its
keys. -/
def dijkstra (g : Graph) (source : ℕ) : (ℕ → ℕ∞) × (ℕ → Option ℕ) :=
  if source ∈ g.nodes_set then
    dijkstraLoop g (Function.update (fun _ => (⊤ : ℕ∞)) source 0) (fun _ => none)
      [(0, source)]
  else ((fun _ => ⊤), (fun _ => none))

/-- Loop invariant of `dijkstra`:
every finite tentative distance is the weight of an actual walk; the
source keeps distance 0; heap keys dominate the tentative distances; and
every vertex with a finite tentative distance either still has a heap
entry carrying exactly its tentative distance or has had all its
outgoing edges relaxed at that distance. -/
structure DjInv (a : List (ℕ × List (ℕ × ℕ))) (s : ℕ) (dist : ℕ → ℕ∞)
    (heap : List (ℕ × ℕ)) : Prop where
  achieve : ∀ v, dist v ≠ ⊤ →
    ∃ steps, IsWalk a s steps v ∧ (walkWeight steps : ℕ∞) = dist v
  source0 : dist s = 0
  entries : ∀ e ∈ heap, dist e.2 ≤ (e.1 : ℕ∞)
  kinv : ∀ u, dist u ≠ ⊤ →
    (∃ e ∈ heap, e.2 = u ∧ (e.1 : ℕ∞) = dist u) ∨
    (∀ p ∈ adjGet a u, dist p.1 ≤ dist u + (p.2 : ℕ∞))

theorem relax_mono (u d : ℕ) :
    ∀ (l : List (ℕ × ℕ)) (dist : ℕ → ℕ∞) (prev : ℕ → Option ℕ) (v : ℕ),
      (relax u d l dist prev).1 v ≤ dist v := by
  intro l
  induction l with
  | nil => intro dist prev v; rw [relax_nil]
  | cons p rest ih =>
      intro dist prev v
      obtain ⟨x, w⟩ := p
      rw [relax_cons]
      by_cases hlt : ((d + w : ℕ) : ℕ∞) < dist x
      · rw [if_pos hlt]
        refine le_trans (ih _ _ v) ?_
        rcases eq_or_ne v x with rfl | hvx
        · rw [Function.update_same]
          exact le_of_lt hlt
        · rw [Function.update_noteq hvx]
      · rw [if_neg hlt]
        exact ih dist prev v

theorem relax_char (u d : ℕ) :
    ∀ (l : List (ℕ × ℕ)) (dist : ℕ → ℕ∞) (prev : ℕ → Option ℕ) (v : ℕ),
      (relax u d l dist prev).1 v = dist v ∨
        ∃ w, (v, w) ∈ l ∧ (relax u d l dist prev).1 v = ((d + w : ℕ) : ℕ∞) ∧
          (relax u d l dist prev).1 v < dist v := by
  intro l
  induction l with
  | nil => intro dist prev v; rw [relax_nil]; exact .inl rfl
  | cons p rest ih =>
      intro dist prev v
      obtain ⟨x, w⟩ := p
      rw [relax_cons]
      by_cases hlt : ((d + w : ℕ) : ℕ∞) < dist x
      · rw [if_pos hlt]
        have hmono := relax_mono u d rest
          (Function.update dist x ((d + w : ℕ) : ℕ∞)) (Function.update prev x (some u))
        rcases ih (Function.update dist x ((d + w : ℕ) : ℕ∞))
            (Function.update prev x (some u)) v with heq | ⟨w', hw', hval, hlt'⟩
        · rcases eq_or_ne v x with rfl | hvx
          · right
            refine ⟨w, List.mem_cons_self _ _, ?_, ?_⟩
            · rw [heq, Function.update_same]
            · rw [heq, Function.update_same]; exact hlt
          · left
            rw [heq, Function.update_noteq hvx]
        · right
          refine ⟨w', List.mem_cons_of_mem _ hw', hval, lt_of_lt_of_le hlt' ?_⟩
          rcases eq_or_ne v x with rfl | hvx
          · rw [Function.update_same]; exact le_of_lt hlt
          · rw [Function.update_noteq hvx]
      · rw [if_neg hlt]
        rcases ih dist prev v with heq | ⟨w', hw', hval, hlt'⟩
        · exact .inl heq
        · exact .inr ⟨w', List.mem_cons_of_mem _ hw', hval, hlt'⟩

theorem relax_pushes_le (u d : ℕ) :
    ∀ (l : List (ℕ × ℕ)) (dist : ℕ → ℕ∞) (prev : ℕ → Option ℕ),
      ∀ e ∈ (relax u d l dist prev).2.2,
        (relax u d l dist prev).1 e.2 ≤ (e.1 : ℕ∞) := by
  intro l
  induction l with
  | nil => intro dist prev e he; rw [relax_nil] at he; simp at he
  | cons p rest ih =>
      intro dist prev e he
      obtain ⟨x, w⟩ := p
      rw [relax_cons] at he ⊢
      by_cases hlt : ((d + w : ℕ) : ℕ∞) < dist x
      · rw [if_pos hlt] at he ⊢
        rcases List.mem_cons.1 he with rfl | he
        · show (relax u d rest _ _).1 x ≤ ((d + w : ℕ) : ℕ∞)
          refine le_trans (relax_mono u d rest _ _ x) ?_
          rw [Function.update_same]
        · exact ih _ _ e he
      · rw [if_neg hlt] at he ⊢
        exact ih dist prev e he

theorem relax_witness (u d : ℕ) :
    ∀ (l : List (ℕ × ℕ)) (dist : ℕ → ℕ∞) (prev : ℕ → Option ℕ) (v : ℕ),
      (relax u d l dist prev).1 v ≠ dist v →
      ∃ e ∈ (relax u d l dist prev).2.2, e.2 = v ∧
        (e.1 : ℕ∞) = (relax u d l dist prev).1 v := by
  intro l
  induction l with
  | nil => intro dist prev v hne; rw [relax_nil] at hne; exact absurd rfl hne
  | cons p rest ih =>
      intro dist prev v hne
      obtain ⟨x, w⟩ := p
      rw [relax_cons] at hne ⊢
      by_cases hlt : ((d + w : ℕ) : ℕ∞) < dist x
      · rw [if_pos hlt] at hne ⊢
        by_cases hch : (relax u d rest (Function.update dist x ((d + w : ℕ) : ℕ∞))
            (Function.update prev x (some u))).1 v =
            Function.update dist x ((d + w : ℕ) : ℕ∞) v
        · rcases eq_or_ne v x with rfl | hvx
          · refine ⟨(d + w, v), List.mem_cons_self _ _, rfl, ?_⟩
            show ((d + w : ℕ) : ℕ∞) = (relax u d rest _ _).1 v
            rw [hch, Function.update_same]
          · rw [hch, Function.update_noteq hvx] at hne
            exact absurd rfl hne
        · obtain ⟨e, he, he2, hval⟩ := ih _ _ v hch
          exact ⟨e, List.mem_cons_of_mem _ he, he2, hval⟩
      · rw [if_neg hlt] at hne ⊢
        exact ih dist prev v hne

theorem relax_all_relaxed (u d : ℕ) :
    ∀ (l : List (ℕ × ℕ)) (dist : ℕ → ℕ∞) (prev : ℕ → Option ℕ),
      ∀ p ∈ l, (relax u d l dist prev).1 p.1 ≤ ((d + p.2 : ℕ) : ℕ∞) := by
  intro l
  induction l with
  | nil => intro dist prev p hp; simp at hp
  | cons q rest ih =>
      intro dist prev p hp
      obtain ⟨x, w⟩ := q
      obtain ⟨pv, pw⟩ := p
      rw [relax_cons]
      by_cases hlt : ((d + w : ℕ) : ℕ∞) < dist x
      · rw [if_pos hlt]
        rcases List.mem_cons.1 hp with heq | hp
        · obtain ⟨rfl, rfl⟩ := Prod.mk.injEq .. ▸ heq
          refine le_trans (relax_mono u d rest _ _ pv) ?_
          rw [Function.update_same]
        · exact ih _ _ (pv, pw) hp
      · rw [if_neg hlt]
        rcases List.mem_cons.1 hp with heq | hp
        · obtain ⟨rfl, rfl⟩ := Prod.mk.injEq .. ▸ heq
          exact le_trans (relax_mono u d rest dist prev pv) (not_lt.1 hlt)
        · exact ih dist prev (pv, pw) hp

theorem dijkstraLoop_none {g : Graph} {dist : ℕ → ℕ∞} {prev : ℕ → Option ℕ}
    {heap : List (ℕ × ℕ)} (hp : popMin heap = none) :
    dijkstraLoop g dist prev heap = (dist, prev) := by
  rw [dijkstraLoop.eq_def, hp]

theorem dijkstraLoop_stale {g : Graph} {dist : ℕ → ℕ∞} {prev : ℕ → Option ℕ}
    {heap : List (ℕ × ℕ)} {d u : ℕ} {rest : List (ℕ × ℕ)}
    (hp : popMin heap = some ((d, u), rest)) (hst : dist u < (d : ℕ∞)) :
    dijkstraLoop g dist prev heap = dijkstraLoop g dist prev rest := by
  rw [dijkstraLoop.eq_def, hp]
  simp [hst]

theorem dijkstraLoop_go {g : Graph} {dist : ℕ → ℕ∞} {prev : ℕ → Option ℕ}
    {heap : List (ℕ × ℕ)} {d u : ℕ} {rest : List (ℕ × ℕ)}
    (hp : popMin heap = some ((d, u), rest)) (hst : ¬dist u < (d : ℕ∞)) :
    dijkstraLoop g dist prev heap =
      dijkstraLoop g (relax u d (g.adjG u) dist prev).1
        (relax u d (g.adjG u) dist prev).2.1
        (rest ++ (relax u d (g.adjG u) dist prev).2.2) := by
  rw [dijkstraLoop.eq_def, hp]
  simp [hst]

/-- Popping a stale heap entry preserves the invariant. -/
theorem djInv_stale {a : List (ℕ × List (ℕ × ℕ))} {s : ℕ} {dist : ℕ → ℕ∞}
    {heap : List (ℕ × ℕ)} {d u : ℕ} {rest : List (ℕ × ℕ)}
    (inv : DjInv a s dist heap) (hp : popMin heap = some ((d, u), rest))
    (hst : dist u < (d : ℕ∞)) : DjInv a s dist rest := by
  obtain ⟨hm, hr, _⟩ := popMin_spec hp
  refine ⟨inv.achieve, inv.source0, ?_, ?_⟩
  · intro e he
    exact inv.entries e (hr ▸ he |> List.mem_of_mem_erase)
  · intro x hx
    rcases inv.kinv x hx with ⟨e, he, he2, hval⟩ | hrel
    · left
      refine ⟨e, ?_, he2, hval⟩
      have hne : e ≠ (d, u) := by
        intro h
        subst h
        subst he2
        rw [hval] at hst
        exact lt_irrefl _ hst
      rw [hr]
      exact (List.mem_erase_of_ne hne).2 he
    · exact .inr hrel

/-- Relaxing all edges of a freshly popped vertex preserves the
invariant. -/
theorem djInv_relax {a : List (ℕ × List (ℕ × ℕ))} {s : ℕ} {dist : ℕ → ℕ∞}
    {prev : ℕ → Option ℕ} {heap : List (ℕ × ℕ)} {d u : ℕ} {rest : List (ℕ × ℕ)}
    (inv : DjInv a s dist heap) (hp : popMin heap = some ((d, u), rest))
    (hst : ¬dist u < (d : ℕ∞)) :
    DjInv a s (relax u d (adjGet a u) dist prev).1
      (rest ++ (relax u d (adjGet a u) dist prev).2.2) := by
  obtain ⟨hm, hr, _⟩ := popMin_spec hp
  have hdu : dist u = (d : ℕ∞) :=
    le_antisymm (inv.entries (d, u) hm) (not_lt.1 hst)
  have hfix : (relax u d (adjGet a u) dist prev).1 u = (d : ℕ∞) := by
    rcases relax_char u d (adjGet a u) dist prev u with heq | ⟨w, _, hval, hlt⟩
    · rw [heq, hdu]
    · rw [hdu] at hlt
      rw [hval] at hlt
      have : d ≤ d + w := Nat.le_add_right d w
      exact absurd (WithTop.coe_lt_coe.1 hlt) (by omega)
  constructor
  · intro v hv
    rcases relax_char u d (adjGet a u) dist prev v with heq | ⟨w, hw, hval, _⟩
    · rw [heq] at hv ⊢
      exact inv.achieve v hv
    · obtain ⟨su, hsu, hwu⟩ := inv.achieve u (by rw [hdu]; exact WithTop.coe_ne_top)
      refine ⟨su ++ [(v, w)], ?_, ?_⟩
      · exact isWalk_append.2 ⟨u, hsu, hw, rfl⟩
      · rw [walkWeight_append, walkWeight_single, hval]
        rw [hdu] at hwu
        have hsu_d : walkWeight su = d := by exact_mod_cast hwu
        rw [hsu_d]
  · rcases relax_char u d (adjGet a u) dist prev s with heq | ⟨w, _, hval, hlt⟩
    · rw [heq]; exact inv.source0
    · rw [inv.source0] at hlt
      exact absurd hlt (by simp)
  · intro e he
    rcases List.mem_append.1 he with he | he
    · refine le_trans (relax_mono u d (adjGet a u) dist prev e.2) ?_
      exact inv.entries e (hr ▸ he |> List.mem_of_mem_erase)
    · exact relax_pushes_le u d (adjGet a u) dist prev e he
  · intro x hx
    rcases eq_or_ne x u with rfl | hxu
    · right
      intro p hpmem
      rw [hfix]
      refine le_trans (relax_all_relaxed x d (adjGet a x) dist prev p hpmem) ?_
      rw [Nat.cast_add]
    · by_cases hch : (relax u d (adjGet a u) dist prev).1 x = dist x
      · rcases inv.kinv x (hch ▸ hx) with ⟨e, he, he2, hval⟩ | hrel
        · left
          refine ⟨e, List.mem_append.2 (.inl ?_), he2, by rw [hval, hch]⟩
          have hne : e ≠ (d, u) := by
            intro h
            rw [h] at he2
            exact hxu he2.symm
          rw [hr]
          exact (List.mem_erase_of_ne hne).2 he
        · right
          intro p hpmem
          rw [hch]
          exact le_trans (relax_mono u d (adjGet a u) dist prev p.1) (hrel p hpmem)
      · left
        obtain ⟨e, he, he2, hval⟩ := relax_witness u d (adjGet a u) dist prev x hch
        exact ⟨e, List.mem_append.2 (.inr he), he2, hval⟩

/-- Frontier property: for every walk from the source, either the
tentative distance of its endpoint is already no more than its weight, or
some heap entry carries an exact tentative distance bounded by the
weight. -/
theorem djInv_frontier {a : List (ℕ × List (ℕ × ℕ))} {s : ℕ} {dist : ℕ → ℕ∞}
    {heap : List (ℕ × ℕ)} (inv : DjInv a s dist heap) :
    ∀ (steps : List (ℕ × ℕ)) (v : ℕ), IsWalk a s steps v →
      dist v ≤ (walkWeight steps : ℕ∞) ∨
        ∃ e ∈ heap, (e.1 : ℕ∞) = dist e.2 ∧ e.1 ≤ walkWeight steps := by
  intro steps
  induction steps using List.reverseRecOn with
  | nil =>
      intro v hw
      have : s = v := hw
      subst this
      left
      rw [inv.source0]
      exact zero_le _
  | append_singleton l p ih =>
      intro v hw
      obtain ⟨x, w⟩ := p
      obtain ⟨y, hy, hstep⟩ := isWalk_append.1 hw
      obtain ⟨hmem, hxv⟩ := hstep
      have hxv : x = v := hxv
      subst hxv
      rcases ih y hy with hle | ⟨e, he, hval, hbound⟩
      · have hyfin : dist y ≠ ⊤ := by
          intro h
          rw [h] at hle
          simp at hle
        rcases inv.kinv y hyfin with ⟨e, he, he2, hval⟩ | hrel
        · right
          refine ⟨e, he, by rw [hval, he2], ?_⟩
          have : (e.1 : ℕ∞) ≤ (walkWeight l : ℕ∞) := by
            rw [hval]; exact hle
          have := WithTop.coe_le_coe.1 this
          rw [walkWeight_append, walkWeight_single]
          omega
        · left
          have h1 : dist x ≤ dist y + (w : ℕ∞) := hrel (x, w) hmem
          have h2 : dist y + (w : ℕ∞) ≤ (walkWeight l : ℕ∞) + (w : ℕ∞) :=
            add_le_add_right hle _
          rw [walkWeight_append, walkWeight_single, Nat.cast_add]
          exact le_trans h1 h2
      · right
        refine ⟨e, he, hval, ?_⟩
        rw [walkWeight_append, walkWeight_single]
        omega

/-- Main loop specification: from any state satisfying the invariant, the
loop returns exact shortest distances. -/
theorem dijkstraLoop_spec (g : Graph) (s : ℕ) :
    ∀ (dist : ℕ → ℕ∞) (prev : ℕ → Option ℕ) (heap : List (ℕ × ℕ)),
      DjInv g.adj s dist heap →
      (∀ v, (dijkstraLoop g dist prev heap).1 v ≠ ⊤ →
        ∃ steps, IsWalk g.adj s steps v ∧
          (walkWeight steps : ℕ∞) = (dijkstraLoop g dist prev heap).1 v) ∧
      (∀ (v : ℕ) (steps : List (ℕ × ℕ)), IsWalk g.adj s steps v →
        (dijkstraLoop g dist prev heap).1 v ≤ (walkWeight steps : ℕ∞)) := by
  intro dist prev heap
  induction dist, prev, heap using dijkstraLoop.induct g with
  | case1 dist prev heap hp =>
      intro inv
      rw [dijkstraLoop_none hp]
      have hempty : heap = [] := popMin_none hp
      subst hempty
      constructor
      · exact fun v hv => inv.achieve v hv
      · intro v steps hwalk
        rcases djInv_frontier inv steps v hwalk with hle | ⟨e, he, _, _⟩
        · exact hle
        · simp at he
  | case2 dist prev heap d u rest hp hst ih =>
      intro inv
      rw [dijkstraLoop_stale hp hst]
      exact ih (djInv_stale inv hp hst)
  | case3 dist prev heap d u rest hp hst r ih =>
      intro inv
      rw [dijkstraLoop_go hp hst]
      exact ih (djInv_relax inv hp hst)

/-- The invariant holds in the initial state of `dijkstra`. -/
theorem djInv_init (a : List (ℕ × List (ℕ × ℕ))) (s : ℕ) :
    DjInv a s (Function.update (fun _ => (⊤ : ℕ∞)) s 0) [(0, s)] := by
  constructor
  · intro v hv
    rcases eq_or_ne v s with rfl | hvs
    · exact ⟨[], rfl, by rw [Function.update_same]; rfl⟩
    · rw [Function.update_noteq hvs] at hv
      exact absurd rfl hv
  · rw [Function.update_same]
  · intro e he
    rcases List.mem_singleton.1 he with rfl
    rw [Function.update_same]
    exact zero_le _
  · intro u hu
    rcases eq_or_ne u s with rfl | hus
    · exact .inl ⟨(0, u), List.mem_singleton_self _, rfl, by rw [Function.update_same]; rfl⟩
    · rw [Function.update_noteq hus] at hu
      exact absurd rfl hu

/-! ## Bellman-Ford (lines 1085–1117)

```
def bellman_ford(graph, source):
    nodes = graph.nodes()
    dist = {node: math.inf for node in nodes}
    prev = {node: None for node in nodes}
    if source not in dist:
        return dist, prev, False, 0.0
    dist[source] = 0.0
    n = len(nodes)
    for i in range(n - 1):
        updated = False
        for u, v, w in graph.edges:
            if dist[u] != math.inf and dist[u] + w < dist[v]:
                dist[v] = dist[u] + w
                prev[v] = u
                updated = True
        if not updated:
            break
    negative_cycle = False
    for u, v, w in graph.edges:
        if dist[u] != math.inf and dist[u] + w < dist[v]:
            negative_cycle = True
            break
    return dist, prev, negative_cycle, elapsed
```
-/

/-- One pass of the inner `for u, v, w in graph.edges` loop. -/
def bfRound (E : List (ℕ × ℕ × ℕ)) (dist : ℕ → ℕ∞) (prev : ℕ → Option ℕ)
    (upd : Bool) : (ℕ → ℕ∞) × (ℕ → Option ℕ) × Bool :=
  match E with
  | [] => (dist, prev, upd)
  | (u, v, w) :: rest =>
      if dist u ≠ ⊤ ∧ dist u + (w : ℕ∞) < dist v then
        bfRound rest (Function.update dist v (dist u + (w : ℕ∞)))
          (Function.update prev v (some u)) true
      else bfRound rest dist prev upd

/-- The `for i in range(n - 1)` loop with its early break on a pass
without updates. -/
def bfRounds (E : List (ℕ × ℕ × ℕ)) : ℕ → (ℕ → ℕ∞) → (ℕ → Option ℕ) →
    (ℕ → ℕ∞) × (ℕ → Option ℕ)
  | 0, dist, prev => (dist, prev)
  | i + 1, dist, prev =>
      let r := bfRound E dist prev false
      if r.2.2 then bfRounds E i r.1 r.2.1 else (r.1, r.2.1)

/-- The final negative-cycle scan (a loop with early break, i.e. an
existence test). -/
def negCheck (E : List (ℕ × ℕ × ℕ)) (dist : ℕ → ℕ∞) : Bool :=
  E.any fun e => decide (dist e.1 ≠ ⊤ ∧ dist e.1 + (e.2.2 : ℕ∞) < dist e.2.1)

/-- `bellman_ford(graph, source)`, without the wall-clock component. -/
def bellman_ford (g : Graph) (source : ℕ) :
    (ℕ → ℕ∞) × (ℕ → Option ℕ) × Bool :=
  if source ∈ g.nodes_set then
    let r := bfRounds g.edges (g.nodes.length - 1)
      (Function.update (fun _ => (⊤ : ℕ∞)) source 0) (fun _ => none)
    (r.1, r.2, negCheck g.edges r.1)
  else ((fun _ => ⊤), (fun _ => none), false)

theorem bfRound_nil (dist : ℕ → ℕ∞) (prev : ℕ → Option ℕ) (b : Bool) :
    bfRound [] dist prev b = (dist, prev, b) := rfl

theorem bfRound_cons (u v w : ℕ) (rest : List (ℕ × ℕ × ℕ)) (dist : ℕ → ℕ∞)
    (prev : ℕ → Option ℕ) (b : Bool) :
    bfRound ((u, v, w) :: rest) dist prev b =
      if dist u ≠ ⊤ ∧ dist u + (w : ℕ∞) < dist v then
        bfRound rest (Function.update dist v (dist u + (w : ℕ∞)))
          (Function.update prev v (some u)) true
      else bfRound rest dist prev b := rfl

theorem bfRound_mono :
    ∀ (E : List (ℕ × ℕ × ℕ)) (dist : ℕ → ℕ∞) (prev : ℕ → Option ℕ) (b : Bool)
      (x : ℕ), (bfRound E dist prev b).1 x ≤ dist x := by
  intro E
  induction E with
  | nil => intro dist prev b x; rw [bfRound_nil]
  | cons e rest ih =>
      intro dist prev b x
      obtain ⟨u, v, w⟩ := e
      rw [bfRound_cons]
      by_cases hc : dist u ≠ ⊤ ∧ dist u + (w : ℕ∞) < dist v
      · rw [if_pos hc]
        refine le_trans (ih _ _ _ x) ?_
        rcases eq_or_ne x v with rfl | hxv
        · rw [Function.update_same]
          exact le_of_lt hc.2
        · rw [Function.update_noteq hxv]
      · rw [if_neg hc]
        exact ih dist prev b x

theorem bfRound_flag_true :
    ∀ (E : List (ℕ × ℕ × ℕ)) (dist : ℕ → ℕ∞) (prev : ℕ → Option ℕ),
      (bfRound E dist prev true).2.2 = true := by
  intro E
  induction E with
  | nil => intro dist prev; rw [bfRound_nil]
  | cons e rest ih =>
      intro dist prev
      obtain ⟨u, v, w⟩ := e
      rw [bfRound_cons]
      by_cases hc : dist u ≠ ⊤ ∧ dist u + (w : ℕ∞) < dist v
      · rw [if_pos hc]; exact ih _ _
      · rw [if_neg hc]; exact ih _ _

/-- A pass that reports no update left the distances unchanged and they
form a fixpoint of all edge relaxations. -/
theorem bfRound_no_update :
    ∀ (E : List (ℕ × ℕ × ℕ)) (dist : ℕ → ℕ∞) (prev : ℕ → Option ℕ),
      (bfRound E dist prev false).2.2 = false →
      (bfRound E dist prev false).1 = dist ∧
        ∀ e ∈ E, dist e.2.1 ≤ dist e.1 + (e.2.2 : ℕ∞) := by
  intro E
  induction E with
  | nil =>
      intro dist prev _
      rw [bfRound_nil]
      exact ⟨rfl, by simp⟩
  | cons e rest ih =>
      intro dist prev hflag
      obtain ⟨u, v, w⟩ := e
      rw [bfRound_cons] at hflag ⊢
      by_cases hc : dist u ≠ ⊤ ∧ dist u + (w : ℕ∞) < dist v
      · rw [if_pos hc] at hflag
        rw [bfRound_flag_true] at hflag
        exact absurd hflag (by simp)
      · rw [if_neg hc]
        rw [if_neg hc] at hflag
        obtain ⟨h1, h2⟩ := ih dist prev hflag
        refine ⟨h1, ?_⟩
        intro e he
        rcases List.mem_cons.1 he with rfl | he
        · show dist v ≤ dist u + (w : ℕ∞)
          rcases eq_or_ne (dist u) ⊤ with htop | htop
          · rw [htop]
            simp
          · push_neg at hc
            exact hc htop
        · exact h2 e he

/-- After a full pass, every edge of the list has been relaxed against
the distances held at the start of the pass. -/
theorem bfRound_edge_le :
    ∀ (E : List (ℕ × ℕ × ℕ)) (dist : ℕ → ℕ∞) (prev : ℕ → Option ℕ) (b : Bool),
      ∀ e ∈ E, (bfRound E dist prev b).1 e.2.1 ≤ dist e.1 + (e.2.2 : ℕ∞) := by
  intro E
  induction E with
  | nil => intro dist prev b e he; simp at he
  | cons q rest ih =>
      intro dist prev b e he
      obtain ⟨u, v, w⟩ := q
      rw [bfRound_cons]
      by_cases hc : dist u ≠ ⊤ ∧ dist u + (w : ℕ∞) < dist v
      · rw [if_pos hc]
        rcases List.mem_cons.1 he with rfl | he
        · refine le_trans (bfRound_mono _ _ _ _ _) ?_
          rw [Function.update_same]
        · refine le_trans (ih _ _ _ e he) ?_
          refine add_le_add_right ?_ _
          rcases eq_or_ne e.1 v with rfl | hev
          · rw [Function.update_same]
            exact le_of_lt hc.2
          · rw [Function.update_noteq hev]
      · rw [if_neg hc]
        rcases List.mem_cons.1 he with rfl | he
        · refine le_trans (bfRound_mono _ _ _ _ _) ?_
          show dist v ≤ dist u + (w : ℕ∞)
          rcases eq_or_ne (dist u) ⊤ with htop | htop
          · rw [htop]; simp
          · push_neg at hc
            exact hc htop
        · exact ih dist prev b e he

/-- Every finite distance is the weight of an actual walk from `s`. -/
def BfAch (a : List (ℕ × List (ℕ × ℕ))) (s : ℕ) (dist : ℕ → ℕ∞) : Prop :=
  ∀ v, dist v ≠ ⊤ → ∃ steps, IsWalk a s steps v ∧ (walkWeight steps : ℕ∞) = dist v

/-- Distances are bounded by the weight of every walk of at most `k`
steps. -/
def BfUB (a : List (ℕ × List (ℕ × ℕ))) (s k : ℕ) (dist : ℕ → ℕ∞) : Prop :=
  ∀ v steps, IsWalk a s steps v → steps.length ≤ k →
    dist v ≤ (walkWeight steps : ℕ∞)

/-- Distances form a fixpoint of all edge relaxations. -/
def BfFix (E : List (ℕ × ℕ × ℕ)) (dist : ℕ → ℕ∞) : Prop :=
  ∀ e ∈ E, dist e.2.1 ≤ dist e.1 + (e.2.2 : ℕ∞)

theorem bfRound_achieve (a : List (ℕ × List (ℕ × ℕ))) (s : ℕ) :
    ∀ (E : List (ℕ × ℕ × ℕ)) (dist : ℕ → ℕ∞) (prev : ℕ → Option ℕ) (b : Bool),
      (∀ e ∈ E, (e.2.1, e.2.2) ∈ adjGet a e.1) → BfAch a s dist →
      BfAch a s (bfRound E dist prev b).1 := by
  intro E
  induction E with
  | nil => intro dist prev b _ hach; rw [bfRound_nil]; exact hach
  | cons q rest ih =>
      intro dist prev b hE hach
      obtain ⟨u, v, w⟩ := q
      rw [bfRound_cons]
      have hrest : ∀ e ∈ rest, (e.2.1, e.2.2) ∈ adjGet a e.1 :=
        fun e he => hE e (List.mem_cons_of_mem _ he)
      by_cases hc : dist u ≠ ⊤ ∧ dist u + (w : ℕ∞) < dist v
      · rw [if_pos hc]
        refine ih _ _ _ hrest ?_
        intro x hx
        rcases eq_or_ne x v with rfl | hxv
        · rw [Function.update_same] at hx ⊢
          obtain ⟨su, hsu, hwu⟩ := hach u hc.1
          refine ⟨su ++ [(x, w)], ?_, ?_⟩
          · exact isWalk_append.2 ⟨u, hsu, hE (u, x, w) (List.mem_cons_self _ _), rfl⟩
          · rw [walkWeight_append, walkWeight_single, Nat.cast_add, hwu]
        · rw [Function.update_noteq hxv] at hx ⊢
          exact hach x hx
      · rw [if_neg hc]
        exact ih _ _ _ hrest hach

theorem bfRound_source0 (s : ℕ) :
    ∀ (E : List (ℕ × ℕ × ℕ)) (dist : ℕ → ℕ∞) (prev : ℕ → Option ℕ) (b : Bool),
      dist s = 0 → (bfRound E dist prev b).1 s = 0 := by
  intro E
  induction E with
  | nil => intro dist prev b h0; rw [bfRound_nil]; exact h0
  | cons q rest ih =>
      intro dist prev b h0
      obtain ⟨u, v, w⟩ := q
      rw [bfRound_cons]
      by_cases hc : dist u ≠ ⊤ ∧ dist u + (w : ℕ∞) < dist v
      · rw [if_pos hc]
        refine ih _ _ _ ?_
        have hvs : v ≠ s := by
          intro h
          subst h
          rw [h0] at hc
          exact absurd hc.2 (by simp)
        rw [Function.update_noteq (Ne.symm hvs)]
        exact h0
      · rw [if_neg hc]
        exact ih _ _ _ h0

theorem bfRound_ub {a : List (ℕ × List (ℕ × ℕ))} {s : ℕ} {E : List (ℕ × ℕ × ℕ)}
    (hwf : ∀ u v w, (v, w) ∈ adjGet a u → (u, v, w) ∈ E)
    {k : ℕ} {dist : ℕ → ℕ∞} {prev : ℕ → Option ℕ} {b : Bool}
    (hub : BfUB a s k dist) (hs0 : dist s = 0) :
    BfUB a s (k + 1) (bfRound E dist prev b).1 := by
  intro v steps hwalk hlen
  rcases List.eq_nil_or_concat steps with rfl | ⟨l, p, rfl⟩
  · have : s = v := hwalk
    subst this
    rw [bfRound_source0 s E dist prev b hs0]
    exact zero_le _
  · obtain ⟨x, w2⟩ := p
    rw [List.concat_eq_append] at hwalk hlen ⊢
    obtain ⟨y, hy, hstep⟩ := isWalk_append.1 hwalk
    obtain ⟨hmem, hxv⟩ := hstep
    have hxv : x = v := hxv
    subst hxv
    have hedge : (y, x, w2) ∈ E := hwf y x w2 hmem
    have h1 : (bfRound E dist prev b).1 x ≤ dist y + (w2 : ℕ∞) :=
      bfRound_edge_le E dist prev b (y, x, w2) hedge
    have h2 : dist y ≤ (walkWeight l : ℕ∞) := by
      refine hub y l hy ?_
      have := hlen
      simp only [List.length_append, List.length_singleton] at this
      omega
    refine le_trans h1 ?_
    rw [walkWeight_append, walkWeight_single, Nat.cast_add]
    exact add_le_add_right h2 _

theorem bfFix_ub {a : List (ℕ × List (ℕ × ℕ))} {s : ℕ} {E : List (ℕ × ℕ × ℕ)}
    (hwf : ∀ u v w, (v, w) ∈ adjGet a u → (u, v, w) ∈ E)
    {dist : ℕ → ℕ∞} (hfix : BfFix E dist) (hs0 : dist s = 0) :
    ∀ (steps : List (ℕ × ℕ)) (v : ℕ), IsWalk a s steps v →
      dist v ≤ (walkWeight steps : ℕ∞) := by
  intro steps
  induction steps using List.reverseRecOn with
  | nil =>
      intro v hwalk
      have : s = v := hwalk
      subst this
      rw [hs0]
      exact zero_le _
  | append_singleton l p ih =>
      intro v hwalk
      obtain ⟨x, w⟩ := p
      obtain ⟨y, hy, hstep⟩ := isWalk_append.1 hwalk
      obtain ⟨hmem, hxv⟩ := hstep
      have hxv : x = v := hxv
      subst hxv
      have h1 : dist x ≤ dist y + (w : ℕ∞) := hfix (y, x, w) (hwf y x w hmem)
      have h2 : dist y ≤ (walkWeight l : ℕ∞) := ih y hy
      refine le_trans h1 ?_
      rw [walkWeight_append, walkWeight_single, Nat.cast_add]
      exact add_le_add_right h2 _

theorem bfRounds_zero (E : List (ℕ × ℕ × ℕ)) (dist : ℕ → ℕ∞)
    (prev : ℕ → Option ℕ) : bfRounds E 0 dist prev = (dist, prev) := rfl

theorem bfRounds_succ (E : List (ℕ × ℕ × ℕ)) (i : ℕ) (dist : ℕ → ℕ∞)
    (prev : ℕ → Option ℕ) :
    bfRounds E (i + 1) dist prev =
      if (bfRound E dist prev false).2.2 then
        bfRounds E i (bfRound E dist prev false).1 (bfRound E dist prev false).2.1
      else ((bfRound E dist prev false).1, (bfRound E dist prev false).2.1) := rfl

theorem bfRounds_spec (a : List (ℕ × List (ℕ × ℕ))) (s : ℕ)
    (E : List (ℕ × ℕ × ℕ))
    (hE : ∀ e ∈ E, (e.2.1, e.2.2) ∈ adjGet a e.1)
    (hwf : ∀ u v w, (v, w) ∈ adjGet a u → (u, v, w) ∈ E) :
    ∀ (i k : ℕ) (dist : ℕ → ℕ∞) (prev : ℕ → Option ℕ),
      BfAch a s dist → dist s = 0 → BfUB a s k dist →
      BfAch a s (bfRounds E i dist prev).1 ∧ (bfRounds E i dist prev).1 s = 0 ∧
        (BfUB a s (k + i) (bfRounds E i dist prev).1 ∨
          BfFix E (bfRounds E i dist prev).1) := by
  intro i
  induction i with
  | zero =>
      intro k dist prev hach hs0 hub
      rw [bfRounds_zero]
      exact ⟨hach, hs0, .inl hub⟩
  | succ i ih =>
      intro k dist prev hach hs0 hub
      rw [bfRounds_succ]
      by_cases hflag : (bfRound E dist prev false).2.2 = true
      · rw [if_pos hflag]
        have h1 := bfRound_achieve a s E dist prev false hE hach
        have h2 := bfRound_source0 s E dist prev false hs0
        have h3 : BfUB a s (k + 1) (bfRound E dist prev false).1 :=
          bfRound_ub hwf hub hs0
        obtain ⟨r1, r2, r3⟩ := ih (k + 1) (bfRound E dist prev false).1
          (bfRound E dist prev false).2.1 h1 h2 h3
        refine ⟨r1, r2, ?_⟩
        rcases r3 with r3 | r3
        · left
          have : k + 1 + i = k + (i + 1) := by omega
          rw [this] at r3
          exact r3
        · exact .inr r3
      · rw [if_neg hflag]
        have hfl : (bfRound E dist prev false).2.2 = false :=
          Bool.not_eq_true _ ▸ (by simpa using hflag)
        obtain ⟨heq, hfix⟩ := bfRound_no_update E dist prev hfl
        refine ⟨?_, ?_, .inr ?_⟩
        · show BfAch a s (bfRound E dist prev false).1
          rw [heq]; exact hach
        · show (bfRound E dist prev false).1 s = 0
          rw [heq]; exact hs0
        · show BfFix E (bfRound E dist prev false).1
          rw [heq]; exact hfix

theorem split_of_not_nodup {α : Type} [DecidableEq α] :
    ∀ {l : List α}, ¬l.Nodup → ∃ (x : α) (l1 l2 l3 : List α),
      l = l1 ++ x :: (l2 ++ x :: l3) := by
  intro l
  induction l with
  | nil => intro h; simp at h
  | cons a t ih =>
      intro h
      by_cases ha : a ∈ t
      · obtain ⟨s2, t2, rfl⟩ := List.append_of_mem ha
        exact ⟨a, [], s2, t2, rfl⟩
      · have hnt : ¬t.Nodup := fun hn => h (List.nodup_cons.2 ⟨ha, hn⟩)
        obtain ⟨x, l1, l2, l3, rfl⟩ := ih hnt
        exact ⟨x, a :: l1, l2, l3, rfl⟩

/-- The endpoint of a nonempty walk is the head of its last step. -/
theorem walk_endpoint {a : List (ℕ × List (ℕ × ℕ))} {u : ℕ}
    {steps : List (ℕ × ℕ)} {v : ℕ} (hwalk : IsWalk a u steps v)
    {l1 : List ℕ} {x : ℕ} (hmap : steps.map Prod.fst = l1 ++ [x]) : v = x := by
  rcases List.eq_nil_or_concat steps with rfl | ⟨init, p, rfl⟩
  · simp at hmap
  · obtain ⟨pv, pw⟩ := p
    rw [List.concat_eq_append] at hwalk hmap
    rw [List.map_append] at hmap
    have hlen : ([(pv, pw)].map Prod.fst).length = [x].length := by simp
    obtain ⟨_, h2⟩ := List.append_inj' hmap hlen
    simp only [List.map_cons, List.map_nil, List.cons.injEq] at h2
    obtain ⟨y, _, hstep⟩ := isWalk_append.1 hwalk
    obtain ⟨_, hpv⟩ := hstep
    have : pv = v := hpv
    omega

/-- A walk whose vertex sequence repeats a vertex decomposes as walk,
nonempty cycle, walk. -/
theorem walk_cycle_split {a : List (ℕ × List (ℕ × ℕ))} {s : ℕ}
    {steps : List (ℕ × ℕ)} {v : ℕ} (hwalk : IsWalk a s steps v)
    (hdup : ¬(s :: steps.map Prod.fst).Nodup) :
    ∃ (x : ℕ) (t1 t2 t3 : List (ℕ × ℕ)), steps = t1 ++ (t2 ++ t3) ∧ t2 ≠ [] ∧
      IsWalk a s t1 x ∧ IsWalk a x t2 x ∧ IsWalk a x t3 v := by
  obtain ⟨x, l1, l2, l3, hsplit⟩ := split_of_not_nodup hdup
  match l1, hsplit with
  | [], hsplit =>
      simp only [List.nil_append, List.cons.injEq] at hsplit
      obtain ⟨rfl, htail⟩ := hsplit
      have htail2 : steps.map Prod.fst = (l2 ++ [s]) ++ l3 := by
        rw [htail]; simp
      obtain ⟨u2, u3, rfl, hm2, hm3⟩ := List.append_eq_map_iff.mp htail2.symm
      obtain ⟨y, hy2, hy3⟩ := isWalk_append.1 hwalk
      have hyx : y = s := walk_endpoint hy2 hm2
      subst hyx
      exact ⟨y, [], u2, u3, rfl, by rintro rfl; simp at hm2, rfl, hy2, hy3⟩
  | h1 :: l1, hsplit =>
      simp only [List.cons_append, List.cons.injEq] at hsplit
      obtain ⟨rfl, htail⟩ := hsplit
      have htail2 : steps.map Prod.fst = (l1 ++ [x]) ++ ((l2 ++ [x]) ++ l3) := by
        rw [htail]; simp
      obtain ⟨u1, u23, rfl, hm1, hm23⟩ := List.append_eq_map_iff.mp htail2.symm
      obtain ⟨u2, u3, rfl, hm2, hm3⟩ := List.append_eq_map_iff.mp hm23.symm
      obtain ⟨y1, hw1, hw23⟩ := isWalk_append.1 hwalk
      obtain ⟨y2, hw2, hw3⟩ := isWalk_append.1 hw23
      have hy1 : y1 = x := walk_endpoint hw1 hm1
      have hy2 : y2 = x := walk_endpoint hw2 hm2
      rw [hy1] at hw1 hw2
      rw [hy2] at hw2 hw3
      exact ⟨x, u1, u2, u3, rfl, by rintro rfl; simp at hm2, hw1, hw2, hw3⟩

theorem nodup_length_le {l : List ℕ} {s : Finset ℕ} (hn : l.Nodup)
    (hm : ∀ x ∈ l, x ∈ s) : l.length ≤ s.card := by
  have h1 : l.toFinset.card = l.length := List.toFinset_card_of_nodup hn
  have h2 : l.toFinset ⊆ s := fun x hx => hm x (List.mem_toFinset.1 hx)
  have := Finset.card_le_card h2
  omega

/-- All vertices of a walk lie in `S` when the source does and all
adjacency targets do. -/
theorem walk_verts_mem {a : List (ℕ × List (ℕ × ℕ))} {S : Finset ℕ}
    (hT : ∀ u v w, (v, w) ∈ adjGet a u → v ∈ S) :
    ∀ (steps : List (ℕ × ℕ)) (s v : ℕ), s ∈ S → IsWalk a s steps v →
      ∀ x ∈ s :: steps.map Prod.fst, x ∈ S := by
  intro steps
  induction steps with
  | nil =>
      intro s v hs _ x hx
      simp at hx
      subst hx
      exact hs
  | cons p rest ih =>
      intro s v hs hwalk x hx
      obtain ⟨pv, pw⟩ := p
      obtain ⟨hmem, hrest⟩ := hwalk
      have hpv : pv ∈ S := hT s pv pw hmem
      rcases List.mem_cons.1 hx with rfl | hx
      · exact hs
      · exact ih pv v hpv hrest x hx

/-- Walk shortening: every walk has a sub-walk with the same endpoints,
no larger weight, and fewer than `S.card` steps. -/
theorem walk_shorten {a : List (ℕ × List (ℕ × ℕ))} {S : Finset ℕ}
    (hT : ∀ u v w, (v, w) ∈ adjGet a u → v ∈ S) {s : ℕ} (hs : s ∈ S) :
    ∀ (n : ℕ) (steps : List (ℕ × ℕ)) (v : ℕ), steps.length ≤ n →
      IsWalk a s steps v →
      ∃ steps2, IsWalk a s steps2 v ∧ walkWeight steps2 ≤ walkWeight steps ∧
        steps2.length + 1 ≤ S.card := by
  intro n
  induction n with
  | zero =>
      intro steps v hlen hwalk
      have : steps = [] := List.length_eq_zero.1 (Nat.le_zero.1 hlen)
      subst this
      refine ⟨[], hwalk, le_refl _, ?_⟩
      have := Finset.card_pos.2 ⟨s, hs⟩
      omega
  | succ n ih =>
      intro steps v hlen hwalk
      by_cases hnd : (s :: steps.map Prod.fst).Nodup
      · refine ⟨steps, hwalk, le_refl _, ?_⟩
        have hmem := walk_verts_mem hT steps s v hs hwalk
        have := nodup_length_le hnd hmem
        simp only [List.length_cons, List.length_map] at this
        omega
      · obtain ⟨x, t1, t2, t3, rfl, ht2, hw1, hw2, hw3⟩ := walk_cycle_split hwalk hnd
        have hshort : IsWalk a s (t1 ++ t3) v := isWalk_append.2 ⟨x, hw1, hw3⟩
        have hlen2 : (t1 ++ t3).length ≤ n := by
          have h2 : 0 < t2.length := List.length_pos.2 ht2
          simp only [List.length_append] at hlen ⊢
          omega
        obtain ⟨steps2, hs2, hw2', hl2⟩ := ih (t1 ++ t3) v hlen2 hshort
        refine ⟨steps2, hs2, ?_, hl2⟩
        refine le_trans hw2' ?_
        simp only [walkWeight, List.map_append, List.sum_append]
        omega

/-- Correctness of `bellman_ford` on well-formed graphs: the returned
distances are exact shortest-walk distances and no negative cycle is
reported. -/
theorem bellman_ford_dist (g : Graph) (hwf : g.WF) (s : ℕ)
    (hs : s ∈ g.nodes_set) :
    (∀ (v : ℕ) (steps : List (ℕ × ℕ)), IsWalk g.adj s steps v →
      (bellman_ford g s).1 v ≤ (walkWeight steps : ℕ∞)) ∧
    BfAch g.adj s (bellman_ford g s).1 ∧
    (bellman_ford g s).2.2 = false := by
  have hE : ∀ e ∈ g.edges, (e.2.1, e.2.2) ∈ adjGet g.adj e.1 :=
    fun e he => (hwf.1 e.1 e.2.1 e.2.2).2 he
  have hwfdir : ∀ u v w, (v, w) ∈ adjGet g.adj u → (u, v, w) ∈ g.edges :=
    fun u v w h => (hwf.1 u v w).1 h
  have hT : ∀ u v w, (v, w) ∈ adjGet g.adj u → v ∈ g.nodes_set :=
    fun u v w h => (hwf.2 u v w (hwfdir u v w h)).2
  have hach0 : BfAch g.adj s (Function.update (fun _ => (⊤ : ℕ∞)) s 0) := by
    intro v hv
    rcases eq_or_ne v s with rfl | hvs
    · exact ⟨[], rfl, by rw [Function.update_same]; rfl⟩
    · rw [Function.update_noteq hvs] at hv
      exact absurd rfl hv
  have hs0 : Function.update (fun _ => (⊤ : ℕ∞)) s 0 s = 0 := Function.update_same ..
  have hub0 : BfUB g.adj s 0 (Function.update (fun _ => (⊤ : ℕ∞)) s 0) := by
    intro v steps hwalk hlen
    have : steps = [] := List.length_eq_zero.1 (Nat.le_zero.1 hlen)
    subst this
    have : s = v := hwalk
    subst this
    rw [Function.update_same]
    exact zero_le _
  obtain ⟨ra, rs0, rub⟩ := bfRounds_spec g.adj s g.edges hE hwfdir
    (g.nodes.length - 1) 0 (Function.update (fun _ => (⊤ : ℕ∞)) s 0)
    (fun _ => none) hach0 hs0 hub0
  have hcard : g.nodes.length = g.nodes_set.card := Finset.length_sort _
  have hcardpos : 0 < g.nodes_set.card := Finset.card_pos.2 ⟨s, hs⟩
  have hbf1 : (bellman_ford g s).1 =
      (bfRounds g.edges (g.nodes.length - 1)
        (Function.update (fun _ => (⊤ : ℕ∞)) s 0) (fun _ => none)).1 := by
    unfold bellman_ford
    rw [if_pos hs]
  have hbf3 : (bellman_ford g s).2.2 =
      negCheck g.edges (bfRounds g.edges (g.nodes.length - 1)
        (Function.update (fun _ => (⊤ : ℕ∞)) s 0) (fun _ => none)).1 := by
    unfold bellman_ford
    rw [if_pos hs]
  have hub : ∀ (v : ℕ) (steps : List (ℕ × ℕ)), IsWalk g.adj s steps v →
      (bfRounds g.edges (g.nodes.length - 1)
        (Function.update (fun _ => (⊤ : ℕ∞)) s 0) (fun _ => none)).1 v ≤
        (walkWeight steps : ℕ∞) := by
    intro v steps hwalk
    rcases rub with rub | rfix
    · obtain ⟨steps2, hs2, hwle, hl2⟩ :=
        walk_shorten hT hs steps.length steps v (le_refl _) hwalk
      have h1 := rub v steps2 hs2 (by omega)
      refine le_trans h1 ?_
      exact_mod_cast hwle
    · exact bfFix_ub hwfdir rfix rs0 steps v hwalk
  refine ⟨?_, ?_, ?_⟩
  · intro v steps hwalk
    rw [hbf1]
    exact hub v steps hwalk
  · intro v hv
    rw [hbf1] at hv ⊢
    exact ra v hv
  · rw [hbf3, negCheck, List.any_eq_false]
    intro e he
    simp only [decide_eq_true_eq, not_and]
    intro hne hlt
    obtain ⟨su, hsu, hwu⟩ := ra e.1 hne
    have hwalk2 : IsWalk g.adj s (su ++ [(e.2.1, e.2.2)]) e.2.1 :=
      isWalk_append.2 ⟨e.1, hsu, hE e he, rfl⟩
    have := hub e.2.1 _ hwalk2
    rw [walkWeight_append, walkWeight_single, Nat.cast_add, hwu] at this
    exact absurd hlt (not_lt.2 this)

/-! ## The path-returning Dijkstra (lines 14030–14068)

```
def dijkstra(nodes, edges, source, target):
    if source not in nodes or target not in nodes:
        return None, None
    g = {n: [] for n in nodes}
    for u, v, w in edges:
        g[u].append((v, w))
        g[v].append((u, w))  # undirected
    dist = {n: float('inf') for n in nodes}
    prev = {n: None for n in nodes}
    dist[source] = 0
    heap = [(0, source)]
    while heap:
        d, u = heapq.heappop(heap)
        if d > dist[u]:
            continue
        if u == target:
            break
        for v, w in g[u]: ...same relaxation...
    if dist[target] == float('inf'):
        return None, None
    ...reconstruct path following prev...
    return path, dist[target]
```
-/

/-- The adjacency dict built by the path-returning `dijkstra` (keys
initialised from `nodes`, then both directions of every edge appended). -/
def buildAdj2 (nodes : List ℕ) (edges : List (ℕ × ℕ × ℕ)) :
    List (ℕ × List (ℕ × ℕ)) :=
  edges.foldl
    (fun a e => updAdj (updAdj a e.1 (e.2.1, e.2.2)) e.2.1 (e.1, e.2.2))
    (nodes.map fun n => (n, []))

/-- The `while cur is not None` chain through `prev`, fuelled; the fuel
bounds the pointer chase, which on actual runs ends at the source. -/
def chase (prev : ℕ → Option ℕ) : ℕ → ℕ → List ℕ
  | 0, cur => [cur]
  | fuel + 1, cur =>
      match prev cur with
      | none => [cur]
      | some p => cur :: chase prev fuel p

/-- The `while heap:` loop of the path-returning `dijkstra`, with its
early `break` at the target. -/
def dijkstra2Loop (a : List (ℕ × List (ℕ × ℕ))) (t : ℕ) (dist : ℕ → ℕ∞)
    (prev : ℕ → Option ℕ) (heap : List (ℕ × ℕ)) :
    (ℕ → ℕ∞) × (ℕ → Option ℕ) :=
  match hp : popMin heap with
  | none => (dist, prev)
  | some ((d, u), rest) =>
      if dist u < (d : ℕ∞) then
        dijkstra2Loop a t dist prev rest
      else if u = t then (dist, prev)
      else
        let r := relax u d (adjGet a u) dist prev
        dijkstra2Loop a t r.1 r.2.1 (rest ++ r.2.2)
termination_by (psiTop (adjTargets a) dist, psiSum (adjTargets a) dist,
  heap.length)
decreasing_by
  · obtain ⟨hm, hr, _⟩ := popMin_spec hp
    have hlen : rest.length < heap.length := by
      rw [hr, List.length_erase_of_mem hm]
      have : 0 < heap.length := List.length_pos.2 (List.ne_nil_of_mem hm)
      omega
    exact Prod.Lex.right _ (Prod.Lex.right _ hlen)
  · obtain ⟨hm, hr, _⟩ := popMin_spec hp
    have hlen : rest.length < heap.length := by
      rw [hr, List.length_erase_of_mem hm]
      have : 0 < heap.length := List.length_pos.2 (List.ne_nil_of_mem hm)
      omega
    have hl : ∀ p ∈ adjGet a u, p.1 ∈ adjTargets a := by
      intro p hp'
      exact mem_adjTargets a u (show (p.1, p.2) ∈ adjGet a u from hp')
    rcases relax_psi (adjGet a u) dist prev hl with ⟨heq, hpush⟩ | hps
    · rw [heq, hpush]
      exact Prod.Lex.right _ (Prod.Lex.right _ (by simpa using hlen))
    · rcases hps with h1 | ⟨h1, h2⟩
      · exact Prod.Lex.left _ _ h1
      · rw [h1]
        exact Prod.Lex.right _ (Prod.Lex.left _ _ h2)

/-- The path-returning `dijkstra(nodes, edges, source, target)`. -/
def dijkstra2 (nodes : List ℕ) (edges : List (ℕ × ℕ × ℕ)) (source target : ℕ) :
    Option (List ℕ × ℕ∞) :=
  if source ∉ nodes ∨ target ∉ nodes then none
  else
    let r := dijkstra2Loop (buildAdj2 nodes edges) target
      (Function.update (fun _ => (⊤ : ℕ∞)) source 0) (fun _ => none)
      [(0, source)]
    if r.1 target = ⊤ then none
    else some ((chase r.2 (nodes.length + 1) target).reverse, r.1 target)

theorem dijkstra2Loop_none {a : List (ℕ × List (ℕ × ℕ))} {t : ℕ}
    {dist : ℕ → ℕ∞} {prev : ℕ → Option ℕ} {heap : List (ℕ × ℕ)}
    (hp : popMin heap = none) :
    dijkstra2Loop a t dist prev heap = (dist, prev) := by
  rw [dijkstra2Loop.eq_def, hp]

theorem dijkstra2Loop_stale {a : List (ℕ × List (ℕ × ℕ))} {t : ℕ}
    {dist : ℕ → ℕ∞} {prev : ℕ → Option ℕ} {heap : List (ℕ × ℕ)} {d u : ℕ}
    {rest : List (ℕ × ℕ)} (hp : popMin heap = some ((d, u), rest))
    (hst : dist u < (d : ℕ∞)) :
    dijkstra2Loop a t dist prev heap = dijkstra2Loop a t dist prev rest := by
  rw [dijkstra2Loop.eq_def, hp]
  simp [hst]

theorem dijkstra2Loop_break {a : List (ℕ × List (ℕ × ℕ))} {t : ℕ}
    {dist : ℕ → ℕ∞} {prev : ℕ → Option ℕ} {heap : List (ℕ × ℕ)} {d : ℕ}
    {rest : List (ℕ × ℕ)} (hp : popMin heap = some ((d, t), rest))
    (hst : ¬dist t < (d : ℕ∞)) :
    dijkstra2Loop a t dist prev heap = (dist, prev) := by
  rw [dijkstra2Loop.eq_def, hp]
  simp [hst]

theorem dijkstra2Loop_go {a : List (ℕ × List (ℕ × ℕ))} {t : ℕ}
    {dist : ℕ → ℕ∞} {prev : ℕ → Option ℕ} {heap : List (ℕ × ℕ)} {d u : ℕ}
    {rest : List (ℕ × ℕ)} (hp : popMin heap = some ((d, u), rest))
    (hst : ¬dist u < (d : ℕ∞)) (hut : u ≠ t) :
    dijkstra2Loop a t dist prev heap =
      dijkstra2Loop a t (relax u d (adjGet a u) dist prev).1
        (relax u d (adjGet a u) dist prev).2.1
        (rest ++ (relax u d (adjGet a u) dist prev).2.2) := by
  rw [dijkstra2Loop.eq_def, hp]
  simp [hst, hut]

/-- Specification of the early-break loop: the distance recorded for the
target is the exact shortest-walk distance. -/
theorem dijkstra2Loop_spec (a : List (ℕ × List (ℕ × ℕ))) (s t : ℕ) :
    ∀ (dist : ℕ → ℕ∞) (prev : ℕ → Option ℕ) (heap : List (ℕ × ℕ)),
      DjInv a s dist heap →
      ((dijkstra2Loop a t dist prev heap).1 t ≠ ⊤ →
        ∃ steps, IsWalk a s steps t ∧
          (walkWeight steps : ℕ∞) = (dijkstra2Loop a t dist prev heap).1 t) ∧
      (∀ steps : List (ℕ × ℕ), IsWalk a s steps t →
        (dijkstra2Loop a t dist prev heap).1 t ≤ (walkWeight steps : ℕ∞)) := by
  intro dist prev heap
  induction dist, prev, heap using dijkstra2Loop.induct a t with
  | case1 dist prev heap hp =>
      intro inv
      rw [dijkstra2Loop_none hp]
      have hempty : heap = [] := popMin_none hp
      subst hempty
      constructor
      · exact fun hv => inv.achieve t hv
      · intro steps hwalk
        rcases djInv_frontier inv steps t hwalk with hle | ⟨e, he, _, _⟩
        · exact hle
        · simp at he
  | case2 dist prev heap d u rest hp hst ih =>
      intro inv
      rw [dijkstra2Loop_stale hp hst]
      exact ih (djInv_stale inv hp hst)
  | case3 dist prev heap d rest hp hst =>
      intro inv
      rw [dijkstra2Loop_break hp hst]
      obtain ⟨hm, hr, hmin⟩ := popMin_spec hp
      have hdu : dist t = (d : ℕ∞) :=
        le_antisymm (inv.entries (d, t) hm) (not_lt.1 hst)
      constructor
      · exact fun hv => inv.achieve t hv
      · intro steps hwalk
        rcases djInv_frontier inv steps t hwalk with hle | ⟨e, he, hval, hbound⟩
        · exact hle
        · have h1 : d ≤ e.1 := hmin e he
          show dist t ≤ (walkWeight steps : ℕ∞)
          rw [hdu]
          calc ((d : ℕ) : ℕ∞) ≤ (e.1 : ℕ∞) := by exact_mod_cast h1
            _ ≤ (walkWeight steps : ℕ∞) := by exact_mod_cast hbound
  | case4 dist prev heap d u rest hp hst hut r ih =>
      intro inv
      rw [dijkstra2Loop_go hp hst hut]
      exact ih (djInv_relax inv hp hst)

theorem adjGet_init_nil (nodes : List ℕ) (x : ℕ) :
    adjGet (nodes.map fun n => (n, ([] : List (ℕ × ℕ)))) x = [] := by
  induction nodes with
  | nil => rfl
  | cons n rest ih =>
      show (if n = x then [] else adjGet (rest.map fun n => (n, [])) x) = []
      by_cases h : n = x
      · rw [if_pos h]
      · rw [if_neg h, ih]

theorem foldl_updAdj_congr (l : List (ℕ × ℕ × ℕ)) :
    ∀ (a b : List (ℕ × List (ℕ × ℕ))),
      (∀ x, adjGet a x = adjGet b x) →
      ∀ x, adjGet (l.foldl
          (fun a e => updAdj (updAdj a e.1 (e.2.1, e.2.2)) e.2.1 (e.1, e.2.2)) a) x =
        adjGet (l.foldl
          (fun a e => updAdj (updAdj a e.1 (e.2.1, e.2.2)) e.2.1 (e.1, e.2.2)) b) x := by
  induction l with
  | nil => intro a b h x; exact h x
  | cons e rest ih =>
      intro a b h x
      refine ih _ _ ?_ x
      intro y
      simp only [adjGet_updAdj, h]

theorem ofEdges_adj_foldl (l : List (ℕ × ℕ × ℕ)) :
    ∀ g : Graph,
      (l.foldl (fun g e => g.add_edge e.1 e.2.1 e.2.2 false) g).adj =
        l.foldl (fun a e => updAdj (updAdj a e.1 (e.2.1, e.2.2)) e.2.1 (e.1, e.2.2))
          g.adj := by
  induction l with
  | nil => intro g; rfl
  | cons e rest ih =>
      intro g
      rw [List.foldl_cons, List.foldl_cons, ih]
      rfl

/-- The adjacency dict built inside the path-returning `dijkstra`
coincides with the `adj` dict of the `Graph` built undirected from the
same edge list. -/
theorem buildAdj2_eq_ofEdges (nodes : List ℕ) (l : List (ℕ × ℕ × ℕ)) (x : ℕ) :
    adjGet (buildAdj2 nodes l) x = adjGet (Graph.ofEdges l false).adj x := by
  rw [Graph.ofEdges, ofEdges_adj_foldl l Graph.empty]
  exact foldl_updAdj_congr l _ _ (fun y => by rw [adjGet_init_nil]; rfl) x

theorem isWalk_congr {a b : List (ℕ × List (ℕ × ℕ))}
    (h : ∀ x, adjGet a x = adjGet b x) :
    ∀ (steps : List (ℕ × ℕ)) (u v : ℕ), IsWalk a u steps v ↔ IsWalk b u steps v := by
  intro steps
  induction steps with
  | nil => intro u v; exact Iff.rfl
  | cons p rest ih =>
      intro u v
      obtain ⟨x, w⟩ := p
      show (x, w) ∈ adjGet a u ∧ IsWalk a x rest v ↔
        (x, w) ∈ adjGet b u ∧ IsWalk b x rest v
      rw [h u, ih x v]

/-- Two values that are both achieved-by-a-walk-when-finite and lower
bounds of all walk weights coincide. -/
theorem shortest_unique {a : List (ℕ × List (ℕ × ℕ))} {s v : ℕ} {d₁ d₂ : ℕ∞}
    (hach₁ : d₁ ≠ ⊤ → ∃ steps, IsWalk a s steps v ∧ (walkWeight steps : ℕ∞) = d₁)
    (hub₁ : ∀ steps, IsWalk a s steps v → d₁ ≤ (walkWeight steps : ℕ∞))
    (hach₂ : d₂ ≠ ⊤ → ∃ steps, IsWalk a s steps v ∧ (walkWeight steps : ℕ∞) = d₂)
    (hub₂ : ∀ steps, IsWalk a s steps v → d₂ ≤ (walkWeight steps : ℕ∞)) :
    d₁ = d₂ := by
  have h12 : d₁ ≤ d₂ := by
    rcases eq_or_ne d₂ ⊤ with rfl | h2
    · exact le_top
    · obtain ⟨steps, hw, hval⟩ := hach₂ h2
      rw [← hval]
      exact hub₁ steps hw
  have h21 : d₂ ≤ d₁ := by
    rcases eq_or_ne d₁ ⊤ with rfl | h1
    · exact le_top
    · obtain ⟨steps, hw, hval⟩ := hach₁ h1
      rw [← hval]
      exact hub₂ steps hw
  exact le_antisymm h12 h21

end DSA

/-- C2: on every undirected graph with non-negative (natural) edge
weights and every source and target node, the three independently
implemented shortest-path routines agree: the heap-based
`dijkstra(graph, source)` and `bellman_ford(graph, source)` compute the
same source-to-target distance, `bellman_ford` reports
`negative_cycle_detected = False`, and the path-returning
`dijkstra(nodes, edges, source, target)` returns `(None, None)` exactly
when that distance is `math.inf` and otherwise returns the same
distance. -/
theorem c2_shortest_path_agreement (l : List (ℕ × ℕ × ℕ)) (s t : ℕ)
    (hs : s ∈ (DSA.Graph.ofEdges l false).nodes_set)
    (ht : t ∈ (DSA.Graph.ofEdges l false).nodes_set) :
    (DSA.bellman_ford (DSA.Graph.ofEdges l false) s).1 t =
      (DSA.dijkstra (DSA.Graph.ofEdges l false) s).1 t ∧
    (DSA.bellman_ford (DSA.Graph.ofEdges l false) s).2.2 = false ∧
    (DSA.dijkstra2 (DSA.Graph.ofEdges l false).nodes l s t = none ↔
      (DSA.dijkstra (DSA.Graph.ofEdges l false) s).1 t = ⊤) ∧
    (∀ (p : List ℕ) (dd : ℕ∞),
      DSA.dijkstra2 (DSA.Graph.ofEdges l false).nodes l s t = some (p, dd) →
      dd = (DSA.dijkstra (DSA.Graph.ofEdges l false) s).1 t) := by
  obtain ⟨bub, bach, bfalse⟩ :=
    DSA.bellman_ford_dist (DSA.Graph.ofEdges l false) (DSA.wf_ofEdges l false) s hs
  have hres : DSA.dijkstra (DSA.Graph.ofEdges l false) s =
      DSA.dijkstraLoop (DSA.Graph.ofEdges l false)
        (Function.update (fun _ => (⊤ : ℕ∞)) s 0) (fun _ => none) [(0, s)] := by
    unfold DSA.dijkstra
    rw [if_pos hs]
  obtain ⟨dach, dub⟩ := DSA.dijkstraLoop_spec (DSA.Graph.ofEdges l false) s
    (Function.update (fun _ => (⊤ : ℕ∞)) s 0) (fun _ => none) [(0, s)]
    (DSA.djInv_init _ s)
  have dach' : (DSA.dijkstra (DSA.Graph.ofEdges l false) s).1 t ≠ ⊤ →
      ∃ steps, DSA.IsWalk (DSA.Graph.ofEdges l false).adj s steps t ∧
        (DSA.walkWeight steps : ℕ∞) =
          (DSA.dijkstra (DSA.Graph.ofEdges l false) s).1 t := by
    rw [hres]
    exact fun h => dach t h
  have dub' : ∀ steps, DSA.IsWalk (DSA.Graph.ofEdges l false).adj s steps t →
      (DSA.dijkstra (DSA.Graph.ofEdges l false) s).1 t ≤
        (DSA.walkWeight steps : ℕ∞) := by
    rw [hres]
    exact fun steps h => dub t steps h
  have h1 : (DSA.bellman_ford (DSA.Graph.ofEdges l false) s).1 t =
      (DSA.dijkstra (DSA.Graph.ofEdges l false) s).1 t :=
    DSA.shortest_unique (bach t) (fun steps h => bub t steps h) dach' dub'
  have hwcongr := DSA.isWalk_congr
    (fun x => DSA.buildAdj2_eq_ofEdges (DSA.Graph.ofEdges l false).nodes l x)
  obtain ⟨d2ach, d2ub⟩ := DSA.dijkstra2Loop_spec
    (DSA.buildAdj2 (DSA.Graph.ofEdges l false).nodes l) s t
    (Function.update (fun _ => (⊤ : ℕ∞)) s 0) (fun _ => none) [(0, s)]
    (DSA.djInv_init _ s)
  have d2ach' : (DSA.dijkstra2Loop (DSA.buildAdj2 (DSA.Graph.ofEdges l false).nodes l) t
        (Function.update (fun _ => (⊤ : ℕ∞)) s 0) (fun _ => none) [(0, s)]).1 t ≠ ⊤ →
      ∃ steps, DSA.IsWalk (DSA.Graph.ofEdges l false).adj s steps t ∧
        (DSA.walkWeight steps : ℕ∞) =
          (DSA.dijkstra2Loop (DSA.buildAdj2 (DSA.Graph.ofEdges l false).nodes l) t
            (Function.update (fun _ => (⊤ : ℕ∞)) s 0) (fun _ => none) [(0, s)]).1 t := by
    intro h
    obtain ⟨steps, hw, hv⟩ := d2ach h
    exact ⟨steps, (hwcongr steps s t).1 hw, hv⟩
  have d2ub' : ∀ steps, DSA.IsWalk (DSA.Graph.ofEdges l false).adj s steps t →
      (DSA.dijkstra2Loop (DSA.buildAdj2 (DSA.Graph.ofEdges l false).nodes l) t
        (Function.update (fun _ => (⊤ : ℕ∞)) s 0) (fun _ => none) [(0, s)]).1 t ≤
        (DSA.walkWeight steps : ℕ∞) :=
    fun steps h => d2ub steps ((hwcongr steps s t).2 h)
  have h2 : (DSA.dijkstra2Loop (DSA.buildAdj2 (DSA.Graph.ofEdges l false).nodes l) t
      (Function.update (fun _ => (⊤ : ℕ∞)) s 0) (fun _ => none) [(0, s)]).1 t =
      (DSA.dijkstra (DSA.Graph.ofEdges l false) s).1 t :=
    DSA.shortest_unique d2ach' d2ub' dach' dub'
  have hcond : ¬(s ∉ (DSA.Graph.ofEdges l false).nodes ∨
      t ∉ (DSA.Graph.ofEdges l false).nodes) := by
    push_neg
    constructor
    · rw [DSA.Graph.nodes, Finset.mem_sort]
      exact hs
    · rw [DSA.Graph.nodes, Finset.mem_sort]
      exact ht
  have hd2 : DSA.dijkstra2 (DSA.Graph.ofEdges l false).nodes l s t =
      if (DSA.dijkstra2Loop (DSA.buildAdj2 (DSA.Graph.ofEdges l false).nodes l) t
          (Function.update (fun _ => (⊤ : ℕ∞)) s 0) (fun _ => none) [(0, s)]).1 t = ⊤
      then none
      else some ((DSA.chase
          (DSA.dijkstra2Loop (DSA.buildAdj2 (DSA.Graph.ofEdges l false).nodes l) t
            (Function.update (fun _ => (⊤ : ℕ∞)) s 0) (fun _ => none) [(0, s)]).2
          ((DSA.Graph.ofEdges l false).nodes.length + 1) t).reverse,
        (DSA.dijkstra2Loop (DSA.buildAdj2 (DSA.Graph.ofEdges l false).nodes l) t
          (Function.update (fun _ => (⊤ : ℕ∞)) s 0) (fun _ => none) [(0, s)]).1 t) := by
    unfold DSA.dijkstra2
    rw [if_neg hcond]
  refine ⟨h1, bfalse, ?_, ?_⟩
  · rw [hd2, ← h2]
    by_cases htop : (DSA.dijkstra2Loop (DSA.buildAdj2 (DSA.Graph.ofEdges l false).nodes l) t
        (Function.update (fun _ => (⊤ : ℕ∞)) s 0) (fun _ => none) [(0, s)]).1 t = ⊤
    · rw [if_pos htop]
      simp [htop]
    · rw [if_neg htop]
      simp [htop]
  · intro p dd hsome
    rw [hd2] at hsome
    by_cases htop : (DSA.dijkstra2Loop (DSA.buildAdj2 (DSA.Graph.ofEdges l false).nodes l) t
        (Function.update (fun _ => (⊤ : ℕ∞)) s 0) (fun _ => none) [(0, s)]).1 t = ⊤
    · rw [if_pos htop] at hsome
      exact absurd hsome (by simp)
    · rw [if_neg htop] at hsome
      have := (Option.some.injEq .. ▸ hsome : _)
      obtain ⟨_, hdd⟩ := Prod.mk.injEq .. ▸ this
      rw [← hdd, h2]

/-- Witness for C2 on the triangle-with-tail graph
0 —2— 1, 1 —2— 2, 0 —5— 2. -/
theorem c2_shortest_path_agreement_witness :
    (0 ∈ (DSA.Graph.ofEdges [(0, 1, 2), (1, 2, 2), (0, 2, 5)] false).nodes_set) ∧
    (2 ∈ (DSA.Graph.ofEdges [(0, 1, 2), (1, 2, 2), (0, 2, 5)] false).nodes_set) ∧
    ((DSA.bellman_ford (DSA.Graph.ofEdges [(0, 1, 2), (1, 2, 2), (0, 2, 5)] false) 0).1 2 =
      (DSA.dijkstra (DSA.Graph.ofEdges [(0, 1, 2), (1, 2, 2), (0, 2, 5)] false) 0).1 2 ∧
    (DSA.bellman_ford (DSA.Graph.ofEdges [(0, 1, 2), (1, 2, 2), (0, 2, 5)] false) 0).2.2 = false ∧
    (DSA.dijkstra2 (DSA.Graph.ofEdges [(0, 1, 2), (1, 2, 2), (0, 2, 5)] false).nodes
        [(0, 1, 2), (1, 2, 2), (0, 2, 5)] 0 2 = none ↔
      (DSA.dijkstra (DSA.Graph.ofEdges [(0, 1, 2), (1, 2, 2), (0, 2, 5)] false) 0).1 2 = ⊤) ∧
    (∀ (p : List ℕ) (dd : ℕ∞),
      DSA.dijkstra2 (DSA.Graph.ofEdges [(0, 1, 2), (1, 2, 2), (0, 2, 5)] false).nodes
        [(0, 1, 2), (1, 2, 2), (0, 2, 5)] 0 2 = some (p, dd) →
      dd = (DSA.dijkstra (DSA.Graph.ofEdges [(0, 1, 2), (1, 2, 2), (0, 2, 5)] false) 0).1 2)) :=
  ⟨by decide, by decide,
    c2_shortest_path_agreement [(0, 1, 2), (1, 2, 2), (0, 2, 5)] 0 2 (by decide) (by decide)⟩

/-- C1: for every graph with non-negative edge weights (weights are
naturals here) and every source node of the graph, `dijkstra(graph,
source)` returns a `dist` map in which `dist[v]` equals the length of a
shortest path from `source` to `v` for every node `v` — `dist[v]` is the
weight of some walk from the source and is bounded by the weight of every
such walk — and `dist[v] = math.inf` (`⊤`) exactly when `v` is
unreachable from `source`. -/
theorem c1_dijkstra_shortest_paths (g : DSA.Graph) (s : ℕ)
    (hs : s ∈ g.nodes_set) :
    ∀ v ∈ g.nodes_set,
      (((DSA.dijkstra g s).1 v = ⊤) ↔ ¬ DSA.ReachableW g.adj s v) ∧
      (∀ steps, DSA.IsWalk g.adj s steps v →
        (DSA.dijkstra g s).1 v ≤ (DSA.walkWeight steps : ℕ∞)) ∧
      ((DSA.dijkstra g s).1 v ≠ ⊤ →
        ∃ steps, DSA.IsWalk g.adj s steps v ∧
          (DSA.walkWeight steps : ℕ∞) = (DSA.dijkstra g s).1 v) := by
  intro v _
  have hspec := DSA.dijkstraLoop_spec g s
    (Function.update (fun _ => (⊤ : ℕ∞)) s 0) (fun _ => none) [(0, s)]
    (DSA.djInv_init g.adj s)
  have hres : DSA.dijkstra g s =
      DSA.dijkstraLoop g (Function.update (fun _ => (⊤ : ℕ∞)) s 0)
        (fun _ => none) [(0, s)] := by
    unfold DSA.dijkstra
    rw [if_pos hs]
  rw [hres]
  obtain ⟨hach, hlb⟩ := hspec
  refine ⟨⟨?_, ?_⟩, fun steps h => hlb v steps h, fun h => hach v h⟩
  · intro htop hreach
    obtain ⟨steps, hsteps⟩ := hreach
    have := hlb v steps hsteps
    rw [htop] at this
    simp at this
  · intro hunreach
    by_contra htop
    obtain ⟨steps, hsteps, _⟩ := hach v htop
    exact hunreach ⟨steps, hsteps⟩

/-- Witness for C1 on the two-edge graph 0 —5— 1 —3— 2. -/
theorem c1_dijkstra_shortest_paths_witness :
    (0 ∈ (DSA.Graph.ofEdges [(0, 1, 5), (1, 2, 3)] false).nodes_set) ∧
    (∀ v ∈ (DSA.Graph.ofEdges [(0, 1, 5), (1, 2, 3)] false).nodes_set,
      (((DSA.dijkstra (DSA.Graph.ofEdges [(0, 1, 5), (1, 2, 3)] false) 0).1 v = ⊤) ↔
        ¬ DSA.ReachableW (DSA.Graph.ofEdges [(0, 1, 5), (1, 2, 3)] false).adj 0 v) ∧
      (∀ steps, DSA.IsWalk (DSA.Graph.ofEdges [(0, 1, 5), (1, 2, 3)] false).adj 0 steps v →
        (DSA.dijkstra (DSA.Graph.ofEdges [(0, 1, 5), (1, 2, 3)] false) 0).1 v ≤
          (DSA.walkWeight steps : ℕ∞)) ∧
      ((DSA.dijkstra (DSA.Graph.ofEdges [(0, 1, 5), (1, 2, 3)] false) 0).1 v ≠ ⊤ →
        ∃ steps, DSA.IsWalk (DSA.Graph.ofEdges [(0, 1, 5), (1, 2, 3)] false).adj 0 steps v ∧
          (DSA.walkWeight steps : ℕ∞) =
            (DSA.dijkstra (DSA.Graph.ofEdges [(0, 1, 5), (1, 2, 3)] false) 0).1 v)) :=
  ⟨by decide, c1_dijkstra_shortest_paths _ 0 (by decide)⟩

/-- C10: for all integers `n` and `r`, `nPr` and `nCr` are total functions
that return `0` whenever `r > n`, `n < 0` or `r < 0`, and otherwise return
`n!/(n-r)!` and `n!/(r!·(n-r)!)` respectively. -/
theorem c10_nPr_nCr_total (n r : ℤ) :
    ((r > n ∨ n < 0 ∨ r < 0) → DSA.nPr n r = 0 ∧ DSA.nCr n r = 0) ∧
    (¬(r > n ∨ n < 0 ∨ r < 0) →
      DSA.nPr n r = (Nat.factorial n.toNat / Nat.factorial (n.toNat - r.toNat) : ℕ) ∧
      DSA.nCr n r =
        (Nat.factorial n.toNat /
          (Nat.factorial r.toNat * Nat.factorial (n.toNat - r.toNat)) : ℕ)) := by
  constructor
  · intro h
    simp [DSA.nPr, DSA.nCr, h]
  · intro h
    push_neg at h
    obtain ⟨hrn, hn, hr⟩ := h
    have hrn' : r.toNat ≤ n.toNat := Int.toNat_le_toNat hrn
    constructor
    · rw [DSA.nPr, if_neg (by push_neg; exact ⟨hrn, hn, hr⟩)]
      rw [Nat.descFactorial_eq_div hrn']
    · rw [DSA.nCr, if_neg (by push_neg; exact ⟨hrn, hn, hr⟩)]
      rw [Nat.choose_eq_factorial_div_factorial hrn']

/-- Witness for C10 at n = 5, r = 2 and at the guard case n = 3, r = 7. -/
theorem c10_nPr_nCr_total_witness :
    ((¬((2 : ℤ) > 5 ∨ (5 : ℤ) < 0 ∨ (2 : ℤ) < 0) →
      DSA.nPr 5 2 = (Nat.factorial (5 : ℤ).toNat /
        Nat.factorial ((5 : ℤ).toNat - (2 : ℤ).toNat) : ℕ) ∧
      DSA.nCr 5 2 = (Nat.factorial (5 : ℤ).toNat /
        (Nat.factorial (2 : ℤ).toNat *
          Nat.factorial ((5 : ℤ).toNat - (2 : ℤ).toNat)) : ℕ)) ∧
    (((7 : ℤ) > 3 ∨ (3 : ℤ) < 0 ∨ (7 : ℤ) < 0) →
      DSA.nPr 3 7 = 0 ∧ DSA.nCr 3 7 = 0)) :=
  ⟨(c10_nPr_nCr_total 5 2).2, (c10_nPr_nCr_total 3 7).1⟩

namespace DSA

/-! ## Kahn topological sort of the logic-circuit evaluator (lines 6608–6632)

```
def _topological_order(self):
    deps = {gid: set() for gid in self.gates}
    rev = {gid: set() for gid in self.gates}
    for w in self.wires:
        src = w['from']
        dst = w['to'][0]
        deps[dst].add(src)
        rev[src].add(dst)
    L = []
    S = [n for n, d in deps.items() if len(d) == 0]
    while S:
        n = S.pop()
        L.append(n)
        for m in list(rev[n]):
            deps[m].remove(n)
            rev[n].remove(m)
            if len(deps[m]) == 0:
                S.append(m)
    if any(len(d) > 0 for d in deps.values()):
        raise ValueError('Cycle detected in circuit. Remove feedback loops before evaluation.')
    return L
```

Gates are their ids (a `Finset ℕ`); a wire is `(from, to-gate)` (the pin
index plays no role here).  The worklist `S` is a stack in Python
(`pop()`/`append()` at the end); it is modelled with its top at the head,
and set-iteration orders (dict order, `list(rev[n])`) are fixed to sorted
order.  `raise ValueError(msg)` is `Except.error msg`. -/

def WPath (wires : List (ℕ × ℕ)) : ℕ → List ℕ → ℕ → Prop
  | u, [], v => u = v
  | u, x :: rest, v => (u, x) ∈ wires ∧ WPath wires x rest v

/-- A directed cycle in the graph induced by the wires. -/
def HasCycle (wires : List (ℕ × ℕ)) : Prop :=
  ∃ (g : ℕ) (p : List ℕ), p ≠ [] ∧ WPath wires g p g

/-- The two loops filling `deps` and `rev` from the wires. -/
def buildDeps (wires : List (ℕ × ℕ)) : (ℕ → Finset ℕ) × (ℕ → Finset ℕ) :=
  wires.foldl
    (fun dr w =>
      (Function.update dr.1 w.2 (insert w.1 (dr.1 w.2)),
       Function.update dr.2 w.1 (insert w.2 (dr.2 w.1))))
    (fun _ => ∅, fun _ => ∅)

/-- The `for m in list(rev[n])` loop: remove the processed gate `n` from
each successor's dependency set, clear `rev[n]`, and push onto the stack
every successor whose dependency set became empty. -/
def processRev (n : ℕ) : List ℕ → (ℕ → Finset ℕ) → (ℕ → Finset ℕ) → List ℕ →
    (ℕ → Finset ℕ) × (ℕ → Finset ℕ) × List ℕ
  | [], dp, rv, s => (dp, rv, s)
  | m :: ms, dp, rv, s =>
      processRev n ms (Function.update dp m ((dp m).erase n))
        (Function.update rv n ((rv n).erase m))
        (if (dp m).erase n = ∅ then m :: s else s)

theorem processRev_dp (n : ℕ) :
    ∀ (ms : List ℕ) (dp rv : ℕ → Finset ℕ) (s : List ℕ) (x : ℕ),
      (processRev n ms dp rv s).1 x =
        if x ∈ ms then (dp x).erase n else dp x := by
  intro ms
  induction ms with
  | nil => intro dp rv s x; simp [processRev]
  | cons m ms ih =>
      intro dp rv s x
      show (processRev n ms _ _ _).1 x = _
      rw [ih]
      by_cases hx : x ∈ ms
      · rw [if_pos hx, if_pos (List.mem_cons_of_mem _ hx)]
        rcases eq_or_ne x m with rfl | hxm
        · rw [Function.update_same, Finset.erase_idem]
        · rw [Function.update_noteq hxm]
      · rw [if_neg hx]
        rcases eq_or_ne x m with rfl | hxm
        · rw [Function.update_same, if_pos (List.mem_cons_self _ _)]
        · rw [Function.update_noteq hxm,
            if_neg (by simp [hx, hxm])]

theorem processRev_rv (n : ℕ) :
    ∀ (ms : List ℕ) (dp rv : ℕ → Finset ℕ) (s : List ℕ),
      (processRev n ms dp rv s).2.1 =
        Function.update rv n (ms.foldl Finset.erase (rv n)) := by
  intro ms
  induction ms with
  | nil =>
      intro dp rv s
      show rv = _
      rw [List.foldl_nil, Function.update_eq_self]
  | cons m ms ih =>
      intro dp rv s
      show (processRev n ms _ _ _).2.1 = _
      rw [ih, List.foldl_cons]
      rw [Function.update_idem, Function.update_same]

theorem processRev_s_mem (n : ℕ) :
    ∀ (ms : List ℕ) (dp rv : ℕ → Finset ℕ) (s : List ℕ) (x : ℕ), ms.Nodup →
      (x ∈ (processRev n ms dp rv s).2.2 ↔
        x ∈ s ∨ (x ∈ ms ∧ (dp x).erase n = ∅)) := by
  intro ms
  induction ms with
  | nil => intro dp rv s x _; simp [processRev]
  | cons m ms ih =>
      intro dp rv s x hnd
      obtain ⟨hm, hnd'⟩ := List.nodup_cons.1 hnd
      show x ∈ (processRev n ms _ _ _).2.2 ↔ _
      rw [ih _ _ _ x hnd']
      have hdp : ∀ y ∈ ms, Function.update dp m ((dp m).erase n) y = dp y := by
        intro y hy
        have hym : y ≠ m := fun h => hm (h ▸ hy)
        exact Function.update_noteq hym _ _
      constructor
      · rintro (hx | ⟨hx, hempty⟩)
        · by_cases hc : (dp m).erase n = ∅
          · rw [if_pos hc] at hx
            rcases List.mem_cons.1 hx with rfl | hx
            · exact .inr ⟨List.mem_cons_self _ _, hc⟩
            · exact .inl hx
          · rw [if_neg hc] at hx
            exact .inl hx
        · rw [hdp x hx] at hempty
          exact .inr ⟨List.mem_cons_of_mem _ hx, hempty⟩
      · rintro (hx | ⟨hx, hempty⟩)
        · left
          by_cases hc : (dp m).erase n = ∅
          · rw [if_pos hc]; exact List.mem_cons_of_mem _ hx
          · rw [if_neg hc]; exact hx
        · rcases List.mem_cons.1 hx with rfl | hx
          · left
            rw [if_pos hempty]
            exact List.mem_cons_self _ _
          · right
            rw [hdp x hx]
            exact ⟨hx, hempty⟩

theorem processRev_s_len (n : ℕ) :
    ∀ (ms : List ℕ) (dp rv : ℕ → Finset ℕ) (s : List ℕ),
      (processRev n ms dp rv s).2.2.length ≤ s.length + ms.length := by
  intro ms
  induction ms with
  | nil => intro dp rv s; simp [processRev]
  | cons m ms ih =>
      intro dp rv s
      show (processRev n ms _ _ _).2.2.length ≤ _
      refine le_trans (ih _ _ _) ?_
      by_cases hc : (dp m).erase n = ∅
      · rw [if_pos hc]
        simp only [List.length_cons]
        omega
      · rw [if_neg hc]
        simp only [List.length_cons]
        omega

theorem foldl_erase_subset :
    ∀ (l : List ℕ) (t : Finset ℕ), l.foldl Finset.erase t ⊆ t := by
  intro l
  induction l with
  | nil => intro t; exact fun x h => h
  | cons m ms ih =>
      intro t
      rw [List.foldl_cons]
      exact fun x h => Finset.erase_subset _ _ (ih _ h)

theorem foldl_erase_self :
    ∀ (l : List ℕ) (t : Finset ℕ), (∀ x ∈ t, x ∈ l) →
      l.foldl Finset.erase t = ∅ := by
  intro l
  induction l with
  | nil =>
      intro t ht
      rw [List.foldl_nil]
      exact Finset.eq_empty_of_forall_not_mem fun x hx => by simpa using ht x hx
  | cons m ms ih =>
      intro t ht
      rw [List.foldl_cons]
      refine ih _ ?_
      intro x hx
      have hxt := Finset.mem_of_mem_erase hx
      rcases List.mem_cons.1 (ht x hxt) with rfl | h
      · exact absurd rfl (Finset.ne_of_mem_erase hx)
      · exact h

end DSA

namespace DSA

theorem buildDeps_char (wires : List (ℕ × ℕ)) :
    (∀ x m, x ∈ (buildDeps wires).1 m ↔ (x, m) ∈ wires) ∧
    (∀ n m, m ∈ (buildDeps wires).2 n ↔ (n, m) ∈ wires) := by
  suffices h : ∀ (dr : (ℕ → Finset ℕ) × (ℕ → Finset ℕ)),
      (∀ x m, x ∈ (wires.foldl
        (fun dr w =>
          (Function.update dr.1 w.2 (insert w.1 (dr.1 w.2)),
           Function.update dr.2 w.1 (insert w.2 (dr.2 w.1)))) dr).1 m ↔
        (x ∈ dr.1 m ∨ (x, m) ∈ wires)) ∧
      (∀ n m, m ∈ (wires.foldl
        (fun dr w =>
          (Function.update dr.1 w.2 (insert w.1 (dr.1 w.2)),
           Function.update dr.2 w.1 (insert w.2 (dr.2 w.1)))) dr).2 n ↔
        (m ∈ dr.2 n ∨ (n, m) ∈ wires)) by
    obtain ⟨h1, h2⟩ := h (fun _ => ∅, fun _ => ∅)
    constructor
    · intro x m
      rw [buildDeps, h1 x m]
      simp
    · intro n m
      rw [buildDeps, h2 n m]
      simp
  induction wires with
  | nil => intro dr; simp
  | cons w rest ih =>
      intro dr
      obtain ⟨w1, w2⟩ := w
      rw [List.foldl_cons]
      obtain ⟨ih1, ih2⟩ := ih
        (Function.update dr.1 w2 (insert w1 (dr.1 w2)),
         Function.update dr.2 w1 (insert w2 (dr.2 w1)))
      dsimp only at ih1 ih2
      constructor
      · intro x m
        rw [ih1 x m]
        rcases eq_or_ne m w2 with rfl | hm
        · rw [Function.update_same]
          simp only [Finset.mem_insert, List.mem_cons, Prod.mk.injEq]
          tauto
        · rw [Function.update_noteq hm]
          simp only [List.mem_cons, Prod.mk.injEq]
          constructor
          · rintro (hx | hx)
            · exact .inl hx
            · exact .inr (.inr hx)
          · rintro (hx | (⟨_, h2⟩ | hx))
            · exact .inl hx
            · exact absurd h2 hm
            · exact .inr hx
      · intro n m
        rw [ih2 n m]
        rcases eq_or_ne n w1 with rfl | hn
        · rw [Function.update_same]
          simp only [Finset.mem_insert, List.mem_cons, Prod.mk.injEq]
          tauto
        · rw [Function.update_noteq hn]
          simp only [List.mem_cons, Prod.mk.injEq]
          constructor
          · rintro (hx | hx)
            · exact .inl hx
            · exact .inr (.inr hx)
          · rintro (hx | (⟨h1, _⟩ | hx))
            · exact .inl hx
            · exact absurd h1 hn
            · exact .inr hx

theorem processRev_rv_subset (n : ℕ) (ms : List ℕ) (dp rv : ℕ → Finset ℕ)
    (s : List ℕ) (k m : ℕ) (h : m ∈ (processRev n ms dp rv s).2.1 k) :
    m ∈ rv k := by
  rw [processRev_rv] at h
  rcases eq_or_ne k n with rfl | hk
  · rw [Function.update_same] at h
    exact foldl_erase_subset ms (rv k) h
  · rw [Function.update_noteq hk] at h
    exact h

theorem kahn_stack_gates (gates : Finset ℕ) (dp rv : ℕ → Finset ℕ) (n : ℕ)
    (rest : List ℕ) (hS : ∀ x ∈ n :: rest, x ∈ gates)
    (hrv : ∀ k m, m ∈ rv k → k ∈ gates ∧ m ∈ gates) :
    ∀ x ∈ (processRev n ((rv n).sort (· ≤ ·)) dp rv rest).2.2, x ∈ gates := by
  intro x hx
  rw [processRev_s_mem n _ dp rv rest x (Finset.sort_nodup _ _)] at hx
  rcases hx with hx | ⟨hx, _⟩
  · exact hS x (List.mem_cons_of_mem _ hx)
  · exact (hrv n x ((Finset.mem_sort _).1 hx)).2

theorem kahn_rev_gates (gates : Finset ℕ) (dp rv : ℕ → Finset ℕ) (n : ℕ)
    (rest : List ℕ) (hrv : ∀ k m, m ∈ rv k → k ∈ gates ∧ m ∈ gates) :
    ∀ k m, m ∈ (processRev n ((rv n).sort (· ≤ ·)) dp rv rest).2.1 k →
      k ∈ gates ∧ m ∈ gates := by
  intro k m hm
  exact hrv k m (processRev_rv_subset n _ dp rv rest k m hm)

/-- The `while S:` loop.  The two propositional arguments record that the
stack holds gate ids and that `rev` only mentions gate ids; they justify
termination. -/
def kahnLoop (gates : Finset ℕ) (dp rv : ℕ → Finset ℕ) (S L : List ℕ)
    (hS : ∀ x ∈ S, x ∈ gates)
    (hrv : ∀ n m, m ∈ rv n → n ∈ gates ∧ m ∈ gates) :
    (ℕ → Finset ℕ) × List ℕ :=
  match S with
  | [] => (dp, L)
  | n :: rest =>
      kahnLoop gates
        (processRev n ((rv n).sort (· ≤ ·)) dp rv rest).1
        (processRev n ((rv n).sort (· ≤ ·)) dp rv rest).2.1
        (processRev n ((rv n).sort (· ≤ ·)) dp rv rest).2.2
        (L ++ [n])
        (kahn_stack_gates gates dp rv n rest hS hrv)
        (kahn_rev_gates gates dp rv n rest hrv)
termination_by (∑ g ∈ gates, (rv g).card) + S.length
decreasing_by
  have hn : n ∈ gates := hS n (List.mem_cons_self _ _)
  have hrv' : (processRev n ((rv n).sort (· ≤ ·)) dp rv rest).2.1 =
      Function.update rv n
        (((rv n).sort (· ≤ ·)).foldl Finset.erase (rv n)) := processRev_rv ..
  have hempty : ((rv n).sort (· ≤ ·)).foldl Finset.erase (rv n) = ∅ :=
    foldl_erase_self _ _ (fun x hx => (Finset.mem_sort _).2 hx)
  have hsum : ∑ g ∈ gates,
      ((processRev n ((rv n).sort (· ≤ ·)) dp rv rest).2.1 g).card =
      ∑ g ∈ gates, (rv g).card - (rv n).card := by
    rw [hrv', hempty]
    rw [← Finset.sum_erase_add _ _ hn, ← Finset.sum_erase_add _ (fun g => (rv g).card) hn]
    have heq : ∑ g ∈ gates.erase n, (Function.update rv n ∅ g).card =
        ∑ g ∈ gates.erase n, (rv g).card :=
      Finset.sum_congr rfl fun g hg => by
        rw [Function.update_noteq (Finset.ne_of_mem_erase hg)]
    rw [heq, Function.update_same]
    simp
  have hlen : (processRev n ((rv n).sort (· ≤ ·)) dp rv rest).2.2.length ≤
      rest.length + (rv n).card := by
    refine le_trans (processRev_s_len ..) ?_
    rw [Finset.length_sort]
  have hsub : (rv n).card ≤ ∑ g ∈ gates, (rv g).card := by
    exact Finset.single_le_sum (f := fun g => (rv g).card) (fun g _ => Nat.zero_le _) hn
  simp only [List.length_cons]
  omega

/-- `_topological_order` for a circuit whose wires join existing gates
(`_add_wire` only ever creates such wires): Kahn's algorithm, then
`raise ValueError` when some gate still has unresolved dependencies. -/
theorem topo_hS0 (gates : Finset ℕ) (wires : List (ℕ × ℕ)) :
    ∀ x ∈ (gates.sort (· ≤ ·)).filter (fun g => (buildDeps wires).1 g = ∅),
      x ∈ gates := by
  intro x hx
  exact (Finset.mem_sort _).1 (List.mem_of_mem_filter hx)

theorem topo_hrv0 (gates : Finset ℕ) (wires : List (ℕ × ℕ))
    (hw : ∀ w ∈ wires, w.1 ∈ gates ∧ w.2 ∈ gates) :
    ∀ n m, m ∈ (buildDeps wires).2 n → n ∈ gates ∧ m ∈ gates := by
  intro n m hm
  exact hw (n, m) (((buildDeps_char wires).2 n m).1 hm)

def topologicalOrder (gates : Finset ℕ) (wires : List (ℕ × ℕ))
    (hw : ∀ w ∈ wires, w.1 ∈ gates ∧ w.2 ∈ gates) : Except String (List ℕ) :=
  let r := kahnLoop gates (buildDeps wires).1 (buildDeps wires).2
    ((gates.sort (· ≤ ·)).filter (fun g => (buildDeps wires).1 g = ∅)) []
    (topo_hS0 gates wires) (topo_hrv0 gates wires hw)
  if ∃ g ∈ gates, r.1 g ≠ ∅ then
    Except.error "Cycle detected in circuit. Remove feedback loops before evaluation."
  else Except.ok r.2

end DSA

namespace DSA

/-- Invariant of the Kahn loop, relating the mutable `deps`/`rev` dicts,
the stack and the output list to the original wires. -/
structure KInv (gates : Finset ℕ) (wires : List (ℕ × ℕ)) (dp rv : ℕ → Finset ℕ)
    (S L : List ℕ) : Prop where
  sub_S : ∀ x ∈ S, x ∈ gates
  sub_L : ∀ x ∈ L, x ∈ gates
  nd_S : S.Nodup
  nd_L : L.Nodup
  disj : ∀ x ∈ S, x ∉ L
  dp_char : ∀ x m, x ∈ dp m ↔ ((x, m) ∈ wires ∧ x ∉ L)
  sync : ∀ n m, m ∈ rv n ↔ n ∈ dp m
  ready : ∀ g ∈ gates, g ∉ L → (dp g = ∅ ↔ g ∈ S)
  order : ∀ w ∈ wires, w.2 ∈ L → w.1 ∈ L ∧ L.indexOf w.1 < L.indexOf w.2

theorem kInv_dp_empty_of_mem_L {gates : Finset ℕ} {wires : List (ℕ × ℕ)}
    {dp rv : ℕ → Finset ℕ} {S L : List ℕ}
    (inv : KInv gates wires dp rv S L) {x : ℕ} (hx : x ∈ L) : dp x = ∅ := by
  refine Finset.eq_empty_of_forall_not_mem fun y hy => ?_
  obtain ⟨hwire, hyL⟩ := (inv.dp_char y x).1 hy
  exact hyL (inv.order (y, x) hwire hx).1

/-- One iteration of the Kahn loop preserves the invariant. -/
theorem kInv_step {gates : Finset ℕ} {wires : List (ℕ × ℕ)}
    {dp rv : ℕ → Finset ℕ} {n : ℕ} {rest L : List ℕ}
    (hw : ∀ w ∈ wires, w.1 ∈ gates ∧ w.2 ∈ gates)
    (inv : KInv gates wires dp rv (n :: rest) L) :
    KInv gates wires
      (processRev n ((rv n).sort (· ≤ ·)) dp rv rest).1
      (processRev n ((rv n).sort (· ≤ ·)) dp rv rest).2.1
      (processRev n ((rv n).sort (· ≤ ·)) dp rv rest).2.2
      (L ++ [n]) := by
  have hnd_ms : ((rv n).sort (· ≤ ·)).Nodup := Finset.sort_nodup _ _
  have hms_mem : ∀ x, x ∈ (rv n).sort (· ≤ ·) ↔ x ∈ rv n := by
    intro x
    exact Finset.mem_sort _
  have hnG : n ∈ gates := inv.sub_S n (List.mem_cons_self _ _)
  have hnL : n ∉ L := inv.disj n (List.mem_cons_self _ _)
  have hnS : n ∉ rest := (List.nodup_cons.1 inv.nd_S).1
  have hdpn : dp n = ∅ :=
    (inv.ready n hnG hnL).2 (List.mem_cons_self _ _)
  have hSmem : ∀ x, x ∈ (processRev n ((rv n).sort (· ≤ ·)) dp rv rest).2.2 ↔
      (x ∈ rest ∨ (x ∈ rv n ∧ (dp x).erase n = ∅)) := by
    intro x
    rw [processRev_s_mem n _ dp rv rest x hnd_ms, hms_mem]
  have hdp : ∀ x, (processRev n ((rv n).sort (· ≤ ·)) dp rv rest).1 x =
      if x ∈ rv n then (dp x).erase n else dp x := by
    intro x
    rw [processRev_dp]
    by_cases hx : x ∈ rv n
    · rw [if_pos ((hms_mem x).2 hx), if_pos hx]
    · rw [if_neg (fun h => hx ((hms_mem x).1 h)), if_neg hx]
  have hrv : (processRev n ((rv n).sort (· ≤ ·)) dp rv rest).2.1 =
      Function.update rv n ∅ := by
    rw [processRev_rv, foldl_erase_self _ _ (fun x hx => (hms_mem x).2 hx)]
  -- the new dependency characterisation
  have hdp_char : ∀ x m, x ∈ (processRev n ((rv n).sort (· ≤ ·)) dp rv rest).1 m ↔
      ((x, m) ∈ wires ∧ x ∉ L ++ [n]) := by
    intro x m
    rw [hdp]
    by_cases hxn : x = n
    · constructor
      · intro hmem
        by_cases hm : m ∈ rv n
        · rw [if_pos hm] at hmem
          exact absurd hxn (Finset.ne_of_mem_erase hmem)
        · rw [if_neg hm] at hmem
          rw [hxn] at hmem
          exact absurd ((inv.sync n m).2 hmem) hm
      · rintro ⟨_, habs⟩
        rw [hxn] at habs
        exact absurd (List.mem_append.2 (.inr (List.mem_singleton_self _))) habs
    · have : x ∈ (if m ∈ rv n then (dp m).erase n else dp m) ↔ x ∈ dp m := by
        by_cases hm : m ∈ rv n
        · rw [if_pos hm, Finset.mem_erase]
          simp [hxn]
        · rw [if_neg hm]
      rw [this, inv.dp_char]
      simp only [List.mem_append, List.mem_singleton]
      tauto
  constructor
  · -- sub_S
    intro x hx
    rcases (hSmem x).1 hx with hx | ⟨hx, _⟩
    · exact inv.sub_S x (List.mem_cons_of_mem _ hx)
    · exact (hw (n, x) ((inv.dp_char n x).1 ((inv.sync n x).1 hx)).1).2
  · -- sub_L
    intro x hx
    rcases List.mem_append.1 hx with hx | hx
    · exact inv.sub_L x hx
    · rw [List.mem_singleton.1 hx]
      exact hnG
  · -- nd_S
    have hnodup : ∀ (ms : List ℕ) (dp0 rv0 : ℕ → Finset ℕ) (s : List ℕ),
        ms.Nodup → s.Nodup → (∀ x ∈ ms, n ∈ dp0 x) → (∀ x ∈ s, dp0 x = ∅) →
        (processRev n ms dp0 rv0 s).2.2.Nodup := by
      intro ms
      induction ms with
      | nil => intro dp0 rv0 s _ hs _ _; exact hs
      | cons m ms ih =>
          intro dp0 rv0 s hnd hs hmd hsd
          obtain ⟨hm, hnd'⟩ := List.nodup_cons.1 hnd
          show (processRev n ms _ _ _).2.2.Nodup
          have hupd : ∀ y ∈ ms, Function.update dp0 m ((dp0 m).erase n) y = dp0 y := by
            intro y hy
            have hym : y ≠ m := fun h => hm (h ▸ hy)
            exact Function.update_noteq hym _ _
          by_cases hc : (dp0 m).erase n = ∅
          · rw [if_pos hc]
            refine ih _ _ _ hnd' ?_ ?_ ?_
            · refine List.nodup_cons.2 ⟨?_, hs⟩
              intro hms
              have h1 : dp0 m = ∅ := hsd m hms
              have h2 : n ∈ dp0 m := hmd m (List.mem_cons_self _ _)
              rw [h1] at h2
              simp at h2
            · intro y hy
              rw [hupd y hy]
              exact hmd y (List.mem_cons_of_mem _ hy)
            · intro y hy
              rcases List.mem_cons.1 hy with rfl | hy
              · rw [Function.update_same]
                exact hc
              · have hym : y ≠ m := by
                  intro h
                  have h1 : dp0 y = ∅ := hsd y hy
                  have h2 : n ∈ dp0 m := hmd m (List.mem_cons_self _ _)
                  rw [← h, h1] at h2
                  simp at h2
                rw [Function.update_noteq hym]
                exact hsd y hy
          · rw [if_neg hc]
            refine ih _ _ _ hnd' hs ?_ ?_
            · intro y hy
              rw [hupd y hy]
              exact hmd y (List.mem_cons_of_mem _ hy)
            · intro y hy
              have hym : y ≠ m := by
                intro h
                have h1 : dp0 y = ∅ := hsd y hy
                have h2 : n ∈ dp0 m := hmd m (List.mem_cons_self _ _)
                rw [← h, h1] at h2
                simp at h2
              rw [Function.update_noteq hym]
              exact hsd y hy
    refine hnodup _ dp rv rest hnd_ms (List.nodup_cons.1 inv.nd_S).2 ?_ ?_
    · intro x hx
      exact (inv.sync n x).1 ((hms_mem x).1 hx)
    · intro x hx
      have hxG : x ∈ gates := inv.sub_S x (List.mem_cons_of_mem _ hx)
      have hxL : x ∉ L := inv.disj x (List.mem_cons_of_mem _ hx)
      exact (inv.ready x hxG hxL).2 (List.mem_cons_of_mem _ hx)
  · -- nd_L
    rw [List.nodup_append]
    exact ⟨inv.nd_L, List.nodup_singleton _, by simpa using fun h => hnL h⟩
  · -- disj
    intro x hx
    rcases (hSmem x).1 hx with hx | ⟨hx, _⟩
    · intro hxl
      rcases List.mem_append.1 hxl with h | h
      · exact inv.disj x (List.mem_cons_of_mem _ hx) h
      · rw [List.mem_singleton.1 h] at hx
        exact hnS hx
    · have hn_in : n ∈ dp x := (inv.sync n x).1 hx
      obtain ⟨hwire, hnotL⟩ := (inv.dp_char n x).1 hn_in
      intro hxl
      rcases List.mem_append.1 hxl with h | h
      · exact absurd (kInv_dp_empty_of_mem_L inv h) (by
          intro he
          rw [he] at hn_in
          simp at hn_in)
      · rw [List.mem_singleton.1 h] at hn_in
        rw [hdpn] at hn_in
        simp at hn_in
  · -- dp_char
    exact hdp_char
  · -- sync
    intro k m
    rw [hrv]
    rcases eq_or_ne k n with rfl | hk
    · rw [Function.update_same]
      constructor
      · intro h; simp at h
      · intro h
        obtain ⟨_, habs⟩ := (hdp_char k m).1 h
        exact absurd (List.mem_append.2 (.inr (List.mem_singleton_self _))) habs
    · rw [Function.update_noteq hk]
      rw [inv.sync k m, hdp]
      by_cases hm : m ∈ rv n
      · rw [if_pos hm, Finset.mem_erase]
        simp [hk]
      · rw [if_neg hm]
  · -- ready
    intro g hg hgL
    have hgn : g ≠ n := by
      intro h
      exact hgL (h ▸ List.mem_append.2 (.inr (List.mem_singleton_self _)))
    have hgL' : g ∉ L := fun h => hgL (List.mem_append.2 (.inl h))
    rw [hSmem, hdp]
    constructor
    · intro hemp
      by_cases hgS : g ∈ rest
      · exact .inl hgS
      · right
        have hgS' : g ∉ (n :: rest) := by
          simp [hgn, hgS]
        have hdpg : dp g ≠ ∅ := by
          intro h
          exact hgS' ((inv.ready g hg hgL').1 h)
        by_cases hm : g ∈ rv n
        · rw [if_pos hm] at hemp
          exact ⟨hm, hemp⟩
        · rw [if_neg hm] at hemp
          exact absurd hemp hdpg
    · rintro (hgS | ⟨hm, hemp⟩)
      · have hdpg : dp g = ∅ :=
          (inv.ready g hg hgL').2 (List.mem_cons_of_mem _ hgS)
        by_cases hm : g ∈ rv n
        · rw [if_pos hm, hdpg]
          exact Finset.erase_empty _
        · rw [if_neg hm]
          exact hdpg
      · rw [if_pos hm]
        exact hemp
  · -- order
    rintro ⟨w1, w2⟩ hwmem hw2
    rcases List.mem_append.1 hw2 with h2 | h2
    · obtain ⟨h1, hlt⟩ := inv.order (w1, w2) hwmem h2
      refine ⟨List.mem_append.2 (.inl h1), ?_⟩
      show (L ++ [n]).indexOf w1 < (L ++ [n]).indexOf w2
      rw [List.indexOf_append_of_mem h1, List.indexOf_append_of_mem h2]
      exact hlt
    · have h2e : w2 = n := List.mem_singleton.1 h2
      rw [h2e] at hwmem
      have hw1L : w1 ∈ L := by
        by_contra hw1L
        have hmem : w1 ∈ dp n := (inv.dp_char w1 n).2 ⟨hwmem, hw1L⟩
        rw [hdpn] at hmem
        simp at hmem
      refine ⟨List.mem_append.2 (.inl hw1L), ?_⟩
      show (L ++ [n]).indexOf w1 < (L ++ [n]).indexOf w2
      rw [h2e]
      rw [List.indexOf_append_of_mem hw1L, List.indexOf_append_of_not_mem hnL]
      have := List.indexOf_lt_length.2 hw1L
      simp only [List.indexOf_cons_self]
      omega

end DSA

namespace DSA

theorem kahnLoop_nil (gates : Finset ℕ) (dp rv : ℕ → Finset ℕ) (L : List ℕ)
    (hS : ∀ x ∈ ([] : List ℕ), x ∈ gates)
    (hrv : ∀ n m, m ∈ rv n → n ∈ gates ∧ m ∈ gates) :
    kahnLoop gates dp rv [] L hS hrv = (dp, L) := by
  rw [kahnLoop.eq_def]

theorem kahnLoop_cons (gates : Finset ℕ) (dp rv : ℕ → Finset ℕ) (n : ℕ)
    (rest L : List ℕ) (hS : ∀ x ∈ n :: rest, x ∈ gates)
    (hrv : ∀ k m, m ∈ rv k → k ∈ gates ∧ m ∈ gates) :
    kahnLoop gates dp rv (n :: rest) L hS hrv =
      kahnLoop gates
        (processRev n ((rv n).sort (· ≤ ·)) dp rv rest).1
        (processRev n ((rv n).sort (· ≤ ·)) dp rv rest).2.1
        (processRev n ((rv n).sort (· ≤ ·)) dp rv rest).2.2
        (L ++ [n]) (kahn_stack_gates gates dp rv n rest hS hrv)
        (kahn_rev_gates gates dp rv n rest hrv) := by
  rw [kahnLoop.eq_def]

theorem kahnLoop_spec (gates : Finset ℕ) (wires : List (ℕ × ℕ))
    (hw : ∀ w ∈ wires, w.1 ∈ gates ∧ w.2 ∈ gates) :
    ∀ (dp rv : ℕ → Finset ℕ) (S L : List ℕ)
      (hS : ∀ x ∈ S, x ∈ gates)
      (hrv : ∀ n m, m ∈ rv n → n ∈ gates ∧ m ∈ gates),
      KInv gates wires dp rv S L →
      (∀ x m, x ∈ (kahnLoop gates dp rv S L hS hrv).1 m ↔
        ((x, m) ∈ wires ∧ x ∉ (kahnLoop gates dp rv S L hS hrv).2)) ∧
      (kahnLoop gates dp rv S L hS hrv).2.Nodup ∧
      (∀ x ∈ (kahnLoop gates dp rv S L hS hrv).2, x ∈ gates) ∧
      (∀ w ∈ wires, w.2 ∈ (kahnLoop gates dp rv S L hS hrv).2 →
        w.1 ∈ (kahnLoop gates dp rv S L hS hrv).2 ∧
        (kahnLoop gates dp rv S L hS hrv).2.indexOf w.1 <
          (kahnLoop gates dp rv S L hS hrv).2.indexOf w.2) ∧
      (∀ g ∈ gates, g ∉ (kahnLoop gates dp rv S L hS hrv).2 →
        (kahnLoop gates dp rv S L hS hrv).1 g ≠ ∅) := by
  intro dp rv S L hS hrv
  induction dp, rv, S, L, hS, hrv using kahnLoop.induct gates with
  | case1 dp rv L hS hrv =>
      intro inv
      rw [kahnLoop_nil]
      refine ⟨inv.dp_char, inv.nd_L, inv.sub_L, ?_, ?_⟩
      · intro w hwmem h2
        exact inv.order w hwmem h2
      · intro g hg hgL hempty
        have := (inv.ready g hg hgL).1 hempty
        simp at this
  | case2 dp rv L a4 n rest a7 a8 ih =>
      intro inv
      rw [kahnLoop_cons]
      exact ih (kInv_step hw inv)

end DSA

namespace DSA

theorem kInv_init (gates : Finset ℕ) (wires : List (ℕ × ℕ)) :
    KInv gates wires (buildDeps wires).1 (buildDeps wires).2
      ((gates.sort (· ≤ ·)).filter (fun g => (buildDeps wires).1 g = ∅)) [] := by
  obtain ⟨hc1, hc2⟩ := buildDeps_char wires
  constructor
  · exact topo_hS0 gates wires
  · intro x hx; simp at hx
  · exact List.Nodup.filter _ (Finset.sort_nodup _ _)
  · exact List.nodup_nil
  · intro x _ hx; simp at hx
  · intro x m
    rw [hc1]
    simp
  · intro n m
    rw [hc2, hc1]
  · intro g hg _
    constructor
    · intro hemp
      refine List.mem_filter.2 ⟨(Finset.mem_sort _).2 hg, ?_⟩
      simp [hemp]
    · intro hmem
      have := (List.mem_filter.1 hmem).2
      simpa using this
  · intro w _ hw2; simp at hw2

theorem cycle_of_stuck (wires : List (ℕ × ℕ)) (D : Finset ℕ)
    (h0 : D.Nonempty) (hstep : ∀ g ∈ D, ∃ x, x ∈ D ∧ (x, g) ∈ wires) :
    HasCycle wires := by
  classical
  obtain ⟨g0, hg0⟩ := h0
  have hstep' : ∀ g, ∃ x, g ∈ D → (x ∈ D ∧ (x, g) ∈ wires) := by
    intro g
    by_cases hg : g ∈ D
    · obtain ⟨x, hx⟩ := hstep g hg
      exact ⟨x, fun _ => hx⟩
    · exact ⟨0, fun h => absurd h hg⟩
  choose pred hpred using hstep'
  have hseqD : ∀ k, pred^[k] g0 ∈ D := by
    intro k
    induction k with
    | zero => exact hg0
    | succ k ih =>
        rw [Function.iterate_succ_apply']
        exact (hpred _ ih).1
  have hseqW : ∀ k, (pred^[k + 1] g0, pred^[k] g0) ∈ wires := by
    intro k
    rw [Function.iterate_succ_apply']
    exact (hpred _ (hseqD k)).2
  have hmap : ∀ k ∈ Finset.range (D.card + 1), pred^[k] g0 ∈ D :=
    fun k _ => hseqD k
  obtain ⟨i, hi, j, hj, hij, heq⟩ :=
    Finset.exists_ne_map_eq_of_card_lt_of_maps_to
      (by rw [Finset.card_range]; omega) hmap
  have hpath : ∀ (d k : ℕ), ∃ p : List ℕ, p.length = d ∧
      WPath wires (pred^[k + d] g0) p (pred^[k] g0) := by
    intro d
    induction d with
    | zero => intro k; exact ⟨[], rfl, rfl⟩
    | succ d ih =>
        intro k
        obtain ⟨p, hl, hp⟩ := ih k
        refine ⟨pred^[k + d] g0 :: p, by simp [hl], ?_⟩
        have harrow : (pred^[k + d + 1] g0, pred^[k + d] g0) ∈ wires := hseqW (k + d)
        have : k + (d + 1) = k + d + 1 := by omega
        rw [this]
        exact ⟨harrow, hp⟩
  have hmk : ∀ (a b : ℕ), a < b → pred^[a] g0 = pred^[b] g0 → HasCycle wires := by
    intro a b hab habeq
    obtain ⟨p, hl, hp⟩ := hpath (b - a) a
    have hba : a + (b - a) = b := by omega
    rw [hba] at hp
    rw [← habeq] at hp
    refine ⟨pred^[a] g0, p, ?_, hp⟩
    intro h
    rw [h] at hl
    simp at hl
    omega
  rcases Nat.lt_or_ge i j with hlt | hge
  · exact hmk i j hlt heq
  · have hlt : j < i := by omega
    exact hmk j i hlt heq.symm

theorem wpath_index_lt {wires : List (ℕ × ℕ)} {LL : List ℕ}
    (horder : ∀ w ∈ wires, LL.indexOf w.1 < LL.indexOf w.2) :
    ∀ (p : List ℕ) (u v : ℕ), WPath wires u p v → p ≠ [] →
      LL.indexOf u < LL.indexOf v := by
  intro p
  induction p with
  | nil => intro u v _ hne; exact absurd rfl hne
  | cons x rest ih =>
      intro u v hp _
      obtain ⟨harrow, hrest⟩ := hp
      have h1 : LL.indexOf u < LL.indexOf x := horder (u, x) harrow
      rcases List.eq_nil_or_concat rest with rfl | ⟨_, _, hne⟩
      · have : x = v := hrest
        rw [← this]
        exact h1
      · have h2 : LL.indexOf x < LL.indexOf v :=
          ih x v hrest (by rw [hne]; simp)
        exact lt_trans h1 h2

end DSA

/-- C6: the logic-circuit evaluator's `_topological_order` raises
`ValueError` if and only if the directed graph over gates induced by the
wires contains a cycle; when it does not raise it returns a list
containing every gate id exactly once, in which every gate appears after
all gates wired into its inputs (so `evaluate_circuit` computes each
gate's output from already-computed input values). -/
theorem c6_topological_order_kahn (gates : Finset ℕ) (wires : List (ℕ × ℕ))
    (hw : ∀ w ∈ wires, w.1 ∈ gates ∧ w.2 ∈ gates) :
    ((DSA.topologicalOrder gates wires hw = Except.error
        "Cycle detected in circuit. Remove feedback loops before evaluation.") ↔
      DSA.HasCycle wires) ∧
    (∀ L, DSA.topologicalOrder gates wires hw = Except.ok L →
      L.Nodup ∧ (∀ g, g ∈ L ↔ g ∈ gates) ∧
      (∀ w ∈ wires, L.indexOf w.1 < L.indexOf w.2)) := by
  obtain ⟨rchar, rnodup, rsub, rorder, rstuck⟩ :=
    DSA.kahnLoop_spec gates wires hw (DSA.buildDeps wires).1 (DSA.buildDeps wires).2
      ((gates.sort (· ≤ ·)).filter (fun g => (DSA.buildDeps wires).1 g = ∅)) []
      (DSA.topo_hS0 gates wires) (DSA.topo_hrv0 gates wires hw)
      (DSA.kInv_init gates wires)
  have htop : DSA.topologicalOrder gates wires hw =
      if ∃ g ∈ gates,
        (DSA.kahnLoop gates (DSA.buildDeps wires).1 (DSA.buildDeps wires).2
          ((gates.sort (· ≤ ·)).filter (fun g => (DSA.buildDeps wires).1 g = ∅)) []
          (DSA.topo_hS0 gates wires) (DSA.topo_hrv0 gates wires hw)).1 g ≠ ∅ then
        Except.error "Cycle detected in circuit. Remove feedback loops before evaluation."
      else Except.ok
        (DSA.kahnLoop gates (DSA.buildDeps wires).1 (DSA.buildDeps wires).2
          ((gates.sort (· ≤ ·)).filter (fun g => (DSA.buildDeps wires).1 g = ∅)) []
          (DSA.topo_hS0 gates wires) (DSA.topo_hrv0 gates wires hw)).2 := rfl
  by_cases hcond : ∃ g ∈ gates,
      (DSA.kahnLoop gates (DSA.buildDeps wires).1 (DSA.buildDeps wires).2
        ((gates.sort (· ≤ ·)).filter (fun g => (DSA.buildDeps wires).1 g = ∅)) []
        (DSA.topo_hS0 gates wires) (DSA.topo_hrv0 gates wires hw)).1 g ≠ ∅
  · -- some gate still has dependencies: the code raises, and a cycle exists
    rw [htop, if_pos hcond]
    have hcycle : DSA.HasCycle wires := by
      obtain ⟨g0, hg0, hne⟩ := hcond
      refine DSA.cycle_of_stuck wires
        (gates.filter (fun g =>
          (DSA.kahnLoop gates (DSA.buildDeps wires).1 (DSA.buildDeps wires).2
            ((gates.sort (· ≤ ·)).filter (fun g => (DSA.buildDeps wires).1 g = ∅)) []
            (DSA.topo_hS0 gates wires) (DSA.topo_hrv0 gates wires hw)).1 g ≠ ∅))
        ⟨g0, Finset.mem_filter.2 ⟨hg0, by simpa using hne⟩⟩ ?_
      intro g hg
      obtain ⟨hgG, hgne⟩ := Finset.mem_filter.1 hg
      obtain ⟨x, hx⟩ := Finset.nonempty_iff_ne_empty.2 hgne
      obtain ⟨hwire, hxnot⟩ := (rchar x g).1 hx
      have hxG : x ∈ gates := (hw (x, g) hwire).1
      exact ⟨x, Finset.mem_filter.2 ⟨hxG, rstuck x hxG hxnot⟩, hwire⟩
    refine ⟨⟨fun _ => hcycle, fun _ => rfl⟩, ?_⟩
    intro L hL
    exact absurd hL (by simp)
  · -- the loop drained every gate: no cycle, and the order is returned
    have hall : ∀ g ∈ gates,
        g ∈ (DSA.kahnLoop gates (DSA.buildDeps wires).1 (DSA.buildDeps wires).2
          ((gates.sort (· ≤ ·)).filter (fun g => (DSA.buildDeps wires).1 g = ∅)) []
          (DSA.topo_hS0 gates wires) (DSA.topo_hrv0 gates wires hw)).2 := by
      intro g hg
      by_contra hnot
      exact hcond ⟨g, hg, rstuck g hg hnot⟩
    have horder : ∀ w ∈ wires,
        (DSA.kahnLoop gates (DSA.buildDeps wires).1 (DSA.buildDeps wires).2
          ((gates.sort (· ≤ ·)).filter (fun g => (DSA.buildDeps wires).1 g = ∅)) []
          (DSA.topo_hS0 gates wires) (DSA.topo_hrv0 gates wires hw)).2.indexOf w.1 <
        (DSA.kahnLoop gates (DSA.buildDeps wires).1 (DSA.buildDeps wires).2
          ((gates.sort (· ≤ ·)).filter (fun g => (DSA.buildDeps wires).1 g = ∅)) []
          (DSA.topo_hS0 gates wires) (DSA.topo_hrv0 gates wires hw)).2.indexOf w.2 := by
      intro w hwmem
      exact (rorder w hwmem (hall w.2 (hw w hwmem).2)).2
    have hnocycle : ¬ DSA.HasCycle wires := by
      rintro ⟨g, p, hpne, hp⟩
      exact absurd (DSA.wpath_index_lt horder p g g hp hpne) (lt_irrefl _)
    rw [htop, if_neg hcond]
    refine ⟨⟨fun h => absurd h (by simp), fun h => absurd h hnocycle⟩, ?_⟩
    rintro L hL
    rw [Except.ok.injEq] at hL
    subst hL
    refine ⟨rnodup, ?_, horder⟩
    intro g
    exact ⟨fun h => rsub g h, fun h => hall g h⟩

/-- Witness for C6 on the two-wire circuit 1 → 2 → 3. -/
theorem c6_topological_order_kahn_witness :
    (∀ w ∈ [(1, 2), (2, 3)], w.1 ∈ ({1, 2, 3} : Finset ℕ) ∧
      w.2 ∈ ({1, 2, 3} : Finset ℕ)) ∧
    (∀ hw : ∀ w ∈ [(1, 2), (2, 3)], w.1 ∈ ({1, 2, 3} : Finset ℕ) ∧
        w.2 ∈ ({1, 2, 3} : Finset ℕ),
      ((DSA.topologicalOrder {1, 2, 3} [(1, 2), (2, 3)] hw = Except.error
          "Cycle detected in circuit. Remove feedback loops before evaluation.") ↔
        DSA.HasCycle [(1, 2), (2, 3)]) ∧
      (∀ L, DSA.topologicalOrder {1, 2, 3} [(1, 2), (2, 3)] hw = Except.ok L →
        L.Nodup ∧ (∀ g, g ∈ L ↔ g ∈ ({1, 2, 3} : Finset ℕ)) ∧
        (∀ w ∈ [(1, 2), (2, 3)], L.indexOf w.1 < L.indexOf w.2))) :=
  ⟨by decide, fun hw => c6_topological_order_kahn {1, 2, 3} [(1, 2), (2, 3)] hw⟩

namespace DSA

/-! ## The graph-traversal visualizer (src/graph_traversal_visualizer.py)

State: `nodes` (a list of canvas coordinates), `edges` (a dict mapping a
node id to its adjacency list), `selected_node` and the click `mode`.
Events are the two mode buttons, a canvas click at integer coordinates
(`get_clicked_node` is the linear scan for a node within radius 20), and
Reset.  `run_dfs`/`run_bfs` run from node 0 with a visited set. -/

def dGet (d : List (ℕ × List ℕ)) (k : ℕ) : List ℕ :=
  match d with
  | [] => []
  | (k2, v) :: rest => if k2 = k then v else dGet rest k

/-- Python dict assignment `d[k] = v`. -/
def dSet (d : List (ℕ × List ℕ)) (k : ℕ) (v : List ℕ) : List (ℕ × List ℕ) :=
  match d with
  | [] => [(k, v)]
  | (k2, v2) :: rest =>
      if k2 = k then (k, v) :: rest else (k2, v2) :: dSet rest k v

def dKeys (d : List (ℕ × List ℕ)) : List ℕ := d.map Prod.fst

/-- All ids occurring in adjacency lists. -/
def dTargets (d : List (ℕ × List ℕ)) : Finset ℕ :=
  (d.flatMap Prod.snd).toFinset

theorem dGet_dSet (d : List (ℕ × List ℕ)) (k : ℕ) (v : List ℕ) (x : ℕ) :
    dGet (dSet d k v) x = if x = k then v else dGet d x := by
  induction d with
  | nil =>
      show dGet [(k, v)] x = _
      by_cases hx : x = k
      · subst hx; simp [dGet]
      · have hkx : ¬k = x := fun h => hx h.symm
        simp [dGet, hx, hkx]
  | cons e rest ih =>
      obtain ⟨k2, v2⟩ := e
      show dGet (if k2 = k then (k, v) :: rest else (k2, v2) :: dSet rest k v) x = _
      by_cases hk : k2 = k
      · rw [if_pos hk]
        subst hk
        show (if k2 = x then v else dGet rest x) = _
        by_cases hx : x = k2
        · rw [if_pos hx, if_pos hx.symm]
        · have hkx : ¬k2 = x := fun h => hx h.symm
          rw [if_neg hkx, if_neg hx]
          show _ = if k2 = x then v2 else dGet rest x
          rw [if_neg hkx]
      · rw [if_neg hk]
        show (if k2 = x then v2 else dGet (dSet rest k v) x) = _
        by_cases hkx : k2 = x
        · have hx : ¬x = k := fun h => hk (hkx.trans h)
          rw [if_pos hkx, if_neg hx]
          show _ = if k2 = x then v2 else dGet rest x
          rw [if_pos hkx]
        · rw [if_neg hkx, ih]
          by_cases hx : x = k
          · rw [if_pos hx, if_pos hx]
          · rw [if_neg hx, if_neg hx]
            show _ = if k2 = x then v2 else dGet rest x
            rw [if_neg hkx]

theorem dKeys_dSet_mem (d : List (ℕ × List ℕ)) (k : ℕ) (v : List ℕ)
    (hk : k ∈ dKeys d) : dKeys (dSet d k v) = dKeys d := by
  induction d with
  | nil => simp [dKeys] at hk
  | cons e rest ih =>
      obtain ⟨k2, v2⟩ := e
      show dKeys (if k2 = k then (k, v) :: rest else (k2, v2) :: dSet rest k v) = _
      by_cases h : k2 = k
      · rw [if_pos h, h]
        rfl
      · rw [if_neg h]
        have hk' : k ∈ dKeys rest := by
          simp only [dKeys, List.map_cons, List.mem_cons] at hk
          rcases hk with hk | hk
          · exact absurd hk.symm h
          · exact hk
        show k2 :: dKeys (dSet rest k v) = k2 :: dKeys rest
        rw [ih hk']

theorem dKeys_dSet_notmem (d : List (ℕ × List ℕ)) (k : ℕ) (v : List ℕ)
    (hk : k ∉ dKeys d) : dKeys (dSet d k v) = dKeys d ++ [k] := by
  induction d with
  | nil => rfl
  | cons e rest ih =>
      obtain ⟨k2, v2⟩ := e
      show dKeys (if k2 = k then (k, v) :: rest else (k2, v2) :: dSet rest k v) = _
      have hk2 : k2 ≠ k := by
        intro h
        exact hk (by simp [dKeys, h])
      rw [if_neg hk2]
      have hk' : k ∉ dKeys rest := fun h => hk (by simp [dKeys] at h ⊢; tauto)
      show k2 :: dKeys (dSet rest k v) = (k2 :: dKeys rest) ++ [k]
      rw [ih hk']
      rfl

theorem dGet_not_key (d : List (ℕ × List ℕ)) (x : ℕ) (hx : x ∉ dKeys d) :
    dGet d x = [] := by
  induction d with
  | nil => rfl
  | cons e rest ih =>
      obtain ⟨k2, v2⟩ := e
      have hk2 : k2 ≠ x := by
        intro h
        exact hx (by simp [dKeys, h])
      show (if k2 = x then v2 else dGet rest x) = []
      rw [if_neg hk2]
      exact ih fun h => hx (by simp [dKeys] at h ⊢; tauto)

theorem mem_dTargets (d : List (ℕ × List ℕ)) (k x : ℕ) (h : x ∈ dGet d k) :
    x ∈ dTargets d := by
  induction d with
  | nil => simp [dGet] at h
  | cons e rest ih =>
      obtain ⟨k2, v2⟩ := e
      simp only [dGet] at h
      simp only [dTargets, List.flatMap_cons, List.mem_toFinset, List.mem_append]
      by_cases hk : k2 = k
      · rw [if_pos hk] at h
        exact .inl h
      · rw [if_neg hk] at h
        exact .inr (by simpa [dTargets] using ih h)

end DSA

namespace DSA

inductive GMode where
  | noMode : GMode
  | nodeMode : GMode
  | edgeMode : GMode
deriving DecidableEq

/-- The mutable state of `GraphTraversalApp`: the node list (canvas
coordinates), the adjacency dict, the pending edge endpoint and the click
mode (canvas drawing is ignored). -/
structure GTState where
  nodes : List (ℤ × ℤ)
  edges : List (ℕ × List ℕ)
  selected_node : Option ℕ
  mode : GMode

/-- `__init__`: `nodes = []`, `edges = {}`, `selected_node = None`, `mode = None`. -/
def gtInit : GTState := ⟨[], [], none, GMode.noMode⟩

/-- `get_clicked_node`: first node index whose centre is within radius 20
of the click (`i` is the index of the list head). -/
def get_clicked_node : List (ℤ × ℤ) → ℤ → ℤ → ℕ → Option ℕ
  | [], _, _, _ => none
  | (nx, ny) :: rest, x, y, i =>
      if (nx - x) ^ 2 + (ny - y) ^ 2 ≤ 400 then some i
      else get_clicked_node rest x y (i + 1)

/-- `on_canvas_click`.  In node mode a node is appended and its (fresh)
dict key is assigned `[]`; in edge mode the two-click protocol adds the
pair of directed entries when the endpoints differ and the edge is new. -/
def on_canvas_click (s : GTState) (x y : ℤ) : GTState :=
  match s.mode with
  | GMode.nodeMode =>
      { s with nodes := s.nodes ++ [(x, y)],
               edges := dSet s.edges s.nodes.length [] }
  | GMode.edgeMode =>
      match get_clicked_node s.nodes x y 0 with
      | none => s
      | some clicked =>
          match s.selected_node with
          | none => { s with selected_node := some clicked }
          | some n1 =>
              if n1 ≠ clicked ∧ clicked ∉ dGet s.edges n1 then
                { s with
                    edges :=
                      dSet (dSet s.edges n1 (dGet s.edges n1 ++ [clicked]))
                        clicked
                        (dGet (dSet s.edges n1 (dGet s.edges n1 ++ [clicked]))
                          clicked ++ [n1]),
                    selected_node := none }
              else { s with selected_node := none }
  | GMode.noMode => s

inductive GEvent where
  | addNodeBtn : GEvent
  | addEdgeBtn : GEvent
  | resetBtn : GEvent
  | click : ℤ → ℤ → GEvent

/-- One GUI event: the `Add Node` / `Add Edge` buttons set the mode,
`Reset` clears everything, a canvas click runs `on_canvas_click`. -/
def gstep (s : GTState) (e : GEvent) : GTState :=
  match e with
  | GEvent.addNodeBtn => { s with mode := GMode.nodeMode }
  | GEvent.addEdgeBtn => { s with mode := GMode.edgeMode }
  | GEvent.resetBtn => gtInit
  | GEvent.click x y => on_canvas_click s x y

/-- The adjacency-structure invariant of the visualizer. -/
structure GTInv (s : GTState) : Prop where
  keys : dKeys s.edges = List.range s.nodes.length
  symm : ∀ i j, i ∈ dGet s.edges j ↔ j ∈ dGet s.edges i
  irrefl : ∀ i, i ∉ dGet s.edges i
  nodup : ∀ k, (dGet s.edges k).Nodup
  targets : ∀ k m, m ∈ dGet s.edges k → m < s.nodes.length
  sel : ∀ i, s.selected_node = some i → i < s.nodes.length

theorem gtInv_init : GTInv gtInit := by
  constructor
  · rfl
  · intro i j; simp [dGet, gtInit]
  · intro i h; simp [dGet, gtInit] at h
  · intro k; simp [dGet, gtInit]
  · intro k m h; simp [dGet, gtInit] at h
  · intro i h; simp [gtInit] at h

theorem get_clicked_node_lt (nodes : List (ℤ × ℤ)) (x y : ℤ) (i j : ℕ)
    (h : get_clicked_node nodes x y i = some j) : j < i + nodes.length := by
  induction nodes generalizing i with
  | nil => simp [get_clicked_node] at h
  | cons p rest ih =>
      obtain ⟨nx, ny⟩ := p
      simp only [get_clicked_node] at h
      by_cases hc : (nx - x) ^ 2 + (ny - y) ^ 2 ≤ 400
      · rw [if_pos hc] at h
        obtain rfl : i = j := by injection h
        simp [Nat.lt_add_of_pos_right]
      · rw [if_neg hc] at h
        have := ih (i + 1) h
        simp only [List.length_cons]
        omega

end DSA

namespace DSA

theorem dGet_pair (E : List (ℕ × List ℕ)) (n1 n2 : ℕ) (hne : n1 ≠ n2) (x : ℕ) :
    dGet (dSet (dSet E n1 (dGet E n1 ++ [n2])) n2
        (dGet (dSet E n1 (dGet E n1 ++ [n2])) n2 ++ [n1])) x
      = if x = n2 then dGet E n2 ++ [n1]
        else if x = n1 then dGet E n1 ++ [n2] else dGet E x := by
  have hinner : dGet (dSet E n1 (dGet E n1 ++ [n2])) n2 = dGet E n2 := by
    rw [dGet_dSet]
    exact if_neg fun h => hne h.symm
  rw [dGet_dSet, hinner]
  by_cases hx2 : x = n2
  · rw [if_pos hx2, if_pos hx2]
  · rw [if_neg hx2, if_neg hx2, dGet_dSet]

/-- Invariant preservation for the edge-insertion branch of `on_canvas_click`. -/
theorem gtInv_pair (s : GTState) (inv : GTInv s) (n1 n2 : ℕ)
    (h1 : n1 < s.nodes.length) (h2 : n2 < s.nodes.length) (hne : n1 ≠ n2)
    (hnotin : n2 ∉ dGet s.edges n1) :
    GTInv ⟨s.nodes,
      dSet (dSet s.edges n1 (dGet s.edges n1 ++ [n2])) n2
        (dGet (dSet s.edges n1 (dGet s.edges n1 ++ [n2])) n2 ++ [n1]),
      none, s.mode⟩ := by
  have key : ∀ a b,
      a ∈ dGet (dSet (dSet s.edges n1 (dGet s.edges n1 ++ [n2])) n2
          (dGet (dSet s.edges n1 (dGet s.edges n1 ++ [n2])) n2 ++ [n1])) b
        ↔ (a ∈ dGet s.edges b ∨ (a = n1 ∧ b = n2) ∨ (a = n2 ∧ b = n1)) := by
    intro a b
    rw [dGet_pair _ _ _ hne]
    by_cases hb2 : b = n2
    · rw [if_pos hb2, hb2]
      simp only [List.mem_append, List.mem_singleton]
      constructor
      · rintro (h | h)
        · exact Or.inl h
        · exact Or.inr (Or.inl ⟨h, trivial⟩)
      · rintro (h | ⟨ha, _⟩ | ⟨ha, hb⟩)
        · exact Or.inl h
        · exact Or.inr ha
        · exact Or.inr (ha.trans hb)
    · rw [if_neg hb2]
      by_cases hb1 : b = n1
      · rw [if_pos hb1, hb1]
        simp only [List.mem_append, List.mem_singleton]
        constructor
        · rintro (h | h)
          · exact Or.inl h
          · exact Or.inr (Or.inr ⟨h, trivial⟩)
        · rintro (h | ⟨ha, hb⟩ | ⟨ha, _⟩)
          · exact Or.inl h
          · exact absurd hb hne
          · exact Or.inr ha
      · rw [if_neg hb1]
        constructor
        · intro h
          exact Or.inl h
        · rintro (h | ⟨_, hb⟩ | ⟨_, hb⟩)
          · exact h
          · exact absurd hb hb2
          · exact absurd hb hb1
  have hk1 : n1 ∈ dKeys s.edges := by
    rw [inv.keys]
    exact List.mem_range.2 h1
  have e1 : dKeys (dSet s.edges n1 (dGet s.edges n1 ++ [n2])) = dKeys s.edges :=
    dKeys_dSet_mem _ _ _ hk1
  have hk2 : n2 ∈ dKeys (dSet s.edges n1 (dGet s.edges n1 ++ [n2])) := by
    rw [e1, inv.keys]
    exact List.mem_range.2 h2
  constructor
  · show dKeys (dSet _ n2 _) = _
    rw [dKeys_dSet_mem _ _ _ hk2, e1, inv.keys]
  · intro i j
    rw [key, key]
    constructor
    · rintro (h | ⟨hi, hj⟩ | ⟨hi, hj⟩)
      · exact Or.inl ((inv.symm i j).1 h)
      · exact Or.inr (Or.inr ⟨hj, hi⟩)
      · exact Or.inr (Or.inl ⟨hj, hi⟩)
    · rintro (h | ⟨hi, hj⟩ | ⟨hi, hj⟩)
      · exact Or.inl ((inv.symm j i).1 h)
      · exact Or.inr (Or.inr ⟨hj, hi⟩)
      · exact Or.inr (Or.inl ⟨hj, hi⟩)
  · intro i h
    rw [key] at h
    rcases h with h | ⟨hi, hj⟩ | ⟨hi, hj⟩
    · exact inv.irrefl i h
    · exact hne (hi.symm.trans hj)
    · exact hne (hj.symm.trans hi)
  · intro k
    show ((dGet (dSet (dSet s.edges n1 (dGet s.edges n1 ++ [n2])) n2
        (dGet (dSet s.edges n1 (dGet s.edges n1 ++ [n2])) n2 ++ [n1])) k)).Nodup
    rw [dGet_pair _ _ _ hne]
    split_ifs with hk2' hk1'
    · refine List.Nodup.append (inv.nodup n2) (List.nodup_singleton _) ?_
      intro a ha hb
      rw [List.mem_singleton] at hb
      rw [hb] at ha
      exact hnotin ((inv.symm n1 n2).1 ha)
    · refine List.Nodup.append (inv.nodup n1) (List.nodup_singleton _) ?_
      intro a ha hb
      rw [List.mem_singleton] at hb
      rw [hb] at ha
      exact hnotin ha
    · exact inv.nodup k
  · intro k m h
    rw [key] at h
    rcases h with h | ⟨hm, _⟩ | ⟨hm, _⟩
    · exact inv.targets k m h
    · exact hm ▸ h1
    · exact hm ▸ h2
  · intro i h
    exact Option.noConfusion h

/-- Invariant preservation for the node-adding branch of `on_canvas_click`. -/
theorem gtInv_addNode (s : GTState) (inv : GTInv s) (x y : ℤ) :
    GTInv ⟨s.nodes ++ [(x, y)], dSet s.edges s.nodes.length [],
      s.selected_node, s.mode⟩ := by
  have hnot : s.nodes.length ∉ dKeys s.edges := by
    rw [inv.keys]
    simp
  have key2 : ∀ a b, a ∈ dGet (dSet s.edges s.nodes.length []) b ↔ a ∈ dGet s.edges b := by
    intro a b
    rw [dGet_dSet]
    by_cases hb : b = s.nodes.length
    · rw [if_pos hb, hb, dGet_not_key _ _ hnot]
    · rw [if_neg hb]
  have hlen : (s.nodes ++ [(x, y)]).length = s.nodes.length + 1 := by simp
  constructor
  · show dKeys (dSet s.edges s.nodes.length []) = _
    rw [hlen, List.range_succ, dKeys_dSet_notmem _ _ _ hnot, inv.keys]
  · intro i j
    rw [key2, key2]
    exact inv.symm i j
  · intro i h
    rw [key2] at h
    exact inv.irrefl i h
  · intro k
    show (dGet (dSet s.edges s.nodes.length []) k).Nodup
    rw [dGet_dSet]
    split_ifs
    · exact List.nodup_nil
    · exact inv.nodup k
  · intro k m h
    rw [key2] at h
    have := inv.targets k m h
    rw [hlen]
    omega
  · intro i h
    have := inv.sel i h
    rw [hlen]
    omega

end DSA

namespace DSA

theorem gtInv_step (s : GTState) (inv : GTInv s) (e : GEvent) : GTInv (gstep s e) := by
  cases e with
  | addNodeBtn =>
      exact ⟨inv.keys, inv.symm, inv.irrefl, inv.nodup, inv.targets, inv.sel⟩
  | addEdgeBtn =>
      exact ⟨inv.keys, inv.symm, inv.irrefl, inv.nodup, inv.targets, inv.sel⟩
  | resetBtn => exact gtInv_init
  | click x y =>
      show GTInv (on_canvas_click s x y)
      unfold on_canvas_click
      split
      · exact gtInv_addNode s inv x y
      · split
        · exact inv
        · rename_i clicked hc
          have hclt : clicked < s.nodes.length := by
            have := get_clicked_node_lt s.nodes x y 0 clicked hc
            simpa using this
          split
          · exact ⟨inv.keys, inv.symm, inv.irrefl, inv.nodup, inv.targets,
              fun i h => by
                injection h with h2
                rw [← h2]
                exact hclt⟩
          · rename_i n1 hsel
            have hn1 : n1 < s.nodes.length := inv.sel n1 hsel
            by_cases hcond : n1 ≠ clicked ∧ clicked ∉ dGet s.edges n1
            · rw [if_pos hcond]
              exact gtInv_pair s inv n1 clicked hn1 hclt hcond.1 hcond.2
            · rw [if_neg hcond]
              exact ⟨inv.keys, inv.symm, inv.irrefl, inv.nodup, inv.targets,
                fun i h => Option.noConfusion h⟩
      · exact inv

/-- After any event sequence from the initial state, the invariant holds. -/
theorem gtInv_run (es : List GEvent) : GTInv (es.foldl gstep gtInit) := by
  induction es using List.reverseRecOn with
  | nil => exact gtInv_init
  | append_singleton l e ih =>
      rw [List.foldl_append, List.foldl_cons, List.foldl_nil]
      exact gtInv_step _ ih e

end DSA

namespace DSA

/-- Domain of node ids DFS/BFS can ever touch: the start node 0 plus
every id occurring in an adjacency list. -/
def dfsDom (edges : List (ℕ × List ℕ)) : Finset ℕ := insert 0 (dTargets edges)

/-- `dfs_visual`: the recursion is presented as a loop over the pending
neighbour list; expanding an unvisited node `nb` marks it visited,
records the visit and recurses into `edges[nb]`.  The result carries the
fact that the visited set only grows (needed for termination). -/
def dfs_visual (edges : List (ℕ × List ℕ)) :
    (l : List ℕ) → (visited : Finset ℕ) → (order : List ℕ) →
    (∀ z ∈ l, z ∈ dfsDom edges) → { r : Finset ℕ × List ℕ // visited ⊆ r.1 }
  | [], visited, order, _ => ⟨(visited, order), Finset.Subset.refl _⟩
  | nb :: rest, visited, order, hl =>
      if hnb : nb ∈ visited then
        dfs_visual edges rest visited order
          (fun z hz => hl z (List.mem_cons_of_mem _ hz))
      else
        let r := dfs_visual edges (dGet edges nb) (insert nb visited) (order ++ [nb])
          (fun z hz => Finset.mem_insert_of_mem (mem_dTargets edges nb z hz))
        let r2 := dfs_visual edges rest r.1.1 r.1.2
          (fun z hz => hl z (List.mem_cons_of_mem _ hz))
        ⟨r2.1, Finset.Subset.trans
          (Finset.Subset.trans (Finset.subset_insert _ _) r.2) r2.2⟩
termination_by l visited order hl => ((dfsDom edges \ visited).card, l.length)
decreasing_by
· apply Prod.Lex.right
  simp
· apply Prod.Lex.left
  have hmem : nb ∈ dfsDom edges \ visited :=
    Finset.mem_sdiff.2 ⟨hl nb (List.mem_cons_self nb rest), hnb⟩
  have hsub : dfsDom edges \ insert nb visited ⊂ dfsDom edges \ visited := by
    constructor
    · exact Finset.sdiff_subset_sdiff (Finset.Subset.refl _) (Finset.subset_insert _ _)
    · intro hcon
      have := hcon hmem
      rw [Finset.mem_sdiff] at this
      exact this.2 (Finset.mem_insert_self _ _)
  exact Finset.card_lt_card hsub
· apply Prod.Lex.left
  have hmem : nb ∈ dfsDom edges \ visited :=
    Finset.mem_sdiff.2 ⟨hl nb (List.mem_cons_self nb rest), hnb⟩
  have hsub : dfsDom edges \ r.1.1 ⊂ dfsDom edges \ visited := by
    constructor
    · exact Finset.sdiff_subset_sdiff (Finset.Subset.refl _)
        (Finset.Subset.trans (Finset.subset_insert _ _) r.2)
    · intro hcon
      have := hcon hmem
      rw [Finset.mem_sdiff] at this
      exact this.2 (r.2 (Finset.mem_insert_self _ _))
  exact Finset.card_lt_card hsub

/-- `run_dfs`: warn and do nothing on an empty graph, else
`dfs_visual(0, set())` — node 0 is visited first, then its neighbour
list is walked. -/
def run_dfs (s : GTState) : List ℕ :=
  if s.nodes = [] then []
  else (dfs_visual s.edges (dGet s.edges 0) {0} [0]
    (fun z hz => Finset.mem_insert_of_mem (mem_dTargets s.edges 0 z hz))).val.2

/-- The inner `for neighbor in self.edges[current]` loop of `run_bfs`:
unvisited neighbours are marked visited and appended to the queue. -/
def bfsStep : List ℕ → Finset ℕ → List ℕ → Finset ℕ × List ℕ
  | [], v, acc => (v, acc)
  | nb :: rest, v, acc =>
      if nb ∈ v then bfsStep rest v acc
      else bfsStep rest (insert nb v) (acc ++ [nb])

theorem bfsStep_measure (dom : Finset ℕ) (l : List ℕ) (v : Finset ℕ) (acc : List ℕ)
    (hl : ∀ z ∈ l, z ∈ dom) :
    2 * (dom \ (bfsStep l v acc).1).card + (bfsStep l v acc).2.length
      ≤ 2 * (dom \ v).card + acc.length := by
  induction l generalizing v acc with
  | nil => exact Nat.le_refl _
  | cons nb rest ih =>
      simp only [bfsStep]
      by_cases hnb : nb ∈ v
      · rw [if_pos hnb]
        exact ih v acc (fun z hz => hl z (List.mem_cons_of_mem _ hz))
      · rw [if_neg hnb]
        have h1 := ih (insert nb v) (acc ++ [nb])
          (fun z hz => hl z (List.mem_cons_of_mem _ hz))
        have hmem : nb ∈ dom \ v :=
          Finset.mem_sdiff.2 ⟨hl nb (List.mem_cons_self nb rest), hnb⟩
        have hcard : (dom \ insert nb v).card + 1 = (dom \ v).card := by
          have : dom \ insert nb v = (dom \ v).erase nb := by
            ext a
            simp only [Finset.mem_sdiff, Finset.mem_insert, Finset.mem_erase]
            tauto
          rw [this, Finset.card_erase_of_mem hmem]
          have : 0 < (dom \ v).card := Finset.card_pos.2 ⟨nb, hmem⟩
          omega
        have hacc : (acc ++ [nb]).length = acc.length + 1 := by simp
        omega

/-- The `while queue:` loop of `run_bfs` (FIFO pops from the front). -/
def run_bfs_loop (edges : List (ℕ × List ℕ)) :
    (queue : List ℕ) → (visited : Finset ℕ) → (order : List ℕ) → List ℕ
  | [], _, order => order
  | current :: rest, visited, order =>
      run_bfs_loop edges (rest ++ (bfsStep (dGet edges current) visited []).2)
        (bfsStep (dGet edges current) visited []).1 (order ++ [current])
termination_by queue visited order => 2 * ((dfsDom edges \ visited).card) + queue.length
decreasing_by
· have h := bfsStep_measure (dfsDom edges) (dGet edges nb) v []
    (fun z hz => Finset.mem_insert_of_mem (mem_dTargets edges nb z hz))
  simp only [List.length_nil, List.length_append, List.length_cons] at h ⊢
  omega

/-- `run_bfs`: warn and do nothing on an empty graph, else BFS from 0
with `visited = {0}`, `queue = [0]`. -/
def run_bfs (s : GTState) : List ℕ :=
  if s.nodes = [] then [] else run_bfs_loop s.edges [0] {0} []

end DSA

namespace DSA

theorem run_bfs_loop_nil (edges : List (ℕ × List ℕ)) (visited : Finset ℕ)
    (order : List ℕ) : run_bfs_loop edges [] visited order = order := by
  rw [run_bfs_loop.eq_def]

theorem run_bfs_loop_cons (edges : List (ℕ × List ℕ)) (current : ℕ) (rest : List ℕ)
    (visited : Finset ℕ) (order : List ℕ) :
    run_bfs_loop edges (current :: rest) visited order
      = run_bfs_loop edges (rest ++ (bfsStep (dGet edges current) visited []).2)
          (bfsStep (dGet edges current) visited []).1 (order ++ [current]) := by
  rw [run_bfs_loop.eq_def]

theorem dfs_visual_nil (edges : List (ℕ × List ℕ)) (visited : Finset ℕ)
    (order : List ℕ) (h : ∀ z ∈ ([] : List ℕ), z ∈ dfsDom edges) :
    (dfs_visual edges [] visited order h).val = (visited, order) := by
  rw [dfs_visual.eq_def]

theorem dfs_visual_cons_mem (edges : List (ℕ × List ℕ)) (nb : ℕ) (rest : List ℕ)
    (visited : Finset ℕ) (order : List ℕ) (hl : ∀ z ∈ nb :: rest, z ∈ dfsDom edges)
    (hnb : nb ∈ visited) :
    (dfs_visual edges (nb :: rest) visited order hl).val
      = (dfs_visual edges rest visited order
          (fun z hz => hl z (List.mem_cons_of_mem _ hz))).val := by
  rw [dfs_visual.eq_def]
  simp [hnb]

theorem dfs_visual_cons_notmem (edges : List (ℕ × List ℕ)) (nb : ℕ) (rest : List ℕ)
    (visited : Finset ℕ) (order : List ℕ) (hl : ∀ z ∈ nb :: rest, z ∈ dfsDom edges)
    (hnb : nb ∉ visited) :
    (dfs_visual edges (nb :: rest) visited order hl).val
      = (dfs_visual edges rest
          (dfs_visual edges (dGet edges nb) (insert nb visited) (order ++ [nb])
            (fun z hz => Finset.mem_insert_of_mem (mem_dTargets edges nb z hz))).val.1
          (dfs_visual edges (dGet edges nb) (insert nb visited) (order ++ [nb])
            (fun z hz => Finset.mem_insert_of_mem (mem_dTargets edges nb z hz))).val.2
          (fun z hz => hl z (List.mem_cons_of_mem _ hz))).val := by
  rw [dfs_visual.eq_def]
  simp [hnb]

theorem bfsStep_spec (l : List ℕ) (v : Finset ℕ) (acc : List ℕ) :
    ∃ news, (bfsStep l v acc).2 = acc ++ news
      ∧ (bfsStep l v acc).1 = v ∪ news.toFinset
      ∧ news.Nodup
      ∧ ∀ z ∈ news, z ∈ l ∧ z ∉ v := by
  induction l generalizing v acc with
  | nil =>
      exact ⟨[], by simp [bfsStep], by simp [bfsStep], List.nodup_nil, by simp⟩
  | cons nb rest ih =>
      simp only [bfsStep]
      by_cases hnb : nb ∈ v
      · rw [if_pos hnb]
        obtain ⟨news, h1, h2, h3, h4⟩ := ih v acc
        exact ⟨news, h1, h2, h3,
          fun z hz => ⟨List.mem_cons_of_mem _ (h4 z hz).1, (h4 z hz).2⟩⟩
      · rw [if_neg hnb]
        obtain ⟨news, h1, h2, h3, h4⟩ := ih (insert nb v) (acc ++ [nb])
        refine ⟨nb :: news, ?_, ?_, ?_, ?_⟩
        · rw [h1, List.append_assoc]
          rfl
        · rw [h2]
          ext a
          simp only [Finset.mem_union, Finset.mem_insert, List.mem_toFinset,
            List.mem_cons]
          tauto
        · rw [List.nodup_cons]
          exact ⟨fun hmem => (h4 nb hmem).2 (Finset.mem_insert_self _ _), h3⟩
        · intro z hz
          rcases List.mem_cons.1 hz with rfl | hz2
          · exact ⟨List.mem_cons_self _ _, hnb⟩
          · exact ⟨List.mem_cons_of_mem _ (h4 z hz2).1,
              fun hzv => (h4 z hz2).2 (Finset.mem_insert_of_mem hzv)⟩

end DSA

namespace DSA

theorem run_bfs_loop_spec (edges : List (ℕ × List ℕ)) :
    ∀ (queue : List ℕ) (visited : Finset ℕ) (order : List ℕ),
    visited = (order ++ queue).toFinset → (order ++ queue).Nodup →
    (∀ z ∈ queue, z ∈ dfsDom edges) →
    (run_bfs_loop edges queue visited order).Nodup
    ∧ (∀ z ∈ run_bfs_loop edges queue visited order, z ∈ order ∨ z ∈ dfsDom edges)
    ∧ ∃ t, run_bfs_loop edges queue visited order = order ++ t := by
  intro queue visited order
  induction queue, visited, order using run_bfs_loop.induct edges with
  | case1 visited order =>
      intro hvo hnd hqd
      rw [run_bfs_loop_nil]
      rw [List.append_nil] at hnd
      exact ⟨hnd, fun z hz => Or.inl hz, [], (List.append_nil order).symm⟩
  | case2 current rest visited order ih =>
      intro hvo hnd hqd
      rw [run_bfs_loop_cons]
      obtain ⟨news, h1, h2, h3, h4⟩ := bfsStep_spec (dGet edges current) visited []
      rw [List.nil_append] at h1
      have hvo2 : (bfsStep (dGet edges current) visited []).1
          = (((order ++ [current]) ++ (rest ++ (bfsStep (dGet edges current) visited []).2))).toFinset := by
        rw [h2, h1, hvo]
        ext a
        simp only [Finset.mem_union, List.mem_toFinset, List.mem_append,
          List.mem_cons, List.mem_singleton]
        tauto
      have hfresh : ∀ z ∈ news, z ∉ order ++ current :: rest := by
        intro z hz hmem
        exact (h4 z hz).2 (hvo ▸ List.mem_toFinset.2 hmem)
      have hnd2 : ((order ++ [current]) ++ (rest ++ (bfsStep (dGet edges current) visited []).2)).Nodup := by
        rw [h1]
        have heq : (order ++ [current]) ++ (rest ++ news) = (order ++ current :: rest) ++ news := by
          simp
        rw [heq]
        refine List.Nodup.append hnd h3 ?_
        intro a ha hanews
        exact hfresh a hanews ha
      have hqd2 : ∀ z ∈ rest ++ (bfsStep (dGet edges current) visited []).2, z ∈ dfsDom edges := by
        rw [h1]
        intro z hz
        rcases List.mem_append.1 hz with hz | hz
        · exact hqd z (List.mem_cons_of_mem _ hz)
        · exact Finset.mem_insert_of_mem (mem_dTargets edges current z (h4 z hz).1)
      obtain ⟨ha, hb, t, ht⟩ := ih hvo2 hnd2 hqd2
      refine ⟨ha, ?_, ?_⟩
      · intro z hz
        rcases hb z hz with h | h
        · rcases List.mem_append.1 h with h | h
          · exact Or.inl h
          · rw [List.mem_singleton] at h
            exact Or.inr (h ▸ hqd current (List.mem_cons_self _ _))
        · exact Or.inr h
      · exact ⟨[current] ++ t, by rw [ht, List.append_assoc]⟩

end DSA

namespace DSA

theorem dfs_visual_card_step (edges : List (ℕ × List ℕ)) (nb : ℕ)
    (visited : Finset ℕ) (hd : nb ∈ dfsDom edges) (hnb : nb ∉ visited) :
    (dfsDom edges \ insert nb visited).card + 1 = (dfsDom edges \ visited).card := by
  have hmem : nb ∈ dfsDom edges \ visited := Finset.mem_sdiff.2 ⟨hd, hnb⟩
  have heq : dfsDom edges \ insert nb visited = (dfsDom edges \ visited).erase nb := by
    ext a
    simp only [Finset.mem_sdiff, Finset.mem_insert, Finset.mem_erase]
    tauto
  rw [heq, Finset.card_erase_of_mem hmem]
  have : 0 < (dfsDom edges \ visited).card := Finset.card_pos.2 ⟨nb, hmem⟩
  omega

theorem dfs_visual_spec (edges : List (ℕ × List ℕ)) :
    ∀ (k : ℕ) (l : List ℕ) (visited : Finset ℕ) (order : List ℕ)
      (hl : ∀ z ∈ l, z ∈ dfsDom edges),
    (dfsDom edges \ visited).card ≤ k →
    visited = order.toFinset → order.Nodup →
    (dfs_visual edges l visited order hl).val.1
        = (dfs_visual edges l visited order hl).val.2.toFinset
    ∧ (dfs_visual edges l visited order hl).val.2.Nodup
    ∧ (∀ z ∈ (dfs_visual edges l visited order hl).val.2, z ∈ order ∨ z ∈ dfsDom edges)
    ∧ ∃ t, (dfs_visual edges l visited order hl).val.2 = order ++ t := by
  intro k
  induction k with
  | zero =>
      intro l
      induction l with
      | nil =>
          intro visited order hl hk hvo hnd
          rw [dfs_visual_nil]
          exact ⟨hvo, hnd, fun z hz => Or.inl hz, [], (List.append_nil order).symm⟩
      | cons nb rest ihl =>
          intro visited order hl hk hvo hnd
          by_cases hnb : nb ∈ visited
          · rw [dfs_visual_cons_mem _ _ _ _ _ _ hnb]
            exact ihl visited order _ hk hvo hnd
          · exfalso
            have hmem : nb ∈ dfsDom edges \ visited :=
              Finset.mem_sdiff.2 ⟨hl nb (List.mem_cons_self _ _), hnb⟩
            have := Finset.card_pos.2 ⟨nb, hmem⟩
            omega
  | succ k ihk =>
      intro l
      induction l with
      | nil =>
          intro visited order hl hk hvo hnd
          rw [dfs_visual_nil]
          exact ⟨hvo, hnd, fun z hz => Or.inl hz, [], (List.append_nil order).symm⟩
      | cons nb rest ihl =>
          intro visited order hl hk hvo hnd
          by_cases hnb : nb ∈ visited
          · rw [dfs_visual_cons_mem _ _ _ _ _ _ hnb]
            exact ihl visited order _ hk hvo hnd
          · rw [dfs_visual_cons_notmem _ _ _ _ _ _ hnb]
            have hnbord : nb ∉ order := fun h => hnb (hvo ▸ List.mem_toFinset.2 h)
            have hvo1 : insert nb visited = (order ++ [nb]).toFinset := by
              rw [hvo]
              ext a
              simp only [Finset.mem_insert, List.mem_toFinset, List.mem_append,
                List.mem_singleton]
              tauto
            have hnd1 : (order ++ [nb]).Nodup := by
              refine List.Nodup.append hnd (List.nodup_singleton _) ?_
              intro a ha hb
              rw [List.mem_singleton] at hb
              exact hnbord (hb ▸ ha)
            have hcard1 : (dfsDom edges \ insert nb visited).card ≤ k := by
              have := dfs_visual_card_step edges nb visited
                (hl nb (List.mem_cons_self _ _)) hnb
              omega
            obtain ⟨e1, nd1, val1, t1, ht1⟩ :=
              ihk (dGet edges nb) (insert nb visited) (order ++ [nb])
                (fun z hz => Finset.mem_insert_of_mem (mem_dTargets edges nb z hz))
                hcard1 hvo1 hnd1
            have hsub : insert nb visited ⊆
                (dfs_visual edges (dGet edges nb) (insert nb visited) (order ++ [nb])
                  (fun z hz => Finset.mem_insert_of_mem
                    (mem_dTargets edges nb z hz))).val.1 :=
              (dfs_visual edges (dGet edges nb) (insert nb visited) (order ++ [nb])
                (fun z hz => Finset.mem_insert_of_mem (mem_dTargets edges nb z hz))).2
            have hcard2 : (dfsDom edges \
                (dfs_visual edges (dGet edges nb) (insert nb visited) (order ++ [nb])
                  (fun z hz => Finset.mem_insert_of_mem
                    (mem_dTargets edges nb z hz))).val.1).card ≤ k :=
              le_trans (Finset.card_le_card
                (Finset.sdiff_subset_sdiff (Finset.Subset.refl _) hsub)) hcard1
            obtain ⟨e2, nd2, val2, t2, ht2⟩ :=
              ihk rest _ _ (fun z hz => hl z (List.mem_cons_of_mem _ hz))
                hcard2 e1 nd1
            refine ⟨e2, nd2, ?_, ?_⟩
            · intro z hz
              rcases val2 z hz with h | h
              · rcases val1 z h with h | h
                · rcases List.mem_append.1 h with h | h
                  · exact Or.inl h
                  · rw [List.mem_singleton] at h
                    exact Or.inr (h ▸ hl nb (List.mem_cons_self _ _))
                · exact Or.inr h
              · exact Or.inr h
            · refine ⟨[nb] ++ t1 ++ t2, ?_⟩
              rw [ht2, ht1, List.append_assoc, List.append_assoc, List.append_assoc]

end DSA

namespace DSA

theorem mem_dTargets_exists (d : List (ℕ × List ℕ)) (z : ℕ) (h : z ∈ dTargets d) :
    ∃ k v, (k, v) ∈ d ∧ z ∈ v := by
  simp only [dTargets, List.mem_toFinset, List.mem_flatMap] at h
  obtain ⟨⟨k, v⟩, hmem, hz⟩ := h
  exact ⟨k, v, hmem, hz⟩

theorem dGet_mem_nodup (d : List (ℕ × List ℕ)) (hnd : (dKeys d).Nodup)
    (k : ℕ) (v : List ℕ) (h : (k, v) ∈ d) : dGet d k = v := by
  induction d with
  | nil => simp at h
  | cons e rest ih =>
      obtain ⟨k2, v2⟩ := e
      rw [List.mem_cons] at h
      have hnd2 : (dKeys rest).Nodup := (List.nodup_cons.1 hnd).2
      have hk2 : k2 ∉ dKeys rest := (List.nodup_cons.1 hnd).1
      rcases h with h | h
      · show (if k2 = k then v2 else dGet rest k) = v
        simp only [Prod.mk.injEq] at h
        rw [if_pos h.1.symm]
        exact h.2.symm
      · show (if k2 = k then v2 else dGet rest k) = v
        by_cases hk : k2 = k
        · exfalso
          apply hk2
          rw [hk]
          exact List.mem_map.2 ⟨(k, v), h, rfl⟩
        · rw [if_neg hk]
          exact ih hnd2 h

/-- Under the invariant, every member of the DFS/BFS domain is a valid
node index (for a nonempty node list). -/
theorem dom_lt (s : GTState) (inv : GTInv s) (hne : s.nodes ≠ []) (z : ℕ)
    (hz : z ∈ dfsDom s.edges) : z < s.nodes.length := by
  rcases Finset.mem_insert.1 hz with rfl | hz2
  · exact List.length_pos.2 hne
  · obtain ⟨k, v, hmem, hzv⟩ := mem_dTargets_exists s.edges z hz2
    have hndk : (dKeys s.edges).Nodup := by
      rw [inv.keys]
      exact List.nodup_range _
    have := dGet_mem_nodup s.edges hndk k v hmem
    exact inv.targets k z (this ▸ hzv)

end DSA

namespace DSA

theorem run_dfs_props (s : GTState) (inv : GTInv s) :
    (run_dfs s).Nodup ∧ (∀ z ∈ run_dfs s, z < s.nodes.length)
    ∧ (s.nodes ≠ [] → (run_dfs s).head? = some 0) := by
  by_cases hne : s.nodes = []
  · simp [run_dfs, hne]
  · rw [run_dfs, if_neg hne]
    have hvo : ({0} : Finset ℕ) = ([0] : List ℕ).toFinset := by simp
    have hnd : ([0] : List ℕ).Nodup := List.nodup_singleton _
    obtain ⟨e1, nd1, val1, t1, ht1⟩ :=
      dfs_visual_spec s.edges (dfsDom s.edges \ ({0} : Finset ℕ)).card
        (dGet s.edges 0) {0} [0]
        (fun z hz => Finset.mem_insert_of_mem (mem_dTargets s.edges 0 z hz))
        (Nat.le_refl _) hvo hnd
    refine ⟨nd1, ?_, ?_⟩
    · intro z hz
      rcases val1 z hz with h | h
      · rw [List.mem_singleton] at h
        subst h
        exact List.length_pos.2 hne
      · exact dom_lt s inv hne z h
    · intro _
      rw [ht1]
      rfl

theorem run_bfs_props (s : GTState) (inv : GTInv s) :
    (run_bfs s).Nodup ∧ (∀ z ∈ run_bfs s, z < s.nodes.length)
    ∧ (s.nodes ≠ [] → (run_bfs s).head? = some 0) := by
  by_cases hne : s.nodes = []
  · simp [run_bfs, hne]
  · rw [run_bfs, if_neg hne]
    rw [run_bfs_loop_cons]
    obtain ⟨news, h1, h2, h3, h4⟩ := bfsStep_spec (dGet s.edges 0) {0} []
    rw [List.nil_append] at h1
    have hvo : (bfsStep (dGet s.edges 0) ({0} : Finset ℕ) []).1
        = ((([] : List ℕ) ++ [0]) ++ (([] : List ℕ)
            ++ (bfsStep (dGet s.edges 0) ({0} : Finset ℕ) []).2)).toFinset := by
      rw [h2, h1]
      ext a
      simp only [Finset.mem_union, Finset.mem_insert, Finset.mem_singleton,
        List.mem_toFinset, List.nil_append, List.mem_append, List.mem_cons,
        List.mem_singleton, List.not_mem_nil, or_false]
    have hnd : ((([] : List ℕ) ++ [0]) ++ (([] : List ℕ)
        ++ (bfsStep (dGet s.edges 0) ({0} : Finset ℕ) []).2)).Nodup := by
      rw [h1]
      simp only [List.nil_append, List.singleton_append]
      rw [List.nodup_cons]
      constructor
      · intro hmem
        exact (h4 0 hmem).2 (Finset.mem_singleton_self _)
      · exact h3
    have hqd : ∀ z ∈ (([] : List ℕ)
        ++ (bfsStep (dGet s.edges 0) ({0} : Finset ℕ) []).2), z ∈ dfsDom s.edges := by
      rw [h1]
      intro z hz
      rw [List.nil_append] at hz
      exact Finset.mem_insert_of_mem (mem_dTargets s.edges 0 z (h4 z hz).1)
    obtain ⟨ha, hb, t, ht⟩ := run_bfs_loop_spec s.edges _ _ _ hvo hnd hqd
    refine ⟨ha, ?_, ?_⟩
    · intro z hz
      rcases hb z hz with h | h
      · rw [List.nil_append, List.mem_singleton] at h
        subst h
        exact List.length_pos.2 hne
      · exact dom_lt s inv hne z h
    · intro _
      rw [ht]
      rfl

end DSA

/-- C9: In the graph-traversal visualizer, after every sequence of GUI
events (mode buttons, canvas clicks in node and edge mode, resets) the
adjacency dict has exactly the keys `0 .. len(nodes) - 1`, the relation
is symmetric, no node is adjacent to itself, and no adjacency list has
duplicates; consequently `run_dfs` and `run_bfs` (which start from node
0 on a nonempty graph) only ever look up valid keys and visit each node
at most once. -/
theorem c9_visualizer_adjacency_invariant (es : List DSA.GEvent) :
    (DSA.dKeys (es.foldl DSA.gstep DSA.gtInit).edges
        = List.range (es.foldl DSA.gstep DSA.gtInit).nodes.length)
    ∧ (∀ i j, i ∈ DSA.dGet (es.foldl DSA.gstep DSA.gtInit).edges j
        ↔ j ∈ DSA.dGet (es.foldl DSA.gstep DSA.gtInit).edges i)
    ∧ (∀ i, i ∉ DSA.dGet (es.foldl DSA.gstep DSA.gtInit).edges i)
    ∧ (∀ k, (DSA.dGet (es.foldl DSA.gstep DSA.gtInit).edges k).Nodup)
    ∧ (DSA.run_dfs (es.foldl DSA.gstep DSA.gtInit)).Nodup
    ∧ (∀ z ∈ DSA.run_dfs (es.foldl DSA.gstep DSA.gtInit),
        z < (es.foldl DSA.gstep DSA.gtInit).nodes.length)
    ∧ (DSA.run_bfs (es.foldl DSA.gstep DSA.gtInit)).Nodup
    ∧ (∀ z ∈ DSA.run_bfs (es.foldl DSA.gstep DSA.gtInit),
        z < (es.foldl DSA.gstep DSA.gtInit).nodes.length)
    ∧ ((es.foldl DSA.gstep DSA.gtInit).nodes ≠ [] →
        (DSA.run_dfs (es.foldl DSA.gstep DSA.gtInit)).head? = some 0
        ∧ (DSA.run_bfs (es.foldl DSA.gstep DSA.gtInit)).head? = some 0) := by
  have inv := DSA.gtInv_run es
  obtain ⟨d1, d2, d3⟩ := DSA.run_dfs_props _ inv
  obtain ⟨b1, b2, b3⟩ := DSA.run_bfs_props _ inv
  exact ⟨inv.keys, inv.symm, inv.irrefl, inv.nodup, d1, d2, b1, b2,
    fun hne => ⟨d3 hne, b3 hne⟩⟩

namespace DSA

/-! ## Stop-flag cancellation (C8)

The coin/dice simulator's `_simulate_thread` and the Hamiltonian-cycle
search both poll a boolean flag set from the UI thread.  The flag is
modelled as an oracle `stop : ℕ → Bool` indexed by the number of checks
performed so far; the UI setting it once corresponds to a monotone
oracle.  Randomness (`random.random`, `random.randint`) is modelled by
input streams. -/

/-- The counters of `_simulate_thread`: `coin_counts` and the
`dice_counts` dict (as a multiplicity function). -/
structure SimState where
  heads : ℕ
  tails : ℕ
  dice : ℕ → ℕ

def simInit : SimState := ⟨0, 0, fun _ => 0⟩

/-- One trial body: a coin toss when the sim type includes coin, a dice
total tally when it includes dice.  `toss` is the outcome of
`random.random() < coin_p`; `dtotal` the summed dice roll. -/
def simBody (doCoin doDice : Bool) (toss : Bool) (dtotal : ℕ) (st : SimState) : SimState :=
  let st1 := if doCoin then
      (if toss then { st with heads := st.heads + 1 }
       else { st with tails := st.tails + 1 })
    else st
  if doDice then
    { st1 with dice := Function.update st1.dice dtotal (st1.dice dtotal + 1) }
  else st1

/-- `for i in range(trials): if self._stop_sim: break; <body>` —
`rem` trials remain, `i` is the current index. -/
def simLoop (stop : ℕ → Bool) (doCoin doDice : Bool) (toss : ℕ → Bool)
    (dtotal : ℕ → ℕ) : ℕ → ℕ → SimState → SimState
  | 0, _, st => st
  | rem + 1, i, st =>
      if stop i then st
      else simLoop stop doCoin doDice toss dtotal rem (i + 1)
        (simBody doCoin doDice (toss i) (dtotal i) st)

def simulate_thread (stop : ℕ → Bool) (doCoin doDice : Bool) (toss : ℕ → Bool)
    (dtotal : ℕ → ℕ) (trials : ℕ) : SimState :=
  simLoop stop doCoin doDice toss dtotal trials 0 simInit

/-- Reference: run the bodies of trials `i .. i+m-1` with no stop flag. -/
def simRunFrom (doCoin doDice : Bool) (toss : ℕ → Bool) (dtotal : ℕ → ℕ) :
    ℕ → ℕ → SimState → SimState
  | _, 0, st => st
  | i, m + 1, st => simRunFrom doCoin doDice toss dtotal (i + 1) m
      (simBody doCoin doDice (toss i) (dtotal i) st)

theorem simLoop_eq (stop : ℕ → Bool) (doCoin doDice : Bool) (toss : ℕ → Bool)
    (dtotal : ℕ → ℕ) (k : ℕ)
    (hmono : ∀ j1 j2, j1 ≤ j2 → stop j1 = true → stop j2 = true)
    (hk : stop k = true) (hfirst : ∀ j < k, stop j = false) :
    ∀ rem i st, simLoop stop doCoin doDice toss dtotal rem i st
      = simRunFrom doCoin doDice toss dtotal i (min rem (k - i)) st := by
  intro rem
  induction rem with
  | zero =>
      intro i st
      simp [simLoop, simRunFrom]
  | succ rem ih =>
      intro i st
      show (if stop i then st else _) = _
      by_cases hi : stop i = true
      · rw [if_pos hi]
        have hik : k ≤ i := by
          by_contra hlt
          rw [hfirst i (by omega)] at hi
          exact Bool.false_ne_true hi
        have : min (rem + 1) (k - i) = 0 := by omega
        rw [this]
        rfl
      · rw [if_neg hi]
        have hik : i < k := by
          by_contra hge
          exact hi (hmono k i (by omega) hk)
        have hmin : min (rem + 1) (k - i) = min rem (k - (i + 1)) + 1 := by omega
        rw [hmin, ih (i + 1)]
        rfl

end DSA

namespace DSA

/- `HamiltonianFinder.backtrack` and its inner `for nbr in
sorted(self.graph.adj.get(last, []))` loop.  `c` counts the calls made
so far; the flag is polled at each call entry (`if self._stop: return
None`).  The result carries the updated call count.  The `path` is
always nonempty in every reachable call; the `(none, c + 1)` fallbacks
for an empty path are dead branches of the total model. -/
mutual

def backtrack (stop : ℕ → Bool) (adj : List (ℕ × List ℕ)) (n : ℕ)
    (path : List ℕ) (visited : Finset ℕ) (c : ℕ) : Option (List ℕ) × ℕ :=
  if stop c then (none, c + 1)
  else if path.length = n then
    match path.getLast?, path.head? with
    | some last, some hd =>
        if hd ∈ dGet adj last then (some (path ++ [hd]), c + 1) else (none, c + 1)
    | _, _ => (none, c + 1)
  else
    match path.getLast? with
    | none => (none, c + 1)
    | some last => backtrackNbrs stop adj n (dGet adj last) path visited (c + 1)
        (fun z hz => mem_dTargets adj last z hz)
termination_by ((dTargets adj \ visited).card, 1, 0)
decreasing_by
· apply Prod.Lex.right
  apply Prod.Lex.left
  omega

def backtrackNbrs (stop : ℕ → Bool) (adj : List (ℕ × List ℕ)) (n : ℕ) :
    (l : List ℕ) → (path : List ℕ) → (visited : Finset ℕ) → (c : ℕ) →
    (∀ z ∈ l, z ∈ dTargets adj) → Option (List ℕ) × ℕ
  | [], _, _, c, _ => (none, c)
  | nbr :: rest, path, visited, c, hl =>
      if hnbr : nbr ∈ visited then
        backtrackNbrs stop adj n rest path visited c
          (fun z hz => hl z (List.mem_cons_of_mem _ hz))
      else
        let r := backtrack stop adj n (path ++ [nbr]) (insert nbr visited) c
        match r.1 with
        | some res => (some res, r.2)
        | none => backtrackNbrs stop adj n rest path visited r.2
            (fun z hz => hl z (List.mem_cons_of_mem _ hz))
termination_by l path visited c hl => ((dTargets adj \ visited).card, 0, l.length)
decreasing_by
· apply Prod.Lex.right
  apply Prod.Lex.right
  simp
· apply Prod.Lex.left
  have hmem : nbr ∈ dTargets adj \ visited :=
    Finset.mem_sdiff.2 ⟨hl nbr (List.mem_cons_self nbr rest), hnbr⟩
  have hsub : dTargets adj \ insert nbr visited ⊂ dTargets adj \ visited := by
    constructor
    · exact Finset.sdiff_subset_sdiff (Finset.Subset.refl _) (Finset.subset_insert _ _)
    · intro hcon
      have := hcon hmem
      rw [Finset.mem_sdiff] at this
      exact this.2 (Finset.mem_insert_self _ _)
  exact Finset.card_lt_card hsub
· apply Prod.Lex.right
  apply Prod.Lex.right
  simp

end

/-- The `for start in nodes_sorted:` loop of `find_one_cycle`. -/
def find_one_loop (stop : ℕ → Bool) (adj : List (ℕ × List ℕ)) (n : ℕ) :
    List ℕ → ℕ → Option (List ℕ) × String × ℕ
  | [], c => (none, "No Hamiltonian cycle exists.", c)
  | start :: rest, c =>
      match backtrack stop adj n [start] {start} c with
      | (some res, c2) => (some res, "Hamiltonian cycle found.", c2)
      | (none, c2) =>
          if stop c2 then (none, "Search stopped.", c2)
          else find_one_loop stop adj n rest c2

/-- `HamiltonianFinder.find_one_cycle`. -/
def find_one_cycle (stop : ℕ → Bool) (adj : List (ℕ × List ℕ))
    (nodes : List ℕ) (c : ℕ) : Option (List ℕ) × String × ℕ :=
  if nodes = [] then (none, "Graph empty.", c)
  else find_one_loop stop adj nodes.length nodes c

end DSA

namespace DSA

theorem backtrack_stopped (stop : ℕ → Bool) (adj : List (ℕ × List ℕ)) (n : ℕ)
    (path : List ℕ) (visited : Finset ℕ) (c : ℕ) (hc : stop c = true) :
    backtrack stop adj n path visited c = (none, c + 1) := by
  rw [backtrack.eq_def, if_pos hc]

theorem find_one_loop_stopped (stop : ℕ → Bool) (adj : List (ℕ × List ℕ)) (n : ℕ)
    (hmono : ∀ j1 j2, j1 ≤ j2 → stop j1 = true → stop j2 = true)
    (start : ℕ) (rest : List ℕ) (c : ℕ) (hc : stop c = true) :
    find_one_loop stop adj n (start :: rest) c = (none, "Search stopped.", c + 1) := by
  show (match backtrack stop adj n [start] {start} c with
    | (some res, c2) => (some res, "Hamiltonian cycle found.", c2)
    | (none, c2) =>
        if stop c2 then (none, "Search stopped.", c2)
        else find_one_loop stop adj n rest c2) = _
  rw [backtrack_stopped stop adj n [start] {start} c hc]
  show (if stop (c + 1) then ((none : Option (List ℕ)), "Search stopped.", c + 1)
    else find_one_loop stop adj n rest (c + 1)) = _
  rw [if_pos (hmono c (c + 1) (Nat.le_succ c) hc)]

end DSA

/-- C8: Once the boolean stop flag is set — modelled by a monotone
oracle `stop` over the number of flag checks so far — the simulator's
trial loop runs no trial body at or after the first index where the
flag reads true (it equals the stop-free run truncated at that index),
and the Hamiltonian backtracking search returns `None` from its very
next call without expanding any further node (the call counter advances
only by the one entry check), with `find_one_cycle`'s start loop
reporting "Search stopped.".  All the modelled routines are total
functions, so they terminate. -/
theorem c8_stop_flag_cancellation
    (stop : ℕ → Bool) (hmono : ∀ j1 j2, j1 ≤ j2 → stop j1 = true → stop j2 = true)
    (doCoin doDice : Bool) (toss : ℕ → Bool) (dtotal : ℕ → ℕ)
    (k : ℕ) (hk : stop k = true) (hfirst : ∀ j < k, stop j = false)
    (adj : List (ℕ × List ℕ)) (n c : ℕ) (path : List ℕ) (visited : Finset ℕ)
    (hc : stop c = true) (start : ℕ) (rest : List ℕ) :
    (∀ trials, DSA.simulate_thread stop doCoin doDice toss dtotal trials
        = DSA.simRunFrom doCoin doDice toss dtotal 0 (min trials k) DSA.simInit)
    ∧ DSA.backtrack stop adj n path visited c = (none, c + 1)
    ∧ DSA.find_one_loop stop adj n (start :: rest) c
        = (none, "Search stopped.", c + 1) := by
  refine ⟨?_, ?_, ?_⟩
  · intro trials
    rw [DSA.simulate_thread,
      DSA.simLoop_eq stop doCoin doDice toss dtotal k hmono hk hfirst trials 0 DSA.simInit]
    have : k - 0 = k := rfl
    rw [this]
  · exact DSA.backtrack_stopped stop adj n path visited c hc
  · exact DSA.find_one_loop_stopped stop adj n hmono start rest c hc

/-- Witness for C8 at a concrete monotone stop flag (true from check 2
on), a concrete two-node graph and concrete input streams. -/
theorem c8_stop_flag_cancellation_witness :
    ((fun j => decide (2 ≤ j)) 2 = true)
    ∧ (DSA.simulate_thread (fun j => decide (2 ≤ j)) true true (fun _ => true)
        (fun _ => 7) 5
        = DSA.simRunFrom true true (fun _ => true) (fun _ => 7) 0 (min 5 2) DSA.simInit)
    ∧ DSA.backtrack (fun j => decide (2 ≤ j)) [(0, [1]), (1, [0])] 2 [0] {0} 5
        = (none, 6)
    ∧ DSA.find_one_loop (fun j => decide (2 ≤ j)) [(0, [1]), (1, [0])] 2 [0] 5
        = (none, "Search stopped.", 6) := by
  have hmono : ∀ j1 j2 : ℕ, j1 ≤ j2 → decide (2 ≤ j1) = true → decide (2 ≤ j2) = true := by
    intro j1 j2 h h1
    simp only [decide_eq_true_eq] at h1 ⊢
    omega
  have h := c8_stop_flag_cancellation (fun j => decide (2 ≤ j)) hmono
    true true (fun _ => true) (fun _ => 7) 2 (by decide)
    (by
      intro j hj
      simp only [decide_eq_false_iff_not]
      omega)
    [(0, [1]), (1, [0])] 2 5 [0] {0} (by decide) 0 []
  exact ⟨by decide, h.1 5, h.2.1, h.2.2⟩

namespace DSA

/-! ## Parse-failure handling (C7)

`Graph.parse_edges_text` (string nodes, float weights) calls
`self.clear()` before parsing and mutates the graph line by line, so the
exception a malformed line raises leaves the stored graph cleared and
partially rebuilt.  `build_graph` catches it and pops a message box with
`str(e)`.  `load_edge_csv` and `evaluate_circuit` return before touching
their stored model on failure.  `float()` is modelled by the token's
`asFloat` field; a line is kept as its raw text plus its
whitespace-split parts. -/

structure Tok where
  raw : String
  asFloat : Option ℚ
deriving DecidableEq

inductive PLine where
  | blank : PLine
  | toks : String → List Tok → PLine
deriving DecidableEq

structure PGraph where
  adj : List (String × List (String × ℚ))
  nodes_set : Finset String
  edges : List (String × String × ℚ)
deriving DecidableEq

def PGraph.empty : PGraph := ⟨[], ∅, []⟩

/-- `self.adj[u].append((v, w))`, creating `self.adj[u] = []` first. -/
def pgUpd : List (String × List (String × ℚ)) → String → String × ℚ →
    List (String × List (String × ℚ))
  | [], k, e => [(k, [e])]
  | (k2, v2) :: rest, k, e =>
      if k2 = k then (k2, v2 ++ [e]) :: rest else (k2, v2) :: pgUpd rest k e

/-- `Graph.add_edge`: add to `nodes_set`, `adj` and `edges`; undirected
edges are stored in both directions. -/
def pgAddEdge (g : PGraph) (u v : String) (w : ℚ) (directed : Bool) : PGraph :=
  { adj := if directed then pgUpd g.adj u (v, w)
           else pgUpd (pgUpd g.adj u (v, w)) v (u, w),
    nodes_set := insert v (insert u g.nodes_set),
    edges := g.edges ++ [(u, v, w)]
      ++ (if directed then [] else [(v, u, w)]) }

/-- The parsing loop of `parse_edges_text`: `i` is the 1-based line
number; a raised `ValueError` is the second component, and the first is
the graph as mutated so far.  The catch-all arm is Python's
`len(parts) < 3` check. -/
def parse_lines (directed : Bool) : List PLine → ℕ → PGraph → PGraph × Option String
  | [], _, g => (g, none)
  | PLine.blank :: rest, i, g => parse_lines directed rest (i + 1) g
  | PLine.toks raw parts :: rest, i, g =>
      match parts with
      | u :: v :: wt :: _ =>
          match wt.asFloat with
          | none => (g, some ("Line " ++ toString i ++ ": weight must be number: " ++ wt.raw))
          | some w => parse_lines directed rest (i + 1) (pgAddEdge g u.raw v.raw w directed)
      | _ => (g, some ("Line " ++ toString i ++ ": expected 'u v w', got: " ++ raw))

/-- `Graph.parse_edges_text`: `self.clear()` first — the incoming graph
is discarded before any line is parsed. -/
def parse_edges_text (_self : PGraph) (lines : List PLine) (directed : Bool) :
    PGraph × Option String :=
  parse_lines directed lines 1 PGraph.empty

/-- `build_graph`: `try: self.graph.parse_edges_text(...)` — on failure
the exception is caught, `messagebox.showerror("Parse error", str(e))`
is shown (the second component) and the handler returns; the stored
graph is whatever the partial parse left behind. -/
def build_graph (st : PGraph) (lines : List PLine) (directed : Bool) :
    PGraph × Option String :=
  parse_edges_text st lines directed

/-- A pandas data frame, reduced to its column names and string rows. -/
structure Df where
  columns : List String
  rows : List (List String)
deriving DecidableEq

/-- `sub in s` on Python strings. -/
def strContains (s sub : String) : Bool := (s.splitOn sub).length > 1

def findSourceCol (cols : List String) : Option String :=
  cols.find? (fun c =>
    let lc := c.toLower
    strContains lc "source" || strContains lc "from" || lc == "u" || lc == "node1")

def findTargetCol (cols : List String) : Option String :=
  cols.find? (fun c =>
    let lc := c.toLower
    strContains lc "target" || strContains lc "to" || lc == "v" || lc == "node2")

def findWeightCol (cols : List String) : Option String :=
  cols.find? (fun c => strContains c.toLower "weight")

def dfEntry (df : Df) (r : List String) (c : String) : String :=
  r.getD (df.columns.indexOf c) ""

/-- `df[[source_col, target_col]].rename(...)`; `astype(str)` is the
identity here since entries are kept as strings. -/
def dfSelect2 (df : Df) (sc tc : String) : Df :=
  ⟨["source", "target"], df.rows.map (fun r => [dfEntry df r sc, dfEntry df r tc])⟩

def dfSelect3 (df : Df) (sc tc wc : String) : Df :=
  ⟨["source", "target", "weight"],
    df.rows.map (fun r => [dfEntry df r sc, dfEntry df r tc, dfEntry df r wc])⟩

/-- `AdjacencyMatrixApp.load_edge_csv`: the stored model is `df_edges`;
`readResult` is the outcome of `pd.read_csv` (its exception as
`Except.error`).  The second component is the message box shown, if
any. -/
def load_edge_csv (df_edges : Option Df) (readResult : Except String Df) :
    Option Df × Option String :=
  match readResult with
  | Except.error e => (df_edges, some ("Failed to read CSV: " ++ e))
  | Except.ok df =>
      if df.columns.length < 2 then
        (df_edges, some "CSV must contain at least two columns for source and target.")
      else
        let st := match findSourceCol df.columns, findTargetCol df.columns with
          | some sc, some tc => (sc, tc)
          | _, _ => (df.columns.getD 0 "", df.columns.getD 1 "")
        match findWeightCol df.columns with
        | some wc => (some (dfSelect3 df st.1 st.2 wc), none)
        | none => (some (dfSelect2 df st.1 st.2), none)

/-- `vals[pin] = self.gates[src].output_value` for each wire into `gid`;
a wire is `(src, dst, pin)`. -/
def setVals (outputs : ℕ → Bool) (wires3 : List (ℕ × ℕ × ℕ)) (gid : ℕ)
    (vals : List Bool) : List Bool :=
  wires3.foldl (fun vs w => if w.2.1 = gid then vs.set w.2.2 (outputs w.1) else vs) vals

/-- `for gid in order:` — evaluate each gate in topological order and
store its output.  `geval` is `Gate.evaluate`, `numInputs` the pin
count. -/
def evalOrder (geval : ℕ → List Bool → Bool) (numInputs : ℕ → ℕ)
    (wires3 : List (ℕ × ℕ × ℕ)) : List ℕ → (ℕ → Bool) → (ℕ → Bool)
  | [], outputs => outputs
  | gid :: rest, outputs =>
      let in_vals := if 0 < numInputs gid then
          setVals outputs wires3 gid (List.replicate (numInputs gid) false)
        else []
      evalOrder geval numInputs wires3 rest
        (Function.update outputs gid (geval gid in_vals))

/-- `CircuitApp.evaluate_circuit`: the `ValueError` from
`_topological_order` is caught, shown (`str(e)`, second component) and
the handler returns with the gate outputs untouched. -/
def evaluate_circuit (gates : Finset ℕ) (wires3 : List (ℕ × ℕ × ℕ))
    (hw : ∀ w ∈ wires3.map (fun x => (x.1, x.2.1)), w.1 ∈ gates ∧ w.2 ∈ gates)
    (geval : ℕ → List Bool → Bool) (numInputs : ℕ → ℕ) (outputs : ℕ → Bool) :
    (ℕ → Bool) × Option String :=
  match topologicalOrder gates (wires3.map (fun x => (x.1, x.2.1))) hw with
  | Except.error e => (outputs, some e)
  | Except.ok order => (evalOrder geval numInputs wires3 order outputs, none)

end DSA

namespace DSA

theorem topologicalOrder_error_of_cycle (gates : Finset ℕ) (wires : List (ℕ × ℕ))
    (hw : ∀ w ∈ wires, w.1 ∈ gates ∧ w.2 ∈ gates) (hcyc : HasCycle wires) :
    topologicalOrder gates wires hw = Except.error
      "Cycle detected in circuit. Remove feedback loops before evaluation." := by
  obtain ⟨rchar, rnodup, rsub, rorder, rstuck⟩ :=
    kahnLoop_spec gates wires hw (buildDeps wires).1 (buildDeps wires).2
      ((gates.sort (· ≤ ·)).filter (fun g => (buildDeps wires).1 g = ∅)) []
      (topo_hS0 gates wires) (topo_hrv0 gates wires hw)
      (kInv_init gates wires)
  have htop : topologicalOrder gates wires hw =
      if ∃ g ∈ gates,
        (kahnLoop gates (buildDeps wires).1 (buildDeps wires).2
          ((gates.sort (· ≤ ·)).filter (fun g => (buildDeps wires).1 g = ∅)) []
          (topo_hS0 gates wires) (topo_hrv0 gates wires hw)).1 g ≠ ∅ then
        Except.error "Cycle detected in circuit. Remove feedback loops before evaluation."
      else Except.ok
        (kahnLoop gates (buildDeps wires).1 (buildDeps wires).2
          ((gates.sort (· ≤ ·)).filter (fun g => (buildDeps wires).1 g = ∅)) []
          (topo_hS0 gates wires) (topo_hrv0 gates wires hw)).2 := rfl
  by_cases hcond : ∃ g ∈ gates,
      (kahnLoop gates (buildDeps wires).1 (buildDeps wires).2
        ((gates.sort (· ≤ ·)).filter (fun g => (buildDeps wires).1 g = ∅)) []
        (topo_hS0 gates wires) (topo_hrv0 gates wires hw)).1 g ≠ ∅
  · rw [htop, if_pos hcond]
  · exfalso
    have hall : ∀ g ∈ gates,
        g ∈ (kahnLoop gates (buildDeps wires).1 (buildDeps wires).2
          ((gates.sort (· ≤ ·)).filter (fun g => (buildDeps wires).1 g = ∅)) []
          (topo_hS0 gates wires) (topo_hrv0 gates wires hw)).2 := by
      intro g hg
      by_contra hnot
      exact hcond ⟨g, hg, rstuck g hg hnot⟩
    have horder : ∀ w ∈ wires,
        (kahnLoop gates (buildDeps wires).1 (buildDeps wires).2
          ((gates.sort (· ≤ ·)).filter (fun g => (buildDeps wires).1 g = ∅)) []
          (topo_hS0 gates wires) (topo_hrv0 gates wires hw)).2.indexOf w.1 <
        (kahnLoop gates (buildDeps wires).1 (buildDeps wires).2
          ((gates.sort (· ≤ ·)).filter (fun g => (buildDeps wires).1 g = ∅)) []
          (topo_hS0 gates wires) (topo_hrv0 gates wires hw)).2.indexOf w.2 := by
      intro w hwmem
      exact (rorder w hwmem (hall w.2 (hw w hwmem).2)).2
    obtain ⟨g, p, hpne, hp⟩ := hcyc
    exact absurd (wpath_index_lt horder p g g hp hpne) (lt_irrefl _)

end DSA

/-- C7 (amended): the cited parsing operations catch the failure, show
a message box carrying the exception text and return early with their
stored model untouched: `load_edge_csv` leaves `df_edges` unchanged on
a CSV read error or a too-narrow frame, and `evaluate_circuit` leaves
every gate output unchanged when `_topological_order` raises.
`build_graph` also catches and shows `str(e)`, but its stored graph is
whatever `parse_edges_text` left behind — not necessarily the old
graph, since parsing clears first (see the counterexample). -/
theorem c7_parse_failure_handling
    (dfe : Option DSA.Df) (e : String) (df : DSA.Df)
    (gates : Finset ℕ) (wires3 : List (ℕ × ℕ × ℕ))
    (hw : ∀ w ∈ wires3.map (fun x => (x.1, x.2.1)), w.1 ∈ gates ∧ w.2 ∈ gates)
    (geval : ℕ → List Bool → Bool) (numInputs : ℕ → ℕ) (outputs : ℕ → Bool)
    (err : String)
    (hcols : df.columns.length < 2)
    (htopo : DSA.topologicalOrder gates (wires3.map (fun x => (x.1, x.2.1))) hw
      = Except.error err)
    (st : DSA.PGraph) (lines : List DSA.PLine) (directed : Bool) :
    DSA.load_edge_csv dfe (Except.error e)
        = (dfe, some ("Failed to read CSV: " ++ e))
    ∧ DSA.load_edge_csv dfe (Except.ok df)
        = (dfe, some "CSV must contain at least two columns for source and target.")
    ∧ DSA.evaluate_circuit gates wires3 hw geval numInputs outputs
        = (outputs, some err)
    ∧ DSA.build_graph st lines directed = DSA.parse_edges_text st lines directed := by
  refine ⟨rfl, ?_, ?_, rfl⟩
  · show (if df.columns.length < 2 then _ else _) = _
    rw [if_pos hcols]
  · show (match DSA.topologicalOrder gates (wires3.map (fun x => (x.1, x.2.1))) hw with
      | Except.error e => (outputs, some e)
      | Except.ok order => (DSA.evalOrder geval numInputs wires3 order outputs, none)) = _
    rw [htopo]

/-- C7 counterexample: a failing parse does not leave the stored model
unchanged. `build_graph` on the single malformed line "x" reports a
parse error, yet replaces the stored one-edge graph with the cleared
(empty) graph, refuting the original claim's "model left unchanged"
clause for every parsing operation. -/
theorem c7_build_graph_mutates_on_failure :
    ∃ (st : DSA.PGraph) (lines : List DSA.PLine),
      (DSA.build_graph st lines false).2 ≠ none
      ∧ (DSA.build_graph st lines false).1 ≠ st := by
  refine ⟨DSA.pgAddEdge DSA.PGraph.empty "a" "b" 1 false,
    [DSA.PLine.toks "x" [⟨"x", none⟩]], ?_, ?_⟩
  · intro h
    exact Option.noConfusion h
  · intro h
    have := congrArg DSA.PGraph.edges h
    simp [DSA.build_graph, DSA.parse_edges_text, DSA.parse_lines,
      DSA.PGraph.empty, DSA.pgAddEdge] at this

/-- Witness for C7 on concrete inputs: a failing CSV read, a one-column
frame, and a two-gate feedback circuit whose evaluation aborts. -/
theorem c7_parse_failure_handling_witness :
    ((DSA.Df.mk ["a"] []).columns.length < 2)
    ∧ (DSA.topologicalOrder {1, 2} ([((1 : ℕ), (2 : ℕ), (0 : ℕ)),
          ((2 : ℕ), (1 : ℕ), (0 : ℕ))].map (fun x => (x.1, x.2.1)))
        (by decide) = Except.error
          "Cycle detected in circuit. Remove feedback loops before evaluation.")
    ∧ DSA.load_edge_csv none (Except.error "boom")
        = (none, some ("Failed to read CSV: " ++ "boom"))
    ∧ DSA.load_edge_csv none (Except.ok (DSA.Df.mk ["a"] []))
        = (none, some "CSV must contain at least two columns for source and target.")
    ∧ DSA.evaluate_circuit {1, 2} [((1 : ℕ), (2 : ℕ), (0 : ℕ)),
          ((2 : ℕ), (1 : ℕ), (0 : ℕ))] (by decide)
        (fun _ _ => false) (fun _ => 2) (fun _ => false)
        = (fun _ => false,
            some "Cycle detected in circuit. Remove feedback loops before evaluation.")
    ∧ DSA.build_graph DSA.PGraph.empty [] false
        = DSA.parse_edges_text DSA.PGraph.empty [] false := by
  have hcyc : DSA.HasCycle ([((1 : ℕ), (2 : ℕ), (0 : ℕ)),
      ((2 : ℕ), (1 : ℕ), (0 : ℕ))].map (fun x => (x.1, x.2.1))) := by
    refine ⟨1, [2, 1], by simp, ?_⟩
    show ((1 : ℕ), (2 : ℕ)) ∈ _ ∧ ((2 : ℕ), (1 : ℕ)) ∈ _ ∧ (1 : ℕ) = 1
    refine ⟨by simp, by simp, rfl⟩
  have htopo := DSA.topologicalOrder_error_of_cycle {1, 2}
    ([((1 : ℕ), (2 : ℕ), (0 : ℕ)), ((2 : ℕ), (1 : ℕ), (0 : ℕ))].map
      (fun x => (x.1, x.2.1))) (by decide) hcyc
  have h := c7_parse_failure_handling none "boom" (DSA.Df.mk ["a"] [])
    {1, 2} [((1 : ℕ), (2 : ℕ), (0 : ℕ)), ((2 : ℕ), (1 : ℕ), (0 : ℕ))] (by decide)
    (fun _ _ => false) (fun _ => 2) (fun _ => false)
    "Cycle detected in circuit. Remove feedback loops before evaluation."
    (by decide) htopo DSA.PGraph.empty [] false
  exact ⟨by decide, htopo, h.1, h.2.1, h.2.2.1, h.2.2.2⟩

namespace DSA

/-! ## Edmonds–Karp max flow (C5)

`FlowGraph.adj` is `u -> {v: capacity}`; capacities come from `int()`
fields and `add_edge` rejects `cap <= 0`, so they are modelled as `ℕ`
with the dict-absent default 0.  The residual is a capacity function
`R : ℕ → ℕ → ℕ`; BFS explores `cap > 0` edges and builds the `parent`
dict (an association list keyed by node). -/

structure FlowGraph where
  cap : ℕ → ℕ → ℕ
  nodes : Finset ℕ

def FlowGraph.empty : FlowGraph := ⟨fun _ _ => 0, ∅⟩

/-- `FlowGraph.add_edge`: `ValueError` on `cap <= 0`, otherwise
`self.adj[u][v] = self.adj[u].get(v, 0) + cap` (parallel edges
accumulate) and both endpoints become nodes. -/
def FlowGraph.add_edge (g : FlowGraph) (u v c : ℕ) : Except String FlowGraph :=
  if c = 0 then Except.error "Capacity must be positive"
  else Except.ok
    ⟨fun a b => if a = u ∧ b = v then g.cap a b + c else g.cap a b,
     insert v (insert u g.nodes)⟩

def ofEdgeList : List (ℕ × ℕ × ℕ) → Except String FlowGraph :=
  fun l => l.foldlM (fun g e => g.add_edge e.1 e.2.1 e.2.2) FlowGraph.empty

/-- Capacities vanish outside the node set. -/
def FlowGraph.WF (g : FlowGraph) : Prop :=
  ∀ u v, g.cap u v ≠ 0 → u ∈ g.nodes ∧ v ∈ g.nodes

theorem wf_empty : FlowGraph.WF FlowGraph.empty := by
  intro u v h
  exact absurd rfl h

theorem wf_add_edge2 (g : FlowGraph) (u v c : ℕ) (g2 : FlowGraph)
    (h : g.add_edge u v c = Except.ok g2) (hg : FlowGraph.WF g) :
    FlowGraph.WF g2 := by
  rw [FlowGraph.add_edge] at h
  by_cases hc : c = 0
  · rw [if_pos hc] at h
    exact Except.noConfusion h
  · rw [if_neg hc] at h
    rw [Except.ok.injEq] at h
    subst h
    intro a b hab
    show a ∈ insert v (insert u g.nodes) ∧ b ∈ insert v (insert u g.nodes)
    by_cases he : a = u ∧ b = v
    · exact ⟨he.1 ▸ Finset.mem_insert_of_mem (Finset.mem_insert_self _ _),
        he.2 ▸ Finset.mem_insert_self _ _⟩
    · have : g.cap a b ≠ 0 := by
        simpa [FlowGraph.add_edge, he] using hab
      have h2 := hg a b this
      exact ⟨Finset.mem_insert_of_mem (Finset.mem_insert_of_mem h2.1),
        Finset.mem_insert_of_mem (Finset.mem_insert_of_mem h2.2)⟩

theorem wf_ofEdgeList : ∀ (l : List (ℕ × ℕ × ℕ)) (g0 : FlowGraph), FlowGraph.WF g0 →
    ∀ g, (l.foldlM (fun g e => FlowGraph.add_edge g e.1 e.2.1 e.2.2) g0
      = Except.ok g) → FlowGraph.WF g := by
  intro l
  induction l with
  | nil =>
      intro g0 h0 g hg
      rw [List.foldlM_nil] at hg
      have : g0 = g := by
        simpa [pure, Except.pure] using hg
      exact this ▸ h0
  | cons e rest ih =>
      intro g0 h0 g hg
      rw [List.foldlM_cons] at hg
      cases he : FlowGraph.add_edge g0 e.1 e.2.1 e.2.2 with
      | error msg =>
          rw [he] at hg
          exact Except.noConfusion hg
      | ok g1 =>
          rw [he] at hg
          exact ih g1 (wf_add_edge2 g0 e.1 e.2.1 e.2.2 g1 he h0) g hg

/-- Lookup in the `parent` dict. -/
def pFind : List (ℕ × Option ℕ) → ℕ → Option (Option ℕ)
  | [], _ => none
  | (k, p) :: rest, x => if k = x then some p else pFind rest x

def keysP (par : List (ℕ × Option ℕ)) : List ℕ := par.map Prod.fst

/-- The `for v, cap in R[u].items():` loop of the BFS: unknown nodes
with positive residual capacity get `parent[v] = u` and are enqueued. -/
def ekStep (R : ℕ → ℕ → ℕ) (u : ℕ) :
    List ℕ → List (ℕ × Option ℕ) → List ℕ → List (ℕ × Option ℕ) × List ℕ
  | [], par, acc => (par, acc)
  | v :: rest, par, acc =>
      if (pFind par v).isNone ∧ 0 < R u v then
        ekStep R u rest (par ++ [(v, some u)]) (acc ++ [v])
      else ekStep R u rest par acc

theorem pFind_isNone_iff (par : List (ℕ × Option ℕ)) (v : ℕ) :
    (pFind par v).isNone = true ↔ v ∉ keysP par := by
  induction par with
  | nil => simp [pFind, keysP]
  | cons e rest ih =>
      obtain ⟨k, p⟩ := e
      show (if k = v then some p else pFind rest v).isNone = true ↔ _
      by_cases hk : k = v
      · rw [if_pos hk]
        simp [keysP, hk]
      · rw [if_neg hk]
        simp only [keysP, List.map_cons, List.mem_cons]
        rw [ih]
        constructor
        · rintro h (h2 | h2)
          · exact hk h2.symm
          · exact h h2
        · intro h h2
          exact h (Or.inr h2)

end DSA

namespace DSA

theorem ekStep_spec (R : ℕ → ℕ → ℕ) (u : ℕ) :
    ∀ (l : List ℕ) (par : List (ℕ × Option ℕ)) (acc : List ℕ),
    ∃ news, (ekStep R u l par acc).1 = par ++ news.map (fun v => (v, some u))
      ∧ (ekStep R u l par acc).2 = acc ++ news
      ∧ news.Nodup
      ∧ (∀ v ∈ news, v ∈ l ∧ v ∉ keysP par ∧ 0 < R u v)
      ∧ (∀ v ∈ l, 0 < R u v → v ∈ keysP (ekStep R u l par acc).1) := by
  intro l
  induction l with
  | nil =>
      intro par acc
      exact ⟨[], by simp [ekStep], by simp [ekStep], List.nodup_nil, by simp, by simp⟩
  | cons v rest ih =>
      intro par acc
      simp only [ekStep]
      by_cases hcond : (pFind par v).isNone = true ∧ 0 < R u v
      · rw [if_pos hcond]
        obtain ⟨news, h1, h2, h3, h4, h5⟩ := ih (par ++ [(v, some u)]) (acc ++ [v])
        have hvk : v ∉ keysP par := (pFind_isNone_iff par v).1 hcond.1
        refine ⟨v :: news, ?_, ?_, ?_, ?_, ?_⟩
        · rw [h1, List.append_assoc]
          rfl
        · rw [h2, List.append_assoc]
          rfl
        · rw [List.nodup_cons]
          refine ⟨fun hmem => ?_, h3⟩
          have := (h4 v hmem).2.1
          apply this
          simp [keysP]
        · intro z hz
          rcases List.mem_cons.1 hz with rfl | hz2
          · exact ⟨List.mem_cons_self _ _, hvk, hcond.2⟩
          · obtain ⟨hz3, hz4, hz5⟩ := h4 z hz2
            refine ⟨List.mem_cons_of_mem _ hz3, fun hmem => hz4 ?_, hz5⟩
            simp only [keysP, List.map_append] at *
            exact List.mem_append_left _ hmem
        · intro z hz hR
          rcases List.mem_cons.1 hz with rfl | hz2
          · rw [h1]
            simp [keysP]
          · exact h5 z hz2 hR
      · rw [if_neg hcond]
        obtain ⟨news, h1, h2, h3, h4, h5⟩ := ih par acc
        refine ⟨news, h1, h2, h3, ?_, ?_⟩
        · intro z hz
          obtain ⟨hz3, hz4, hz5⟩ := h4 z hz
          exact ⟨List.mem_cons_of_mem _ hz3, hz4, hz5⟩
        · intro z hz hR
          rcases List.mem_cons.1 hz with rfl | hz2
          · have hsome : ¬ (pFind par z).isNone = true := fun hn => hcond ⟨hn, hR⟩
            have : z ∈ keysP par := by
              by_contra hnk
              exact hsome ((pFind_isNone_iff par z).2 hnk)
            rw [h1]
            simp only [keysP, List.map_append, List.mem_append]
            exact Or.inl this
          · exact h5 z hz2 hR

theorem ekStep_measure (dom : Finset ℕ) (R : ℕ → ℕ → ℕ) (u : ℕ)
    (l : List ℕ) (par : List (ℕ × Option ℕ)) (acc : List ℕ)
    (hl : ∀ z ∈ l, z ∈ dom) :
    2 * (dom \ (keysP (ekStep R u l par acc).1).toFinset).card
        + (ekStep R u l par acc).2.length
      ≤ 2 * (dom \ (keysP par).toFinset).card + acc.length := by
  induction l generalizing par acc with
  | nil => exact Nat.le_refl _
  | cons v rest ih =>
      simp only [ekStep]
      by_cases hcond : (pFind par v).isNone = true ∧ 0 < R u v
      · rw [if_pos hcond]
        have h1 := ih (par ++ [(v, some u)]) (acc ++ [v])
          (fun z hz => hl z (List.mem_cons_of_mem _ hz))
        have hvk : v ∉ keysP par := (pFind_isNone_iff par v).1 hcond.1
        have hvdom : v ∈ dom := hl v (List.mem_cons_self _ _)
        have hmem : v ∈ dom \ (keysP par).toFinset := by
          rw [Finset.mem_sdiff]
          exact ⟨hvdom, fun h => hvk (List.mem_toFinset.1 h)⟩
        have hkeys : (keysP (par ++ [(v, some u)])).toFinset
            = insert v (keysP par).toFinset := by
          simp only [keysP, List.map_append]
          ext a
          simp only [List.toFinset_append, Finset.mem_union, Finset.mem_insert,
            List.mem_toFinset, List.map_cons, List.map_nil]
          constructor
          · rintro (h | h)
            · exact Or.inr h
            · simp at h
              exact Or.inl h
          · rintro (h | h)
            · exact Or.inr (by simp [h])
            · exact Or.inl h
        have hcard : (dom \ insert v (keysP par).toFinset).card + 1
            = (dom \ (keysP par).toFinset).card := by
          have heq : dom \ insert v (keysP par).toFinset
              = (dom \ (keysP par).toFinset).erase v := by
            ext a
            simp only [Finset.mem_sdiff, Finset.mem_insert, Finset.mem_erase]
            tauto
          rw [heq, Finset.card_erase_of_mem hmem]
          have : 0 < (dom \ (keysP par).toFinset).card := Finset.card_pos.2 ⟨v, hmem⟩
          omega
        rw [hkeys] at h1
        have hacc : (acc ++ [v]).length = acc.length + 1 := by simp
        omega
      · rw [if_neg hcond]
        exact ih par acc (fun z hz => hl z (List.mem_cons_of_mem _ hz))

/-- The BFS `while q and sink not in parent:` loop. -/
def ekBFS (R : ℕ → ℕ → ℕ) (nodesL : List ℕ) (t : ℕ) :
    List ℕ → List (ℕ × Option ℕ) → List (ℕ × Option ℕ)
  | [], par => par
  | u :: rest, par =>
      if (pFind par t).isSome then par
      else ekBFS R nodesL t (rest ++ (ekStep R u nodesL par []).2)
        (ekStep R u nodesL par []).1
termination_by q par => 2 * ((nodesL.toFinset \ (keysP par).toFinset).card) + q.length
decreasing_by
· have h := ekStep_measure nodesL.toFinset R u nodesL par []
    (fun z hz => List.mem_toFinset.2 hz)
  simp only [List.length_nil, List.length_append, List.length_cons] at h ⊢
  omega

end DSA

namespace DSA

theorem pFind_isSome_iff (par : List (ℕ × Option ℕ)) (v : ℕ) :
    (pFind par v).isSome = true ↔ v ∈ keysP par := by
  constructor
  · intro hs
    by_contra hk
    have h2 := (pFind_isNone_iff par v).2 hk
    rw [Option.isNone_iff_eq_none] at h2
    rw [h2] at hs
    simp at hs
  · intro hk
    rcases hf : pFind par v with _ | op
    · exact absurd hk ((pFind_isNone_iff par v).1 (by rw [hf]; rfl))
    · rfl

theorem mem_of_pFind (par : List (ℕ × Option ℕ)) (v : ℕ) (op : Option ℕ)
    (h : pFind par v = some op) : (v, op) ∈ par := by
  induction par with
  | nil => exact Option.noConfusion h
  | cons e rest ih =>
      obtain ⟨k, p⟩ := e
      rw [show pFind ((k, p) :: rest) v = if k = v then some p else pFind rest v from rfl] at h
      by_cases hk : k = v
      · rw [if_pos hk] at h
        rw [Option.some.injEq] at h
        subst h
        subst hk
        exact List.mem_cons_self _ _
      · rw [if_neg hk] at h
        exact List.mem_cons_of_mem _ (ih h)

theorem pFind_of_mem_nodup (par : List (ℕ × Option ℕ)) (hnd : (keysP par).Nodup)
    (v : ℕ) (op : Option ℕ) (h : (v, op) ∈ par) : pFind par v = some op := by
  induction par with
  | nil => simp at h
  | cons e rest ih =>
      obtain ⟨k, p⟩ := e
      have hnd2 : (keysP rest).Nodup := (List.nodup_cons.1 hnd).2
      have hk2 : k ∉ keysP rest := (List.nodup_cons.1 hnd).1
      rw [List.mem_cons] at h
      show (if k = v then some p else pFind rest v) = some op
      rcases h with h | h
      · simp only [Prod.mk.injEq] at h
        rw [if_pos h.1.symm, h.2]
      · by_cases hk : k = v
        · exfalso
          apply hk2
          rw [hk]
          exact List.mem_map.2 ⟨(v, op), h, rfl⟩
        · rw [if_neg hk]
          exact ih hnd2 h

theorem pFind_append_left (par X : List (ℕ × Option ℕ)) (x : ℕ)
    (h : x ∈ keysP par) : pFind (par ++ X) x = pFind par x := by
  induction par with
  | nil => simp [keysP] at h
  | cons e rest ih =>
      obtain ⟨k, p⟩ := e
      show (if k = x then some p else pFind (rest ++ X) x)
        = (if k = x then some p else pFind rest x)
      by_cases hk : k = x
      · rw [if_pos hk, if_pos hk]
      · rw [if_neg hk, if_neg hk]
        apply ih
        simp only [keysP, List.map_cons, List.mem_cons] at h
        rcases h with h | h
        · exact absurd h.symm hk
        · exact h

theorem pFind_append_right (par X : List (ℕ × Option ℕ)) (x : ℕ)
    (h : x ∉ keysP par) : pFind (par ++ X) x = pFind X x := by
  induction par with
  | nil => rfl
  | cons e rest ih =>
      obtain ⟨k, p⟩ := e
      show (if k = x then some p else pFind (rest ++ X) x) = _
      have hk : k ≠ x := by
        intro hkx
        exact h (by simp [keysP, hkx])
      rw [if_neg hk]
      exact ih (fun h2 => h (by simp [keysP] at h2 ⊢; tauto))

end DSA

namespace DSA

/-- Invariant of the BFS parent dict: keys are discovered nodes, `s` is
the unique root, every non-root entry records a positive-capacity edge
from an earlier-discovered node, queue members are keys, and every key
no longer in the queue has had all its positive neighbours
discovered. -/
structure EkInv (R : ℕ → ℕ → ℕ) (nodesL : List ℕ) (s : ℕ) (q : List ℕ)
    (par : List (ℕ × Option ℕ)) : Prop where
  nodupK : (keysP par).Nodup
  root : ∀ v op, (v, op) ∈ par → op = none → v = s
  roots : pFind par s = some none
  edges : ∀ v u2, (v, some u2) ∈ par →
    0 < R u2 v ∧ (keysP par).indexOf u2 < (keysP par).indexOf v
  qsub : ∀ x ∈ q, x ∈ keysP par
  closed : ∀ u2, u2 ∈ keysP par → u2 ∉ q →
    ∀ v ∈ nodesL, 0 < R u2 v → v ∈ keysP par
  keys_sub : ∀ x ∈ keysP par, x = s ∨ x ∈ nodesL

theorem ekInv_init (R : ℕ → ℕ → ℕ) (nodesL : List ℕ) (s : ℕ) :
    EkInv R nodesL s [s] [(s, none)] := by
  constructor
  · simp [keysP]
  · intro v op h _
    simp only [List.mem_singleton, Prod.mk.injEq] at h
    exact h.1
  · simp [pFind]
  · intro v u2 h
    simp only [List.mem_singleton, Prod.mk.injEq] at h
    exact absurd h.2 (by simp)
  · intro x hx
    simp only [List.mem_singleton] at hx
    simp [keysP, hx]
  · intro u2 hu2 hq
    exfalso
    apply hq
    simp only [keysP, List.map_cons, List.map_nil, List.mem_singleton] at hu2
    simp [hu2]
  · intro x hx
    simp only [keysP, List.map_cons, List.map_nil, List.mem_singleton] at hx
    exact Or.inl hx

theorem ekInv_step (R : ℕ → ℕ → ℕ) (nodesL : List ℕ) (s u : ℕ) (rest : List ℕ)
    (par : List (ℕ × Option ℕ)) (inv : EkInv R nodesL s (u :: rest) par) :
    EkInv R nodesL s (rest ++ (ekStep R u nodesL par []).2)
      (ekStep R u nodesL par []).1 := by
  obtain ⟨news, h1, h2, h3, h4, h5⟩ := ekStep_spec R u nodesL par []
  rw [List.nil_append] at h2
  have hkeys : keysP (ekStep R u nodesL par []).1 = keysP par ++ news := by
    rw [h1]
    simp [keysP, List.map_map, Function.comp_def]
  have humem : u ∈ keysP par := inv.qsub u (List.mem_cons_self _ _)
  have hfresh : ∀ z ∈ news, z ∉ keysP par := fun z hz => (h4 z hz).2.1
  constructor
  · rw [hkeys]
    refine List.Nodup.append inv.nodupK h3 ?_
    intro a ha hb
    exact hfresh a hb ha
  · intro v op hmem hop
    rw [h1] at hmem
    rcases List.mem_append.1 hmem with hmem | hmem
    · exact inv.root v op hmem hop
    · obtain ⟨z, _, hz2⟩ := List.mem_map.1 hmem
      simp only [Prod.mk.injEq] at hz2
      rw [hop] at hz2
      exact absurd hz2.2 (by simp)
  · rw [h1, pFind_append_left]
    · exact inv.roots
    · rw [← pFind_isSome_iff, inv.roots]
      rfl
  · intro v u2 hmem
    rw [h1] at hmem
    rw [hkeys]
    rcases List.mem_append.1 hmem with hmem | hmem
    · obtain ⟨hpos, hidx⟩ := inv.edges v u2 hmem
      have hvk : v ∈ keysP par := List.mem_map.2 ⟨(v, some u2), hmem, rfl⟩
      have hvlt : (keysP par).indexOf v < (keysP par).length :=
        List.indexOf_lt_length.2 hvk
      have hu2k : u2 ∈ keysP par :=
        List.indexOf_lt_length.1 (lt_trans hidx hvlt)
      rw [List.indexOf_append_of_mem hu2k, List.indexOf_append_of_mem hvk]
      exact ⟨hpos, hidx⟩
    · obtain ⟨z, hz1, hz2⟩ := List.mem_map.1 hmem
      simp only [Prod.mk.injEq, Option.some.injEq] at hz2
      obtain ⟨hzv, huu⟩ := hz2
      subst hzv
      subst huu
      refine ⟨(h4 _ hz1).2.2, ?_⟩
      rw [List.indexOf_append_of_mem humem,
        List.indexOf_append_of_not_mem (hfresh _ hz1)]
      have h6 : (keysP par).indexOf u < (keysP par).length :=
        List.indexOf_lt_length.2 humem
      omega
  · intro x hx
    rw [hkeys]
    rcases List.mem_append.1 hx with hx | hx
    · exact List.mem_append_left _ (inv.qsub x (List.mem_cons_of_mem _ hx))
    · rw [h2] at hx
      exact List.mem_append_right _ hx
  · intro u2 hu2 hq v hv hR
    rw [hkeys] at hu2
    rcases List.mem_append.1 hu2 with hu2 | hu2
    · by_cases hu2u : u2 = u
      · subst hu2u
        have := h5 v hv hR
        rw [hkeys] at this
        rw [hkeys]
        exact this
      · have hnot : u2 ∉ u :: rest := by
          intro hc
          rcases List.mem_cons.1 hc with hc | hc
          · exact hu2u hc
          · exact hq (List.mem_append_left _ hc)
        have := inv.closed u2 hu2 hnot v hv hR
        rw [hkeys]
        exact List.mem_append_left _ this
    · exfalso
      apply hq
      apply List.mem_append_right
      rw [h2]
      exact hu2
  · intro x hx
    rw [hkeys] at hx
    rcases List.mem_append.1 hx with hx | hx
    · exact inv.keys_sub x hx
    · exact Or.inr (h4 x hx).1

theorem ekBFS_nil (R : ℕ → ℕ → ℕ) (nodesL : List ℕ) (t : ℕ)
    (par : List (ℕ × Option ℕ)) : ekBFS R nodesL t [] par = par := by
  rw [ekBFS.eq_def]

theorem ekBFS_cons (R : ℕ → ℕ → ℕ) (nodesL : List ℕ) (t u : ℕ) (rest : List ℕ)
    (par : List (ℕ × Option ℕ)) :
    ekBFS R nodesL t (u :: rest) par
      = if (pFind par t).isSome then par
        else ekBFS R nodesL t (rest ++ (ekStep R u nodesL par []).2)
          (ekStep R u nodesL par []).1 := by
  rw [ekBFS.eq_def]

theorem ekBFS_spec (R : ℕ → ℕ → ℕ) (nodesL : List ℕ) (s t : ℕ) :
    ∀ (q : List ℕ) (par : List (ℕ × Option ℕ)), EkInv R nodesL s q par →
    ∃ q2, EkInv R nodesL s q2 (ekBFS R nodesL t q par)
      ∧ ((pFind (ekBFS R nodesL t q par) t).isSome = true ∨ q2 = []) := by
  intro q par
  induction q, par using ekBFS.induct R nodesL t with
  | case1 par =>
      intro inv
      rw [ekBFS_nil]
      exact ⟨[], inv, Or.inr rfl⟩
  | case2 u rest par hfound =>
      intro inv
      rw [ekBFS_cons, if_pos hfound]
      exact ⟨u :: rest, inv, Or.inl hfound⟩
  | case3 u rest par hnot ih =>
      intro inv
      rw [ekBFS_cons, if_neg hnot]
      exact ih (ekInv_step R nodesL s u rest par inv)

end DSA

namespace DSA

/-- A path of positive-capacity edges (successive vertices after the
start). -/
def RPath (R : ℕ → ℕ → ℕ) : ℕ → List ℕ → ℕ → Prop
  | u, [], v => u = v
  | u, x :: rest, v => 0 < R u x ∧ RPath R x rest v

theorem rpath_append_single (R : ℕ → ℕ → ℕ) :
    ∀ (p : List ℕ) (a b c : ℕ), RPath R a p b → 0 < R b c →
      RPath R a (p ++ [c]) c := by
  intro p
  induction p with
  | nil =>
      intro a b c hp hbc
      obtain rfl : a = b := hp
      exact ⟨hbc, rfl⟩
  | cons x rest ih =>
      intro a b c hp hbc
      exact ⟨hp.1, ih x b c hp.2 hbc⟩

/-- `while v != source:` path reconstruction through the parent dict,
fuelled by the dict size. -/
def ekChase (par : List (ℕ × Option ℕ)) : ℕ → ℕ → List ℕ
  | 0, v => [v]
  | fuel + 1, v =>
      match pFind par v with
      | some (some u) => v :: ekChase par fuel u
      | _ => [v]

/-- The edge list `path` of consecutive vertex pairs. -/
def pathEdges : List ℕ → List (ℕ × ℕ)
  | a :: b :: rest => (a, b) :: pathEdges (b :: rest)
  | _ => []

/-- `bottleneck = min(bottleneck, R[u][v])` running minimum. -/
def botMin (R : ℕ → ℕ → ℕ) : List (ℕ × ℕ) → ℕ → ℕ
  | [], acc => acc
  | e :: es, acc => botMin R es (min acc (R e.1 e.2))

/-- The bottleneck of a (nonempty) edge list, `math.inf` never
surviving a nonempty path. -/
def ekBottleneck (R : ℕ → ℕ → ℕ) : List (ℕ × ℕ) → ℕ
  | [] => 0
  | e :: es => botMin R es (R e.1 e.2)

/-- `R[u][v] -= bottleneck; R[v][u] = R.get(v, {}).get(u, 0) + bottleneck`
applied along the path. -/
def ekAugment (R : ℕ → ℕ → ℕ) (b : ℕ) : List (ℕ × ℕ) → (ℕ → ℕ → ℕ)
  | [] => R
  | (u, v) :: rest =>
      ekAugment (fun a c => if (a, c) = (u, v) then R u v - b
        else if (a, c) = (v, u) then R v u + b else R a c) b rest

theorem botMin_le_acc (R : ℕ → ℕ → ℕ) :
    ∀ (es : List (ℕ × ℕ)) (acc : ℕ), botMin R es acc ≤ acc := by
  intro es
  induction es with
  | nil => intro acc; exact Nat.le_refl _
  | cons e es ih =>
      intro acc
      exact le_trans (ih _) (min_le_left _ _)

theorem botMin_le_edge (R : ℕ → ℕ → ℕ) :
    ∀ (es : List (ℕ × ℕ)) (acc : ℕ) (x y : ℕ), (x, y) ∈ es →
      botMin R es acc ≤ R x y := by
  intro es
  induction es with
  | nil => intro acc x y h; simp at h
  | cons e es ih =>
      intro acc x y h
      rcases List.mem_cons.1 h with h | h
      · subst h
        exact le_trans (botMin_le_acc R es _) (min_le_right _ _)
      · exact ih _ x y h

theorem botMin_pos (R : ℕ → ℕ → ℕ) :
    ∀ (es : List (ℕ × ℕ)) (acc : ℕ), 0 < acc → (∀ e ∈ es, 0 < R e.1 e.2) →
      0 < botMin R es acc := by
  intro es
  induction es with
  | nil => intro acc h _; exact h
  | cons e es ih =>
      intro acc hacc hall
      exact ih _ (lt_min hacc (hall e (List.mem_cons_self _ _)))
        (fun e2 he2 => hall e2 (List.mem_cons_of_mem _ he2))

theorem ekBottleneck_le (R : ℕ → ℕ → ℕ) (E : List (ℕ × ℕ)) (x y : ℕ)
    (h : (x, y) ∈ E) : ekBottleneck R E ≤ R x y := by
  cases E with
  | nil => simp at h
  | cons e es =>
      rcases List.mem_cons.1 h with h | h
      · subst h
        exact botMin_le_acc R es _
      · exact botMin_le_edge R es _ x y h

theorem ekBottleneck_pos (R : ℕ → ℕ → ℕ) (E : List (ℕ × ℕ)) (hne : E ≠ [])
    (hall : ∀ e ∈ E, 0 < R e.1 e.2) : 0 < ekBottleneck R E := by
  cases E with
  | nil => exact absurd rfl hne
  | cons e es =>
      exact botMin_pos R es _ (hall e (List.mem_cons_self _ _))
        (fun e2 he2 => hall e2 (List.mem_cons_of_mem _ he2))

theorem mem_pathEdges : ∀ (w : List ℕ) (x y : ℕ), (x, y) ∈ pathEdges w →
    x ∈ w ∧ y ∈ w.tail := by
  intro w
  induction w with
  | nil => intro x y h; simp [pathEdges] at h
  | cons a w ih =>
      intro x y h
      cases w with
      | nil => simp [pathEdges] at h
      | cons b w2 =>
          rcases List.mem_cons.1 h with h | h
          · simp only [Prod.mk.injEq] at h
            exact ⟨h.1 ▸ List.mem_cons_self _ _, h.2 ▸ List.mem_cons_self _ _⟩
          · obtain ⟨h1, h2⟩ := ih x y h
            exact ⟨List.mem_cons_of_mem _ h1, List.mem_cons_of_mem _ h2⟩

theorem pathEdges_pos (R : ℕ → ℕ → ℕ) :
    ∀ (p : List ℕ) (a b : ℕ), RPath R a p b →
      ∀ e ∈ pathEdges (a :: p), 0 < R e.1 e.2 := by
  intro p
  induction p with
  | nil => intro a b _ e he; simp [pathEdges] at he
  | cons x rest ih =>
      intro a b hp e he
      rcases List.mem_cons.1 he with he | he
      · subst he
        exact hp.1
      · exact ih x b hp.2 e he

theorem pathEdges_rev_free : ∀ (w : List ℕ), w.Nodup →
    ∀ x y, (x, y) ∈ pathEdges w → (y, x) ∉ pathEdges w := by
  intro w
  induction w with
  | nil => intro _ x y h; simp [pathEdges] at h
  | cons a w ih =>
      intro hnd x y h hrev
      cases w with
      | nil => simp [pathEdges] at h
      | cons b w2 =>
          have hanotin : a ∉ b :: w2 := (List.nodup_cons.1 hnd).1
          have hnd2 : (b :: w2).Nodup := (List.nodup_cons.1 hnd).2
          rcases List.mem_cons.1 h with h | h
          · simp only [Prod.mk.injEq] at h
            obtain ⟨rfl, rfl⟩ := h
            rcases List.mem_cons.1 hrev with h2 | h2
            · simp only [Prod.mk.injEq] at h2
              exact hanotin (h2.1 ▸ List.mem_cons_self _ _)
            · exact hanotin (List.mem_of_mem_tail (mem_pathEdges _ _ _ h2).2)
          · rcases List.mem_cons.1 hrev with h2 | h2
            · simp only [Prod.mk.injEq] at h2
              apply hanotin
              have := (mem_pathEdges _ _ _ h).2
              rw [h2.1] at this
              exact List.mem_of_mem_tail this
            · exact ih hnd2 x y h h2

theorem pathEdges_nodup : ∀ (w : List ℕ), w.Nodup → (pathEdges w).Nodup := by
  intro w
  induction w with
  | nil => intro _; simp [pathEdges]
  | cons a w ih =>
      intro hnd
      cases w with
      | nil => simp [pathEdges]
      | cons b w2 =>
          have hanotin : a ∉ b :: w2 := (List.nodup_cons.1 hnd).1
          have hnd2 : (b :: w2).Nodup := (List.nodup_cons.1 hnd).2
          rw [show pathEdges (a :: b :: w2) = (a, b) :: pathEdges (b :: w2) from rfl,
            List.nodup_cons]
          refine ⟨fun hmem => ?_, ih hnd2⟩
          exact hanotin (mem_pathEdges _ _ _ hmem).1

theorem pathEdges_irrefl : ∀ (w : List ℕ), w.Nodup →
    ∀ x, (x, x) ∉ pathEdges w := by
  intro w
  induction w with
  | nil => intro _ x h; simp [pathEdges] at h
  | cons a w ih =>
      intro hnd x h
      cases w with
      | nil => simp [pathEdges] at h
      | cons b w2 =>
          have hanotin : a ∉ b :: w2 := (List.nodup_cons.1 hnd).1
          have hnd2 : (b :: w2).Nodup := (List.nodup_cons.1 hnd).2
          rcases List.mem_cons.1 h with h | h
          · simp only [Prod.mk.injEq] at h
            apply hanotin
            rw [show a = b from h.1.symm.trans h.2]
            exact List.mem_cons_self _ _
          · exact ih hnd2 x h

theorem pathEdges_fst_mem : ∀ (w : List ℕ) (x y : ℕ),
    (x, y) ∈ pathEdges w → x ∈ w :=
  fun w x y h => (mem_pathEdges w x y h).1

end DSA

namespace DSA

theorem ekChase_path (R : ℕ → ℕ → ℕ) (nodesL : List ℕ) (s : ℕ) (q : List ℕ)
    (par : List (ℕ × Option ℕ)) (inv : EkInv R nodesL s q par) :
    ∀ (fuel : ℕ) (v : ℕ), v ∈ keysP par → (keysP par).indexOf v < fuel →
    ∃ p, (ekChase par fuel v).reverse = s :: p
      ∧ RPath R s p v
      ∧ (s :: p).Nodup
      ∧ (∀ z ∈ s :: p, z ∈ keysP par)
      ∧ (∀ z ∈ s :: p, (keysP par).indexOf z ≤ (keysP par).indexOf v) := by
  intro fuel
  induction fuel with
  | zero =>
      intro v _ hlt
      exact absurd hlt (by omega)
  | succ fuel ih =>
      intro v hv hlt
      rcases hf : pFind par v with _ | op
      · exact absurd hv (fun h => by
          have := (pFind_isNone_iff par v).1 (by rw [hf]; rfl)
          exact this h)
      · rcases op with _ | u
        · -- parent None: v is the root s
          have hvs : v = s := inv.root v none (mem_of_pFind par v none hf) rfl
          subst hvs
          refine ⟨[], ?_, rfl, ?_, ?_, ?_⟩
          · show (ekChase par (fuel + 1) v).reverse = [v]
            show ((match pFind par v with
              | some (some u) => v :: ekChase par fuel u
              | _ => [v]) : List ℕ).reverse = [v]
            rw [hf]
            rfl
          · simp
          · intro z hz
            rw [List.mem_singleton] at hz
            exact hz ▸ hv
          · intro z hz
            rw [List.mem_singleton] at hz
            exact hz ▸ Nat.le_refl _
        · -- parent u: one chase step
          obtain ⟨hpos, hidx⟩ := inv.edges v u (mem_of_pFind par v (some u) hf)
          have humem : u ∈ keysP par := by
            have hvlt : (keysP par).indexOf v < (keysP par).length :=
              List.indexOf_lt_length.2 hv
            exact List.indexOf_lt_length.1 (lt_trans hidx hvlt)
          obtain ⟨p, h1, h2, h3, h4, h5⟩ := ih u humem (by omega)
          refine ⟨p ++ [v], ?_, ?_, ?_, ?_, ?_⟩
          · show (ekChase par (fuel + 1) v).reverse = _
            show ((match pFind par v with
              | some (some u) => v :: ekChase par fuel u
              | _ => [v]) : List ℕ).reverse = _
            rw [hf]
            show (v :: ekChase par fuel u).reverse = _
            rw [List.reverse_cons, h1]
            rfl
          · exact rpath_append_single R p s u v h2 hpos
          · rw [show s :: (p ++ [v]) = (s :: p) ++ [v] from rfl]
            refine List.Nodup.append h3 (List.nodup_singleton _) ?_
            intro a ha hb
            rw [List.mem_singleton] at hb
            subst hb
            have := h5 a ha
            omega
          · intro z hz
            rw [show s :: (p ++ [v]) = (s :: p) ++ [v] from rfl] at hz
            rcases List.mem_append.1 hz with hz | hz
            · exact h4 z hz
            · rw [List.mem_singleton] at hz
              exact hz ▸ hv
          · intro z hz
            rw [show s :: (p ++ [v]) = (s :: p) ++ [v] from rfl] at hz
            rcases List.mem_append.1 hz with hz | hz
            · exact le_trans (h5 z hz) (le_of_lt hidx)
            · rw [List.mem_singleton] at hz
              exact hz ▸ Nat.le_refl _

end DSA


namespace DSA

theorem ekAugment_char : ∀ (E : List (ℕ × ℕ)) (R : ℕ → ℕ → ℕ) (b : ℕ),
    E.Nodup → (∀ x y, (x, y) ∈ E → (y, x) ∉ E) → (∀ x, (x, x) ∉ E) →
    ∀ a c, ekAugment R b E a c
      = if (a, c) ∈ E then R a c - b
        else if (c, a) ∈ E then R a c + b else R a c := by
  intro E
  induction E with
  | nil =>
      intro R b _ _ _ a c
      simp [ekAugment]
  | cons e rest ih =>
      obtain ⟨u, v⟩ := e
      intro R b hnd hrev hirr a c
      have huv : u ≠ v := fun h => hirr u (h ▸ List.mem_cons_self _ _)
      have hheadr : (u, v) ∉ rest := (List.nodup_cons.1 hnd).1
      have hrevr : (v, u) ∉ rest := fun h =>
        hrev u v (List.mem_cons_self _ _) (List.mem_cons_of_mem _ h)
      have hnd2 : rest.Nodup := (List.nodup_cons.1 hnd).2
      have hrev2 : ∀ x y, (x, y) ∈ rest → (y, x) ∉ rest := fun x y hx hy =>
        hrev x y (List.mem_cons_of_mem _ hx) (List.mem_cons_of_mem _ hy)
      have hirr2 : ∀ x, (x, x) ∉ rest := fun x hx =>
        hirr x (List.mem_cons_of_mem _ hx)
      show ekAugment (fun a2 c2 => if (a2, c2) = (u, v) then R u v - b
        else if (a2, c2) = (v, u) then R v u + b else R a2 c2) b rest a c = _
      rw [ih _ b hnd2 hrev2 hirr2 a c]
      by_cases hA : (a, c) = (u, v)
      · rw [Prod.mk.injEq] at hA
        obtain ⟨rfl, rfl⟩ := hA
        rw [if_neg hheadr, if_neg hrevr, if_pos rfl,
          if_pos (List.mem_cons_self _ _)]
      · by_cases hB : (a, c) = (v, u)
        · have hCA2 : ((c, a) : ℕ × ℕ) = (u, v) := by
            rw [Prod.mk.injEq] at hB ⊢
            exact ⟨hB.2, hB.1⟩
          have hm1 : (a, c) ∉ rest := by rw [hB]; exact hrevr
          have hm2 : (c, a) ∉ rest := by rw [hCA2]; exact hheadr
          have hm1' : (a, c) ∉ (u, v) :: rest := fun h => by
            rcases List.mem_cons.1 h with h | h
            · exact hA h
            · exact hm1 h
          rw [if_neg hm1, if_neg hm2, if_neg hA, if_pos hB, if_neg hm1',
            if_pos (by rw [hCA2]; exact List.mem_cons_self _ _)]
          rw [Prod.mk.injEq] at hB
          rw [hB.1, hB.2]
        · have hCA : ((c, a) : ℕ × ℕ) ≠ (u, v) := fun h => by
            rw [Prod.mk.injEq] at h
            apply hB
            rw [Prod.mk.injEq]
            exact ⟨h.2, h.1⟩
          by_cases hm1 : (a, c) ∈ rest
          · rw [if_pos hm1, if_pos (List.mem_cons_of_mem _ hm1),
              if_neg hA, if_neg hB]
          · have hm1' : (a, c) ∉ (u, v) :: rest := fun h => by
              rcases List.mem_cons.1 h with h | h
              · exact hA h
              · exact hm1 h
            rw [if_neg hm1, if_neg hm1']
            by_cases hm2 : (c, a) ∈ rest
            · rw [if_pos hm2, if_pos (List.mem_cons_of_mem _ hm2),
                if_neg hA, if_neg hB]
            · have hm2' : (c, a) ∉ (u, v) :: rest := fun h => by
                rcases List.mem_cons.1 h with h | h
                · exact hCA h
                · exact hm2 h
              rw [if_neg hm2, if_neg hm2', if_neg hA, if_neg hB]

end DSA

namespace DSA

/-- Net inflow into `v` relative to the original capacities (the flow
carried into `v` by the residual `R`). -/
def ekExcess (V : Finset ℕ) (cap R : ℕ → ℕ → ℕ) (v : ℕ) : ℤ :=
  ∑ u ∈ V, ((cap u v : ℤ) - (R u v : ℤ))

theorem ekExcess_single (V : Finset ℕ) (cap R : ℕ → ℕ → ℕ) (b : ℕ) (u v : ℕ)
    (huv : u ≠ v) (hu : u ∈ V) (hv : v ∈ V) (hb : b ≤ R u v) (z : ℕ) :
    ekExcess V cap (fun a c => if (a, c) = (u, v) then R u v - b
        else if (a, c) = (v, u) then R v u + b else R a c) z
      = ekExcess V cap R z + (if z = v then (b : ℤ) else 0)
        - (if z = u then (b : ℤ) else 0) := by
  unfold ekExcess
  by_cases hzv : z = v
  · subst hzv
    rw [if_pos rfl, if_neg (fun h => huv h.symm)]
    rw [← Finset.sum_erase_add _ _ hu, ← Finset.sum_erase_add _ _ hu]
    have herase : ∑ w ∈ V.erase u, ((cap w z : ℤ)
        - ((if (w, z) = (u, z) then R u z - b
            else if (w, z) = (z, u) then R z u + b else R w z : ℕ) : ℤ))
        = ∑ w ∈ V.erase u, ((cap w z : ℤ) - (R w z : ℤ)) := by
      refine Finset.sum_congr rfl ?_
      intro w hw
      have hwu : w ≠ u := (Finset.mem_erase.1 hw).1
      have h1 : ((w, z) : ℕ × ℕ) ≠ (u, z) := fun h => by
        rw [Prod.mk.injEq] at h
        exact hwu h.1
      have h2 : ((w, z) : ℕ × ℕ) ≠ (z, u) := fun h => by
        rw [Prod.mk.injEq] at h
        exact huv h.2.symm
      rw [if_neg h1, if_neg h2]
    rw [herase]
    have hterm : ((if ((u, z) : ℕ × ℕ) = (u, z) then R u z - b
        else if ((u, z) : ℕ × ℕ) = (z, u) then R z u + b else R u z : ℕ) : ℤ)
        = (R u z : ℤ) - b := by
      rw [if_pos rfl]
      exact Nat.cast_sub hb
    rw [hterm]
    ring
  · by_cases hzu : z = u
    · subst hzu
      rw [if_neg hzv, if_pos rfl]
      rw [← Finset.sum_erase_add _ _ hv, ← Finset.sum_erase_add _ _ hv]
      have herase : ∑ w ∈ V.erase v, ((cap w z : ℤ)
          - ((if (w, z) = (z, v) then R z v - b
              else if (w, z) = (v, z) then R v z + b else R w z : ℕ) : ℤ))
          = ∑ w ∈ V.erase v, ((cap w z : ℤ) - (R w z : ℤ)) := by
        refine Finset.sum_congr rfl ?_
        intro w hw
        have hwv : w ≠ v := (Finset.mem_erase.1 hw).1
        have h1 : ((w, z) : ℕ × ℕ) ≠ (z, v) := fun h => by
          rw [Prod.mk.injEq] at h
          exact huv h.2
        have h2 : ((w, z) : ℕ × ℕ) ≠ (v, z) := fun h => by
          rw [Prod.mk.injEq] at h
          exact hwv h.1
        rw [if_neg h1, if_neg h2]
      rw [herase]
      have h1 : ((v, z) : ℕ × ℕ) ≠ (z, v) := fun h => by
        rw [Prod.mk.injEq] at h
        exact huv (h.1.symm)
      have hterm : ((if ((v, z) : ℕ × ℕ) = (z, v) then R z v - b
          else if ((v, z) : ℕ × ℕ) = (v, z) then R v z + b else R v z : ℕ) : ℤ)
          = (R v z : ℤ) + b := by
        rw [if_neg h1, if_pos rfl]
        push_cast
        ring
      rw [hterm]
      ring
    · rw [if_neg hzv, if_neg hzu]
      have hsum : ∑ w ∈ V, ((cap w z : ℤ)
          - ((if (w, z) = (u, v) then R u v - b
              else if (w, z) = (v, u) then R v u + b else R w z : ℕ) : ℤ))
          = ∑ w ∈ V, ((cap w z : ℤ) - (R w z : ℤ)) := by
        refine Finset.sum_congr rfl ?_
        intro w _
        have h1 : ((w, z) : ℕ × ℕ) ≠ (u, v) := fun h => by
          rw [Prod.mk.injEq] at h
          exact hzv h.2
        have h2 : ((w, z) : ℕ × ℕ) ≠ (v, u) := fun h => by
          rw [Prod.mk.injEq] at h
          exact hzu h.2
        rw [if_neg h1, if_neg h2]
      rw [hsum]
      ring

end DSA

namespace DSA

theorem ekExcess_augment (V : Finset ℕ) (cap : ℕ → ℕ → ℕ) :
    ∀ (w : List ℕ) (R : ℕ → ℕ → ℕ) (bb : ℕ),
    w.Nodup → (∀ z ∈ w, z ∈ V) → (∀ e ∈ pathEdges w, bb ≤ R e.1 e.2) →
    ∀ z, ekExcess V cap (ekAugment R bb (pathEdges w)) z
      = ekExcess V cap R z + (if z ∈ w.tail then (bb : ℤ) else 0)
        - (if z ∈ w.dropLast then (bb : ℤ) else 0) := by
  intro w
  induction w with
  | nil =>
      intro R bb _ _ _ z
      simp [pathEdges, ekAugment]
  | cons a w ih =>
      cases w with
      | nil =>
          intro R bb _ _ _ z
          simp [pathEdges, ekAugment]
      | cons b2 w2 =>
          intro R bb hnd hmem hbound z
          have hanotin : a ∉ b2 :: w2 := (List.nodup_cons.1 hnd).1
          have hnd2 : (b2 :: w2).Nodup := (List.nodup_cons.1 hnd).2
          have hab2 : a ≠ b2 := fun h => hanotin (h ▸ List.mem_cons_self _ _)
          have haV : a ∈ V := hmem a (List.mem_cons_self _ _)
          have hb2V : b2 ∈ V := hmem b2 (List.mem_cons_of_mem _ (List.mem_cons_self _ _))
          have hheadnot : (a, b2) ∉ pathEdges (b2 :: w2) :=
            (List.nodup_cons.1 (pathEdges_nodup _ hnd)).1
          have hErev := pathEdges_rev_free _ hnd
          have hbhead : bb ≤ R a b2 :=
            hbound (a, b2) (List.mem_cons_self _ _)
          show ekExcess V cap (ekAugment
            (fun a2 c2 => if (a2, c2) = (a, b2) then R a b2 - bb
              else if (a2, c2) = (b2, a) then R b2 a + bb else R a2 c2)
            bb (pathEdges (b2 :: w2))) z = _
          have hR1 : ∀ e ∈ pathEdges (b2 :: w2),
              (fun a2 c2 => if (a2, c2) = (a, b2) then R a b2 - bb
                else if (a2, c2) = (b2, a) then R b2 a + bb else R a2 c2) e.1 e.2
              = R e.1 e.2 := by
            intro e he
            obtain ⟨x, y⟩ := e
            have h1 : ((x, y) : ℕ × ℕ) ≠ (a, b2) := fun h => hheadnot (h ▸ he)
            have h2 : ((x, y) : ℕ × ℕ) ≠ (b2, a) := fun h => by
              apply hErev a b2 (List.mem_cons_self _ _)
              exact List.mem_cons_of_mem _ (h ▸ he)
            show (if ((x, y) : ℕ × ℕ) = (a, b2) then R a b2 - bb
              else if ((x, y) : ℕ × ℕ) = (b2, a) then R b2 a + bb else R x y) = R x y
            rw [if_neg h1, if_neg h2]
          rw [ih _ bb hnd2 (fun z2 hz2 => hmem z2 (List.mem_cons_of_mem _ hz2))
            (fun e he => by
              show bb ≤ (fun a2 c2 => if (a2, c2) = (a, b2) then R a b2 - bb
                else if (a2, c2) = (b2, a) then R b2 a + bb else R a2 c2) e.1 e.2
              rw [hR1 e he]
              exact hbound e (List.mem_cons_of_mem _ he)) z]
          rw [ekExcess_single V cap R bb a b2 hab2 haV hb2V hbhead z]
          simp only [List.tail_cons]
          rw [show (a :: b2 :: w2).dropLast = a :: (b2 :: w2).dropLast from rfl]
          have e1 : (if z ∈ b2 :: w2 then (bb : ℤ) else 0)
              = (if z = b2 then (bb : ℤ) else 0) + (if z ∈ w2 then (bb : ℤ) else 0) := by
            by_cases h1 : z = b2
            · have hz2 : z ∉ w2 := fun hm => (List.nodup_cons.1 hnd2).1 (h1 ▸ hm)
              rw [if_pos (by rw [h1]; exact List.mem_cons_self _ _), if_pos h1,
                if_neg hz2]
              ring
            · by_cases h2 : z ∈ w2
              · rw [if_pos (List.mem_cons_of_mem _ h2), if_neg h1, if_pos h2]
                ring
              · rw [if_neg (fun hm => by
                  rcases List.mem_cons.1 hm with hm | hm
                  · exact h1 hm
                  · exact h2 hm), if_neg h1, if_neg h2]
                ring
          have e2 : (if z ∈ a :: (b2 :: w2).dropLast then (bb : ℤ) else 0)
              = (if z = a then (bb : ℤ) else 0)
                + (if z ∈ (b2 :: w2).dropLast then (bb : ℤ) else 0) := by
            by_cases h1 : z = a
            · have hz2 : z ∉ (b2 :: w2).dropLast := fun hm =>
                hanotin (h1 ▸ List.dropLast_subset _ hm)
              rw [if_pos (by rw [h1]; exact List.mem_cons_self _ _), if_pos h1,
                if_neg hz2]
              ring
            · by_cases h2 : z ∈ (b2 :: w2).dropLast
              · rw [if_pos (List.mem_cons_of_mem _ h2), if_neg h1, if_pos h2]
                ring
              · rw [if_neg (fun hm => by
                  rcases List.mem_cons.1 hm with hm | hm
                  · exact h1 hm
                  · exact h2 hm), if_neg h1, if_neg h2]
                ring
          rw [e1, e2]
          ring

end DSA

namespace DSA

theorem ekAugment_sum_inv (cap : ℕ → ℕ → ℕ) (E : List (ℕ × ℕ)) (R : ℕ → ℕ → ℕ)
    (b : ℕ) (hnd : E.Nodup) (hrev : ∀ x y, (x, y) ∈ E → (y, x) ∉ E)
    (hirr : ∀ x, (x, x) ∉ E) (hle : ∀ e ∈ E, b ≤ R e.1 e.2)
    (hinv : ∀ u v, R u v + R v u = cap u v + cap v u) :
    ∀ u v, ekAugment R b E u v + ekAugment R b E v u = cap u v + cap v u := by
  intro u v
  rw [ekAugment_char E R b hnd hrev hirr u v, ekAugment_char E R b hnd hrev hirr v u]
  by_cases h1 : (u, v) ∈ E
  · have h2 : (v, u) ∉ E := hrev u v h1
    rw [if_pos h1, if_neg h2, if_pos h1]
    have hb : b ≤ R u v := hle (u, v) h1
    have := hinv u v
    omega
  · by_cases h2 : (v, u) ∈ E
    · rw [if_neg h1, if_pos h2, if_pos h2]
      have hb : b ≤ R v u := hle (v, u) h2
      have := hinv u v
      omega
    · rw [if_neg h1, if_neg h2, if_neg h2, if_neg h1]
      exact hinv u v

theorem ekAugment_src (R : ℕ → ℕ → ℕ) (b s h1 : ℕ) (p : List ℕ)
    (hnd : (s :: h1 :: p).Nodup) :
    ∀ v, ekAugment R b (pathEdges (s :: h1 :: p)) s v
      = if v = h1 then R s h1 - b else R s v := by
  intro v
  rw [ekAugment_char _ R b (pathEdges_nodup _ hnd) (pathEdges_rev_free _ hnd)
    (pathEdges_irrefl _ hnd) s v]
  have hsn : s ∉ h1 :: p := (List.nodup_cons.1 hnd).1
  by_cases hv : v = h1
  · have hm : (s, v) ∈ pathEdges (s :: h1 :: p) := by
      rw [hv]
      exact List.mem_cons_self _ _
    rw [if_pos hm, if_pos hv, hv]
  · have hm1 : (s, v) ∉ pathEdges (s :: h1 :: p) := fun hm => by
      rcases List.mem_cons.1 hm with hm | hm
      · rw [Prod.mk.injEq] at hm
        exact hv hm.2
      · exact hsn (pathEdges_fst_mem _ _ _ hm)
    have hm2 : (v, s) ∉ pathEdges (s :: h1 :: p) := fun hm =>
      hsn (mem_pathEdges _ _ _ hm).2
    rw [if_neg hm1, if_neg hm2, if_neg hv]

/-- `while True:` of `edmonds_karp`: BFS for an augmenting path; if the
sink was not reached, break and return the accumulated flow; otherwise
reconstruct the path, take the bottleneck, update the residual and add
the bottleneck to `max_flow`. -/
def ekLoop (V : Finset ℕ) (s t : ℕ) (hst : s ≠ t) (R : ℕ → ℕ → ℕ)
    (flow : ℕ) : ℕ × (ℕ → ℕ → ℕ) :=
  if h : (pFind (ekBFS R (V.sort (· ≤ ·)) t [s] [(s, none)]) t).isSome then
    ekLoop V s t hst
      (ekAugment R
        (ekBottleneck R (pathEdges
          (ekChase (ekBFS R (V.sort (· ≤ ·)) t [s] [(s, none)])
            (ekBFS R (V.sort (· ≤ ·)) t [s] [(s, none)]).length t).reverse))
        (pathEdges
          (ekChase (ekBFS R (V.sort (· ≤ ·)) t [s] [(s, none)])
            (ekBFS R (V.sort (· ≤ ·)) t [s] [(s, none)]).length t).reverse))
      (flow + ekBottleneck R (pathEdges
        (ekChase (ekBFS R (V.sort (· ≤ ·)) t [s] [(s, none)])
          (ekBFS R (V.sort (· ≤ ·)) t [s] [(s, none)]).length t).reverse))
  else (flow, R)
termination_by ∑ v ∈ V, R s v
decreasing_by
· obtain ⟨q2, inv, _⟩ := ekBFS_spec R (V.sort (· ≤ ·)) s t [s] [(s, none)]
    (ekInv_init R (V.sort (· ≤ ·)) s)
  have ht : t ∈ keysP (ekBFS R (V.sort (· ≤ ·)) t [s] [(s, none)]) :=
    (pFind_isSome_iff _ _).1 h
  have hlt : (keysP (ekBFS R (V.sort (· ≤ ·)) t [s] [(s, none)])).indexOf t
      < (ekBFS R (V.sort (· ≤ ·)) t [s] [(s, none)]).length := by
    have h2 := List.indexOf_lt_length.2 ht
    simpa [keysP] using h2
  obtain ⟨p, hpath, hrp, hnd, hmemK, _⟩ :=
    ekChase_path R (V.sort (· ≤ ·)) s q2
      (ekBFS R (V.sort (· ≤ ·)) t [s] [(s, none)]) inv
      (ekBFS R (V.sort (· ≤ ·)) t [s] [(s, none)]).length t ht hlt
  rw [hpath]
  cases p with
  | nil =>
      exact absurd hrp hst
  | cons h1 p2 =>
      have hEne : pathEdges (s :: h1 :: p2) ≠ [] := by
        show (s, h1) :: pathEdges (h1 :: p2) ≠ []
        simp
      have hpos : 0 < ekBottleneck R (pathEdges (s :: h1 :: p2)) :=
        ekBottleneck_pos R _ hEne (pathEdges_pos R _ s t hrp)
      have hsrc := ekAugment_src R (ekBottleneck R (pathEdges (s :: h1 :: p2)))
        s h1 p2 hnd
      have hh1V : h1 ∈ V := by
        have hk := hmemK h1 (List.mem_cons_of_mem _ (List.mem_cons_self _ _))
        rcases inv.keys_sub h1 hk with h2 | h2
        · exfalso
          have : s ∉ h1 :: p2 := (List.nodup_cons.1 hnd).1
          exact this (h2 ▸ List.mem_cons_self _ _)
        · exact (Finset.mem_sort (α := ℕ) (· ≤ ·)).1 h2
      refine Finset.sum_lt_sum (fun i _ => ?_) ⟨h1, hh1V, ?_⟩
      · rw [hsrc i]
        by_cases hi : i = h1
        · rw [if_pos hi, hi]
          omega
        · rw [if_neg hi]
      · rw [hsrc h1, if_pos rfl]
        have hR : 0 < R s h1 := hrp.1
        omega

/-- `FlowGraph.edmonds_karp` (the returned `max_flow`): the residual
starts as the capacities (`build_residual`). -/
def FlowGraph.edmonds_karp (g : FlowGraph) (s t : ℕ) (hst : s ≠ t) : ℕ :=
  (ekLoop g.nodes s t hst g.cap 0).1

end DSA

namespace DSA

/-- The flow carried by a residual `R` (relative to `cap`): positive
part of `cap - R`. -/
def ekFlow (cap R : ℕ → ℕ → ℕ) (u v : ℕ) : ℕ := cap u v - R u v

/-- A feasible `s`/`t` flow on the node set `V`. -/
def EkFeasible (V : Finset ℕ) (cap : ℕ → ℕ → ℕ) (s t : ℕ) (f : ℕ → ℕ → ℕ) : Prop :=
  (∀ u v, f u v ≤ cap u v) ∧
  (∀ v ∈ V, v ≠ s → v ≠ t → ∑ u ∈ V, (f u v : ℤ) = ∑ u ∈ V, (f v u : ℤ))

/-- The net flow out of the source. -/
def ekValue (V : Finset ℕ) (f : ℕ → ℕ → ℕ) (s : ℕ) : ℤ :=
  ∑ v ∈ V, ((f s v : ℤ) - (f v s : ℤ))

/-- The capacity of a source/sink cut `S`. -/
def cutCap (V : Finset ℕ) (cap : ℕ → ℕ → ℕ) (S : Finset ℕ) : ℕ :=
  ∑ u ∈ S, ∑ v ∈ V \ S, cap u v

theorem rpath_last (R : ℕ → ℕ → ℕ) :
    ∀ (p : List ℕ) (a b : ℕ), RPath R a p b → p ≠ [] → ∃ q, p = q ++ [b] := by
  intro p
  induction p with
  | nil => intro a b _ hne; exact absurd rfl hne
  | cons x rest ih =>
      intro a b hp _
      cases rest with
      | nil =>
          obtain rfl : x = b := hp.2
          exact ⟨[], rfl⟩
      | cons y rest2 =>
          obtain ⟨q, hq⟩ := ih x b hp.2 (by simp)
          exact ⟨x :: q, by rw [show x :: y :: rest2 = x :: (y :: rest2) from rfl, hq]; rfl⟩

/-- Loop invariant of `edmonds_karp`: the residual is consistent with
the capacities, flow is conserved at internal nodes and `flow` units
arrive at the sink. -/
structure EkResInv (V : Finset ℕ) (cap : ℕ → ℕ → ℕ) (s t : ℕ)
    (R : ℕ → ℕ → ℕ) (flow : ℕ) : Prop where
  sum_inv : ∀ u v, R u v + R v u = cap u v + cap v u
  excess_mid : ∀ v ∈ V, v ≠ s → v ≠ t → ekExcess V cap R v = 0
  excess_t : ekExcess V cap R t = flow

theorem ekResInv_init (V : Finset ℕ) (cap : ℕ → ℕ → ℕ) (s t : ℕ)
    (hts : t ≠ s) : EkResInv V cap s t cap 0 := by
  constructor
  · intro u v
    exact Nat.add_comm _ _ ▸ rfl
  · intro v _ _ _
    simp [ekExcess]
  · simp [ekExcess]

theorem ekResInv_augment (V : Finset ℕ) (cap : ℕ → ℕ → ℕ) (s t : ℕ)
    (hst : s ≠ t) (hsV : s ∈ V) (htV : t ∈ V) (R : ℕ → ℕ → ℕ) (flow : ℕ)
    (inv : EkResInv V cap s t R flow) (h1 : ℕ) (p2 : List ℕ)
    (hrp : RPath R s (h1 :: p2) t) (hnd : (s :: h1 :: p2).Nodup)
    (hmemV : ∀ z ∈ s :: h1 :: p2, z ∈ V) :
    EkResInv V cap s t
      (ekAugment R (ekBottleneck R (pathEdges (s :: h1 :: p2)))
        (pathEdges (s :: h1 :: p2)))
      (flow + ekBottleneck R (pathEdges (s :: h1 :: p2))) := by
  have hble : ∀ e ∈ pathEdges (s :: h1 :: p2),
      ekBottleneck R (pathEdges (s :: h1 :: p2)) ≤ R e.1 e.2 := by
    intro e he
    obtain ⟨x, y⟩ := e
    exact ekBottleneck_le R _ x y he
  obtain ⟨q, hq⟩ := rpath_last R (h1 :: p2) s t hrp (by simp)
  have hw : s :: h1 :: p2 = (s :: q) ++ [t] := by
    rw [show s :: h1 :: p2 = s :: (h1 :: p2) from rfl, hq]
    rfl
  have hdrop : (s :: h1 :: p2).dropLast = s :: q := by
    rw [hw]
    exact List.dropLast_concat ..
  have htail : (s :: h1 :: p2).tail = h1 :: p2 := rfl
  have htnotin : t ∉ s :: q := by
    have : (s :: h1 :: p2).Nodup := hnd
    rw [hw] at this
    have h2 := List.disjoint_of_nodup_append this
    intro hmem
    exact h2 hmem (List.mem_singleton_self _)
  have hexc := ekExcess_augment V cap (s :: h1 :: p2) R
    (ekBottleneck R (pathEdges (s :: h1 :: p2))) hnd hmemV hble
  constructor
  · exact ekAugment_sum_inv cap _ R _ (pathEdges_nodup _ hnd)
      (pathEdges_rev_free _ hnd) (pathEdges_irrefl _ hnd) hble inv.sum_inv
  · intro v hv hvs hvt
    rw [hexc v, htail, hdrop, inv.excess_mid v hv hvs hvt]
    have hiff : v ∈ h1 :: p2 ↔ v ∈ s :: q := by
      rw [hq]
      constructor
      · intro h
        rcases List.mem_append.1 h with h | h
        · exact List.mem_cons_of_mem _ h
        · rw [List.mem_singleton] at h
          exact absurd h hvt
      · intro h
        rcases List.mem_cons.1 h with h | h
        · exact absurd h hvs
        · exact List.mem_append_left _ h
    by_cases hvq : v ∈ h1 :: p2
    · rw [if_pos hvq, if_pos (hiff.1 hvq)]
      ring
    · rw [if_neg hvq, if_neg (fun h => hvq (hiff.2 h))]
      ring
  · rw [hexc t, htail, hdrop, inv.excess_t]
    have htmem : t ∈ h1 :: p2 := by
      rw [hq]
      exact List.mem_append_right _ (List.mem_singleton_self _)
    rw [if_pos htmem, if_neg htnotin]
    push_cast
    ring

end DSA

namespace DSA

theorem ekKeys_reach (R : ℕ → ℕ → ℕ) (nodesL : List ℕ) (s : ℕ) (q : List ℕ)
    (par : List (ℕ × Option ℕ)) (inv : EkInv R nodesL s q par) :
    ∀ v ∈ keysP par, ∃ p, RPath R s p v := by
  intro v hv
  obtain ⟨p, _, hrp, _, _, _⟩ := ekChase_path R nodesL s q par inv
    ((keysP par).indexOf v + 1) v hv (by omega)
  exact ⟨p, hrp⟩

theorem ek_path_facts (V : Finset ℕ) (s t : ℕ) (hst : s ≠ t) (R : ℕ → ℕ → ℕ)
    (h : (pFind (ekBFS R (V.sort (· ≤ ·)) t [s] [(s, none)]) t).isSome = true) :
    ∃ h1 p2,
      (ekChase (ekBFS R (V.sort (· ≤ ·)) t [s] [(s, none)])
        (ekBFS R (V.sort (· ≤ ·)) t [s] [(s, none)]).length t).reverse
          = s :: h1 :: p2
      ∧ RPath R s (h1 :: p2) t
      ∧ (s :: h1 :: p2).Nodup
      ∧ (∀ z ∈ s :: h1 :: p2, z = s ∨ z ∈ V) := by
  obtain ⟨q2, inv, _⟩ := ekBFS_spec R (V.sort (· ≤ ·)) s t [s] [(s, none)]
    (ekInv_init R (V.sort (· ≤ ·)) s)
  have ht : t ∈ keysP (ekBFS R (V.sort (· ≤ ·)) t [s] [(s, none)]) :=
    (pFind_isSome_iff _ _).1 h
  have hlt : (keysP (ekBFS R (V.sort (· ≤ ·)) t [s] [(s, none)])).indexOf t
      < (ekBFS R (V.sort (· ≤ ·)) t [s] [(s, none)]).length := by
    have h2 := List.indexOf_lt_length.2 ht
    simpa [keysP] using h2
  obtain ⟨p, hpath, hrp, hnd, hmemK, _⟩ :=
    ekChase_path R (V.sort (· ≤ ·)) s q2
      (ekBFS R (V.sort (· ≤ ·)) t [s] [(s, none)]) inv
      (ekBFS R (V.sort (· ≤ ·)) t [s] [(s, none)]).length t ht hlt
  cases p with
  | nil => exact absurd hrp hst
  | cons h1 p2 =>
      refine ⟨h1, p2, hpath, hrp, hnd, ?_⟩
      intro z hz
      rcases inv.keys_sub z (hmemK z hz) with h2 | h2
      · exact Or.inl h2
      · exact Or.inr ((Finset.mem_sort (α := ℕ) (· ≤ ·)).1 h2)

theorem ekLoop_eq (V : Finset ℕ) (s t : ℕ) (hst : s ≠ t) (R : ℕ → ℕ → ℕ)
    (flow : ℕ) :
    ekLoop V s t hst R flow
      = if (pFind (ekBFS R (V.sort (· ≤ ·)) t [s] [(s, none)]) t).isSome then
          ekLoop V s t hst
            (ekAugment R
              (ekBottleneck R (pathEdges
                (ekChase (ekBFS R (V.sort (· ≤ ·)) t [s] [(s, none)])
                  (ekBFS R (V.sort (· ≤ ·)) t [s] [(s, none)]).length t).reverse))
              (pathEdges
                (ekChase (ekBFS R (V.sort (· ≤ ·)) t [s] [(s, none)])
                  (ekBFS R (V.sort (· ≤ ·)) t [s] [(s, none)]).length t).reverse))
            (flow + ekBottleneck R (pathEdges
              (ekChase (ekBFS R (V.sort (· ≤ ·)) t [s] [(s, none)])
                (ekBFS R (V.sort (· ≤ ·)) t [s] [(s, none)]).length t).reverse))
        else (flow, R) := by
  rw [ekLoop.eq_def]
  by_cases h : (pFind (ekBFS R (V.sort (· ≤ ·)) t [s] [(s, none)]) t).isSome = true
  · rw [dif_pos h, if_pos h]
  · rw [dif_neg h, if_neg h]

theorem ekLoop_spec (V : Finset ℕ) (cap : ℕ → ℕ → ℕ) (s t : ℕ) (hst : s ≠ t)
    (hsV : s ∈ V) (htV : t ∈ V) :
    ∀ (R : ℕ → ℕ → ℕ) (flow : ℕ), EkResInv V cap s t R flow →
    EkResInv V cap s t (ekLoop V s t hst R flow).2 (ekLoop V s t hst R flow).1
    ∧ ∃ S : Finset ℕ, S ⊆ V ∧ s ∈ S ∧ t ∉ S
      ∧ (∀ u ∈ S, ∀ v ∈ V \ S, (ekLoop V s t hst R flow).2 u v = 0) := by
  intro R flow
  induction R, flow using ekLoop.induct V s t hst with
  | case1 R flow h ih =>
      intro inv
      rw [ekLoop_eq, if_pos h]
      obtain ⟨h1, p2, hpath, hrp, hnd, hmem⟩ := ek_path_facts V s t hst R h
      rw [hpath]
      rw [hpath] at ih
      apply ih
      refine ekResInv_augment V cap s t hst hsV htV R flow inv h1 p2 hrp hnd ?_
      intro z hz
      rcases hmem z hz with h2 | h2
      · exact h2 ▸ hsV
      · exact h2
  | case2 R flow h =>
      intro inv
      rw [ekLoop_eq, if_neg h]
      refine ⟨inv, ?_⟩
      obtain ⟨q2, binv, hor⟩ := ekBFS_spec R (V.sort (· ≤ ·)) s t [s] [(s, none)]
        (ekInv_init R (V.sort (· ≤ ·)) s)
      have hq2 : q2 = [] := by
        rcases hor with hor | hor
        · exact absurd hor h
        · exact hor
      subst hq2
      refine ⟨(keysP (ekBFS R (V.sort (· ≤ ·)) t [s] [(s, none)])).toFinset,
        ?_, ?_, ?_, ?_⟩
      · intro x hx
        rcases binv.keys_sub x (List.mem_toFinset.1 hx) with h2 | h2
        · exact h2 ▸ hsV
        · exact (Finset.mem_sort (α := ℕ) (· ≤ ·)).1 h2
      · apply List.mem_toFinset.2
        rw [← pFind_isSome_iff, binv.roots]
        rfl
      · intro hmem
        apply h
        rw [pFind_isSome_iff]
        exact List.mem_toFinset.1 hmem
      · intro u hu v hv
        by_contra hne
        have hpos : 0 < R u v := Nat.pos_of_ne_zero hne
        have hvV : v ∈ V := (Finset.mem_sdiff.1 hv).1
        have hvS : v ∉ (keysP (ekBFS R (V.sort (· ≤ ·)) t [s] [(s, none)])).toFinset :=
          (Finset.mem_sdiff.1 hv).2
        apply hvS
        apply List.mem_toFinset.2
        exact binv.closed u (List.mem_toFinset.1 hu) (by simp) v
          ((Finset.mem_sort (α := ℕ) (· ≤ ·)).2 hvV) hpos

end DSA

namespace DSA

theorem ekFlow_diff (cap R : ℕ → ℕ → ℕ)
    (hinv : ∀ u v, R u v + R v u = cap u v + cap v u) (u v : ℕ) :
    (ekFlow cap R u v : ℤ) - ekFlow cap R v u = (cap u v : ℤ) - R u v := by
  unfold ekFlow
  have h := hinv u v
  omega

theorem total_excess_zero (V : Finset ℕ) (cap R : ℕ → ℕ → ℕ)
    (hinv : ∀ u v, R u v + R v u = cap u v + cap v u) :
    ∑ v ∈ V, ekExcess V cap R v = 0 := by
  unfold ekExcess
  have key : ∀ u v, ((cap u v : ℤ) - R u v) + ((cap v u : ℤ) - R v u) = 0 := by
    intro u v
    have := hinv u v
    omega
  have hswap : ∑ v ∈ V, ∑ u ∈ V, ((cap u v : ℤ) - R u v)
      = ∑ v ∈ V, ∑ u ∈ V, ((cap v u : ℤ) - R v u) := Finset.sum_comm
  have h2 : (∑ v ∈ V, ∑ u ∈ V, ((cap u v : ℤ) - R u v))
      + (∑ v ∈ V, ∑ u ∈ V, ((cap u v : ℤ) - R u v)) = 0 := by
    nth_rewrite 2 [hswap]
    rw [← Finset.sum_add_distrib]
    apply Finset.sum_eq_zero
    intro v _
    rw [← Finset.sum_add_distrib]
    apply Finset.sum_eq_zero
    intro u _
    exact key u v
  linarith

theorem excess_s_eq (V : Finset ℕ) (cap : ℕ → ℕ → ℕ) (s t : ℕ)
    (R : ℕ → ℕ → ℕ) (flow : ℕ) (inv : EkResInv V cap s t R flow)
    (hsV : s ∈ V) (htV : t ∈ V) (hst : s ≠ t) :
    ekExcess V cap R s = -(flow : ℤ) := by
  have htot := total_excess_zero V cap R inv.sum_inv
  rw [← Finset.sum_erase_add _ _ hsV] at htot
  have htV2 : t ∈ V.erase s := Finset.mem_erase.2 ⟨Ne.symm hst, htV⟩
  rw [← Finset.sum_erase_add _ _ htV2] at htot
  have hz : ∑ v ∈ (V.erase s).erase t, ekExcess V cap R v = 0 := by
    apply Finset.sum_eq_zero
    intro v hv
    have h1 := Finset.mem_erase.1 hv
    have h2 := Finset.mem_erase.1 h1.2
    exact inv.excess_mid v h2.2 h2.1 h1.1
  rw [hz, inv.excess_t] at htot
  linarith

theorem ekFeasible_of_inv (V : Finset ℕ) (cap : ℕ → ℕ → ℕ) (s t : ℕ)
    (R : ℕ → ℕ → ℕ) (flow : ℕ) (inv : EkResInv V cap s t R flow)
    (hsV : s ∈ V) (htV : t ∈ V) (hst : s ≠ t) :
    EkFeasible V cap s t (ekFlow cap R)
    ∧ ekValue V (ekFlow cap R) s = (flow : ℤ) := by
  constructor
  · constructor
    · intro u v
      exact Nat.sub_le _ _
    · intro v hv hvs hvt
      have h1 : ∑ u ∈ V, ((ekFlow cap R u v : ℤ) - (ekFlow cap R v u : ℤ)) = 0 := by
        rw [Finset.sum_congr rfl (fun u _ => ekFlow_diff cap R inv.sum_inv u v)]
        exact inv.excess_mid v hv hvs hvt
      rw [Finset.sum_sub_distrib] at h1
      linarith
  · unfold ekValue
    rw [Finset.sum_congr rfl (fun v _ => ekFlow_diff cap R inv.sum_inv s v)]
    have h3 : ∑ v ∈ V, ((cap s v : ℤ) - R s v) = - ekExcess V cap R s := by
      unfold ekExcess
      rw [← Finset.sum_neg_distrib]
      apply Finset.sum_congr rfl
      intro v _
      have := inv.sum_inv s v
      omega
    rw [h3, excess_s_eq V cap s t R flow inv hsV htV hst]
    ring

theorem ek_value_cross (V : Finset ℕ) (cap : ℕ → ℕ → ℕ) (s t : ℕ)
    (f : ℕ → ℕ → ℕ) (hf : EkFeasible V cap s t f) (S : Finset ℕ)
    (hS : S ⊆ V) (hsS : s ∈ S) (htS : t ∉ S) :
    ekValue V f s = ∑ u ∈ S, ∑ w ∈ V \ S, ((f u w : ℤ) - f w u) := by
  have hA : ∑ u ∈ S, ((∑ w ∈ V, (f u w : ℤ)) - ∑ w ∈ V, (f w u : ℤ))
      = ekValue V f s := by
    rw [Finset.sum_eq_single_of_mem s hsS]
    · unfold ekValue
      rw [Finset.sum_sub_distrib]
    · intro u hu hus
      have huV : u ∈ V := hS hu
      have hut : u ≠ t := fun h => htS (h ▸ hu)
      rw [hf.2 u huV hus hut]
      ring
  have hcross : ∑ u ∈ S, ∑ w ∈ S, ((f u w : ℤ) - f w u) = 0 := by
    have hsw : ∑ u ∈ S, ∑ w ∈ S, ((f u w : ℤ) - f w u)
        = ∑ u ∈ S, ∑ w ∈ S, ((f w u : ℤ) - f u w) := Finset.sum_comm
    have h4 : (∑ u ∈ S, ∑ w ∈ S, ((f u w : ℤ) - f w u))
        + (∑ u ∈ S, ∑ w ∈ S, ((f u w : ℤ) - f w u)) = 0 := by
      nth_rewrite 2 [hsw]
      rw [← Finset.sum_add_distrib]
      apply Finset.sum_eq_zero
      intro u _
      rw [← Finset.sum_add_distrib]
      apply Finset.sum_eq_zero
      intro w _
      ring
    linarith
  have hB : ∑ u ∈ S, ((∑ w ∈ V, (f u w : ℤ)) - ∑ w ∈ V, (f w u : ℤ))
      = ∑ u ∈ S, ∑ w ∈ V \ S, ((f u w : ℤ) - f w u) := by
    have hstep : ∀ u, (∑ w ∈ V, (f u w : ℤ)) - ∑ w ∈ V, (f w u : ℤ)
        = (∑ w ∈ V \ S, ((f u w : ℤ) - f w u))
          + ∑ w ∈ S, ((f u w : ℤ) - f w u) := by
      intro u
      rw [← (Finset.sum_sdiff hS (f := fun w => (f u w : ℤ))),
        ← (Finset.sum_sdiff hS (f := fun w => (f w u : ℤ))),
        Finset.sum_sub_distrib, Finset.sum_sub_distrib]
      ring
    rw [Finset.sum_congr rfl (fun u _ => hstep u), Finset.sum_add_distrib,
      hcross, add_zero]
  rw [← hA, hB]

theorem ek_weak_duality (V : Finset ℕ) (cap : ℕ → ℕ → ℕ) (s t : ℕ)
    (f : ℕ → ℕ → ℕ) (hf : EkFeasible V cap s t f) (S : Finset ℕ)
    (hS : S ⊆ V) (hsS : s ∈ S) (htS : t ∉ S) :
    ekValue V f s ≤ (cutCap V cap S : ℤ) := by
  rw [ek_value_cross V cap s t f hf S hS hsS htS]
  unfold cutCap
  push_cast
  apply Finset.sum_le_sum
  intro u _
  apply Finset.sum_le_sum
  intro w _
  have h1 : (f u w : ℤ) ≤ cap u w := by exact_mod_cast hf.1 u w
  have h2 : (0 : ℤ) ≤ f w u := by exact_mod_cast Nat.zero_le _
  linarith

theorem ek_cut_value (V : Finset ℕ) (cap : ℕ → ℕ → ℕ) (s t : ℕ)
    (R : ℕ → ℕ → ℕ) (flow : ℕ) (inv : EkResInv V cap s t R flow)
    (hsV : s ∈ V) (htV : t ∈ V) (hst : s ≠ t) (S : Finset ℕ)
    (hS : S ⊆ V) (hsS : s ∈ S) (htS : t ∉ S)
    (hcut0 : ∀ u ∈ S, ∀ v ∈ V \ S, R u v = 0) :
    ekValue V (ekFlow cap R) s = (cutCap V cap S : ℤ) := by
  obtain ⟨hfeas, _⟩ := ekFeasible_of_inv V cap s t R flow inv hsV htV hst
  rw [ek_value_cross V cap s t (ekFlow cap R) hfeas S hS hsS htS]
  unfold cutCap
  push_cast
  apply Finset.sum_congr rfl
  intro u hu
  apply Finset.sum_congr rfl
  intro w hw
  rw [ekFlow_diff cap R inv.sum_inv u w, hcut0 u hu w hw]
  push_cast
  ring

end DSA

namespace DSA

theorem ekLoop_unreachable (V : Finset ℕ) (s t : ℕ) (hst : s ≠ t)
    (cap : ℕ → ℕ → ℕ) (hnr : ¬ ∃ p, RPath cap s p t) :
    ekLoop V s t hst cap 0 = (0, cap) := by
  by_cases h : (pFind (ekBFS cap (V.sort (· ≤ ·)) t [s] [(s, none)]) t).isSome = true
  · exfalso
    obtain ⟨q2, binv, _⟩ := ekBFS_spec cap (V.sort (· ≤ ·)) s t [s] [(s, none)]
      (ekInv_init cap (V.sort (· ≤ ·)) s)
    exact hnr (ekKeys_reach cap (V.sort (· ≤ ·)) s q2 _ binv t
      ((pFind_isSome_iff _ _).1 h))
  · rw [ekLoop_eq, if_neg h]

end DSA

/-- C5: For every flow network (in particular every one built through
`FlowGraph.add_edge`, which raises "Capacity must be positive" for any
capacity <= 0 and accumulates parallel edges), `edmonds_karp(source,
sink)` returns a `max_flow` value that is achieved by a feasible flow,
dominates every feasible flow, is achieved by a source/sink cut and is
a lower bound for every source/sink cut — so it equals both the maximum
feasible total flow and the minimum cut capacity — and it is 0 when the
sink is unreachable from the source. -/
theorem c5_edmonds_karp_maxflow_mincut
    (g : DSA.FlowGraph) (s t : ℕ) (hs : s ∈ g.nodes) (ht : t ∈ g.nodes)
    (hst : s ≠ t) :
    (∀ (g2 : DSA.FlowGraph) (u0 v0 : ℕ),
      g2.add_edge u0 v0 0 = Except.error "Capacity must be positive")
    ∧ (∀ (g2 : DSA.FlowGraph) (u0 v0 c : ℕ), c ≠ 0 →
        ∃ g4, g2.add_edge u0 v0 c = Except.ok g4
          ∧ g4.cap u0 v0 = g2.cap u0 v0 + c)
    ∧ (∀ (l : List (ℕ × ℕ × ℕ)) (g3 : DSA.FlowGraph),
        DSA.ofEdgeList l = Except.ok g3 → DSA.FlowGraph.WF g3)
    ∧ (∃ f, DSA.EkFeasible g.nodes g.cap s t f
        ∧ DSA.ekValue g.nodes f s = (g.edmonds_karp s t hst : ℤ))
    ∧ (∀ f, DSA.EkFeasible g.nodes g.cap s t f →
        DSA.ekValue g.nodes f s ≤ (g.edmonds_karp s t hst : ℤ))
    ∧ (∃ S : Finset ℕ, S ⊆ g.nodes ∧ s ∈ S ∧ t ∉ S
        ∧ (DSA.cutCap g.nodes g.cap S : ℤ) = (g.edmonds_karp s t hst : ℤ))
    ∧ (∀ S : Finset ℕ, S ⊆ g.nodes → s ∈ S → t ∉ S →
        (g.edmonds_karp s t hst : ℤ) ≤ (DSA.cutCap g.nodes g.cap S : ℤ))
    ∧ ((¬ ∃ p, DSA.RPath g.cap s p t) → g.edmonds_karp s t hst = 0) := by
  obtain ⟨invF, S, hSsub, hsS, htS, hcut0⟩ :=
    DSA.ekLoop_spec g.nodes g.cap s t hst hs ht g.cap 0
      (DSA.ekResInv_init g.nodes g.cap s t (Ne.symm hst))
  obtain ⟨hfeas, hval⟩ :=
    DSA.ekFeasible_of_inv g.nodes g.cap s t
      (DSA.ekLoop g.nodes s t hst g.cap 0).2
      (DSA.ekLoop g.nodes s t hst g.cap 0).1 invF hs ht hst
  have hceq : DSA.ekValue g.nodes
      (DSA.ekFlow g.cap (DSA.ekLoop g.nodes s t hst g.cap 0).2) s
      = (DSA.cutCap g.nodes g.cap S : ℤ) :=
    DSA.ek_cut_value g.nodes g.cap s t _ _ invF hs ht hst S hSsub hsS htS hcut0
  refine ⟨?_, ?_, ?_, ?_, ?_, ?_, ?_, ?_⟩
  · intro g2 u0 v0
    rfl
  · intro g2 u0 v0 c hc
    refine ⟨⟨fun a b => if a = u0 ∧ b = v0 then g2.cap a b + c else g2.cap a b,
      insert v0 (insert u0 g2.nodes)⟩, ?_, ?_⟩
    · show (if c = 0 then Except.error "Capacity must be positive" else _) = _
      rw [if_neg hc]
    · show (if u0 = u0 ∧ v0 = v0 then g2.cap u0 v0 + c else g2.cap u0 v0) = _
      rw [if_pos ⟨rfl, rfl⟩]
  · intro l g3 hg3
    exact DSA.wf_ofEdgeList l DSA.FlowGraph.empty DSA.wf_empty g3 hg3
  · exact ⟨_, hfeas, hval⟩
  · intro f hf
    have h1 := DSA.ek_weak_duality g.nodes g.cap s t f hf S hSsub hsS htS
    rw [← hceq, hval] at h1
    exact h1
  · exact ⟨S, hSsub, hsS, htS, hceq.symm.trans hval⟩
  · intro S2 hS2 hsS2 htS2
    have h1 := DSA.ek_weak_duality g.nodes g.cap s t _ hfeas S2 hS2 hsS2 htS2
    rw [hval] at h1
    exact h1
  · intro hnr
    show (DSA.ekLoop g.nodes s t hst g.cap 0).1 = 0
    rw [DSA.ekLoop_unreachable g.nodes s t hst g.cap hnr]

/-- Witness for C5 on the two-node network with a single capacity-2
edge from 0 to 1. -/
theorem c5_edmonds_karp_witness :
    ((0 : ℕ) ∈ (DSA.FlowGraph.mk
        (fun a b => if a = 0 ∧ b = 1 then 2 else 0) {0, 1}).nodes)
    ∧ ((1 : ℕ) ∈ (DSA.FlowGraph.mk
        (fun a b => if a = 0 ∧ b = 1 then 2 else 0) {0, 1}).nodes)
    ∧ ((0 : ℕ) ≠ 1)
    ∧ (∀ (g2 : DSA.FlowGraph) (u0 v0 : ℕ),
        g2.add_edge u0 v0 0 = Except.error "Capacity must be positive")
    ∧ (∃ f, DSA.EkFeasible (DSA.FlowGraph.mk
          (fun a b => if a = 0 ∧ b = 1 then 2 else 0) {0, 1}).nodes
        (DSA.FlowGraph.mk
          (fun a b => if a = 0 ∧ b = 1 then 2 else 0) {0, 1}).cap 0 1 f
        ∧ DSA.ekValue (DSA.FlowGraph.mk
            (fun a b => if a = 0 ∧ b = 1 then 2 else 0) {0, 1}).nodes f 0
          = ((DSA.FlowGraph.mk
              (fun a b => if a = 0 ∧ b = 1 then 2 else 0) {0, 1}).edmonds_karp
              0 1 (by decide) : ℤ)) := by
  have h := c5_edmonds_karp_maxflow_mincut
    (DSA.FlowGraph.mk (fun a b => if a = 0 ∧ b = 1 then 2 else 0) {0, 1})
    0 1 (by decide) (by decide) (by decide)
  exact ⟨by decide, by decide, by decide, h.1, h.2.2.2.1⟩

namespace DSA

/-! ## Euler path/circuit finder (C4)

A `Multigraph` stores edges under sequential ids; here the edge list is
indexed by id.  `adj` holds `(neighbor, edge_id)` entries in insertion
order, with both directions for the undirected case.  Hierholzer's
algorithm runs on a stack with per-vertex iterator queues and edge
usage flags (the `used` set). -/

/-- `degree_info` for the undirected case: each edge adds one to both
endpoint degrees (a self-loop adds two). -/
def mgDeg (E : List (ℕ × ℕ)) (x : ℕ) : ℕ :=
  (E.map (fun e => (if e.1 = x then 1 else 0) + (if e.2 = x then 1 else 0))).sum

def mgAdjGo (x : ℕ) : List (ℕ × ℕ) → ℕ → List (ℕ × ℕ)
  | [], _ => []
  | (u, v) :: rest, eid =>
      ((if x = u then [(v, eid)] else []) ++ (if x = v then [(u, eid)] else []))
        ++ mgAdjGo x rest (eid + 1)

/-- `self.adj[x]`: the `(neighbor, edge_id)` list. -/
def mgAdj (E : List (ℕ × ℕ)) (x : ℕ) : List (ℕ × ℕ) := mgAdjGo x E 0

/-- Edge `eid` joins `a` and `b` (in either stored orientation). -/
def connects (E : List (ℕ × ℕ)) (eid a b : ℕ) : Prop :=
  E.get? eid = some (a, b) ∨ E.get? eid = some (b, a)

/-- The vertex list `W` is a walk whose `i`-th step uses edge `eids[i]`. -/
def StepsOK (E : List (ℕ × ℕ)) : List ℕ → List ℕ → Prop
  | [_], [] => True
  | a :: b :: vs, eid :: eids => connects E eid a b ∧ StepsOK E (b :: vs) eids
  | _, _ => False

/-- Two vertices joined by some walk. -/
def MReach (E : List (ℕ × ℕ)) (x y : ℕ) : Prop :=
  ∃ W eids, W.head? = some x ∧ W.getLast? = some y ∧ StepsOK E W eids

/-- All edges of the multigraph lie in one connected component. -/
def EdgesConnected (E : List (ℕ × ℕ)) : Prop :=
  ∀ e1 ∈ E, ∀ e2 ∈ E, MReach E e1.1 e2.1

/-- The inner `while adj_iter.get(v):` scan: pop entries until an
unused edge is found (returning it and the remaining queue) or the
queue is exhausted. -/
def scanIter (used : Finset ℕ) : List (ℕ × ℕ) → Option (ℕ × List (ℕ × ℕ))
  | [] => none
  | (_, eid) :: rest =>
      if eid ∈ used then scanIter used rest else some (eid, rest)

/-- The pushed neighbour, read off the stored edge relative to `v`. -/
def hhNeighbor (E : List (ℕ × ℕ)) (v eid : ℕ) : ℕ :=
  match E.get? eid with
  | some (a, b) => if v = a then b else a
  | none => v

/-- First-occurrence deduplication (Python dict key order). -/
def dedupFirst : List ℕ → List ℕ → List ℕ
  | [], _ => []
  | x :: rest, seen =>
      if x ∈ seen then dedupFirst rest seen
      else x :: dedupFirst rest (x :: seen)

theorem scanIter_none (used : Finset ℕ) :
    ∀ l, scanIter used l = none → ∀ p ∈ l, p.2 ∈ used := by
  intro l
  induction l with
  | nil => intro _ p hp; simp at hp
  | cons e rest ih =>
      obtain ⟨nb, eid⟩ := e
      intro h p hp
      show p.2 ∈ used
      by_cases hu : eid ∈ used
      · rw [show scanIter used ((nb, eid) :: rest)
            = if eid ∈ used then scanIter used rest
              else some (eid, rest) from rfl, if_pos hu] at h
        rcases List.mem_cons.1 hp with hp | hp
        · rw [hp]
          exact hu
        · exact ih h p hp
      · rw [show scanIter used ((nb, eid) :: rest)
            = if eid ∈ used then scanIter used rest
              else some (eid, rest) from rfl, if_neg hu] at h
        exact Option.noConfusion h

theorem scanIter_some (used : Finset ℕ) :
    ∀ l eid rest, scanIter used l = some (eid, rest) →
      eid ∉ used ∧ (∃ nb, (nb, eid) ∈ l) ∧ (∀ p ∈ rest, p ∈ l) := by
  intro l
  induction l with
  | nil => intro eid rest h; exact Option.noConfusion h
  | cons e l2 ih =>
      obtain ⟨nb, eid2⟩ := e
      intro eid rest h
      rw [show scanIter used ((nb, eid2) :: l2)
          = if eid2 ∈ used then scanIter used l2
            else some (eid2, l2) from rfl] at h
      by_cases hu : eid2 ∈ used
      · rw [if_pos hu] at h
        obtain ⟨h1, ⟨nb2, h2⟩, h3⟩ := ih eid rest h
        exact ⟨h1, ⟨nb2, List.mem_cons_of_mem _ h2⟩,
          fun p hp => List.mem_cons_of_mem _ (h3 p hp)⟩
      · rw [if_neg hu] at h
        rw [Option.some.injEq, Prod.mk.injEq] at h
        obtain ⟨rfl, rfl⟩ := h
        exact ⟨hu, ⟨nb, List.mem_cons_self _ _⟩,
          fun p hp => List.mem_cons_of_mem _ hp⟩

theorem mem_mgAdjGo (x : ℕ) :
    ∀ (E : List (ℕ × ℕ)) (k nb eid : ℕ),
      (nb, eid) ∈ mgAdjGo x E k ↔
        (∃ j, eid = k + j ∧ (E.get? j = some (x, nb) ∨ E.get? j = some (nb, x))) := by
  intro E
  induction E with
  | nil =>
      intro k nb eid
      simp [mgAdjGo]
  | cons e rest ih =>
      obtain ⟨u, v⟩ := e
      intro k nb eid
      show (nb, eid) ∈ ((if x = u then [(v, k)] else [])
        ++ (if x = v then [(u, k)] else [])) ++ mgAdjGo x rest (k + 1) ↔ _
      rw [List.mem_append, List.mem_append, ih (k + 1) nb eid]
      constructor
      · rintro ((h | h) | ⟨j, rfl, h⟩)
        · by_cases hx : x = u
          · rw [if_pos hx] at h
            rw [List.mem_singleton, Prod.mk.injEq] at h
            refine ⟨0, by omega, Or.inl ?_⟩
            rw [show ((u, v) :: rest).get? 0 = some (u, v) from rfl]
            rw [hx, h.1]
          · rw [if_neg hx] at h
            simp at h
        · by_cases hx : x = v
          · rw [if_pos hx] at h
            rw [List.mem_singleton, Prod.mk.injEq] at h
            refine ⟨0, by omega, Or.inr ?_⟩
            rw [show ((u, v) :: rest).get? 0 = some (u, v) from rfl]
            rw [hx, h.1]
          · rw [if_neg hx] at h
            simp at h
        · exact ⟨j + 1, by omega, h⟩
      · rintro ⟨j, rfl, h⟩
        cases j with
        | zero =>
            rw [show ((u, v) :: rest).get? 0 = some (u, v) from rfl] at h
            rcases h with h | h
            · rw [Option.some.injEq, Prod.mk.injEq] at h
              refine Or.inl (Or.inl ?_)
              rw [if_pos h.1.symm]
              rw [List.mem_singleton, Prod.mk.injEq]
              exact ⟨h.2.symm, by omega⟩
            · rw [Option.some.injEq, Prod.mk.injEq] at h
              refine Or.inl (Or.inr ?_)
              rw [if_pos h.2.symm]
              rw [List.mem_singleton, Prod.mk.injEq]
              exact ⟨h.1.symm, by omega⟩
        | succ j2 =>
            refine Or.inr ⟨j2, by omega, ?_⟩
            rw [show ((u, v) :: rest).get? (j2 + 1) = rest.get? j2 from rfl] at h
            exact h

theorem mem_mgAdj (E : List (ℕ × ℕ)) (x nb eid : ℕ) :
    (nb, eid) ∈ mgAdj E x ↔ connects E eid x nb := by
  rw [mgAdj, mem_mgAdjGo, connects]
  constructor
  · rintro ⟨j, hj, h⟩
    rw [show eid = j by omega]
    exact h
  · intro h
    exact ⟨eid, by omega, h⟩

end DSA

namespace DSA

/-- The `while stack:` loop of Hierholzer's algorithm.  The model stack
and output grow at the head, so the returned vertex list is already the
reversed Python `path`. -/
def hierholzer (E : List (ℕ × ℕ)) :
    (stack : List ℕ) → (path : List ℕ) → (ait : ℕ → List (ℕ × ℕ)) →
    (used : Finset ℕ) →
    (∀ x nb eid, (nb, eid) ∈ ait x → eid < E.length) → List ℕ × Finset ℕ
  | [], path, _, used, _ => (path, used)
  | v :: stackRest, path, ait, used, hait =>
      match hs : scanIter used (ait v) with
      | none =>
          hierholzer E stackRest (v :: path) (Function.update ait v []) used
            (fun x nb eid hmem => by
              by_cases hx : x = v
              · rw [hx, Function.update_same] at hmem
                simp at hmem
              · rw [Function.update_noteq hx] at hmem
                exact hait x nb eid hmem)
      | some (eid, rest) =>
          hierholzer E (hhNeighbor E v eid :: v :: stackRest) path
            (Function.update ait v rest) (insert eid used)
            (fun x nb eid2 hmem => by
              by_cases hx : x = v
              · rw [hx, Function.update_same] at hmem
                exact hait v nb eid2 ((scanIter_some used (ait v) eid rest hs).2.2 _ hmem)
              · rw [Function.update_noteq hx] at hmem
                exact hait x nb eid2 hmem)
termination_by stack path ait used hait =>
  ((Finset.range E.length \ used).card, stack.length)
decreasing_by
· apply Prod.Lex.right
  simp
· apply Prod.Lex.left
  obtain ⟨hnot, ⟨nb, hmem⟩, _⟩ := scanIter_some used (ait v) eid rest hs
  have hlt : eid ∈ Finset.range E.length :=
    Finset.mem_range.2 (hait v nb eid hmem)
  have hmem2 : eid ∈ Finset.range E.length \ used :=
    Finset.mem_sdiff.2 ⟨hlt, hnot⟩
  have hsub : Finset.range E.length \ insert eid used
      ⊂ Finset.range E.length \ used := by
    constructor
    · exact Finset.sdiff_subset_sdiff (Finset.Subset.refl _) (Finset.subset_insert _ _)
    · intro hcon
      have := hcon hmem2
      rw [Finset.mem_sdiff] at this
      exact this.2 (Finset.mem_insert_self _ _)
  exact Finset.card_lt_card hsub

/-- `EulerFinder.find_euler_undirected`.  `next(iter(nodes_with_edges))`
is modelled by the first listed endpoint. -/
def find_euler_undirected (E : List (ℕ × ℕ)) : Option (List ℕ) × String :=
  let nwe := E.flatMap (fun e => [e.1, e.2])
  if nwe = [] then (none, "Graph has no edges.")
  else
    let odd := (dedupFirst nwe []).filter (fun n => mgDeg E n % 2 = 1)
    if odd.length = 0 ∨ odd.length = 2 then
      let start := match odd with
        | o :: _ => o
        | [] => nwe.headI
      let r := hierholzer E [start] [] (mgAdj E) ∅
        (fun x nb eid hmem => by
          have h := (mem_mgAdj E x nb eid).1 hmem
          rcases h with h | h
          · have := List.get?_eq_some.1 h
            exact this.1
          · have := List.get?_eq_some.1 h
            exact this.1)
      if (List.range E.length).all (fun eid => decide (eid ∈ r.2)) then
        (some r.1, "Euler path/circuit found.")
      else (none, "Graph is disconnected: some edges not reachable.")
    else (none, "No Euler path/circuit: " ++ toString odd.length
      ++ " vertices have odd degree.")

end DSA

namespace DSA

def edgeInc (z : ℕ) (e : ℕ × ℕ) : ℕ :=
  (if e.1 = z then 1 else 0) + (if e.2 = z then 1 else 0)

theorem mgDeg_eq_sum_edgeInc (E : List (ℕ × ℕ)) (z : ℕ) :
    mgDeg E z = (E.map (edgeInc z)).sum := rfl

/-- Degree of `z` among the unused edges. -/
def mgDegRem (E : List (ℕ × ℕ)) (used : Finset ℕ) (z : ℕ) : ℕ :=
  ∑ eid ∈ Finset.range E.length \ used, edgeInc z (E.getD eid (0, 0))

theorem mgDegRem_insert (E : List (ℕ × ℕ)) (used : Finset ℕ) (eid : ℕ)
    (hmem : eid ∈ Finset.range E.length) (hnot : eid ∉ used) (z : ℕ) :
    mgDegRem E used z
      = mgDegRem E (insert eid used) z + edgeInc z (E.getD eid (0, 0)) := by
  unfold mgDegRem
  have h1 : Finset.range E.length \ insert eid used
      = (Finset.range E.length \ used).erase eid := by
    ext a
    simp only [Finset.mem_sdiff, Finset.mem_insert, Finset.mem_erase]
    tauto
  rw [h1]
  have h2 : eid ∈ Finset.range E.length \ used := Finset.mem_sdiff.2 ⟨hmem, hnot⟩
  rw [Finset.sum_erase_add _ _ h2]

theorem mgDegRem_empty (E : List (ℕ × ℕ)) (z : ℕ) :
    mgDegRem E ∅ z = mgDeg E z := by
  unfold mgDegRem
  rw [Finset.sdiff_empty, mgDeg_eq_sum_edgeInc]
  induction E using List.reverseRecOn with
  | nil => simp
  | append_singleton E' e ih =>
      rw [List.length_append, List.length_singleton, Finset.sum_range_succ,
        List.map_append, List.sum_append]
      have h1 : ∀ i ∈ Finset.range E'.length,
          (E' ++ [e]).getD i (0, 0) = E'.getD i (0, 0) := by
        intro i hi
        rw [Finset.mem_range] at hi
        unfold List.getD
        rw [List.get?_append hi]
      rw [Finset.sum_congr rfl (fun i hi => by rw [h1 i hi]), ih]
      have h2 : (E' ++ [e]).getD E'.length (0, 0) = e := by
        unfold List.getD
        rw [List.get?_append_right (Nat.le_refl _)]
        simp
      rw [h2]
      simp

theorem stepsOK_edge_mem (E : List (ℕ × ℕ)) :
    ∀ (W : List ℕ) (eids : List ℕ), StepsOK E W eids →
      ∀ eid ∈ eids, ∃ a b, connects E eid a b ∧ a ∈ W ∧ b ∈ W := by
  intro W
  induction W with
  | nil =>
      intro eids h
      cases eids with
      | nil => intro eid hmem; simp at hmem
      | cons e es => exact absurd h (by simp [StepsOK])
  | cons a W2 ih =>
      intro eids h
      cases W2 with
      | nil =>
          cases eids with
          | nil => intro eid hmem; simp at hmem
          | cons e es => exact absurd h (by simp [StepsOK])
      | cons b W3 =>
          cases eids with
          | nil => exact absurd h (by simp [StepsOK])
          | cons e es =>
              obtain ⟨hc, hrest⟩ := h
              intro eid hmem
              rcases List.mem_cons.1 hmem with rfl | hmem2
              · exact ⟨a, b, hc, List.mem_cons_self _ _,
                  List.mem_cons_of_mem _ (List.mem_cons_self _ _)⟩
              · obtain ⟨a2, b2, hc2, ha2, hb2⟩ := ih es hrest eid hmem2
                exact ⟨a2, b2, hc2, List.mem_cons_of_mem _ ha2,
                  List.mem_cons_of_mem _ hb2⟩

theorem stepsOK_mem_bound (E : List (ℕ × ℕ)) :
    ∀ (W : List ℕ) (eids : List ℕ), StepsOK E W eids →
      ∀ eid ∈ eids, eid < E.length := by
  intro W eids h eid hmem
  obtain ⟨a, b, hc, _, _⟩ := stepsOK_edge_mem E W eids h eid hmem
  rcases hc with hc | hc
  · exact (List.get?_eq_some.1 hc).1
  · exact (List.get?_eq_some.1 hc).1

end DSA

namespace DSA

theorem edgeInc_swap (z a b : ℕ) : edgeInc z (a, b) = edgeInc z (b, a) := by
  unfold edgeInc
  exact Nat.add_comm _ _

theorem getD_of_get (E : List (ℕ × ℕ)) (eid : ℕ) (e : ℕ × ℕ)
    (h : E.get? eid = some e) : E.getD eid (0, 0) = e := by
  unfold List.getD
  rw [h]
  rfl

/-- Per-vertex contribution of consecutive walk pairs. -/
def walkInc (z : ℕ) : List ℕ → ℕ
  | a :: b :: vs =>
      ((if a = z then 1 else 0) + (if b = z then 1 else 0)) + walkInc z (b :: vs)
  | _ => 0

theorem stepsOK_single (E : List (ℕ × ℕ)) (a : ℕ) (eids : List ℕ)
    (h : StepsOK E [a] eids) : eids = [] := by
  cases eids with
  | nil => rfl
  | cons e es => exact absurd h (by simp [StepsOK])

theorem stepsOK_ne_nil (E : List (ℕ × ℕ)) :
    ∀ (W : List ℕ) (eids : List ℕ), StepsOK E W eids → W ≠ [] := by
  intro W eids h
  cases W with
  | nil =>
      cases eids with
      | nil => exact absurd h (by simp [StepsOK])
      | cons e es => exact absurd h (by simp [StepsOK])
  | cons a vs => simp

theorem connects_symm (E : List (ℕ × ℕ)) (eid a b : ℕ)
    (h : connects E eid a b) : connects E eid b a := h.symm

theorem stepsOK_snoc (E : List (ℕ × ℕ)) :
    ∀ (Q : List ℕ) (eids : List ℕ) (w v le : ℕ), StepsOK E Q eids →
      Q.getLast? = some w → connects E le w v →
      StepsOK E (Q ++ [v]) (eids ++ [le]) := by
  intro Q
  induction Q with
  | nil => intro eids w v le h; exact absurd (stepsOK_ne_nil E [] eids h) (by simp)
  | cons a Q2 ih =>
      intro eids w v le h hlast hc
      cases Q2 with
      | nil =>
          rw [stepsOK_single E a eids h]
          rw [List.getLast?_singleton, Option.some.injEq] at hlast
          rw [hlast]
          exact ⟨hc, trivial⟩
      | cons b Q3 =>
          cases eids with
          | nil => exact absurd h (by simp [StepsOK])
          | cons e es =>
              obtain ⟨hc1, hrest⟩ := h
              refine ⟨hc1, ?_⟩
              have hlast2 : (b :: Q3).getLast? = some w := by
                rw [← hlast, List.getLast?_cons_cons]
              exact ih es w v le hrest hlast2 hc

theorem stepsOK_split_last (E : List (ℕ × ℕ)) :
    ∀ (Q : List ℕ) (v : ℕ) (eids : List ℕ), StepsOK E (Q ++ [v]) eids → Q ≠ [] →
      ∃ eids2 le w, eids = eids2 ++ [le] ∧ StepsOK E Q eids2
        ∧ Q.getLast? = some w ∧ connects E le w v := by
  intro Q
  induction Q with
  | nil => intro v eids _ hne; exact absurd rfl hne
  | cons a Q2 ih =>
      intro v eids h _
      cases Q2 with
      | nil =>
          cases eids with
          | nil => exact absurd h (by simp [StepsOK])
          | cons e es =>
              obtain ⟨hc, hrest⟩ := h
              rw [stepsOK_single E v es hrest]
              exact ⟨[], e, a, rfl, trivial, rfl, hc⟩
      | cons b Q3 =>
          cases eids with
          | nil => exact absurd h (by simp [StepsOK])
          | cons e es =>
              obtain ⟨hc, hrest⟩ := h
              obtain ⟨eids2, le, w, rfl, h1, h2, h3⟩ := ih v es hrest (by simp)
              refine ⟨e :: eids2, le, w, rfl, ⟨hc, h1⟩, ?_, h3⟩
              rw [← h2, List.getLast?_cons_cons]

theorem stepsOK_append (E : List (ℕ × ℕ)) :
    ∀ (P Q : List ℕ) (e1 e2 : List ℕ) (y : ℕ), StepsOK E P e1 →
      StepsOK E (y :: Q) e2 → P.getLast? = some y →
      StepsOK E (P ++ Q) (e1 ++ e2) := by
  intro P
  induction P with
  | nil => intro Q e1 e2 y h; exact absurd (stepsOK_ne_nil E [] e1 h) (by simp)
  | cons a P2 ih =>
      intro Q e1 e2 y h hq hlast
      cases P2 with
      | nil =>
          rw [stepsOK_single E a e1 h]
          rw [List.getLast?_singleton, Option.some.injEq] at hlast
          rw [hlast]
          exact hq
      | cons b P3 =>
          cases e1 with
          | nil => exact absurd h (by simp [StepsOK])
          | cons e es =>
              obtain ⟨hc, hrest⟩ := h
              refine ⟨hc, ?_⟩
              have hlast2 : (b :: P3).getLast? = some y := by
                rw [← hlast, List.getLast?_cons_cons]
              exact ih Q es e2 y hrest hq hlast2

theorem stepsOK_reverse (E : List (ℕ × ℕ)) :
    ∀ (W : List ℕ) (eids : List ℕ), StepsOK E W eids →
      StepsOK E W.reverse eids.reverse := by
  intro W
  induction W with
  | nil => intro eids h; exact absurd (stepsOK_ne_nil E [] eids h) (by simp)
  | cons a W2 ih =>
      intro eids h
      cases W2 with
      | nil =>
          rw [stepsOK_single E a eids h]
          exact trivial
      | cons b W3 =>
          cases eids with
          | nil => exact absurd h (by simp [StepsOK])
          | cons e es =>
              obtain ⟨hc, hrest⟩ := h
              have h2 := ih es hrest
              rw [List.reverse_cons] at h2
              have h3 : ((b :: W3).reverse).getLast? = some b := by
                rw [List.getLast?_reverse]
                rfl
              have h4 : StepsOK E ((b :: W3).reverse ++ [a]) (es.reverse ++ [e]) := by
                apply stepsOK_snoc E _ _ b a e _ h3 hc.symm
                rw [List.reverse_cons]
                exact h2
              have hv : (a :: b :: W3).reverse = (b :: W3).reverse ++ [a] :=
                List.reverse_cons a (b :: W3)
              have he : (e :: es).reverse = es.reverse ++ [e] :=
                List.reverse_cons e es
              rw [hv, he]
              exact h4

theorem mreach_refl (E : List (ℕ × ℕ)) (x : ℕ) : MReach E x x :=
  ⟨[x], [], rfl, rfl, trivial⟩

theorem mreach_step (E : List (ℕ × ℕ)) (eid x y : ℕ)
    (h : connects E eid x y) : MReach E x y :=
  ⟨[x, y], [eid], rfl, rfl, ⟨h, trivial⟩⟩

theorem mreach_symm (E : List (ℕ × ℕ)) (x y : ℕ)
    (h : MReach E x y) : MReach E y x := by
  obtain ⟨W, eids, hh, hl, hs⟩ := h
  refine ⟨W.reverse, eids.reverse, ?_, ?_, stepsOK_reverse E W eids hs⟩
  · rw [List.head?_reverse]
    exact hl
  · rw [List.getLast?_reverse]
    exact hh

theorem mreach_trans (E : List (ℕ × ℕ)) (x y z : ℕ)
    (h1 : MReach E x y) (h2 : MReach E y z) : MReach E x z := by
  obtain ⟨W1, e1, hh1, hl1, hs1⟩ := h1
  obtain ⟨W2, e2, hh2, hl2, hs2⟩ := h2
  cases W2 with
  | nil => exact absurd (stepsOK_ne_nil E [] e2 hs2) (by simp)
  | cons b W3 =>
      rw [List.head?_cons, Option.some.injEq] at hh2
      subst hh2
      refine ⟨W1 ++ W3, e1 ++ e2, ?_, ?_, ?_⟩
      · rw [List.head?_append_of_ne_nil _ (stepsOK_ne_nil E W1 e1 hs1)]
        exact hh1
      · cases W3 with
        | nil =>
            rw [List.append_nil]
            rw [List.getLast?_singleton, Option.some.injEq] at hl2
            rw [hl1, hl2]
        | cons c W4 =>
            rw [List.getLast?_append_of_ne_nil _ (by simp)]
            rw [← hl2, List.getLast?_cons_cons]
      · exact stepsOK_append E W1 W3 e1 e2 b hs1 hs2 hl1

theorem mreach_closed (E : List (ℕ × ℕ)) (S : List ℕ)
    (hS : ∀ w y eid, w ∈ S → connects E eid w y → y ∈ S) :
    ∀ (W : List ℕ) (eids : List ℕ), StepsOK E W eids →
      ∀ x, W.head? = some x → x ∈ S → ∀ y, W.getLast? = some y → y ∈ S := by
  intro W
  induction W with
  | nil => intro eids h; exact absurd (stepsOK_ne_nil E [] eids h) (by simp)
  | cons a W2 ih =>
      intro eids h x hx hxS y hy
      rw [List.head?_cons, Option.some.injEq] at hx
      cases W2 with
      | nil =>
          rw [List.getLast?_singleton, Option.some.injEq] at hy
          rw [← hy, hx]
          exact hxS
      | cons b W3 =>
          cases eids with
          | nil => exact absurd h (by simp [StepsOK])
          | cons e es =>
              obtain ⟨hc, hrest⟩ := h
              have hbS : b ∈ S := hS a b e (hx ▸ hxS) hc
              rw [List.getLast?_cons_cons] at hy
              exact ih es hrest b rfl hbS y hy

theorem mreach_of_mem_walk (E : List (ℕ × ℕ)) :
    ∀ (W : List ℕ) (eids : List ℕ), StepsOK E W eids →
      ∀ h, W.head? = some h → ∀ x ∈ W, MReach E h x := by
  intro W
  induction W with
  | nil => intro eids h; exact absurd (stepsOK_ne_nil E [] eids h) (by simp)
  | cons a W2 ih =>
      intro eids hs h hh x hx
      rw [List.head?_cons, Option.some.injEq] at hh
      rcases List.mem_cons.1 hx with rfl | hx2
      · rw [← hh]; exact mreach_refl E x
      · cases W2 with
        | nil => simp at hx2
        | cons b W3 =>
            cases eids with
            | nil => exact absurd hs (by simp [StepsOK])
            | cons e es =>
                obtain ⟨hc, hrest⟩ := hs
                have h1 : MReach E h b := hh ▸ mreach_step E e a b hc
                exact mreach_trans E h b x h1 (ih es hrest b rfl x hx2)

end DSA

namespace DSA

theorem mem_dedupFirst :
    ∀ (l seen : List ℕ) (x : ℕ), x ∈ dedupFirst l seen ↔ (x ∈ l ∧ x ∉ seen) := by
  intro l
  induction l with
  | nil => intro seen x; simp [dedupFirst]
  | cons a rest ih =>
      intro seen x
      show x ∈ (if a ∈ seen then dedupFirst rest seen
        else a :: dedupFirst rest (a :: seen)) ↔ _
      by_cases ha : a ∈ seen
      · rw [if_pos ha, ih]
        constructor
        · rintro ⟨h1, h2⟩
          exact ⟨List.mem_cons_of_mem _ h1, h2⟩
        · rintro ⟨h1, h2⟩
          rcases List.mem_cons.1 h1 with rfl | h1
          · exact absurd ha h2
          · exact ⟨h1, h2⟩
      · rw [if_neg ha]
        rw [List.mem_cons, ih]
        constructor
        · rintro (rfl | ⟨h1, h2⟩)
          · exact ⟨List.mem_cons_self _ _, ha⟩
          · refine ⟨List.mem_cons_of_mem _ h1, fun hc => h2 (List.mem_cons_of_mem _ hc)⟩
        · rintro ⟨h1, h2⟩
          rcases List.mem_cons.1 h1 with rfl | h1
          · exact Or.inl rfl
          · by_cases hxa : x = a
            · exact Or.inl hxa
            · exact Or.inr ⟨h1, fun hc => by
                rcases List.mem_cons.1 hc with h | h
                · exact hxa h
                · exact h2 h⟩

theorem nodup_dedupFirst :
    ∀ (l seen : List ℕ), (dedupFirst l seen).Nodup := by
  intro l
  induction l with
  | nil => intro seen; simp [dedupFirst]
  | cons a rest ih =>
      intro seen
      show ((if a ∈ seen then dedupFirst rest seen
        else a :: dedupFirst rest (a :: seen))).Nodup
      by_cases ha : a ∈ seen
      · rw [if_pos ha]; exact ih seen
      · rw [if_neg ha]
        rw [List.nodup_cons]
        refine ⟨fun hc => ?_, ih (a :: seen)⟩
        exact ((mem_dedupFirst rest (a :: seen) a).1 hc).2 (List.mem_cons_self _ _)

theorem mgDeg_cons (e : ℕ × ℕ) (E : List (ℕ × ℕ)) (z : ℕ) :
    mgDeg (e :: E) z = edgeInc z e + mgDeg E z := rfl

theorem mgDeg_pos_mem_endpoints (E : List (ℕ × ℕ)) (z : ℕ)
    (h : 0 < mgDeg E z) : z ∈ E.flatMap (fun e => [e.1, e.2]) := by
  induction E with
  | nil => simp [mgDeg] at h
  | cons e rest ih =>
      rw [mgDeg_cons] at h
      rw [List.flatMap_cons, List.mem_append]
      by_cases he : 0 < edgeInc z e
      · left
        unfold edgeInc at he
        by_cases h1 : e.1 = z
        · rw [h1]; simp
        · rw [if_neg h1] at he
          by_cases h2 : e.2 = z
          · rw [h2]; simp
          · rw [if_neg h2] at he
            omega
      · right
        exact ih (by omega)

theorem mem_endpoints_edge (E : List (ℕ × ℕ)) (z : ℕ)
    (h : z ∈ E.flatMap (fun e => [e.1, e.2])) :
    ∃ eid w, connects E eid z w := by
  rw [List.mem_flatMap] at h
  obtain ⟨e, he, hz⟩ := h
  obtain ⟨i, hi⟩ := List.mem_iff_get?.1 he
  rcases List.mem_cons.1 hz with rfl | hz2
  · exact ⟨i, e.2, Or.inl (by rw [hi])⟩
  · rw [List.mem_singleton] at hz2
    rw [hz2]
    exact ⟨i, e.1, Or.inr (by rw [hi])⟩

/-- The odd-degree vertex list `odd` computed by `find_euler_undirected`. -/
def oddVerts (E : List (ℕ × ℕ)) : List ℕ :=
  (dedupFirst (E.flatMap (fun e => [e.1, e.2])) []).filter
    (fun n => mgDeg E n % 2 = 1)

theorem mem_oddVerts (E : List (ℕ × ℕ)) (z : ℕ) :
    z ∈ oddVerts E ↔ Odd (mgDeg E z) := by
  unfold oddVerts
  rw [List.mem_filter, mem_dedupFirst]
  constructor
  · rintro ⟨_, h⟩
    rw [Nat.odd_iff]
    exact of_decide_eq_true h
  · intro h
    refine ⟨⟨mgDeg_pos_mem_endpoints E z ?_, by simp⟩, decide_eq_true ?_⟩
    · rcases h with ⟨k, hk⟩
      omega
    · exact Nat.odd_iff.1 h

theorem nodup_oddVerts (E : List (ℕ × ℕ)) : (oddVerts E).Nodup :=
  List.Nodup.filter _ (nodup_dedupFirst _ _)

/-- Removing one unused edge joining `pv` and `pw` flips the remaining-degree
parity at its endpoints; the open walk end moves from `pv` to `pw`. -/
theorem parity_step (r : ℕ) (pv pw pA : Prop) [Decidable pv] [Decidable pw]
    [Decidable pA]
    (h : Odd (r + ((if pv then 1 else 0) + (if pw then 1 else 0))) ↔ Xor' pv pA) :
    Odd r ↔ Xor' pw pA := by
  by_cases hv : pv <;> by_cases hw : pw <;> by_cases hA : pA <;>
    simp [hv, hw, hA, Xor', Nat.odd_add, Nat.odd_iff, Nat.even_iff] at h ⊢ <;>
    omega

theorem xor_self_false (p : Prop) [Decidable p] : ¬Xor' p p := by
  simp [Xor']

theorem eq_of_not_xor_left (p : Prop) [Decidable p] (h : ¬Xor' True p) : p := by
  by_cases hp : p
  · exact hp
  · exact absurd (Or.inl ⟨trivial, hp⟩) h

theorem mgDegRem_eq_zero (E : List (ℕ × ℕ)) (used : Finset ℕ) (v : ℕ)
    (hall : ∀ eid w, connects E eid v w → eid ∈ used) :
    mgDegRem E used v = 0 := by
  unfold mgDegRem
  apply Finset.sum_eq_zero
  intro eid hmem
  rw [Finset.mem_sdiff, Finset.mem_range] at hmem
  obtain ⟨hlt, hnot⟩ := hmem
  have he : E.get? eid = some (E.get ⟨eid, hlt⟩) := List.get?_eq_get hlt
  rw [getD_of_get E eid _ he]
  unfold edgeInc
  by_cases h1 : (E.get ⟨eid, hlt⟩).1 = v
  · exact absurd (hall eid (E.get ⟨eid, hlt⟩).2
      (Or.inl (by rw [he, ← h1, Prod.mk.eta]))) hnot
  · rw [if_neg h1]
    by_cases h2 : (E.get ⟨eid, hlt⟩).2 = v
    · exact absurd (hall eid (E.get ⟨eid, hlt⟩).1
        (Or.inr (by rw [he, ← h2, Prod.mk.eta]))) hnot
    · rw [if_neg h2]
      rfl

theorem hhNeighbor_connects (E : List (ℕ × ℕ)) (eid v w : ℕ)
    (h : connects E eid v w) : connects E eid v (hhNeighbor E v eid) := by
  unfold hhNeighbor
  rcases h with h | h
  · rw [h]
    show connects E eid v (if v = v then w else v)
    rw [if_pos rfl]
    exact Or.inl h
  · rw [h]
    show connects E eid v (if v = w then v else w)
    by_cases hv : v = w
    · rw [if_pos hv]
      rw [hv] at h ⊢
      exact Or.inr h
    · rw [if_neg hv]
      exact Or.inr h

theorem scanIter_some_cover (used : Finset ℕ) :
    ∀ l eid rest, scanIter used l = some (eid, rest) →
      ∀ p ∈ l, p ∈ rest ∨ p.2 ∈ insert eid used := by
  intro l
  induction l with
  | nil => intro eid rest h; exact Option.noConfusion h
  | cons e l2 ih =>
      obtain ⟨nb, eid2⟩ := e
      intro eid rest h p hp
      rw [show scanIter used ((nb, eid2) :: l2)
          = if eid2 ∈ used then scanIter used l2
            else some (eid2, l2) from rfl] at h
      by_cases hu : eid2 ∈ used
      · rw [if_pos hu] at h
        rcases List.mem_cons.1 hp with rfl | hp2
        · exact Or.inr (Finset.mem_insert_of_mem hu)
        · exact ih eid rest h p hp2
      · rw [if_neg hu] at h
        rw [Option.some.injEq, Prod.mk.injEq] at h
        rcases List.mem_cons.1 hp with rfl | hp2
        · exact Or.inr (by rw [← h.1]; exact Finset.mem_insert_self _ _)
        · rw [← h.2]
          exact Or.inl hp2

end DSA

namespace DSA

theorem eq_of_not_xor_refl (a : ℕ) (p : Prop) [Decidable p]
    (h : ¬Xor' (a = a) p) : p := by
  by_cases hp : p
  · exact hp
  · exact absurd (Or.inl ⟨rfl, hp⟩) h

theorem hierholzer_nil (E : List (ℕ × ℕ)) (path : List ℕ)
    (ait : ℕ → List (ℕ × ℕ)) (used : Finset ℕ)
    (hait : ∀ x nb eid, (nb, eid) ∈ ait x → eid < E.length) :
    hierholzer E [] path ait used hait = (path, used) := by
  rw [hierholzer.eq_def]

theorem hierholzer_cons_none (E : List (ℕ × ℕ)) (v : ℕ) (srest path : List ℕ)
    (ait : ℕ → List (ℕ × ℕ)) (used : Finset ℕ)
    (hait : ∀ x nb eid, (nb, eid) ∈ ait x → eid < E.length)
    (hait2 : ∀ x nb eid, (nb, eid) ∈ (Function.update ait v []) x → eid < E.length)
    (hs : scanIter used (ait v) = none) :
    hierholzer E (v :: srest) path ait used hait
      = hierholzer E srest (v :: path) (Function.update ait v []) used hait2 := by
  rw [hierholzer.eq_def]
  split
  · rename_i heq
    exact List.noConfusion heq
  · rename_i v2 srest2 heq
    injection heq with h1 h2
    subst h1
    subst h2
    split
    · rfl
    · rename_i eid rest heq2
      rw [hs] at heq2
      exact Option.noConfusion heq2

theorem hierholzer_cons_some (E : List (ℕ × ℕ)) (v : ℕ) (srest path : List ℕ)
    (ait : ℕ → List (ℕ × ℕ)) (used : Finset ℕ) (eid : ℕ) (rest : List (ℕ × ℕ))
    (hait : ∀ x nb eid, (nb, eid) ∈ ait x → eid < E.length)
    (hait2 : ∀ x nb eid2, (nb, eid2) ∈ (Function.update ait v rest) x →
      eid2 < E.length)
    (hs : scanIter used (ait v) = some (eid, rest)) :
    hierholzer E (v :: srest) path ait used hait
      = hierholzer E (hhNeighbor E v eid :: v :: srest) path
          (Function.update ait v rest) (insert eid used) hait2 := by
  rw [hierholzer.eq_def]
  split
  · rename_i heq
    exact List.noConfusion heq
  · rename_i v2 srest2 heq
    injection heq with h1 h2
    subst h1
    subst h2
    split
    · rename_i heq2
      rw [hs] at heq2
      exact Option.noConfusion heq2
    · rename_i eid2 rest2 heq2
      rw [hs, Option.some.injEq, Prod.mk.injEq] at heq2
      obtain ⟨rfl, rfl⟩ := heq2
      rfl

/-- Loop invariant of `hierholzer`: the reversed stack is a trail from
`start`; the output `path`, when nonempty, is a walk glued to the current
top by a pending used edge; together they use each `used` edge once; and
in the unused subgraph every vertex has even degree except the current
top and the pending attachment vertex (`F`, the forced final endpoint,
while the first excursion is still on the stack). -/
def HInv (E : List (ℕ × ℕ)) (start F : ℕ) :
    List ℕ → List ℕ → Finset ℕ → Prop
  | [], path, used =>
      ∃ eids, StepsOK E path eids ∧ eids.Nodup ∧ eids.toFinset = used
        ∧ path.head? = some start
  | v :: srest, [], used =>
      ∃ eids1, StepsOK E ((v :: srest).reverse) eids1 ∧ eids1.Nodup
        ∧ eids1.toFinset = used
        ∧ (v :: srest).getLast? = some start
        ∧ ∀ z, Odd (mgDegRem E used z) ↔ Xor' (v = z) (F = z)
  | v :: srest, p0 :: prest, used =>
      ∃ eids1 A ge eids2,
        StepsOK E ((v :: srest).reverse) eids1
        ∧ (v :: srest).getLast? = some start
        ∧ connects E ge A p0
        ∧ StepsOK E (p0 :: prest) eids2
        ∧ (eids1 ++ ge :: eids2).Nodup
        ∧ (eids1 ++ ge :: eids2).toFinset = used
        ∧ ∀ z, Odd (mgDegRem E used z) ↔ Xor' (v = z) (A = z)

end DSA

namespace DSA

/-- Running `hierholzer` from any state satisfying the loop invariant
produces a trail from `start` using each recorded edge exactly once, and
every edge left unused has no endpoint on the produced trail. -/
theorem hierholzer_run (E : List (ℕ × ℕ)) (start F : ℕ) :
    ∀ (n : ℕ) (stack path : List ℕ) (ait : ℕ → List (ℕ × ℕ)) (used : Finset ℕ)
      (hait : ∀ x nb eid, (nb, eid) ∈ ait x → eid < E.length),
      2 * (Finset.range E.length \ used).card + stack.length ≤ n →
      (∀ x nb eid, (nb, eid) ∈ mgAdj E x → (nb, eid) ∈ ait x ∨ eid ∈ used) →
      (∀ x nb eid, (nb, eid) ∈ ait x → (nb, eid) ∈ mgAdj E x) →
      (∀ eid ∈ used, eid < E.length) →
      (∀ eid a b, eid ∉ used → connects E eid a b → a ∉ path) →
      HInv E start F stack path used →
      ∃ eids, StepsOK E (hierholzer E stack path ait used hait).1 eids
        ∧ eids.Nodup
        ∧ eids.toFinset = (hierholzer E stack path ait used hait).2
        ∧ (hierholzer E stack path ait used hait).1.head? = some start
        ∧ (∀ eid a b, eid ∉ (hierholzer E stack path ait used hait).2 →
            connects E eid a b → a ∉ (hierholzer E stack path ait used hait).1)
        ∧ ∀ eid ∈ (hierholzer E stack path ait used hait).2, eid < E.length := by
  intro n
  induction n with
  | zero =>
      intro stack path ait used hait hn hIterOK hIterSub hUsedSub hPathDone hInv
      cases stack with
      | nil =>
          rw [hierholzer_nil E path ait used hait]
          obtain ⟨eids, hs, hnd, hset, hhead⟩ := hInv
          exact ⟨eids, hs, hnd, hset, hhead, hPathDone, hUsedSub⟩
      | cons v srest =>
          rw [List.length_cons] at hn
          omega
  | succ n ih =>
      intro stack path ait used hait hn hIterOK hIterSub hUsedSub hPathDone hInv
      cases stack with
      | nil =>
          rw [hierholzer_nil E path ait used hait]
          obtain ⟨eids, hs, hnd, hset, hhead⟩ := hInv
          exact ⟨eids, hs, hnd, hset, hhead, hPathDone, hUsedSub⟩
      | cons v srest =>
          cases hscan : scanIter used (ait v) with
          | none =>
              have hait2 : ∀ x nb eid, (nb, eid) ∈ (Function.update ait v []) x →
                  eid < E.length := by
                intro x nb eid hmem
                by_cases hx : x = v
                · rw [hx, Function.update_same] at hmem
                  simp at hmem
                · rw [Function.update_noteq hx] at hmem
                  exact hait x nb eid hmem
              rw [hierholzer_cons_none E v srest path ait used hait hait2 hscan]
              have hall : ∀ eid2 w2, connects E eid2 v w2 → eid2 ∈ used := by
                intro eid2 w2 hc
                rcases hIterOK v w2 eid2 ((mem_mgAdj E v w2 eid2).2 hc) with hin | hin
                · exact scanIter_none used (ait v) hscan (w2, eid2) hin
                · exact hin
              have hdeg0 : mgDegRem E used v = 0 := mgDegRem_eq_zero E used v hall
              apply ih srest (v :: path) (Function.update ait v []) used hait2
              · rw [List.length_cons] at hn
                omega
              · intro x nb eid hadj
                by_cases hx : x = v
                · subst hx
                  exact Or.inr (hall eid nb ((mem_mgAdj E x nb eid).1 hadj))
                · rw [Function.update_noteq hx]
                  exact hIterOK x nb eid hadj
              · intro x nb eid hmem
                by_cases hx : x = v
                · rw [hx, Function.update_same] at hmem
                  simp at hmem
                · rw [Function.update_noteq hx] at hmem
                  exact hIterSub x nb eid hmem
              · exact hUsedSub
              · intro eid a b hni hc
                rw [List.mem_cons]
                push_neg
                exact ⟨fun ha => hni (hall eid b (ha ▸ hc)),
                  hPathDone eid a b hni hc⟩
              · cases path with
                | nil =>
                    obtain ⟨eids1, hsteps, hnd, hset, hlast, hpar⟩ := hInv
                    have hv := hpar v
                    rw [hdeg0] at hv
                    have hFv : F = v := eq_of_not_xor_refl v _
                      (fun hx => (by decide : ¬Odd 0) (hv.2 hx))
                    cases srest with
                    | nil =>
                        have h1 : eids1 = [] := stepsOK_single E v eids1 hsteps
                        subst h1
                        have hvs : v = start := by
                          rw [List.getLast?_singleton, Option.some.injEq] at hlast
                          exact hlast
                        show ∃ eids, StepsOK E [v] eids ∧ eids.Nodup
                          ∧ eids.toFinset = used ∧ [v].head? = some start
                        refine ⟨[], trivial, List.nodup_nil, hset, ?_⟩
                        rw [List.head?_cons, hvs]
                    | cons w srest2 =>
                        have hrc : (v :: w :: srest2).reverse
                            = (w :: srest2).reverse ++ [v] :=
                          List.reverse_cons v (w :: srest2)
                        rw [hrc] at hsteps
                        obtain ⟨eids1', le, w', heq, hQ, hQlast, hle⟩ :=
                          stepsOK_split_last E ((w :: srest2).reverse) v eids1
                            hsteps (by simp)
                        have hw2 : w = w' := by
                          rw [List.getLast?_reverse, List.head?_cons,
                            Option.some.injEq] at hQlast
                          exact hQlast
                        subst hw2
                        rw [List.getLast?_cons_cons] at hlast
                        rw [heq] at hnd hset
                        refine ⟨eids1', w, le, [], hQ, hlast, hle, trivial,
                          hnd, hset, ?_⟩
                        intro z
                        have hz := hpar z
                        rw [hFv] at hz
                        constructor
                        · intro ho
                          exact absurd (hz.1 ho) (xor_self_false _)
                        · intro hx
                          exact absurd hx (xor_self_false _)
                | cons p0 prest =>
                    obtain ⟨eids1, A, ge, eids2, hsteps, hlast, hglue, hsteps2,
                      hnd, hset, hpar⟩ := hInv
                    have hv := hpar v
                    rw [hdeg0] at hv
                    have hAv : A = v := eq_of_not_xor_refl v _
                      (fun hx => (by decide : ¬Odd 0) (hv.2 hx))
                    cases srest with
                    | nil =>
                        have h1 : eids1 = [] := stepsOK_single E v eids1 hsteps
                        subst h1
                        have hvs : v = start := by
                          rw [List.getLast?_singleton, Option.some.injEq] at hlast
                          exact hlast
                        show ∃ eids, StepsOK E (v :: p0 :: prest) eids ∧ eids.Nodup
                          ∧ eids.toFinset = used
                          ∧ (v :: p0 :: prest).head? = some start
                        refine ⟨ge :: eids2, ⟨hAv ▸ hglue, hsteps2⟩, hnd, hset, ?_⟩
                        rw [List.head?_cons, hvs]
                    | cons w srest2 =>
                        have hrc : (v :: w :: srest2).reverse
                            = (w :: srest2).reverse ++ [v] :=
                          List.reverse_cons v (w :: srest2)
                        rw [hrc] at hsteps
                        obtain ⟨eids1', le, w', heq, hQ, hQlast, hle⟩ :=
                          stepsOK_split_last E ((w :: srest2).reverse) v eids1
                            hsteps (by simp)
                        have hw2 : w = w' := by
                          rw [List.getLast?_reverse, List.head?_cons,
                            Option.some.injEq] at hQlast
                          exact hQlast
                        subst hw2
                        rw [List.getLast?_cons_cons] at hlast
                        rw [heq, List.append_assoc] at hnd hset
                        refine ⟨eids1', w, le, ge :: eids2, hQ, hlast, hle,
                          ⟨hAv ▸ hglue, hsteps2⟩, hnd, hset, ?_⟩
                        intro z
                        have hz := hpar z
                        rw [hAv] at hz
                        constructor
                        · intro ho
                          exact absurd (hz.1 ho) (xor_self_false _)
                        · intro hx
                          exact absurd hx (xor_self_false _)
          | some pr =>
              obtain ⟨eid0, rest⟩ := pr
              obtain ⟨hnotused, ⟨nb0, hnb0⟩, hrest_sub⟩ :=
                scanIter_some used (ait v) eid0 rest hscan
              have hc0 : connects E eid0 v nb0 :=
                (mem_mgAdj E v nb0 eid0).1 (hIterSub v nb0 eid0 hnb0)
              have hcw : connects E eid0 v (hhNeighbor E v eid0) :=
                hhNeighbor_connects E eid0 v nb0 hc0
              have heidlt : eid0 < E.length := hait v nb0 eid0 hnb0
              have hait2 : ∀ x nb eid2, (nb, eid2) ∈ (Function.update ait v rest) x →
                  eid2 < E.length := by
                intro x nb eid2 hmem
                by_cases hx : x = v
                · rw [hx, Function.update_same] at hmem
                  exact hait v nb eid2 (hrest_sub _ hmem)
                · rw [Function.update_noteq hx] at hmem
                  exact hait x nb eid2 hmem
              rw [hierholzer_cons_some E v srest path ait used eid0 rest hait
                hait2 hscan]
              have hcard : (Finset.range E.length \ insert eid0 used).card
                  < (Finset.range E.length \ used).card := by
                apply Finset.card_lt_card
                constructor
                · exact Finset.sdiff_subset_sdiff (Finset.Subset.refl _)
                    (Finset.subset_insert _ _)
                · intro hcon
                  have h2 := hcon (Finset.mem_sdiff.2
                    ⟨Finset.mem_range.2 heidlt, hnotused⟩)
                  rw [Finset.mem_sdiff] at h2
                  exact h2.2 (Finset.mem_insert_self _ _)
              apply ih (hhNeighbor E v eid0 :: v :: srest) path
                (Function.update ait v rest) (insert eid0 used) hait2
              · rw [List.length_cons] at hn
                rw [List.length_cons, List.length_cons]
                omega
              · intro x nb eid2 hadj
                by_cases hx : x = v
                · subst hx
                  rcases hIterOK x nb eid2 hadj with hin | hin
                  · rcases scanIter_some_cover used (ait x) eid0 rest hscan _ hin
                      with hr | hr
                    · rw [Function.update_same]
                      exact Or.inl hr
                    · exact Or.inr hr
                  · exact Or.inr (Finset.mem_insert_of_mem hin)
                · rw [Function.update_noteq hx]
                  rcases hIterOK x nb eid2 hadj with hin | hin
                  · exact Or.inl hin
                  · exact Or.inr (Finset.mem_insert_of_mem hin)
              · intro x nb eid2 hmem
                by_cases hx : x = v
                · subst hx
                  rw [Function.update_same] at hmem
                  exact hIterSub x nb eid2 (hrest_sub _ hmem)
                · rw [Function.update_noteq hx] at hmem
                  exact hIterSub x nb eid2 hmem
              · intro eid2 hmem
                rcases Finset.mem_insert.1 hmem with rfl | hmem2
                · exact heidlt
                · exact hUsedSub eid2 hmem2
              · intro eid2 a b hni hc
                exact hPathDone eid2 a b
                  (fun hc2 => hni (Finset.mem_insert_of_mem hc2)) hc
              · cases path with
                | nil =>
                    obtain ⟨eids1, hsteps, hnd, hset, hlast, hpar⟩ := hInv
                    have hfresh : eid0 ∉ eids1 := fun hcq =>
                      hnotused (hset ▸ List.mem_toFinset.2 hcq)
                    refine ⟨eids1 ++ [eid0], ?_, ?_, ?_, ?_, ?_⟩
                    · have hrc : (hhNeighbor E v eid0 :: v :: srest).reverse
                          = (v :: srest).reverse ++ [hhNeighbor E v eid0] :=
                        List.reverse_cons _ (v :: srest)
                      rw [hrc]
                      apply stepsOK_snoc E _ _ v _ eid0 hsteps _ hcw
                      rw [List.getLast?_reverse]
                      rfl
                    · rw [List.nodup_append]
                      refine ⟨hnd, List.nodup_singleton _, ?_⟩
                      intro a ha hb
                      rw [List.mem_singleton] at hb
                      subst hb
                      exact hfresh ha
                    · rw [List.toFinset_append, hset]
                      ext a
                      simp [Finset.mem_union, Finset.mem_insert]
                      tauto
                    · rw [List.getLast?_cons_cons]
                      exact hlast
                    · intro z
                      have hz := hpar z
                      have hins := mgDegRem_insert E used eid0
                        (Finset.mem_range.2 heidlt) hnotused z
                      rcases hcw with hg | hg
                      · rw [getD_of_get E eid0 _ hg] at hins
                        rw [hins] at hz
                        exact parity_step _ (v = z) (hhNeighbor E v eid0 = z)
                          (F = z) hz
                      · rw [getD_of_get E eid0 _ hg] at hins
                        rw [edgeInc_swap z _ _] at hins
                        rw [hins] at hz
                        exact parity_step _ (v = z) (hhNeighbor E v eid0 = z)
                          (F = z) hz
                | cons p0 prest =>
                    obtain ⟨eids1, A, ge, eids2, hsteps, hlast, hglue, hsteps2,
                      hnd, hset, hpar⟩ := hInv
                    have hfresh : eid0 ∉ eids1 ++ ge :: eids2 := fun hcq =>
                      hnotused (hset ▸ List.mem_toFinset.2 hcq)
                    have hperm : List.Perm ((eids1 ++ [eid0]) ++ ge :: eids2)
                        (eid0 :: (eids1 ++ ge :: eids2)) := by
                      rw [List.append_assoc]
                      exact List.perm_middle
                    refine ⟨eids1 ++ [eid0], A, ge, eids2, ?_, ?_, hglue,
                      hsteps2, ?_, ?_, ?_⟩
                    · have hrc : (hhNeighbor E v eid0 :: v :: srest).reverse
                          = (v :: srest).reverse ++ [hhNeighbor E v eid0] :=
                        List.reverse_cons _ (v :: srest)
                      rw [hrc]
                      apply stepsOK_snoc E _ _ v _ eid0 hsteps _ hcw
                      rw [List.getLast?_reverse]
                      rfl
                    · rw [List.getLast?_cons_cons]
                      exact hlast
                    · rw [hperm.nodup_iff]
                      exact List.nodup_cons.2 ⟨hfresh, hnd⟩
                    · rw [List.toFinset_eq_of_perm _ _ hperm, List.toFinset_cons, hset]
                    · intro z
                      have hz := hpar z
                      have hins := mgDegRem_insert E used eid0
                        (Finset.mem_range.2 heidlt) hnotused z
                      rcases hcw with hg | hg
                      · rw [getD_of_get E eid0 _ hg] at hins
                        rw [hins] at hz
                        exact parity_step _ (v = z) (hhNeighbor E v eid0 = z)
                          (A = z) hz
                      · rw [getD_of_get E eid0 _ hg] at hins
                        rw [edgeInc_swap z _ _] at hins
                        rw [hins] at hz
                        exact parity_step _ (v = z) (hhNeighbor E v eid0 = z)
                          (A = z) hz

end DSA

namespace DSA

theorem stepsOK_edge_sum (E : List (ℕ × ℕ)) (z : ℕ) :
    ∀ (W : List ℕ) (eids : List ℕ), StepsOK E W eids →
      (eids.map (fun eid => edgeInc z (E.getD eid (0, 0)))).sum = walkInc z W := by
  intro W
  induction W with
  | nil => intro eids h; exact absurd (stepsOK_ne_nil E [] eids h) (by simp)
  | cons a W2 ih =>
      intro eids h
      cases W2 with
      | nil =>
          rw [stepsOK_single E a eids h]
          rfl
      | cons b W3 =>
          cases eids with
          | nil => exact absurd h (by simp [StepsOK])
          | cons e es =>
              obtain ⟨hc, hrest⟩ := h
              rw [List.map_cons, List.sum_cons]
              show _ = ((if a = z then 1 else 0) + (if b = z then 1 else 0))
                + walkInc z (b :: W3)
              rw [ih es hrest]
              rcases hc with hg | hg
              · rw [getD_of_get E e _ hg]
                rfl
              · rw [getD_of_get E e _ hg, edgeInc_swap z b a]
                rfl

theorem parity_unstep (r : ℕ) (pv pw pA : Prop) [Decidable pv] [Decidable pw]
    [Decidable pA] (h : Odd r ↔ Xor' pw pA) :
    Odd (r + ((if pv then 1 else 0) + (if pw then 1 else 0))) ↔ Xor' pv pA := by
  by_cases hv : pv <;> by_cases hw : pw <;> by_cases hA : pA <;>
    simp [hv, hw, hA, Xor', Nat.odd_add, Nat.odd_iff, Nat.even_iff] at h ⊢ <;>
    omega

theorem walkInc_parity (z : ℕ) :
    ∀ (vs : List ℕ) (a L : ℕ), (a :: vs).getLast? = some L →
      (Odd (walkInc z (a :: vs)) ↔ Xor' (a = z) (L = z)) := by
  intro vs
  induction vs with
  | nil =>
      intro a L hL
      rw [List.getLast?_singleton, Option.some.injEq] at hL
      subst hL
      constructor
      · intro h
        have h0 : walkInc z [a] = 0 := rfl
        rw [h0] at h
        exact absurd h (by decide)
      · intro h
        exact absurd h (xor_self_false _)
  | cons b vs2 ih =>
      intro a L hL
      rw [List.getLast?_cons_cons] at hL
      show Odd (((if a = z then 1 else 0) + (if b = z then 1 else 0))
        + walkInc z (b :: vs2)) ↔ Xor' (a = z) (L = z)
      rw [Nat.add_comm]
      exact parity_unstep _ (a = z) (b = z) (L = z) (ih b L hL)

theorem mgDeg_eq_range_sum (E : List (ℕ × ℕ)) (z : ℕ) :
    mgDeg E z = ∑ i ∈ Finset.range E.length, edgeInc z (E.getD i (0, 0)) := by
  rw [← mgDegRem_empty]
  unfold mgDegRem
  rw [Finset.sdiff_empty]

/-- A walk whose edge list enumerates all edge ids realises the full
degree of each vertex. -/
theorem cover_deg_eq_walkInc (E : List (ℕ × ℕ)) (W eids : List ℕ) (z : ℕ)
    (hs : StepsOK E W eids) (hnd : eids.Nodup)
    (hset : eids.toFinset = Finset.range E.length) :
    mgDeg E z = walkInc z W := by
  rw [mgDeg_eq_range_sum, ← hset,
    List.sum_toFinset _ hnd, stepsOK_edge_sum E z W eids hs]

theorem connects_common (E : List (ℕ × ℕ)) (eid w y a2 b2 : ℕ)
    (h1 : connects E eid w y) (h2 : connects E eid a2 b2) :
    y = a2 ∨ y = b2 := by
  rcases h1 with h1 | h1 <;> rcases h2 with h2 | h2 <;>
    rw [h1, Option.some.injEq, Prod.mk.injEq] at h2
  · exact Or.inr h2.2
  · exact Or.inl h2.2
  · exact Or.inl h2.1
  · exact Or.inr h2.1

/-- The start vertex chosen by `find_euler_undirected`. -/
def eulerStart (E : List (ℕ × ℕ)) : ℕ :=
  match oddVerts E with
  | o :: _ => o
  | [] => (E.flatMap (fun e => [e.1, e.2])).headI

/-- The Hierholzer run performed by `find_euler_undirected`. -/
def eulerRun (E : List (ℕ × ℕ)) : List ℕ × Finset ℕ :=
  hierholzer E [eulerStart E] [] (mgAdj E) ∅
    (fun x nb eid hmem => by
      have h := (mem_mgAdj E x nb eid).1 hmem
      rcases h with h | h
      · exact (List.get?_eq_some.1 h).1
      · exact (List.get?_eq_some.1 h).1)

theorem flatMap_endpoints_eq_nil (E : List (ℕ × ℕ)) :
    E.flatMap (fun e => [e.1, e.2]) = [] ↔ E = [] := by
  cases E with
  | nil => simp
  | cons e E2 => simp [List.flatMap_cons]

theorem find_euler_noedges (E : List (ℕ × ℕ))
    (hE : E.flatMap (fun e => [e.1, e.2]) = []) :
    find_euler_undirected E = (none, "Graph has no edges.") := by
  simp only [find_euler_undirected]
  rw [if_pos hE]

theorem find_euler_oddbad (E : List (ℕ × ℕ))
    (hE : ¬E.flatMap (fun e => [e.1, e.2]) = [])
    (hodd : ¬((oddVerts E).length = 0 ∨ (oddVerts E).length = 2)) :
    find_euler_undirected E
      = (none, "No Euler path/circuit: " ++ toString (oddVerts E).length
          ++ " vertices have odd degree.") := by
  simp only [find_euler_undirected]
  have hfold : (dedupFirst (E.flatMap (fun e => [e.1, e.2])) []).filter
      (fun n => mgDeg E n % 2 = 1) = oddVerts E := rfl
  rw [hfold, if_neg hE, if_neg hodd]

theorem find_euler_run (E : List (ℕ × ℕ))
    (hE : ¬E.flatMap (fun e => [e.1, e.2]) = [])
    (hodd : (oddVerts E).length = 0 ∨ (oddVerts E).length = 2) :
    find_euler_undirected E
      = if (List.range E.length).all (fun eid => decide (eid ∈ (eulerRun E).2))
        then (some (eulerRun E).1, "Euler path/circuit found.")
        else (none, "Graph is disconnected: some edges not reachable.") := by
  simp only [find_euler_undirected]
  have hfold : (dedupFirst (E.flatMap (fun e => [e.1, e.2])) []).filter
      (fun n => mgDeg E n % 2 = 1) = oddVerts E := rfl
  rw [hfold, if_neg hE, if_pos hodd]
  rfl

end DSA

namespace DSA

theorem getLast?_cons_exists (a : ℕ) (vs : List ℕ) :
    ∃ L, (a :: vs).getLast? = some L := by
  induction vs generalizing a with
  | nil => exact ⟨a, rfl⟩
  | cons b vs2 ih =>
      obtain ⟨L, hL⟩ := ih b
      exact ⟨L, by rw [List.getLast?_cons_cons]; exact hL⟩

theorem eulerRun_spec (E : List (ℕ × ℕ)) (F : ℕ)
    (hpar : ∀ z, Odd (mgDeg E z) ↔ Xor' (eulerStart E = z) (F = z)) :
    ∃ eids, StepsOK E (eulerRun E).1 eids ∧ eids.Nodup
      ∧ eids.toFinset = (eulerRun E).2
      ∧ (eulerRun E).1.head? = some (eulerStart E)
      ∧ (∀ eid a b, eid ∉ (eulerRun E).2 → connects E eid a b →
          a ∉ (eulerRun E).1)
      ∧ ∀ eid ∈ (eulerRun E).2, eid < E.length := by
  unfold eulerRun
  apply hierholzer_run E (eulerStart E) F (2 * E.length + 1) [eulerStart E] []
    (mgAdj E) ∅ _
  · rw [Finset.sdiff_empty, Finset.card_range, List.length_singleton]
  · intro x nb eid h
    exact Or.inl h
  · intro x nb eid h
    exact h
  · intro eid h
    exact absurd h (Finset.not_mem_empty _)
  · intro eid a b h hc
    simp
  · refine ⟨[], trivial, List.nodup_nil, rfl, rfl, ?_⟩
    intro z
    rw [mgDegRem_empty]
    exact hpar z

theorem euler_parity_even (E : List (ℕ × ℕ)) (h0 : (oddVerts E).length = 0) :
    ∀ z, Odd (mgDeg E z) ↔ Xor' (eulerStart E = z) (eulerStart E = z) := by
  intro z
  constructor
  · intro ho
    have hm : z ∈ oddVerts E := (mem_oddVerts E z).2 ho
    rw [List.length_eq_zero.1 h0] at hm
    simp at hm
  · intro hx
    exact absurd hx (xor_self_false _)

theorem euler_parity_odd2 (E : List (ℕ × ℕ)) (o1 o2 : ℕ)
    (ho : oddVerts E = [o1, o2]) :
    ∀ z, Odd (mgDeg E z) ↔ Xor' (o1 = z) (o2 = z) := by
  have hnd := nodup_oddVerts E
  rw [ho] at hnd
  have hne : o1 ≠ o2 := by
    rw [List.nodup_cons] at hnd
    intro hc
    exact hnd.1 (by rw [hc]; exact List.mem_cons_self _ _)
  intro z
  rw [← mem_oddVerts, ho]
  constructor
  · intro hmem
    have hz : z = o1 ∨ z = o2 := by simpa using hmem
    rcases hz with rfl | rfl
    · exact Or.inl ⟨rfl, fun h2 => hne h2.symm⟩
    · exact Or.inr ⟨rfl, hne⟩
  · intro hx
    rcases hx with ⟨h1, _⟩ | ⟨h2, _⟩
    · rw [← h1]
      simp
    · rw [← h2]
      simp

theorem eulerStart_odd2 (E : List (ℕ × ℕ)) (o1 o2 : ℕ)
    (ho : oddVerts E = [o1, o2]) : eulerStart E = o1 := by
  unfold eulerStart
  rw [ho]

theorem eulerStart_mem (E : List (ℕ × ℕ)) (hE : E ≠ []) :
    eulerStart E ∈ E.flatMap (fun e => [e.1, e.2]) := by
  unfold eulerStart
  cases ho : oddVerts E with
  | nil =>
      cases E with
      | nil => exact absurd rfl hE
      | cons e E2 =>
          rw [List.flatMap_cons]
          exact List.mem_append_left _ (List.mem_cons_self _ _)
  | cons o os =>
      have hm : o ∈ oddVerts E := by
        rw [ho]
        exact List.mem_cons_self _ _
      have hodd := (mem_oddVerts E o).1 hm
      show o ∈ E.flatMap (fun e => [e.1, e.2])
      apply mgDeg_pos_mem_endpoints
      rcases hodd with ⟨k, hk⟩
      omega

end DSA

namespace DSA

/-- C4: `EulerFinder.find_euler_undirected` returns `(None, message)` exactly
when the multigraph has no edges, when the number of odd-degree vertices is
neither 0 nor 2, or when not all edges lie in one connected component;
otherwise it returns a vertex sequence that traverses every edge exactly once
(a trail whose edge ids enumerate all edge ids without repetition), starting
at an odd-degree vertex when two exist (an Euler path) and otherwise starting
and ending at the same vertex (an Euler circuit). -/
theorem c4_euler_finder (E : List (ℕ × ℕ)) :
    ((find_euler_undirected E).1 = none ↔
      (E = [] ∨ ((oddVerts E).length ≠ 0 ∧ (oddVerts E).length ≠ 2)
        ∨ ¬EdgesConnected E))
    ∧ ∀ W, (find_euler_undirected E).1 = some W →
        (∃ eids, StepsOK E W eids ∧ eids.Nodup
          ∧ eids.toFinset = Finset.range E.length)
        ∧ W.head? = some (eulerStart E)
        ∧ ((oddVerts E).length = 2 → ∃ v, W.head? = some v ∧ Odd (mgDeg E v))
        ∧ ((oddVerts E).length = 0 → W.head? = W.getLast?) := by
  by_cases hE : E = []
  · subst hE
    have hfind := find_euler_noedges [] (by simp)
    constructor
    · rw [hfind]
      constructor
      · intro _
        exact Or.inl rfl
      · intro _
        rfl
    · intro W hW
      rw [hfind] at hW
      exact Option.noConfusion hW
  · have hnwe : ¬E.flatMap (fun e => [e.1, e.2]) = [] :=
      fun h => hE ((flatMap_endpoints_eq_nil E).1 h)
    by_cases hodd : (oddVerts E).length = 0 ∨ (oddVerts E).length = 2
    · have hP : ∃ F, (∀ z, Odd (mgDeg E z) ↔ Xor' (eulerStart E = z) (F = z))
          ∧ ((oddVerts E).length = 2 → eulerStart E ∈ oddVerts E) := by
        rcases hodd with h0 | h2
        · refine ⟨eulerStart E, euler_parity_even E h0, ?_⟩
          intro hc
          rw [h0] at hc
          exact absurd hc (by decide)
        · obtain ⟨o1, o2, ho⟩ := List.length_eq_two.1 h2
          have hs1 : eulerStart E = o1 := eulerStart_odd2 E o1 o2 ho
          refine ⟨o2, ?_, ?_⟩
          · intro z
            rw [hs1]
            exact euler_parity_odd2 E o1 o2 ho z
          · intro _
            rw [hs1, ho]
            exact List.mem_cons_self _ _
      obtain ⟨F, hparity, hstartodd⟩ := hP
      obtain ⟨eids, hsteps, hnd, hset, hhead, hdone, hlt⟩ := eulerRun_spec E F hparity
      have hfind := find_euler_run E hnwe hodd
      by_cases hcheck : ((List.range E.length).all
          (fun eid => decide (eid ∈ (eulerRun E).2))) = true
      · rw [if_pos hcheck] at hfind
        have hrange : (eulerRun E).2 = Finset.range E.length := by
          apply Finset.Subset.antisymm
          · intro a ha
            exact Finset.mem_range.2 (hlt a ha)
          · intro a ha
            have h2 := List.all_eq_true.1 hcheck a
              (List.mem_range.2 (Finset.mem_range.1 ha))
            simpa using h2
        have hmemW : ∀ e ∈ E, e.1 ∈ (eulerRun E).1 := by
          intro e he
          obtain ⟨i, hi⟩ := List.mem_iff_get?.1 he
          have hir : i ∈ eids := by
            rw [← List.mem_toFinset, hset, hrange]
            exact Finset.mem_range.2 (List.get?_eq_some.1 hi).1
          obtain ⟨a2, b2, hc2, ha2, hb2⟩ :=
            stepsOK_edge_mem E _ eids hsteps i hir
          have hce : connects E i e.1 e.2 := Or.inl (by rw [Prod.mk.eta]; exact hi)
          rcases connects_common E i e.2 e.1 a2 b2 hce.symm hc2 with h | h
          · rw [h]
            exact ha2
          · rw [h]
            exact hb2
        constructor
        · rw [hfind]
          constructor
          · intro hnone
            exact Option.noConfusion hnone
          · intro hD
            exfalso
            rcases hD with hD | hD | hD
            · exact hE hD
            · rcases hodd with h0 | h2
              · exact hD.1 h0
              · exact hD.2 h2
            · apply hD
              intro e1 he1 e2 he2
              have hr := mreach_of_mem_walk E (eulerRun E).1 eids hsteps
                (eulerStart E) hhead
              exact mreach_trans E _ _ _
                (mreach_symm E _ _ (hr e1.1 (hmemW e1 he1))) (hr e2.1 (hmemW e2 he2))
        · intro W hW
          rw [hfind] at hW
          have hWr : W = (eulerRun E).1 := (Option.some.inj hW).symm
          subst hWr
          refine ⟨⟨eids, hsteps, hnd, by rw [hset, hrange]⟩, hhead, ?_, ?_⟩
          · intro h2
            exact ⟨eulerStart E, hhead, (mem_oddVerts E _).1 (hstartodd h2)⟩
          · intro h0
            cases hWnil : (eulerRun E).1 with
            | nil =>
                rw [hWnil] at hhead
                exact Option.noConfusion hhead
            | cons a vs =>
                rw [hWnil] at hhead hsteps
                rw [List.head?_cons, Option.some.injEq] at hhead
                obtain ⟨L, hL⟩ := getLast?_cons_exists a vs
                have hdeg : mgDeg E a = walkInc a (a :: vs) :=
                  cover_deg_eq_walkInc E (a :: vs) eids a hsteps hnd
                    (hset.trans hrange)
                have hnotodd : ¬Odd (mgDeg E a) := by
                  intro ho
                  have hm : a ∈ oddVerts E := (mem_oddVerts E a).2 ho
                  rw [List.length_eq_zero.1 h0] at hm
                  simp at hm
                rw [hdeg] at hnotodd
                have hparW := walkInc_parity a vs a L hL
                have hLa : L = a := by
                  by_cases hq : L = a
                  · exact hq
                  · exfalso
                    exact hnotodd (hparW.2 (Or.inl ⟨rfl, hq⟩))
                rw [List.head?_cons, hL, hLa]
      · rw [if_neg hcheck] at hfind
        constructor
        · rw [hfind]
          constructor
          · intro _
            refine Or.inr (Or.inr ?_)
            intro hEC
            have hex : ∃ eid, eid < E.length ∧ eid ∉ (eulerRun E).2 := by
              by_contra hno
              push_neg at hno
              apply hcheck
              rw [List.all_eq_true]
              intro eid hmem
              rw [List.mem_range] at hmem
              simpa using hno eid hmem
            obtain ⟨eidb, hbl, hbn⟩ := hex
            have hbe : E.get? eidb = some (E.get ⟨eidb, hbl⟩) :=
              List.get?_eq_get hbl
            have hcb : connects E eidb (E.get ⟨eidb, hbl⟩).1
                (E.get ⟨eidb, hbl⟩).2 := Or.inl (by rw [Prod.mk.eta]; exact hbe)
            have hbnotW : (E.get ⟨eidb, hbl⟩).1 ∉ (eulerRun E).1 :=
              hdone eidb _ _ hbn hcb
            obtain ⟨eid1, w1, hc1⟩ := mem_endpoints_edge E _ (eulerStart_mem E hE)
            have hstartW : eulerStart E ∈ (eulerRun E).1 := by
              cases hWnil : (eulerRun E).1 with
              | nil =>
                  rw [hWnil] at hhead
                  exact Option.noConfusion hhead
              | cons a vs =>
                  rw [hWnil] at hhead
                  rw [List.head?_cons, Option.some.injEq] at hhead
                  rw [← hhead]
                  exact List.mem_cons_self _ _
            have hclosed : ∀ w y eid, w ∈ (eulerRun E).1 → connects E eid w y →
                y ∈ (eulerRun E).1 := by
              intro w y eid hw hc
              by_cases hu : eid ∈ (eulerRun E).2
              · have hie : eid ∈ eids := by
                  rw [← List.mem_toFinset, hset]
                  exact hu
                obtain ⟨a2, b2, hc2, ha2, hb2⟩ :=
                  stepsOK_edge_mem E _ eids hsteps eid hie
                rcases connects_common E eid w y a2 b2 hc hc2 with h | h
                · rw [h]
                  exact ha2
                · rw [h]
                  exact hb2
              · exact absurd hw (hdone eid w y hu hc)
            have hl1 : eid1 < E.length := by
              rcases hc1 with h | h
              · exact (List.get?_eq_some.1 h).1
              · exact (List.get?_eq_some.1 h).1
            have he1 : E.get? eid1 = some (E.get ⟨eid1, hl1⟩) :=
              List.get?_eq_get hl1
            have he11 : (E.get ⟨eid1, hl1⟩).1 ∈ (eulerRun E).1 := by
              rcases hc1 with h | h
              · have hq : E.get ⟨eid1, hl1⟩ = (eulerStart E, w1) := by
                  rw [← Option.some.injEq, ← he1, h]
                rw [hq]
                exact hstartW
              · have hq : E.get ⟨eid1, hl1⟩ = (w1, eulerStart E) := by
                  rw [← Option.some.injEq, ← he1, h]
                rw [hq]
                exact hclosed (eulerStart E) w1 eid1 hstartW (Or.inr h)
            have hreach := hEC (E.get ⟨eid1, hl1⟩) (List.get_mem E eid1 hl1)
              (E.get ⟨eidb, hbl⟩) (List.get_mem E eidb hbl)
            obtain ⟨W2, eidsw, hh2, hl2w, hs2w⟩ := hreach
            exact hbnotW (mreach_closed E (eulerRun E).1 hclosed W2 eidsw hs2w
              _ hh2 he11 _ hl2w)
          · intro _
            rfl
        · intro W hW
          rw [hfind] at hW
          exact Option.noConfusion hW
    · have hfind := find_euler_oddbad E hnwe hodd
      push_neg at hodd
      constructor
      · rw [hfind]
        constructor
        · intro _
          exact Or.inr (Or.inl hodd)
        · intro _
          rfl
      · intro W hW
        rw [hfind] at hW
        exact Option.noConfusion hW

end DSA

namespace DSA

/-! ## Tarjan strongly connected components (C3)

`tarjan_scc` takes a dict mapping node → iterable of neighbours.  The
dict is modelled as an association list (first binding wins, as
`graph.get`); `index_map`/`lowlink` are total functions together with
the key set `dom`; the Python stack grows at the head here. -/

/-- `graph.get(v, [])`. -/
def gGet : List (ℕ × List ℕ) → ℕ → List ℕ
  | [], _ => []
  | (k, ns) :: rest, v => if v = k then ns else gGet rest v

def gKeys (g : List (ℕ × List ℕ)) : List ℕ := g.map (fun p => p.1)

/-- All nodes occurring in the graph: keys and neighbours. -/
def tjNodes (g : List (ℕ × List ℕ)) : List ℕ :=
  gKeys g ++ (gKeys g).flatMap (fun k => gGet g k)

def tjNodesF (g : List (ℕ × List ℕ)) : Finset ℕ := (tjNodes g).toFinset

/-- Directed walk along `graph.get` neighbour lists. -/
def DWalkOK (g : List (ℕ × List ℕ)) : List ℕ → Prop
  | [] => False
  | [_] => True
  | a :: b :: t => b ∈ gGet g a ∧ DWalkOK g (b :: t)

/-- `y` is reachable from `x` by a directed walk. -/
def DReach (g : List (ℕ × List ℕ)) (x y : ℕ) : Prop :=
  ∃ W, DWalkOK g W ∧ W.head? = some x ∧ W.getLast? = some y

/-- The interpreter state of `tarjan_scc`. -/
structure TjSt where
  idx : ℕ
  num : ℕ → ℕ
  dom : Finset ℕ
  low : ℕ → ℕ
  stack : List ℕ
  onstack : Finset ℕ
  sccs : List (List ℕ)

/-- The `while True:` pop loop generating one SCC: returns the popped
segment (in pop order) and the remaining stack. -/
def popScc : List ℕ → ℕ → List ℕ × List ℕ
  | [], _ => ([], [])
  | w :: rest, v =>
      if w = v then ([w], rest)
      else ((w :: (popScc rest v).1), (popScc rest v).2)

/-- Union of the finished components. -/
def sccsSet (l : List (List ℕ)) : Finset ℕ :=
  l.foldr (fun C s => C.toFinset ∪ s) ∅

theorem mem_sccsSet (l : List (List ℕ)) (x : ℕ) :
    x ∈ sccsSet l ↔ ∃ C ∈ l, x ∈ C := by
  induction l with
  | nil => simp [sccsSet]
  | cons C rest ih =>
      show x ∈ C.toFinset ∪ sccsSet rest ↔ _
      rw [Finset.mem_union, ih]
      simp

theorem gGet_subset_tjNodes (g : List (ℕ × List ℕ)) (v : ℕ) :
    ∀ z ∈ gGet g v, z ∈ tjNodesF g := by
  intro z hz
  unfold tjNodesF tjNodes
  rw [List.mem_toFinset, List.mem_append]
  right
  rw [List.mem_flatMap]
  refine ⟨v, ?_, hz⟩
  · -- v must be a key, else gGet g v = []
    induction g with
    | nil => simp [gGet] at hz
    | cons p rest ih =>
        obtain ⟨k, ns⟩ := p
        rw [show gGet ((k, ns) :: rest) v = if v = k then ns else gGet rest v
          from rfl] at hz
        by_cases hv : v = k
        · rw [hv]
          exact List.mem_cons_self _ _
        · rw [if_neg hv] at hz
          exact List.mem_cons_of_mem _ (ih hz)

mutual

/-- One call of the inner `strongconnect`. -/
def strongconnect (g : List (ℕ × List ℕ)) (v : ℕ) (st : TjSt)
    (hdom : st.dom ⊆ tjNodesF g) (hv : v ∈ tjNodesF g) (hnv : v ∉ st.dom) :
    {st' : TjSt // st.dom ⊆ st'.dom ∧ v ∈ st'.dom ∧ st'.dom ⊆ tjNodesF g} :=
  let st0 : TjSt := ⟨st.idx + 1, Function.update st.num v st.idx,
    insert v st.dom, Function.update st.low v st.idx, v :: st.stack,
    insert v st.onstack, st.sccs⟩
  let r := scLoop g v (gGet g v) st0
    (by
      show insert v st.dom ⊆ tjNodesF g
      exact Finset.insert_subset hv hdom)
    (gGet_subset_tjNodes g v)
  if r.1.low v = r.1.num v then
    let st2 : TjSt := { r.1 with
      stack := (popScc (r.1).stack v).2
      onstack := (r.1).onstack \ (popScc (r.1).stack v).1.toFinset
      sccs := (r.1).sccs ++ [(popScc (r.1).stack v).1] }
    ⟨st2, by
      refine ⟨?_, ?_, ?_⟩
      · exact Finset.Subset.trans (Finset.subset_insert _ _) r.2.1
      · exact r.2.1 (Finset.mem_insert_self _ _)
      · exact r.2.2⟩
  else
    ⟨r.1, by
      refine ⟨?_, ?_, ?_⟩
      · exact Finset.Subset.trans (Finset.subset_insert _ _) r.2.1
      · exact r.2.1 (Finset.mem_insert_self _ _)
      · exact r.2.2⟩
termination_by ((tjNodesF g \ st.dom).card, 0, 0)
decreasing_by
· apply Prod.Lex.left
  have hmem : v ∈ tjNodesF g \ st.dom := Finset.mem_sdiff.2 ⟨hv, hnv⟩
  have hsub : tjNodesF g \ insert v st.dom ⊂ tjNodesF g \ st.dom := by
    constructor
    · exact Finset.sdiff_subset_sdiff (Finset.Subset.refl _)
        (Finset.subset_insert _ _)
    · intro hcon
      have h2 := hcon hmem
      rw [Finset.mem_sdiff] at h2
      exact h2.2 (Finset.mem_insert_self _ _)
  exact Finset.card_lt_card hsub

/-- The `for w in graph.get(v, []):` loop of `strongconnect`. -/
def scLoop (g : List (ℕ × List ℕ)) (v : ℕ) :
    (l : List ℕ) → (st : TjSt) → (st.dom ⊆ tjNodesF g) →
    (∀ w ∈ l, w ∈ tjNodesF g) →
    {st' : TjSt // st.dom ⊆ st'.dom ∧ st'.dom ⊆ tjNodesF g}
  | [], st, hdom, _ => ⟨st, Finset.Subset.refl _, hdom⟩
  | w :: rest, st, hdom, hl =>
      if hw : w ∈ st.dom then
        if w ∈ st.onstack then
          let st2 : TjSt := { st with
            low := Function.update st.low v (min (st.low v) (st.num w)) }
          let r := scLoop g v rest st2 hdom
            (fun z hz => hl z (List.mem_cons_of_mem _ hz))
          ⟨r.1, r.2.1, r.2.2⟩
        else
          let r := scLoop g v rest st hdom
            (fun z hz => hl z (List.mem_cons_of_mem _ hz))
          ⟨r.1, r.2.1, r.2.2⟩
      else
        let r := strongconnect g w st hdom (hl w (List.mem_cons_self _ _)) hw
        let st2 : TjSt := { r.1 with
          low := Function.update (r.1).low v (min ((r.1).low v) ((r.1).low w)) }
        let r2 := scLoop g v rest st2 r.2.2.2
          (fun z hz => hl z (List.mem_cons_of_mem _ hz))
        ⟨r2.1, Finset.Subset.trans r.2.1 r2.2.1, r2.2.2⟩
termination_by l st hdom hl => ((tjNodesF g \ st.dom).card, 1, l.length)
decreasing_by
· apply Prod.Lex.right
  apply Prod.Lex.right
  simp
· apply Prod.Lex.right
  apply Prod.Lex.right
  simp
· apply Prod.Lex.right
  apply Prod.Lex.left
  omega
· apply Prod.Lex.left
  have hmem : w ∈ tjNodesF g \ st.dom :=
    Finset.mem_sdiff.2 ⟨hl w (List.mem_cons_self _ _), hw⟩
  have hsub : tjNodesF g \ st2.dom ⊂ tjNodesF g \ st.dom := by
    constructor
    · exact Finset.sdiff_subset_sdiff (Finset.Subset.refl _) r.2.1
    · intro hcon
      have h2 := hcon hmem
      rw [Finset.mem_sdiff] at h2
      exact h2.2 r.2.2.1
  exact Finset.card_lt_card hsub

end

/-- The driver loop `for v in list(graph.keys()):`. -/
def tarjanDriver (g : List (ℕ × List ℕ)) :
    (l : List (ℕ × List ℕ)) → (st : TjSt) → (st.dom ⊆ tjNodesF g) →
    (∀ p ∈ l, p ∈ g) → TjSt
  | [], st, _, _ => st
  | p :: rest, st, hdom, hsub =>
      if hk : p.1 ∈ st.dom then
        tarjanDriver g rest st hdom
          (fun q hq => hsub q (List.mem_cons_of_mem _ hq))
      else
        let r := strongconnect g p.1 st hdom
          (by
            unfold tjNodesF tjNodes
            rw [List.mem_toFinset, List.mem_append]
            left
            exact List.mem_map_of_mem _ (hsub p (List.mem_cons_self _ _)))
          hk
        tarjanDriver g rest r.1 r.2.2.2
          (fun q hq => hsub q (List.mem_cons_of_mem _ hq))

def tjInit : TjSt := ⟨0, fun _ => 0, ∅, fun _ => 0, [], ∅, []⟩

/-- `tarjan_scc`. -/
def tarjan_scc (g : List (ℕ × List ℕ)) : List (List ℕ) :=
  (tarjanDriver g g tjInit (Finset.empty_subset _) (fun q hq => hq)).sccs

end DSA

namespace DSA

theorem dwalkOK_ne_nil (g : List (ℕ × List ℕ)) (W : List ℕ)
    (h : DWalkOK g W) : W ≠ [] := by
  cases W with
  | nil => exact absurd h (by simp [DWalkOK])
  | cons a t => simp

theorem dreach_refl (g : List (ℕ × List ℕ)) (x : ℕ) : DReach g x x :=
  ⟨[x], trivial, rfl, rfl⟩

theorem dreach_step (g : List (ℕ × List ℕ)) (x y : ℕ) (h : y ∈ gGet g x) :
    DReach g x y :=
  ⟨[x, y], ⟨h, trivial⟩, rfl, rfl⟩

theorem dwalk_append (g : List (ℕ × List ℕ)) :
    ∀ (P Q : List ℕ) (y : ℕ), DWalkOK g P → DWalkOK g (y :: Q) →
      P.getLast? = some y → DWalkOK g (P ++ Q) := by
  intro P
  induction P with
  | nil => intro Q y h; exact absurd (dwalkOK_ne_nil g [] h) (by simp)
  | cons a P2 ih =>
      intro Q y h hq hlast
      cases P2 with
      | nil =>
          rw [List.getLast?_singleton, Option.some.injEq] at hlast
          rw [hlast]
          exact hq
      | cons b P3 =>
          obtain ⟨he, hrest⟩ := h
          have hlast2 : (b :: P3).getLast? = some y := by
            rw [← hlast, List.getLast?_cons_cons]
          exact ⟨he, ih Q y hrest hq hlast2⟩

theorem dreach_trans (g : List (ℕ × List ℕ)) (x y z : ℕ)
    (h1 : DReach g x y) (h2 : DReach g y z) : DReach g x z := by
  obtain ⟨W1, hw1, hh1, hl1⟩ := h1
  obtain ⟨W2, hw2, hh2, hl2⟩ := h2
  cases W2 with
  | nil => exact absurd (dwalkOK_ne_nil g [] hw2) (by simp)
  | cons b W3 =>
      rw [List.head?_cons, Option.some.injEq] at hh2
      subst hh2
      refine ⟨W1 ++ W3, ?_, ?_, ?_⟩
      · exact dwalk_append g W1 W3 b hw1 hw2 hl1
      · rw [List.head?_append_of_ne_nil _ (dwalkOK_ne_nil g W1 hw1)]
        exact hh1
      · cases W3 with
        | nil =>
            rw [List.append_nil]
            rw [List.getLast?_singleton, Option.some.injEq] at hl2
            rw [hl1, hl2]
        | cons c W4 =>
            rw [List.getLast?_append_of_ne_nil _ (by simp)]
            rw [← hl2, List.getLast?_cons_cons]

/-- Walks whose start keeps reaching the target stay inside a set closed
under edges-toward-the-target. -/
theorem dwalk_confine (g : List (ℕ × List ℕ)) (P : List ℕ) (v : ℕ)
    (hdicho : ∀ w ∈ P, ∀ z ∈ gGet g w, z ∈ P ∨ ¬DReach g z v) :
    ∀ (W : List ℕ), DWalkOK g W → ∀ y, W.getLast? = some y → DReach g y v →
      ∀ x, W.head? = some x → x ∈ P → y ∈ P := by
  intro W
  induction W with
  | nil => intro h; exact absurd (dwalkOK_ne_nil g [] h) (by simp)
  | cons a W2 ih =>
      intro h y hy hyv x hx hxP
      rw [List.head?_cons, Option.some.injEq] at hx
      subst hx
      cases W2 with
      | nil =>
          rw [List.getLast?_singleton, Option.some.injEq] at hy
          rw [← hy]
          exact hxP
      | cons b W3 =>
          obtain ⟨he, hrest⟩ := h
          rw [List.getLast?_cons_cons] at hy
          have hbv : DReach g b v := by
            have hby : DReach g b y := ⟨b :: W3, hrest, rfl, hy⟩
            exact dreach_trans g b y v hby hyv
          rcases hdicho a hxP b he with hbP | hnb
          · exact ih hrest y hy hyv b rfl hbP
          · exact absurd hbv hnb

theorem sccsSet_append (l1 l2 : List (List ℕ)) :
    sccsSet (l1 ++ l2) = sccsSet l1 ∪ sccsSet l2 := by
  ext x
  rw [Finset.mem_union, mem_sccsSet, mem_sccsSet, mem_sccsSet]
  constructor
  · rintro ⟨C, hC, hx⟩
    rcases List.mem_append.1 hC with h | h
    · exact Or.inl ⟨C, h, hx⟩
    · exact Or.inr ⟨C, h, hx⟩
  · rintro (⟨C, hC, hx⟩ | ⟨C, hC, hx⟩)
    · exact ⟨C, List.mem_append_left _ hC, hx⟩
    · exact ⟨C, List.mem_append_right _ hC, hx⟩

theorem popScc_split (v : ℕ) :
    ∀ (A B : List ℕ), v ∉ A → popScc (A ++ v :: B) v = (A ++ [v], B) := by
  intro A
  induction A with
  | nil =>
      intro B _
      show popScc (v :: B) v = ([v], B)
      rw [show popScc (v :: B) v = if v = v then ([v], B)
        else ((v :: (popScc B v).1), (popScc B v).2) from rfl, if_pos rfl]
  | cons a A2 ih =>
      intro B hv
      have hav : a ≠ v := fun hc => hv (hc ▸ List.mem_cons_self _ _)
      have hv2 : v ∉ A2 := fun hc => hv (List.mem_cons_of_mem _ hc)
      show popScc (a :: (A2 ++ v :: B)) v = (a :: A2 ++ [v], B)
      rw [show popScc (a :: (A2 ++ v :: B)) v
        = if a = v then ([a], A2 ++ v :: B)
          else ((a :: (popScc (A2 ++ v :: B) v).1), (popScc (A2 ++ v :: B) v).2)
        from rfl, if_neg hav, ih B hv2]
      rfl

end DSA

namespace DSA

/-- The state invariant of `tarjan_scc` between operations. -/
structure TjWF (g : List (ℕ × List ℕ)) (st : TjSt) : Prop where
  snd : st.stack.Nodup
  ons : st.onstack = st.stack.toFinset
  sdom : ∀ x ∈ st.stack, x ∈ st.dom
  deq : ∀ x, x ∈ st.dom ↔ (x ∈ sccsSet st.sccs ∨ x ∈ st.stack)
  disj : ∀ x ∈ sccsSet st.sccs, x ∉ st.stack
  nlt : ∀ x ∈ st.dom, st.num x < st.idx
  ninj : ∀ x ∈ st.dom, ∀ y ∈ st.dom, st.num x = st.num y → x = y
  sorted : List.Pairwise (fun a b => st.num b < st.num a) st.stack
  rup : ∀ x ∈ st.stack, ∀ y ∈ st.stack, st.num x ≤ st.num y → DReach g x y
  lle : ∀ x ∈ st.stack, st.low x ≤ st.num x
  lwit : ∀ x ∈ st.stack, ∃ u, u ∈ st.stack ∧ st.num u = st.low x ∧ DReach g x u
  sfull : ∀ C ∈ st.sccs, C ≠ [] ∧ C.Nodup ∧
    ∀ x ∈ C, ∀ y, (DReach g x y ∧ DReach g y x) ↔ y ∈ C
  spdisj : List.Pairwise (fun C1 C2 => ∀ x, x ∈ C1 → x ∉ C2) st.sccs
  sclosed : ∀ x ∈ st.dom, x ∉ st.stack → ∀ z ∈ gGet g x, z ∈ st.dom

/-- Precondition of `strongconnect g v`. -/
structure SCPre (g : List (ℕ × List ℕ)) (v : ℕ) (st : TjSt) : Prop where
  wf : TjWF g st
  hnv : v ∉ st.dom
  reachv : ∀ x ∈ st.stack, st.low x < st.num x ∨ DReach g x v

/-- Postcondition of `strongconnect g v st = st'`. -/
structure SCPost (g : List (ℕ × List ℕ)) (v : ℕ) (st st' : TjSt) : Prop where
  wf : TjWF g st'
  domMono : insert v st.dom ⊆ st'.dom
  idxMono : st.idx < st'.idx
  oldNum : ∀ x ∈ st.dom, st'.num x = st.num x
  oldLow : ∀ x ∈ st.dom, st'.low x = st.low x
  numv : st'.num v = st.idx
  newNum : ∀ x ∈ st'.dom, x ∉ st.dom → st.idx ≤ st'.num x ∧ st'.num x < st'.idx
  stackEq : ∃ newS, st'.stack = newS ++ st.stack
    ∧ ∀ x ∈ newS, x ∈ st'.dom ∧ x ∉ st.dom ∧ st.idx ≤ st'.num x
      ∧ st'.low x < st'.num x ∧ st'.low v ≤ st'.low x
  sccsPre : ∃ t, st'.sccs = st.sccs ++ t
  newNbrs : ∀ x ∈ st'.dom, x ∉ st.dom → ∀ z ∈ gGet g x, z ∈ st'.dom ∧
    (z ∈ st'.stack → st'.num z < st'.num x → st'.low x ≤ st'.num z)
  vend : (v ∈ st'.stack ∧ st'.low v < st'.num v)
    ∨ (v ∉ st'.stack ∧ st'.low v = st'.num v)

/-- Precondition of the neighbour loop of `strongconnect` for gray `v`. -/
structure LoopPre (g : List (ℕ × List ℕ)) (v : ℕ) (st : TjSt) : Prop where
  wf : TjWF g st
  vg : v ∈ st.stack
  black_above : ∀ x ∈ st.stack, st.num v < st.num x → st.low x < st.num x

/-- Postcondition of the neighbour loop over `l`. -/
structure LoopPost (g : List (ℕ × List ℕ)) (v : ℕ) (l : List ℕ)
    (st st' : TjSt) : Prop where
  wf : TjWF g st'
  pre : LoopPre g v st'
  domMono : st.dom ⊆ st'.dom
  idxMono : st.idx ≤ st'.idx
  oldNum : ∀ x ∈ st.dom, st'.num x = st.num x
  oldLow : ∀ x ∈ st.dom, x ≠ v → st'.low x = st.low x
  lowvLe : st'.low v ≤ st.low v
  newNum : ∀ x ∈ st'.dom, x ∉ st.dom → st.idx ≤ st'.num x ∧ st'.num x < st'.idx
  stackEq : ∃ newS, st'.stack = newS ++ st.stack
    ∧ ∀ x ∈ newS, x ∈ st'.dom ∧ x ∉ st.dom ∧ st.idx ≤ st'.num x
      ∧ st'.low x < st'.num x ∧ st'.low v ≤ st'.low x
  sccsPre : ∃ t, st'.sccs = st.sccs ++ t
  newNbrs : ∀ x ∈ st'.dom, x ∉ st.dom → ∀ z ∈ gGet g x, z ∈ st'.dom ∧
    (z ∈ st'.stack → st'.num z < st'.num x → st'.low x ≤ st'.num z)
  procNbrs : ∀ z ∈ l, z ∈ st'.dom ∧
    (z ∈ st'.stack → st'.num z < st'.num v → st'.low v ≤ st'.num z)

/-- If every stack vertex is black or reaches `v`, every stack vertex
reaches `v` (descending the lowlink witnesses). -/
theorem chain_reach (g : List (ℕ × List ℕ)) (st : TjSt) (hwf : TjWF g st)
    (v : ℕ) (hr : ∀ x ∈ st.stack, st.low x < st.num x ∨ DReach g x v) :
    ∀ x ∈ st.stack, DReach g x v := by
  have hmain : ∀ n x, x ∈ st.stack → st.num x ≤ n → DReach g x v := by
    intro n
    induction n using Nat.strong_induction_on with
    | _ n ih =>
        intro x hx hle
        rcases hr x hx with hblack | hrv
        · obtain ⟨u, hu, hnum, hxu⟩ := hwf.lwit x hx
          have hlt : st.num u < st.num x := by omega
          exact dreach_trans g x u v hxu (ih (st.num u) (by omega) u hu (le_refl _))
        · exact hrv
  intro x hx
  exact hmain (st.num x) x hx (le_refl _)

end DSA

namespace DSA

theorem scLoop_nil (g : List (ℕ × List ℕ)) (v : ℕ) (st : TjSt)
    (hdom : st.dom ⊆ tjNodesF g) (hl : ∀ w ∈ ([] : List ℕ), w ∈ tjNodesF g) :
    (scLoop g v [] st hdom hl).1 = st := by
  rw [scLoop.eq_def]

theorem scLoop_cons_back (g : List (ℕ × List ℕ)) (v w : ℕ) (rest : List ℕ)
    (st : TjSt) (hdom : st.dom ⊆ tjNodesF g)
    (hl : ∀ z ∈ w :: rest, z ∈ tjNodesF g)
    (hl2 : ∀ z ∈ rest, z ∈ tjNodesF g)
    (hw : w ∈ st.dom) (hon : w ∈ st.onstack) :
    (scLoop g v (w :: rest) st hdom hl).1
      = (scLoop g v rest
          { st with low := Function.update st.low v (min (st.low v) (st.num w)) }
          hdom hl2).1 := by
  rw [scLoop.eq_def]
  dsimp only
  rw [dif_pos hw, if_pos hon]

theorem scLoop_cons_skip (g : List (ℕ × List ℕ)) (v w : ℕ) (rest : List ℕ)
    (st : TjSt) (hdom : st.dom ⊆ tjNodesF g)
    (hl : ∀ z ∈ w :: rest, z ∈ tjNodesF g)
    (hl2 : ∀ z ∈ rest, z ∈ tjNodesF g)
    (hw : w ∈ st.dom) (hon : w ∉ st.onstack) :
    (scLoop g v (w :: rest) st hdom hl).1
      = (scLoop g v rest st hdom hl2).1 := by
  rw [scLoop.eq_def]
  dsimp only
  rw [dif_pos hw, if_neg hon]

theorem scLoop_cons_new (g : List (ℕ × List ℕ)) (v w : ℕ) (rest : List ℕ)
    (st : TjSt) (hdom : st.dom ⊆ tjNodesF g)
    (hl : ∀ z ∈ w :: rest, z ∈ tjNodesF g)
    (hw : w ∉ st.dom) (hv2 : w ∈ tjNodesF g)
    (hdom2 : ((strongconnect g w st hdom hv2 hw).1).dom ⊆ tjNodesF g)
    (hl2 : ∀ z ∈ rest, z ∈ tjNodesF g) :
    (scLoop g v (w :: rest) st hdom hl).1
      = (scLoop g v rest
          { (strongconnect g w st hdom hv2 hw).1 with
            low := Function.update ((strongconnect g w st hdom hv2 hw).1).low v
              (min (((strongconnect g w st hdom hv2 hw).1).low v)
                (((strongconnect g w st hdom hv2 hw).1).low w)) }
          hdom2 hl2).1 := by
  rw [scLoop.eq_def]
  dsimp only
  rw [dif_neg hw]

/-- The root check and pop at the end of `strongconnect`. -/
def tjFinish (v : ℕ) (st1 : TjSt) : TjSt :=
  if st1.low v = st1.num v then
    { st1 with
        stack := (popScc st1.stack v).2
        onstack := st1.onstack \ (popScc st1.stack v).1.toFinset
        sccs := st1.sccs ++ [(popScc st1.stack v).1] }
  else st1

/-- `strongconnect` pushes `v`, runs the neighbour loop, then finishes. -/
theorem strongconnect_run (g : List (ℕ × List ℕ)) (v : ℕ) (st : TjSt)
    (hdom : st.dom ⊆ tjNodesF g) (hv : v ∈ tjNodesF g) (hnv : v ∉ st.dom)
    (hdom0 : (TjSt.mk (st.idx + 1) (Function.update st.num v st.idx)
      (insert v st.dom) (Function.update st.low v st.idx) (v :: st.stack)
      (insert v st.onstack) st.sccs).dom ⊆ tjNodesF g)
    (hl0 : ∀ w ∈ gGet g v, w ∈ tjNodesF g) :
    (strongconnect g v st hdom hv hnv).1
      = tjFinish v (scLoop g v (gGet g v)
          (TjSt.mk (st.idx + 1) (Function.update st.num v st.idx)
            (insert v st.dom) (Function.update st.low v st.idx) (v :: st.stack)
            (insert v st.onstack) st.sccs) hdom0 hl0).1 := by
  rw [strongconnect.eq_def]
  dsimp only
  rw [apply_ite (Subtype.val)]
  unfold tjFinish
  rfl

end DSA

namespace DSA

/-- The state after the entry bookkeeping of `strongconnect`. -/
def tjPush (v : ℕ) (st : TjSt) : TjSt :=
  ⟨st.idx + 1, Function.update st.num v st.idx, insert v st.dom,
    Function.update st.low v st.idx, v :: st.stack, insert v st.onstack,
    st.sccs⟩

theorem sccsSet_sub_dom (g : List (ℕ × List ℕ)) (st : TjSt) (hwf : TjWF g st) :
    ∀ x ∈ sccsSet st.sccs, x ∈ st.dom := by
  intro x hx
  exact (hwf.deq x).2 (Or.inl hx)

theorem tj_push (g : List (ℕ × List ℕ)) (v : ℕ) (st : TjSt)
    (hpre : SCPre g v st) :
    TjWF g (tjPush v st) ∧ LoopPre g v (tjPush v st) := by
  obtain ⟨hwf, hnv, hreachv⟩ := hpre
  have hvstack : v ∉ st.stack := fun hc => hnv (hwf.sdom v hc)
  have hwf0 : TjWF g (tjPush v st) := by
    refine ⟨?_, ?_, ?_, ?_, ?_, ?_, ?_, ?_, ?_, ?_, ?_, ?_, ?_, ?_⟩
    · exact List.nodup_cons.2 ⟨hvstack, hwf.snd⟩
    · show insert v st.onstack = (v :: st.stack).toFinset
      rw [hwf.ons, List.toFinset_cons]
    · intro x hx
      rcases List.mem_cons.1 hx with rfl | hx2
      · exact Finset.mem_insert_self _ _
      · exact Finset.mem_insert_of_mem (hwf.sdom x hx2)
    · intro x
      show x ∈ insert v st.dom ↔ _ ∨ x ∈ v :: st.stack
      rw [Finset.mem_insert, hwf.deq x, List.mem_cons]
      tauto
    · intro x hx
      have hxd : x ∈ st.dom := sccsSet_sub_dom g st hwf x hx
      intro hc
      rcases List.mem_cons.1 hc with rfl | hc2
      · exact hnv hxd
      · exact hwf.disj x hx hc2
    · intro x hx
      show Function.update st.num v st.idx x < st.idx + 1
      rcases Finset.mem_insert.1 hx with rfl | hx2
      · rw [Function.update_same]
        omega
      · have hxv : x ≠ v := fun hc => hnv (hc ▸ hx2)
        rw [Function.update_noteq hxv]
        have := hwf.nlt x hx2
        omega
    · intro x hx y hy hxy
      have hx2 : x ∈ insert v st.dom := hx
      have hy2 : y ∈ insert v st.dom := hy
      have hxy2 : Function.update st.num v st.idx x
          = Function.update st.num v st.idx y := hxy
      show x = y
      rcases Finset.mem_insert.1 hx2 with hxv | hx3 <;>
        rcases Finset.mem_insert.1 hy2 with hyv | hy3
      · rw [hxv, hyv]
      · exfalso
        have hyv : y ≠ v := fun hc => hnv (hc ▸ hy3)
        rw [hxv, Function.update_same, Function.update_noteq hyv] at hxy2
        have := hwf.nlt y hy3
        omega
      · exfalso
        have hxv : x ≠ v := fun hc => hnv (hc ▸ hx3)
        rw [hyv, Function.update_noteq hxv, Function.update_same] at hxy2
        have := hwf.nlt x hx3
        omega
      · have hxv : x ≠ v := fun hc => hnv (hc ▸ hx3)
        have hyv : y ≠ v := fun hc => hnv (hc ▸ hy3)
        rw [Function.update_noteq hxv, Function.update_noteq hyv] at hxy2
        exact hwf.ninj x hx3 y hy3 hxy2
    · show List.Pairwise _ (v :: st.stack)
      rw [List.pairwise_cons]
      constructor
      · intro b hb
        have hbv : b ≠ v := fun hc => hvstack (hc ▸ hb)
        show Function.update st.num v st.idx b < Function.update st.num v st.idx v
        rw [Function.update_same, Function.update_noteq hbv]
        exact hwf.nlt b (hwf.sdom b hb)
      · refine List.Pairwise.imp_of_mem ?_ hwf.sorted
        intro a b ha hb hab
        have hav : a ≠ v := fun hc => hvstack (hc ▸ ha)
        have hbv : b ≠ v := fun hc => hvstack (hc ▸ hb)
        show Function.update st.num v st.idx b < Function.update st.num v st.idx a
        rw [Function.update_noteq hav, Function.update_noteq hbv]
        exact hab
    · intro x hx y hy hxy
      have hxy2 : Function.update st.num v st.idx x
          ≤ Function.update st.num v st.idx y := hxy
      rcases List.mem_cons.1 hx with hxv | hx2 <;>
        rcases List.mem_cons.1 hy with hyv | hy2
      · rw [hxv, hyv]
        exact dreach_refl g _
      · exfalso
        have hyv : y ≠ v := fun hc => hvstack (hc ▸ hy2)
        rw [hxv, Function.update_same, Function.update_noteq hyv] at hxy2
        have := hwf.nlt y (hwf.sdom y hy2)
        omega
      · rw [hyv]
        exact chain_reach g st hwf v hreachv x hx2
      · have hxv : x ≠ v := fun hc => hvstack (hc ▸ hx2)
        have hyv : y ≠ v := fun hc => hvstack (hc ▸ hy2)
        rw [Function.update_noteq hxv, Function.update_noteq hyv] at hxy2
        exact hwf.rup x hx2 y hy2 hxy2
    · intro x hx
      rcases List.mem_cons.1 hx with rfl | hx2
      · show Function.update st.low x st.idx x ≤ Function.update st.num x st.idx x
        rw [Function.update_same, Function.update_same]
      · have hxv : x ≠ v := fun hc => hvstack (hc ▸ hx2)
        show Function.update st.low v st.idx x ≤ Function.update st.num v st.idx x
        rw [Function.update_noteq hxv, Function.update_noteq hxv]
        exact hwf.lle x hx2
    · intro x hx
      rcases List.mem_cons.1 hx with rfl | hx2
      · refine ⟨x, List.mem_cons_self _ _, ?_, dreach_refl g x⟩
        show Function.update st.num x st.idx x = Function.update st.low x st.idx x
        rw [Function.update_same, Function.update_same]
      · obtain ⟨u, hu, hnum, hxu⟩ := hwf.lwit x hx2
        have hxv : x ≠ v := fun hc => hvstack (hc ▸ hx2)
        have huv : u ≠ v := fun hc => hvstack (hc ▸ hu)
        refine ⟨u, List.mem_cons_of_mem _ hu, ?_, hxu⟩
        show Function.update st.num v st.idx u = Function.update st.low v st.idx x
        rw [Function.update_noteq huv, Function.update_noteq hxv]
        exact hnum
    · exact hwf.sfull
    · exact hwf.spdisj
    · intro x hx hxs z hz
      show z ∈ insert v st.dom
      have hxv : x ≠ v := fun hc => hxs (hc ▸ List.mem_cons_self _ _)
      have hx2 : x ∈ st.dom := by
        rcases Finset.mem_insert.1 hx with rfl | h
        · exact absurd rfl hxv
        · exact h
      have hxs2 : x ∉ st.stack := fun hc => hxs (List.mem_cons_of_mem _ hc)
      exact Finset.mem_insert_of_mem (hwf.sclosed x hx2 hxs2 z hz)
  refine ⟨hwf0, hwf0, List.mem_cons_self _ _, ?_⟩
  intro x hx hgt
  exfalso
  rcases List.mem_cons.1 hx with rfl | hx2
  · exact absurd hgt (lt_irrefl _)
  · have hxv : x ≠ v := fun hc => hvstack (hc ▸ hx2)
    show False
    rw [show (tjPush v st).num x = Function.update st.num v st.idx x from rfl,
      show (tjPush v st).num v = Function.update st.num v st.idx v from rfl,
      Function.update_noteq hxv, Function.update_same] at hgt
    have := hwf.nlt x (hwf.sdom x hx2)
    omega

end DSA

namespace DSA

/-- A vertex already visited at an earlier state and still on the stack
later was on the stack at the earlier state (pops are permanent). -/
theorem stack_mem_earlier (g : List (ℕ × List ℕ)) (st1 st2 : TjSt)
    (hwf1 : TjWF g st1) (hwf2 : TjWF g st2)
    (hsccs : ∃ t, st2.sccs = st1.sccs ++ t)
    (z : ℕ) (hdom : z ∈ st1.dom) (hz : z ∈ st2.stack) : z ∈ st1.stack := by
  rcases (hwf1.deq z).1 hdom with hc | hs
  · exfalso
    obtain ⟨t, ht⟩ := hsccs
    have hc2 : z ∈ sccsSet st2.sccs := by
      rw [ht, sccsSet_append]
      exact Finset.mem_union_left _ hc
    exact hwf2.disj z hc2 hz
  · exact hs

/-- Effect shape of the two non-recursing loop branches. -/
structure LoopStep0 (v : ℕ) (st st2 : TjSt) : Prop where
  dom : st2.dom = st.dom
  idx : st2.idx = st.idx
  num : st2.num = st.num
  stack : st2.stack = st.stack
  sccs : st2.sccs = st.sccs
  lowold : ∀ x, x ≠ v → st2.low x = st.low x
  lowv : st2.low v ≤ st.low v

theorem loopPost_comp0 (g : List (ℕ × List ℕ)) (v : ℕ) (rest : List ℕ)
    (st st2 st' : TjSt) (h0 : LoopStep0 v st st2)
    (hp : LoopPost g v rest st2 st') : LoopPost g v rest st st' := by
  obtain ⟨wf, pre, domMono, idxMono, oldNum, oldLow, lowvLe, newNum,
    stackEq, sccsPre, newNbrs, procNbrs⟩ := hp
  refine ⟨wf, pre, ?_, ?_, ?_, ?_, ?_, ?_, ?_, ?_, ?_, procNbrs⟩
  · rw [← h0.dom]
    exact domMono
  · rw [← h0.idx]
    exact idxMono
  · intro x hx
    rw [oldNum x (h0.dom ▸ hx), h0.num]
  · intro x hx hxv
    rw [oldLow x (h0.dom ▸ hx) hxv, h0.lowold x hxv]
  · exact le_trans lowvLe h0.lowv
  · intro x hx hnx
    have h2 := newNum x hx (h0.dom ▸ hnx)
    rw [h0.idx] at h2
    exact h2
  · obtain ⟨newS, hS, hprops⟩ := stackEq
    refine ⟨newS, by rw [hS, h0.stack], ?_⟩
    intro x hx
    obtain ⟨h1, h2, h3, h4, h5⟩ := hprops x hx
    exact ⟨h1, h0.dom ▸ h2, h0.idx ▸ h3, h4, h5⟩
  · obtain ⟨t, ht⟩ := sccsPre
    exact ⟨t, by rw [ht, h0.sccs]⟩
  · intro x hx hnx
    exact newNbrs x hx (h0.dom ▸ hnx)

/-- The back-edge branch `lowlink[v] = min(lowlink[v], index_map[w])`. -/
theorem tj_back (g : List (ℕ × List ℕ)) (v w : ℕ) (st : TjSt)
    (hpre : LoopPre g v st) (hon : w ∈ st.onstack) (hedge : w ∈ gGet g v) :
    TjWF g { st with low := Function.update st.low v (min (st.low v) (st.num w)) }
    ∧ LoopPre g v { st with
        low := Function.update st.low v (min (st.low v) (st.num w)) }
    ∧ LoopStep0 v st { st with
        low := Function.update st.low v (min (st.low v) (st.num w)) } := by
  obtain ⟨hwf, hvg, hba⟩ := hpre
  have hws : w ∈ st.stack := by
    rw [hwf.ons] at hon
    exact List.mem_toFinset.1 hon
  have hwf2 : TjWF g { st with
      low := Function.update st.low v (min (st.low v) (st.num w)) } := by
    refine ⟨hwf.snd, hwf.ons, hwf.sdom, hwf.deq, hwf.disj, hwf.nlt, hwf.ninj,
      hwf.sorted, hwf.rup, ?_, ?_, hwf.sfull, hwf.spdisj, hwf.sclosed⟩
    · intro x hx
      show Function.update st.low v (min (st.low v) (st.num w)) x ≤ st.num x
      by_cases hxv : x = v
      · subst hxv
        rw [Function.update_same]
        exact le_trans (min_le_left _ _) (hwf.lle x hx)
      · rw [Function.update_noteq hxv]
        exact hwf.lle x hx
    · intro x hx
      by_cases hxv : x = v
      · subst hxv
        rcases le_total (st.low x) (st.num w) with hmin | hmin
        · obtain ⟨u, hu, hnum, hxu⟩ := hwf.lwit x hx
          refine ⟨u, hu, ?_, hxu⟩
          show st.num u = Function.update st.low x (min (st.low x) (st.num w)) x
          rw [Function.update_same, min_eq_left hmin]
          exact hnum
        · refine ⟨w, hws, ?_, dreach_step g x w hedge⟩
          show st.num w = Function.update st.low x (min (st.low x) (st.num w)) x
          rw [Function.update_same, min_eq_right hmin]
      · obtain ⟨u, hu, hnum, hxu⟩ := hwf.lwit x hx
        refine ⟨u, hu, ?_, hxu⟩
        show st.num u = Function.update st.low v (min (st.low v) (st.num w)) x
        rw [Function.update_noteq hxv]
        exact hnum
  refine ⟨hwf2, ⟨hwf2, hvg, ?_⟩, ?_⟩
  · intro x hx hgt
    have hxv : x ≠ v := by
      intro hc
      subst hc
      exact absurd hgt (lt_irrefl _)
    show Function.update st.low v (min (st.low v) (st.num w)) x < st.num x
    rw [Function.update_noteq hxv]
    exact hba x hx hgt
  · refine ⟨rfl, rfl, rfl, rfl, rfl, ?_, ?_⟩
    · intro x hxv
      show Function.update st.low v (min (st.low v) (st.num w)) x = st.low x
      rw [Function.update_noteq hxv]
    · show Function.update st.low v (min (st.low v) (st.num w)) v ≤ st.low v
      rw [Function.update_same]
      exact min_le_left _ _

end DSA

namespace DSA

/-- The pop branch of `strongconnect`: when `lowlink[v] = index_map[v]`
after the neighbour loop, the popped stack segment is exactly the
strongly connected component of `v`. -/
theorem tj_pop (g : List (ℕ × List ℕ)) (v : ℕ) (st st1 : TjSt)
    (hpre : SCPre g v st)
    (hlp : LoopPost g v (gGet g v) (tjPush v st) st1)
    (hc : st1.low v = st1.num v) :
    SCPost g v st (tjFinish v st1) := by
  obtain ⟨hwf, hnv, hreachv⟩ := hpre
  obtain ⟨wf1, pre1, domMono1, idxMono1, oldNum1, oldLow1, lowvLe1, newNum1,
    ⟨newS1, hS1, hprops1⟩, ⟨t1, ht1⟩, newNbrs1, procNbrs1⟩ := hlp
  have hvstack : v ∉ st.stack := fun hcq => hnv (hwf.sdom v hcq)
  have hvdom1 : v ∈ st1.dom := domMono1 (Finset.mem_insert_self _ _)
  have num1v : st1.num v = st.idx := by
    have h := oldNum1 v (Finset.mem_insert_self _ _)
    rw [h]
    show Function.update st.num v st.idx v = st.idx
    rw [Function.update_same]
  have holdnum : ∀ x ∈ st.dom, st1.num x = st.num x := by
    intro x hx
    have hxv : x ≠ v := fun hcq => hnv (hcq ▸ hx)
    have h := oldNum1 x (Finset.mem_insert_of_mem hx)
    rw [h]
    show Function.update st.num v st.idx x = st.num x
    rw [Function.update_noteq hxv]
  have holdlow : ∀ x ∈ st.dom, st1.low x = st.low x := by
    intro x hx
    have hxv : x ≠ v := fun hcq => hnv (hcq ▸ hx)
    have h := oldLow1 x (Finset.mem_insert_of_mem hx) hxv
    rw [h]
    show Function.update st.low v st.idx x = st.low x
    rw [Function.update_noteq hxv]
  have hnewS1v : v ∉ newS1 := fun hcq =>
    (hprops1 v hcq).2.1 (Finset.mem_insert_self _ _)
  have hsplitP : popScc st1.stack v = (newS1 ++ [v], st.stack) := by
    rw [hS1]
    exact popScc_split v newS1 st.stack hnewS1v
  have hstack1eq : st1.stack = (newS1 ++ [v]) ++ st.stack := by
    rw [hS1, List.append_assoc]
    rfl
  have hvP : v ∈ newS1 ++ [v] :=
    List.mem_append_right _ (List.mem_singleton.2 rfl)
  have hPmem : ∀ p ∈ newS1 ++ [v], p ∈ st1.stack := by
    intro p hp
    rw [hstack1eq]
    exact List.mem_append_left _ hp
  have hRmem : ∀ x ∈ st.stack, x ∈ st1.stack := by
    intro x hx
    rw [hstack1eq]
    exact List.mem_append_right _ hx
  have hnumP : ∀ p ∈ newS1 ++ [v], st.idx ≤ st1.num p := by
    intro p hp
    rcases List.mem_append.1 hp with h | h
    · have h2 := (hprops1 p h).2.2.1
      show st.idx ≤ st1.num p
      have h3 : st.idx + 1 ≤ st1.num p := h2
      omega
    · rw [List.mem_singleton] at h
      subst h
      rw [num1v]
  have hnumR : ∀ x ∈ st.stack, st1.num x < st.idx := by
    intro x hx
    rw [holdnum x (hwf.sdom x hx)]
    exact hwf.nlt x (hwf.sdom x hx)
  have hlow1v : st1.low v = st.idx := by
    rw [hc, num1v]
  have hlowP : ∀ p ∈ newS1 ++ [v], st.idx ≤ st1.low p := by
    intro p hp
    rcases List.mem_append.1 hp with h | h
    · have h5 := (hprops1 p h).2.2.2.2
      rw [hlow1v] at h5
      exact h5
    · rw [List.mem_singleton] at h
      subst h
      rw [hlow1v]
  have hnbrP : ∀ w2 ∈ newS1 ++ [v], ∀ z ∈ gGet g w2, z ∈ st1.dom ∧
      (z ∈ st1.stack → st1.num z < st1.num w2 → st1.low w2 ≤ st1.num z) := by
    intro w2 hw2 z hz
    rcases List.mem_append.1 hw2 with h | h
    · exact newNbrs1 w2 (hprops1 w2 h).1 (hprops1 w2 h).2.1 z hz
    · rw [List.mem_singleton] at h
      subst h
      exact procNbrs1 z hz
  have hreach_vP : ∀ p ∈ newS1 ++ [v], DReach g v p := by
    intro p hp
    apply wf1.rup v (hPmem v hvP) p (hPmem p hp)
    rw [num1v]
    exact hnumP p hp
  have hreach_Pv : ∀ p ∈ newS1 ++ [v], DReach g p v := by
    have hmain : ∀ n, ∀ p ∈ newS1 ++ [v], st1.num p ≤ n → DReach g p v := by
      intro n
      induction n using Nat.strong_induction_on with
      | _ n ih =>
          intro p hp hle
          rcases List.mem_append.1 hp with hpn | hpv
          · have hblack := (hprops1 p hpn).2.2.2.1
            obtain ⟨u, hu, hnum, hpu⟩ := wf1.lwit p (hPmem p hp)
            have huP : u ∈ newS1 ++ [v] := by
              rw [hstack1eq] at hu
              rcases List.mem_append.1 hu with h | h
              · exact h
              · exfalso
                have h1 := hnumR u h
                have h2 := hlowP p hp
                omega
            have hlt : st1.num u < st1.num p := by
              have := hlowP p hp
              omega
            exact dreach_trans g p u v hpu
              (ih (st1.num u) (by omega) u huP (le_refl _))
          · rw [List.mem_singleton] at hpv
            subst hpv
            exact dreach_refl g p
    intro p hp
    exact hmain (st1.num p) p hp (le_refl _)
  have hdicho : ∀ w2 ∈ newS1 ++ [v], ∀ z ∈ gGet g w2,
      z ∈ newS1 ++ [v] ∨ ¬DReach g z v := by
    intro w2 hw2 z hz
    obtain ⟨hzdom, hzfact⟩ := hnbrP w2 hw2 z hz
    rcases (wf1.deq z).1 hzdom with hzc | hzs
    · right
      intro hzv
      obtain ⟨C, hC, hzC⟩ := (mem_sccsSet _ _).1 hzc
      have hfull := (wf1.sfull C hC).2.2
      have hvz : DReach g v z :=
        dreach_trans g v w2 z (hreach_vP w2 hw2) (dreach_step g w2 z hz)
      have hvC : v ∈ C := (hfull z hzC v).1 ⟨hzv, hvz⟩
      have hvcc : v ∈ sccsSet st1.sccs := (mem_sccsSet _ _).2 ⟨C, hC, hvC⟩
      exact wf1.disj v hvcc pre1.vg
    · rw [hstack1eq] at hzs
      rcases List.mem_append.1 hzs with h | h
      · exact Or.inl h
      · exfalso
        have h1 := hnumR z h
        have h2 := hzfact (hRmem z h) (by
          have := hnumP w2 hw2
          omega)
        have h3 := hlowP w2 hw2
        omega
  have hmax : ∀ y, DReach g v y → DReach g y v → y ∈ newS1 ++ [v] := by
    intro y hvy hyv
    obtain ⟨W, hW, hWh, hWl⟩ := hvy
    exact dwalk_confine g (newS1 ++ [v]) v hdicho W hW y hWl hyv v hWh hvP
  have hPfull : ∀ x ∈ newS1 ++ [v], ∀ y,
      (DReach g x y ∧ DReach g y x) ↔ y ∈ newS1 ++ [v] := by
    intro x hx y
    constructor
    · rintro ⟨hxy, hyx⟩
      exact hmax y (dreach_trans g v x y (hreach_vP x hx) hxy)
        (dreach_trans g y x v hyx (hreach_Pv x hx))
    · intro hy
      exact ⟨dreach_trans g x v y (hreach_Pv x hx) (hreach_vP y hy),
        dreach_trans g y v x (hreach_Pv y hy) (hreach_vP x hx)⟩
  have hnd1 : ((newS1 ++ [v]) ++ st.stack).Nodup := by
    rw [← hstack1eq]
    exact wf1.snd
  have hndP : (newS1 ++ [v]).Nodup := (List.nodup_append.1 hnd1).1
  have hndR : st.stack.Nodup := (List.nodup_append.1 hnd1).2.1
  have hdisjPR : ∀ x ∈ newS1 ++ [v], x ∉ st.stack := by
    have hd := (List.nodup_append.1 hnd1).2.2
    intro x hx hxR
    exact hd hx hxR
  unfold tjFinish
  rw [if_pos hc, hsplitP]
  dsimp only
  have hwf2 : TjWF g { st1 with
      stack := st.stack
      onstack := st1.onstack \ (newS1 ++ [v]).toFinset
      sccs := st1.sccs ++ [newS1 ++ [v]] } := by
    refine ⟨hndR, ?_, ?_, ?_, ?_, wf1.nlt, wf1.ninj, ?_, ?_, ?_, ?_, ?_, ?_, ?_⟩
    · show st1.onstack \ (newS1 ++ [v]).toFinset = st.stack.toFinset
      rw [wf1.ons, hstack1eq]
      ext a
      rw [Finset.mem_sdiff, List.mem_toFinset, List.mem_toFinset,
        List.mem_toFinset, List.mem_append]
      constructor
      · rintro ⟨h1 | h1, h2⟩
        · exact absurd h1 h2
        · exact h1
      · intro h
        exact ⟨Or.inr h, fun hP => hdisjPR a hP h⟩
    · intro x hx
      exact wf1.sdom x (hRmem x hx)
    · intro x
      show x ∈ st1.dom ↔ x ∈ sccsSet (st1.sccs ++ [newS1 ++ [v]]) ∨ x ∈ st.stack
      rw [sccsSet_append, wf1.deq x]
      constructor
      · rintro (h | h)
        · exact Or.inl (Finset.mem_union_left _ h)
        · rw [hstack1eq] at h
          rcases List.mem_append.1 h with h2 | h2
          · refine Or.inl (Finset.mem_union_right _ ?_)
            rw [mem_sccsSet]
            exact ⟨newS1 ++ [v], List.mem_singleton.2 rfl, h2⟩
          · exact Or.inr h2
      · rintro (h | h)
        · rcases Finset.mem_union.1 h with h2 | h2
          · exact Or.inl h2
          · rw [mem_sccsSet] at h2
            obtain ⟨C, hC, hxC⟩ := h2
            rw [List.mem_singleton] at hC
            subst hC
            exact Or.inr (hstack1eq ▸ List.mem_append_left _ hxC)
        · exact Or.inr (hRmem x h)
    · intro x hx
      show x ∉ st.stack
      rw [sccsSet_append] at hx
      rcases Finset.mem_union.1 hx with h2 | h2
      · intro hxR
        exact wf1.disj x h2 (hRmem x hxR)
      · rw [mem_sccsSet] at h2
        obtain ⟨C, hC, hxC⟩ := h2
        rw [List.mem_singleton] at hC
        subst hC
        exact hdisjPR x hxC
    · show List.Pairwise _ st.stack
      exact wf1.sorted.sublist (by rw [hstack1eq]; exact List.sublist_append_right _ _)
    · intro x hx y hy hxy
      exact wf1.rup x (hRmem x hx) y (hRmem y hy) hxy
    · intro x hx
      exact wf1.lle x (hRmem x hx)
    · intro x hx
      obtain ⟨u, hu, hnum, hxu⟩ := wf1.lwit x (hRmem x hx)
      refine ⟨u, ?_, hnum, hxu⟩
      rw [hstack1eq] at hu
      rcases List.mem_append.1 hu with h | h
      · exfalso
        have h1 := hnumP u h
        have h2 := hnumR x hx
        have h3 := wf1.lle x (hRmem x hx)
        omega
      · exact h
    · intro C hC
      rcases List.mem_append.1 hC with h | h
      · exact wf1.sfull C h
      · rw [List.mem_singleton] at h
        subst h
        refine ⟨by simp, hndP, hPfull⟩
    · show List.Pairwise _ (st1.sccs ++ [newS1 ++ [v]])
      rw [List.pairwise_append]
      refine ⟨wf1.spdisj, by simp, ?_⟩
      intro C1 hC1 C2 hC2 x hx1
      rw [List.mem_singleton] at hC2
      subst hC2
      intro hx2
      have hxcc : x ∈ sccsSet st1.sccs := (mem_sccsSet _ _).2 ⟨C1, hC1, hx1⟩
      exact wf1.disj x hxcc (hPmem x hx2)
    · intro x hx hxs z hz
      show z ∈ st1.dom
      by_cases hx1 : x ∈ st1.stack
      · rw [hstack1eq] at hx1
        rcases List.mem_append.1 hx1 with h | h
        · exact (hnbrP x h z hz).1
        · exact absurd h hxs
      · exact wf1.sclosed x hx hx1 z hz
  have hidx1 : st.idx + 1 ≤ st1.idx := idxMono1
  refine ⟨hwf2, domMono1, (show st.idx < st1.idx by omega), holdnum, holdlow,
    num1v, ?_, ?_, ?_, ?_, ?_⟩
  · intro x hx hnx
    show st.idx ≤ st1.num x ∧ st1.num x < st1.idx
    by_cases hxv : x = v
    · subst hxv
      rw [num1v]
      exact ⟨le_refl _, by omega⟩
    · have h2 := newNum1 x hx (by
        intro hcq
        rcases Finset.mem_insert.1 hcq with h | h
        · exact hxv h
        · exact hnx h)
      have h3 : st.idx + 1 ≤ st1.num x := h2.1
      have h4 : st1.num x < st1.idx := h2.2
      exact ⟨by omega, h4⟩
  · exact ⟨[], rfl, by intro x hx; simp at hx⟩
  · refine ⟨t1 ++ [newS1 ++ [v]], ?_⟩
    show st1.sccs ++ [newS1 ++ [v]] = st.sccs ++ (t1 ++ [newS1 ++ [v]])
    rw [ht1, List.append_assoc]
    rfl
  · intro x hx hnx z hz
    have hx1 : x ∈ st1.dom := hx
    by_cases hxv : x = v
    · subst hxv
      obtain ⟨h1, h2⟩ := procNbrs1 z hz
      exact ⟨h1, fun hzs hlt => h2 (hRmem z hzs) hlt⟩
    · obtain ⟨h1, h2⟩ := newNbrs1 x hx1 (by
        intro hcq
        rcases Finset.mem_insert.1 hcq with h | h
        · exact hxv h
        · exact hnx h) z hz
      exact ⟨h1, fun hzs hlt => h2 (hRmem z hzs) hlt⟩
  · exact Or.inr ⟨hvstack, hc⟩

end DSA

namespace DSA

/-- The non-root branch: `v` stays on the stack with `lowlink < index`. -/
theorem tj_nopop (g : List (ℕ × List ℕ)) (v : ℕ) (st st1 : TjSt)
    (hpre : SCPre g v st)
    (hlp : LoopPost g v (gGet g v) (tjPush v st) st1)
    (hc : ¬st1.low v = st1.num v) :
    SCPost g v st (tjFinish v st1) := by
  obtain ⟨hwf, hnv, hreachv⟩ := hpre
  obtain ⟨wf1, pre1, domMono1, idxMono1, oldNum1, oldLow1, lowvLe1, newNum1,
    ⟨newS1, hS1, hprops1⟩, ⟨t1, ht1⟩, newNbrs1, procNbrs1⟩ := hlp
  have hvdom1 : v ∈ st1.dom := domMono1 (Finset.mem_insert_self _ _)
  have num1v : st1.num v = st.idx := by
    have h := oldNum1 v (Finset.mem_insert_self _ _)
    rw [h]
    show Function.update st.num v st.idx v = st.idx
    rw [Function.update_same]
  have holdnum : ∀ x ∈ st.dom, st1.num x = st.num x := by
    intro x hx
    have hxv : x ≠ v := fun hcq => hnv (hcq ▸ hx)
    have h := oldNum1 x (Finset.mem_insert_of_mem hx)
    rw [h]
    show Function.update st.num v st.idx x = st.num x
    rw [Function.update_noteq hxv]
  have holdlow : ∀ x ∈ st.dom, st1.low x = st.low x := by
    intro x hx
    have hxv : x ≠ v := fun hcq => hnv (hcq ▸ hx)
    have h := oldLow1 x (Finset.mem_insert_of_mem hx) hxv
    rw [h]
    show Function.update st.low v st.idx x = st.low x
    rw [Function.update_noteq hxv]
  have hidx1 : st.idx + 1 ≤ st1.idx := idxMono1
  have hblackv : st1.low v < st1.num v :=
    lt_of_le_of_ne (wf1.lle v pre1.vg) hc
  have hfin : tjFinish v st1 = st1 := by
    unfold tjFinish
    rw [if_neg hc]
  rw [hfin]
  refine ⟨wf1, domMono1, (show st.idx < st1.idx by omega), holdnum, holdlow,
    num1v, ?_, ?_, ⟨t1, by rw [ht1]; rfl⟩, ?_, Or.inl ⟨pre1.vg, hblackv⟩⟩
  · intro x hx hnx
    by_cases hxv : x = v
    · subst hxv
      rw [num1v]
      exact ⟨le_refl _, by omega⟩
    · have h2 := newNum1 x hx (by
        intro hcq
        rcases Finset.mem_insert.1 hcq with h | h
        · exact hxv h
        · exact hnx h)
      have h3 : st.idx + 1 ≤ st1.num x := h2.1
      exact ⟨by omega, h2.2⟩
  · refine ⟨newS1 ++ [v], ?_, ?_⟩
    · rw [hS1, List.append_assoc]
      rfl
    · intro x hx
      rcases List.mem_append.1 hx with h | h
      · obtain ⟨h1, h2, h3, h4, h5⟩ := hprops1 x h
        have h3b : st.idx + 1 ≤ st1.num x := h3
        refine ⟨h1, fun hcq => h2 (Finset.mem_insert_of_mem hcq), by omega,
          h4, h5⟩
      · rw [List.mem_singleton] at h
        subst h
        exact ⟨hvdom1, hnv, by rw [num1v], hblackv, le_refl _⟩
  · intro x hx hnx z hz
    by_cases hxv : x = v
    · subst hxv
      exact procNbrs1 z hz
    · exact newNbrs1 x hx (by
        intro hcq
        rcases Finset.mem_insert.1 hcq with h | h
        · exact hxv h
        · exact hnx h) z hz

end DSA

namespace DSA

theorem tj_new_scpre (g : List (ℕ × List ℕ)) (v w : ℕ) (st : TjSt)
    (hpre : LoopPre g v st) (hw : w ∉ st.dom) (hedge : w ∈ gGet g v) :
    SCPre g w st := by
  obtain ⟨hwf, hvg, hba⟩ := hpre
  refine ⟨hwf, hw, ?_⟩
  intro x hx
  rcases le_or_lt (st.num x) (st.num v) with hle | hgt
  · exact Or.inr (dreach_trans g x v w (hwf.rup x hx v hvg hle)
      (dreach_step g v w hedge))
  · exact Or.inl (hba x hx hgt)

theorem tj_new_pre (g : List (ℕ × List ℕ)) (v w : ℕ) (st st1 : TjSt)
    (hpre : LoopPre g v st) (hw : w ∉ st.dom) (hedge : w ∈ gGet g v)
    (hpost : SCPost g w st st1) :
    LoopPre g v { st1 with
      low := Function.update st1.low v (min (st1.low v) (st1.low w)) } := by
  obtain ⟨hwf, hvg, hba⟩ := hpre
  obtain ⟨wf1, domMono1, idxMono1, oldNum1, oldLow1, numw1, newNum1,
    ⟨newS, hS, hprops⟩, sccsPre1, newNbrs1, vend1⟩ := hpost
  have hvdom : v ∈ st.dom := hwf.sdom v hvg
  have hvw : v ≠ w := fun hcq => hw (hcq ▸ hvdom)
  have hv1 : v ∈ st1.stack := by
    rw [hS]
    exact List.mem_append_right _ hvg
  have hnumv1 : st1.num v = st.num v := oldNum1 v hvdom
  have hlowv1 : st1.low v = st.low v := oldLow1 v hvdom
  have hwf2 : TjWF g { st1 with
      low := Function.update st1.low v (min (st1.low v) (st1.low w)) } := by
    refine ⟨wf1.snd, wf1.ons, wf1.sdom, wf1.deq, wf1.disj, wf1.nlt, wf1.ninj,
      wf1.sorted, wf1.rup, ?_, ?_, wf1.sfull, wf1.spdisj, wf1.sclosed⟩
    · intro x hx
      show Function.update st1.low v (min (st1.low v) (st1.low w)) x ≤ st1.num x
      by_cases hxv : x = v
      · subst hxv
        rw [Function.update_same]
        exact le_trans (min_le_left _ _) (wf1.lle x hx)
      · rw [Function.update_noteq hxv]
        exact wf1.lle x hx
    · intro x hx
      by_cases hxv : x = v
      · subst hxv
        rcases le_total (st1.low x) (st1.low w) with hmin | hmin
        · obtain ⟨u, hu, hnum, hxu⟩ := wf1.lwit x hx
          refine ⟨u, hu, ?_, hxu⟩
          show st1.num u
            = Function.update st1.low x (min (st1.low x) (st1.low w)) x
          rw [Function.update_same, min_eq_left hmin]
          exact hnum
        · rcases vend1 with ⟨hws, hbw⟩ | ⟨hws, hbw⟩
          · obtain ⟨u, hu, hnum, hwu⟩ := wf1.lwit w hws
            refine ⟨u, hu, ?_, ?_⟩
            · show st1.num u
                = Function.update st1.low x (min (st1.low x) (st1.low w)) x
              rw [Function.update_same, min_eq_right hmin]
              exact hnum
            · exact dreach_trans g x w u (dreach_step g x w hedge) hwu
          · exfalso
            have h1 := hwf.nlt x hvdom
            rw [hbw, numw1] at hmin
            rw [hlowv1] at hmin
            have h2 := hwf.lle x hvg
            omega
      · obtain ⟨u, hu, hnum, hxu⟩ := wf1.lwit x hx
        refine ⟨u, hu, ?_, hxu⟩
        show st1.num u
          = Function.update st1.low v (min (st1.low v) (st1.low w)) x
        rw [Function.update_noteq hxv]
        exact hnum
  refine ⟨hwf2, hv1, ?_⟩
  intro x hx hgt
  have hxv : x ≠ v := by
    intro hcq
    subst hcq
    exact absurd hgt (lt_irrefl _)
  show Function.update st1.low v (min (st1.low v) (st1.low w)) x < st1.num x
  rw [Function.update_noteq hxv]
  rw [hS] at hx
  rcases List.mem_append.1 hx with h | h
  · exact (hprops x h).2.2.2.1
  · have hxd : x ∈ st.dom := hwf.sdom x h
    rw [oldNum1 x hxd, oldLow1 x hxd]
    apply hba x h
    have h2 : st1.num x = st.num x := oldNum1 x hxd
    rw [h2, hnumv1] at hgt
    exact hgt

end DSA

namespace DSA

/-- Composing the child call and the rest of the neighbour loop. -/
theorem tj_new (g : List (ℕ × List ℕ)) (v w : ℕ) (rest : List ℕ)
    (st st1 st' : TjSt)
    (hpre : LoopPre g v st) (hw : w ∉ st.dom)
    (hpost : SCPost g w st st1)
    (hwf2 : TjWF g { st1 with
      low := Function.update st1.low v (min (st1.low v) (st1.low w)) })
    (hrest : LoopPost g v rest
      { st1 with
        low := Function.update st1.low v (min (st1.low v) (st1.low w)) } st') :
    LoopPost g v (w :: rest) st st' := by
  obtain ⟨hwfst, hvg, hba⟩ := hpre
  obtain ⟨wf1, domMono1, idxMono1, oldNum1, oldLow1, numw1, newNum1,
    ⟨newS, hS, hprops⟩, ⟨t1, ht1⟩, newNbrs1, vend1⟩ := hpost
  obtain ⟨wf', pre', domMono2, idxMono2, oldNum2, oldLow2, lowvLe2, newNum2,
    ⟨newS2, hS2, hprops2⟩, ⟨t2, ht2⟩, newNbrs2, procNbrs2⟩ := hrest
  have hvdom : v ∈ st.dom := hwfst.sdom v hvg
  have hmono1 : st.dom ⊆ st1.dom :=
    fun x hx => domMono1 (Finset.mem_insert_of_mem hx)
  have hlowmin : Function.update st1.low v (min (st1.low v) (st1.low w)) v
      = min (st1.low v) (st1.low w) := Function.update_same _ _ _
  have hlowne : ∀ x, x ≠ v →
      Function.update st1.low v (min (st1.low v) (st1.low w)) x = st1.low x :=
    fun x hx => Function.update_noteq hx _ _
  have hidx12 : st1.idx ≤ st'.idx := idxMono2
  refine ⟨wf', pre', ?_, ?_, ?_, ?_, ?_, ?_, ?_, ?_, ?_, ?_⟩
  · exact fun x hx => domMono2 (hmono1 hx)
  · exact le_trans (le_of_lt idxMono1) hidx12
  · intro x hx
    have h1 : x ∈ st1.dom := hmono1 hx
    rw [oldNum2 x h1]
    exact oldNum1 x hx
  · intro x hx hxv
    have h1 : x ∈ st1.dom := hmono1 hx
    rw [oldLow2 x h1 hxv]
    show Function.update st1.low v (min (st1.low v) (st1.low w)) x = st.low x
    rw [hlowne x hxv]
    exact oldLow1 x hx
  · have h1 : st'.low v
        ≤ Function.update st1.low v (min (st1.low v) (st1.low w)) v :=
      lowvLe2
    rw [hlowmin] at h1
    have h2 : st1.low v = st.low v := oldLow1 v hvdom
    calc st'.low v ≤ min (st1.low v) (st1.low w) := h1
      _ ≤ st1.low v := min_le_left _ _
      _ = st.low v := h2
  · intro x hx hnx
    by_cases hx1 : x ∈ st1.dom
    · have h2 := newNum1 x hx1 hnx
      have h3 : st'.num x = st1.num x := oldNum2 x hx1
      rw [h3]
      exact ⟨h2.1, by omega⟩
    · have h2 := newNum2 x hx hx1
      have h3 : st1.idx ≤ st'.num x := h2.1
      exact ⟨by omega, h2.2⟩
  · refine ⟨newS2 ++ newS, ?_, ?_⟩
    · rw [hS2, List.append_assoc]
      show newS2 ++ st1.stack = newS2 ++ (newS ++ st.stack)
      rw [hS]
    · intro x hx
      rcases List.mem_append.1 hx with h | h
      · obtain ⟨h1, h2, h3, h4, h5⟩ := hprops2 x h
        have h3b : st1.idx ≤ st'.num x := h3
        refine ⟨h1, fun hc => h2 (hmono1 hc), by omega, h4, h5⟩
      · obtain ⟨h1, h2, h3, h4, h5⟩ := hprops x h
        have hxv : x ≠ v := fun hc => h2 (hc ▸ hvdom)
        have hnum : st'.num x = st1.num x := oldNum2 x h1
        have hlow : st'.low x = st1.low x := by
          rw [oldLow2 x h1 hxv]
          exact hlowne x hxv
        refine ⟨domMono2 h1, h2, by rw [hnum]; exact h3, ?_, ?_⟩
        · rw [hnum, hlow]
          exact h4
        · have h6 : st'.low v
              ≤ Function.update st1.low v (min (st1.low v) (st1.low w)) v :=
            lowvLe2
          rw [hlowmin] at h6
          rw [hlow]
          calc st'.low v ≤ min (st1.low v) (st1.low w) := h6
            _ ≤ st1.low w := min_le_right _ _
            _ ≤ st1.low x := h5
  · refine ⟨t1 ++ t2, ?_⟩
    rw [ht2]
    show st1.sccs ++ t2 = st.sccs ++ (t1 ++ t2)
    rw [ht1, List.append_assoc]
  · intro x hx hnx z hz
    by_cases hx1 : x ∈ st1.dom
    · have hxv : x ≠ v := fun hc => hnx (hc ▸ hvdom)
      obtain ⟨hz1, hz2⟩ := newNbrs1 x hx1 hnx z hz
      refine ⟨domMono2 hz1, ?_⟩
      intro hzs hlt
      have hzs1 : z ∈ st1.stack :=
        stack_mem_earlier g _ st' hwf2 wf' ⟨t2, ht2⟩ z hz1 hzs
      have hnumz : st'.num z = st1.num z := oldNum2 z hz1
      have hnumx : st'.num x = st1.num x := oldNum2 x hx1
      have hlowx : st'.low x = st1.low x := by
        rw [oldLow2 x hx1 hxv]
        exact hlowne x hxv
      rw [hnumz, hnumx] at hlt
      rw [hlowx, hnumz]
      exact hz2 hzs1 hlt
    · exact newNbrs2 x hx hx1 z hz
  · intro z hz
    rcases List.mem_cons.1 hz with rfl | hz2
    · have h1 : z ∈ st1.dom := domMono1 (Finset.mem_insert_self _ _)
      refine ⟨domMono2 h1, ?_⟩
      intro hzs hlt
      exfalso
      have h2 : st'.num z = st.idx := by
        rw [oldNum2 z h1]
        exact numw1
      have h3 : st'.num v = st.num v := by
        rw [oldNum2 v (hmono1 hvdom)]
        exact oldNum1 v hvdom
      have h4 := hwfst.nlt v hvdom
      rw [h2, h3] at hlt
      omega
    · exact procNbrs2 z hz2

end DSA

namespace DSA

/-- Main induction: `strongconnect` establishes `SCPost` and the neighbour
loop establishes `LoopPost`, by strong induction on the number of
unvisited nodes. -/
theorem tarjan_main (g : List (ℕ × List ℕ)) : ∀ k : ℕ,
    (∀ (v : ℕ) (st : TjSt) (hdom : st.dom ⊆ tjNodesF g)
      (hv : v ∈ tjNodesF g) (hnv : v ∉ st.dom),
      (tjNodesF g \ st.dom).card ≤ k → SCPre g v st →
      SCPost g v st (strongconnect g v st hdom hv hnv).1)
    ∧ (∀ (l : List ℕ) (v : ℕ) (st : TjSt) (hdom : st.dom ⊆ tjNodesF g)
      (hl : ∀ z ∈ l, z ∈ tjNodesF g),
      (∀ z ∈ l, z ∈ gGet g v) →
      (tjNodesF g \ st.dom).card ≤ k → LoopPre g v st →
      LoopPost g v l st (scLoop g v l st hdom hl).1) := by
  intro k
  induction k using Nat.strong_induction_on with
  | _ k ih =>
      have hsc : ∀ (v : ℕ) (st : TjSt) (hdom : st.dom ⊆ tjNodesF g)
          (hv : v ∈ tjNodesF g) (hnv : v ∉ st.dom),
          (tjNodesF g \ st.dom).card ≤ k → SCPre g v st →
          SCPost g v st (strongconnect g v st hdom hv hnv).1 := by
        intro v st hdom hv hnv hcard hpre
        have hvmem : v ∈ tjNodesF g \ st.dom := Finset.mem_sdiff.2 ⟨hv, hnv⟩
        have hpos : 0 < (tjNodesF g \ st.dom).card :=
          Finset.card_pos.2 ⟨v, hvmem⟩
        obtain ⟨hwf0, hlp0⟩ := tj_push g v st hpre
        have hdom0 : (tjPush v st).dom ⊆ tjNodesF g :=
          Finset.insert_subset hv hdom
        have hl0 : ∀ z ∈ gGet g v, z ∈ tjNodesF g := gGet_subset_tjNodes g v
        have hcardlt : (tjNodesF g \ (tjPush v st).dom).card
            < (tjNodesF g \ st.dom).card := by
          apply Finset.card_lt_card
          constructor
          · exact Finset.sdiff_subset_sdiff (Finset.Subset.refl _)
              (Finset.subset_insert _ _)
          · intro hcon
            have h2 := hcon hvmem
            rw [Finset.mem_sdiff] at h2
            exact h2.2 (Finset.mem_insert_self _ _)
        have hcard0 : (tjNodesF g \ (tjPush v st).dom).card ≤ k - 1 := by
          omega
        have hloop := (ih (k - 1) (by omega)).2 (gGet g v) v (tjPush v st)
          hdom0 hl0 (fun z hz => hz) hcard0 hlp0
        rw [strongconnect_run g v st hdom hv hnv hdom0 hl0]
        by_cases hc : (scLoop g v (gGet g v) (tjPush v st) hdom0 hl0).1.low v
            = (scLoop g v (gGet g v) (tjPush v st) hdom0 hl0).1.num v
        · exact tj_pop g v st _ hpre hloop hc
        · exact tj_nopop g v st _ hpre hloop hc
      refine ⟨hsc, ?_⟩
      intro l
      induction l with
      | nil =>
          intro v st hdom hl hlv hcard hpre
          rw [scLoop_nil g v st hdom hl]
          refine ⟨hpre.wf, hpre, Finset.Subset.refl _, le_refl _,
            fun x _ => rfl, fun x _ _ => rfl, le_refl _, ?_,
            ⟨[], rfl, ?_⟩, ⟨[], (List.append_nil _).symm⟩, ?_, ?_⟩
          · intro x hx hnx
            exact absurd hx hnx
          · intro x hx
            exact absurd hx (List.not_mem_nil x)
          · intro x hx hnx
            exact absurd hx hnx
          · intro z hz
            exact absurd hz (List.not_mem_nil z)
      | cons w rest ihl =>
          intro v st hdom hl hlv hcard hpre
          have hl2 : ∀ z ∈ rest, z ∈ tjNodesF g :=
            fun z hz => hl z (List.mem_cons_of_mem _ hz)
          have hlv2 : ∀ z ∈ rest, z ∈ gGet g v :=
            fun z hz => hlv z (List.mem_cons_of_mem _ hz)
          have hedge : w ∈ gGet g v := hlv w (List.mem_cons_self _ _)
          by_cases hw : w ∈ st.dom
          · by_cases hon : w ∈ st.onstack
            · rw [scLoop_cons_back g v w rest st hdom hl hl2 hw hon]
              obtain ⟨hwf2, hpre2, hstep0⟩ := tj_back g v w st hpre hon hedge
              have hrest := ihl v
                { st with low := Function.update st.low v (min (st.low v) (st.num w)) }
                hdom hl2 hlv2 hcard hpre2
              have hminv : ({ st with low := Function.update st.low v (min (st.low v) (st.num w)) } : TjSt).low v
                  = min (st.low v) (st.num w) :=
                Function.update_same v (min (st.low v) (st.num w)) st.low
              have h1 := hrest.lowvLe
              rw [hminv] at h1
              have hcomp := loopPost_comp0 g v rest st _ _ hstep0 hrest
              obtain ⟨cwf, cpre, cdom, cidx, cnum, clow, clowv, cnewnum,
                cstack, csccs, cnbrs, cproc⟩ := hcomp
              refine ⟨cwf, cpre, cdom, cidx, cnum, clow, clowv, cnewnum,
                cstack, csccs, cnbrs, ?_⟩
              intro z hz
              rcases List.mem_cons.1 hz with hzw | hz2
              · refine ⟨by rw [hzw]; exact cdom hw, ?_⟩
                intro hzs hlt
                rw [hzw, cnum w hw]
                exact le_trans h1 (min_le_right _ _)
              · exact cproc z hz2
            · rw [scLoop_cons_skip g v w rest st hdom hl hl2 hw hon]
              have hrest := ihl v st hdom hl2 hlv2 hcard hpre
              obtain ⟨cwf, cpre, cdom, cidx, cnum, clow, clowv, cnewnum,
                cstack, csccs, cnbrs, cproc⟩ := hrest
              refine ⟨cwf, cpre, cdom, cidx, cnum, clow, clowv, cnewnum,
                cstack, csccs, cnbrs, ?_⟩
              intro z hz
              rcases List.mem_cons.1 hz with hzw | hz2
              · refine ⟨by rw [hzw]; exact cdom hw, ?_⟩
                intro hzs hlt
                exfalso
                have hwst : w ∉ st.stack := by
                  intro hcq
                  apply hon
                  rw [hpre.wf.ons]
                  exact List.mem_toFinset.2 hcq
                have hwsccs : w ∈ sccsSet st.sccs := by
                  rcases (hpre.wf.deq w).1 hw with h | h
                  · exact h
                  · exact absurd h hwst
                obtain ⟨t, ht⟩ := csccs
                have h2 : w ∈ sccsSet
                    (scLoop g v rest st hdom hl2).1.sccs := by
                  rw [ht, sccsSet_append]
                  exact Finset.mem_union_left _ hwsccs
                rw [hzw] at hzs
                exact cwf.disj w h2 hzs
              · exact cproc z hz2
          · have hwU : w ∈ tjNodesF g := hl w (List.mem_cons_self _ _)
            have hscpre := tj_new_scpre g v w st hpre hw hedge
            have hpost := hsc w st hdom hwU hw hcard hscpre
            have hpre2 := tj_new_pre g v w st
              (strongconnect g w st hdom hwU hw).1 hpre hw hedge hpost
            have hdom2 : ((strongconnect g w st hdom hwU hw).1).dom
                ⊆ tjNodesF g := (strongconnect g w st hdom hwU hw).2.2.2
            have hsub1 : st.dom ⊆ ((strongconnect g w st hdom hwU hw).1).dom :=
              fun x hx => hpost.domMono (Finset.mem_insert_of_mem hx)
            have hcard2 : (tjNodesF g \
                ({ (strongconnect g w st hdom hwU hw).1 with low := Function.update ((strongconnect g w st hdom hwU hw).1).low v (min (((strongconnect g w st hdom hwU hw).1).low v) (((strongconnect g w st hdom hwU hw).1).low w)) }
                  : TjSt).dom).card ≤ k :=
              le_trans (Finset.card_le_card
                (Finset.sdiff_subset_sdiff (Finset.Subset.refl _) hsub1)) hcard
            have hrest := ihl v
              { (strongconnect g w st hdom hwU hw).1 with low := Function.update ((strongconnect g w st hdom hwU hw).1).low v (min (((strongconnect g w st hdom hwU hw).1).low v) (((strongconnect g w st hdom hwU hw).1).low w)) }
              hdom2 hl2 hlv2 hcard2 hpre2
            rw [scLoop_cons_new g v w rest st hdom hl hw hwU hdom2 hl2]
            exact tj_new g v w rest st (strongconnect g w st hdom hwU hw).1 _
              hpre hw hpost hpre2.wf hrest

end DSA

namespace DSA

theorem tjInit_wf (g : List (ℕ × List ℕ)) : TjWF g tjInit := by
  refine ⟨?_, ?_, ?_, ?_, ?_, ?_, ?_, ?_, ?_, ?_, ?_, ?_, ?_, ?_⟩
  · exact List.nodup_nil
  · rfl
  · intro x hx
    exact absurd hx (List.not_mem_nil x)
  · intro x
    constructor
    · intro hx
      exact absurd hx (Finset.not_mem_empty x)
    · intro hx
      rcases hx with h | h
      · exact absurd h (Finset.not_mem_empty x)
      · exact absurd h (List.not_mem_nil x)
  · intro x hx
    exact absurd hx (Finset.not_mem_empty x)
  · intro x hx
    exact absurd hx (Finset.not_mem_empty x)
  · intro x hx
    exact absurd hx (Finset.not_mem_empty x)
  · exact List.Pairwise.nil
  · intro x hx
    exact absurd hx (List.not_mem_nil x)
  · intro x hx
    exact absurd hx (List.not_mem_nil x)
  · intro x hx
    exact absurd hx (List.not_mem_nil x)
  · intro C hC
    exact absurd hC (List.not_mem_nil C)
  · exact List.Pairwise.nil
  · intro x hx
    exact absurd hx (Finset.not_mem_empty x)

/-- A state in which every stack vertex is black has an empty stack. -/
theorem stack_empty_after (g : List (ℕ × List ℕ)) (st' : TjSt)
    (hwf : TjWF g st')
    (hblackall : ∀ x ∈ st'.stack, st'.low x < st'.num x) :
    st'.stack = [] := by
  cases hcs : st'.stack with
  | nil => rfl
  | cons a as =>
      exfalso
      have hmain : ∀ n, ∀ x ∈ st'.stack, st'.num x ≤ n → False := by
        intro n
        induction n using Nat.strong_induction_on with
        | _ n ihn =>
            intro x hx hle
            have hblack := hblackall x hx
            obtain ⟨u, hu, hnum, hxu⟩ := hwf.lwit x hx
            exact ihn (st'.num u) (by omega) u hu (le_refl _)
      exact hmain (st'.num a) a (by rw [hcs]; exact List.mem_cons_self _ _)
        (le_refl _)

theorem tarjanDriver_nil (g : List (ℕ × List ℕ)) (st : TjSt)
    (hdom : st.dom ⊆ tjNodesF g) (hsub : ∀ p ∈ ([] : List (ℕ × List ℕ)), p ∈ g) :
    tarjanDriver g [] st hdom hsub = st := rfl

theorem tarjanDriver_cons_skip (g : List (ℕ × List ℕ)) (p : ℕ × List ℕ)
    (rest : List (ℕ × List ℕ)) (st : TjSt)
    (hdom : st.dom ⊆ tjNodesF g) (hsub : ∀ q ∈ p :: rest, q ∈ g)
    (hk : p.1 ∈ st.dom) :
    tarjanDriver g (p :: rest) st hdom hsub
      = tarjanDriver g rest st hdom
          (fun q hq => hsub q (List.mem_cons_of_mem _ hq)) := by
  rw [tarjanDriver.eq_def]
  dsimp only
  rw [dif_pos hk]

theorem tarjanDriver_cons_new (g : List (ℕ × List ℕ)) (p : ℕ × List ℕ)
    (rest : List (ℕ × List ℕ)) (st : TjSt)
    (hdom : st.dom ⊆ tjNodesF g) (hsub : ∀ q ∈ p :: rest, q ∈ g)
    (hk : p.1 ∉ st.dom) (hv : p.1 ∈ tjNodesF g) :
    tarjanDriver g (p :: rest) st hdom hsub
      = tarjanDriver g rest (strongconnect g p.1 st hdom hv hk).1
          (strongconnect g p.1 st hdom hv hk).2.2.2
          (fun q hq => hsub q (List.mem_cons_of_mem _ hq)) := by
  rw [tarjanDriver.eq_def]
  dsimp only
  rw [dif_neg hk]

/-- Invariants carried by the driver loop: wellformedness, an empty stack,
monotone domain, and every processed key visited. -/
theorem tarjanDriver_spec (g : List (ℕ × List ℕ)) :
    ∀ (l : List (ℕ × List ℕ)) (st : TjSt) (hdom : st.dom ⊆ tjNodesF g)
      (hsub : ∀ p ∈ l, p ∈ g),
      TjWF g st → st.stack = [] →
      TjWF g (tarjanDriver g l st hdom hsub)
        ∧ (tarjanDriver g l st hdom hsub).stack = []
        ∧ st.dom ⊆ (tarjanDriver g l st hdom hsub).dom
        ∧ (tarjanDriver g l st hdom hsub).dom ⊆ tjNodesF g
        ∧ ∀ p ∈ l, p.1 ∈ (tarjanDriver g l st hdom hsub).dom := by
  intro l
  induction l with
  | nil =>
      intro st hdom hsub hwf hse
      rw [tarjanDriver_nil g st hdom hsub]
      exact ⟨hwf, hse, Finset.Subset.refl _, hdom,
        fun p hp => absurd hp (List.not_mem_nil p)⟩
  | cons p rest ihd =>
      intro st hdom hsub hwf hse
      have hsub2 : ∀ q ∈ rest, q ∈ g :=
        fun q hq => hsub q (List.mem_cons_of_mem _ hq)
      by_cases hk : p.1 ∈ st.dom
      · rw [tarjanDriver_cons_skip g p rest st hdom hsub hk]
        obtain ⟨h1, h2, h3, h4, h5⟩ := ihd st hdom hsub2 hwf hse
        refine ⟨h1, h2, h3, h4, ?_⟩
        intro q hq
        rcases List.mem_cons.1 hq with hqp | hq2
        · rw [hqp]
          exact h3 hk
        · exact h5 q hq2
      · have hvp : p.1 ∈ tjNodesF g := by
          unfold tjNodesF tjNodes
          rw [List.mem_toFinset, List.mem_append]
          left
          exact List.mem_map_of_mem _ (hsub p (List.mem_cons_self _ _))
        have hpre : SCPre g p.1 st := by
          refine ⟨hwf, hk, ?_⟩
          intro x hx
          rw [hse] at hx
          exact absurd hx (List.not_mem_nil x)
        have hpost := (tarjan_main g ((tjNodesF g \ st.dom).card)).1 p.1 st
          hdom hvp hk (le_refl _) hpre
        obtain ⟨newS, hS, hprops⟩ := hpost.stackEq
        rw [hse, List.append_nil] at hS
        have hblackall : ∀ x ∈ ((strongconnect g p.1 st hdom hvp hk).1).stack,
            ((strongconnect g p.1 st hdom hvp hk).1).low x
              < ((strongconnect g p.1 st hdom hvp hk).1).num x := by
          intro x hx
          have hxS : x ∈ newS := by
            rw [← hS]
            exact hx
          exact (hprops x hxS).2.2.2.1
        have hzr := stack_empty_after g _ hpost.wf hblackall
        rw [tarjanDriver_cons_new g p rest st hdom hsub hk hvp]
        obtain ⟨h1, h2, h3, h4, h5⟩ := ihd ((strongconnect g p.1 st hdom hvp hk).1)
          ((strongconnect g p.1 st hdom hvp hk).2.2.2) hsub2 hpost.wf hzr
        refine ⟨h1, h2, ?_, h4, ?_⟩
        · exact fun x hx => h3 (hpost.domMono (Finset.mem_insert_of_mem hx))
        · intro q hq
          rcases List.mem_cons.1 hq with hqp | hq2
          · rw [hqp]
            exact h3 (hpost.domMono (Finset.mem_insert_self _ _))
          · exact h5 q hq2

/-- The final state of `tarjan_scc`. -/
theorem tarjan_final (g : List (ℕ × List ℕ)) :
    ∃ st : TjSt, st.sccs = tarjan_scc g ∧ TjWF g st ∧ st.stack = []
      ∧ (∀ x ∈ tjNodes g, x ∈ st.dom)
      ∧ (∀ x ∈ st.dom, x ∈ tjNodes g) := by
  obtain ⟨h1, h2, h3, h4, h5⟩ := tarjanDriver_spec g g tjInit
    (Finset.empty_subset _) (fun q hq => hq) (tjInit_wf g) rfl
  refine ⟨tarjanDriver g g tjInit (Finset.empty_subset _) (fun q hq => hq),
    rfl, h1, h2, ?_, ?_⟩
  · intro x hx
    unfold tjNodes at hx
    rcases List.mem_append.1 hx with hkk | hf
    · obtain ⟨p, hp, hpx⟩ := List.mem_map.1 hkk
      rw [← hpx]
      exact h5 p hp
    · rw [List.mem_flatMap] at hf
      obtain ⟨m, hmm, hxm⟩ := hf
      obtain ⟨p, hp, hpm⟩ := List.mem_map.1 hmm
      have hmd : m ∈ (tarjanDriver g g tjInit (Finset.empty_subset _)
          (fun q hq => hq)).dom := by
        rw [← hpm]
        exact h5 p hp
      have hmns : m ∉ (tarjanDriver g g tjInit (Finset.empty_subset _)
          (fun q hq => hq)).stack := by
        rw [h2]
        exact List.not_mem_nil m
      exact h1.sclosed m hmd hmns x hxm
  · intro x hx
    have h6 := h4 hx
    unfold tjNodesF at h6
    exact List.mem_toFinset.1 h6

end DSA

namespace DSA

/-- C3: for every finite directed graph given as a key/neighbour-list
association, `tarjan_scc` returns a list of components that partitions the
set of all nodes occurring in the graph — every node, including nodes
appearing only as a neighbour, lies in a returned component, and no node
lies in two components at distinct positions — and two nodes lie in the
same returned component if and only if each is reachable from the other. -/
theorem c3_tarjan_scc (g : List (ℕ × List ℕ)) :
    (∀ x, x ∈ tjNodes g ↔ ∃ C ∈ tarjan_scc g, x ∈ C)
    ∧ (∀ i j : ℕ, ∀ x : ℕ, x ∈ (tarjan_scc g).getD i [] →
        x ∈ (tarjan_scc g).getD j [] → i = j)
    ∧ ∀ x y, (∃ C ∈ tarjan_scc g, x ∈ C ∧ y ∈ C) ↔
        (x ∈ tjNodes g ∧ DReach g x y ∧ DReach g y x) := by
  obtain ⟨st, hsccs, hwf, hse, hcov, hback⟩ := tarjan_final g
  have hde : ∀ x, x ∈ st.dom ↔ x ∈ sccsSet st.sccs := by
    intro x
    rw [hwf.deq x, hse]
    simp
  refine ⟨?_, ?_, ?_⟩
  · intro x
    rw [← hsccs, ← mem_sccsSet]
    constructor
    · intro hx
      exact (hde x).1 (hcov x hx)
    · intro hx
      exact hback x ((hde x).2 hx)
  · intro i j x hxi hxj
    rw [← hsccs] at hxi hxj
    have hij : i < st.sccs.length := by
      by_contra hc
      rw [List.getD_eq_default _ _ (le_of_not_lt hc)] at hxi
      exact absurd hxi (List.not_mem_nil x)
    have hjj : j < st.sccs.length := by
      by_contra hc
      rw [List.getD_eq_default _ _ (le_of_not_lt hc)] at hxj
      exact absurd hxj (List.not_mem_nil x)
    rw [List.getD_eq_getElem _ _ hij] at hxi
    rw [List.getD_eq_getElem _ _ hjj] at hxj
    have hp := List.pairwise_iff_getElem.1 hwf.spdisj
    rcases Nat.lt_trichotomy i j with hlt | heq | hgt
    · exact absurd hxj (hp i j hij hjj hlt x hxi)
    · exact heq
    · exact absurd hxi (hp j i hjj hij hgt x hxj)
  · intro x y
    rw [← hsccs]
    constructor
    · rintro ⟨C, hC, hxC, hyC⟩
      have hs := hwf.sfull C hC
      have hmut := (hs.2.2 x hxC y).2 hyC
      refine ⟨?_, hmut.1, hmut.2⟩
      apply hback
      apply (hde x).2
      rw [mem_sccsSet]
      exact ⟨C, hC, hxC⟩
    · rintro ⟨hxN, hxy, hyx⟩
      have hxd := hcov x hxN
      have hxs := (hde x).1 hxd
      rw [mem_sccsSet] at hxs
      obtain ⟨C, hC, hxC⟩ := hxs
      have hs := hwf.sfull C hC
      exact ⟨C, hC, hxC, (hs.2.2 x hxC y).1 ⟨hxy, hyx⟩⟩

end DSA
